import Mathlib

/-!
# The `token` package of gasp: a shallow embedding of `token.go`

A Go `string` is a finite sequence of bytes, a `rune` is an `int32` (modelled as
`Int`), `Kind`, `LiteralKind`, `Base` and `literalFlags` are `uint8` (modelled as
`Nat`, every value written by the code is below 256) and `Token.len` /
`tokenizer.posWithinTok` are `uint32`: additions to them are taken modulo `2^32`.

Methods of `*tokenizer` become functions that take the tokenizer's state and
return the new state next to their result.  A run either returns normally
(`Except.ok`), panics (`Fault.panic`) or does not finish within the loop budget
of the model (`Fault.fuel`); each `for` loop of the source gets the budget
`len(t.s) + 1`.

The standard library is modelled next to the code: `utf8.DecodeRuneInString`
after its tables, `unicode.IsLetter` and `unicode.IsDigit` as a parameter
`UnicodeTables` that fixes their values up to U+00FF.
-/

namespace token

/-! ## Go values -/

/-- One byte of a Go string. -/
abbrev Byte := Fin 256

/-- A Go `string`: any sequence of bytes, valid UTF-8 or not. -/
abbrev GoString := List Byte

/-- How a run of the code can end without a result. -/
inductive Fault where
  | panic
  | fuel
deriving DecidableEq, Repr

/-- The result of running a piece of the code. -/
abbrev Run (α : Type) := Except Fault α

/-- Results can be compared when their values can. -/
instance instDecidableEqRun {α : Type} [DecidableEq α] : DecidableEq (Run α) := fun a b =>
  match a, b with
  | .ok x, .ok y => if h : x = y then isTrue (by rw [h]) else isFalse (fun e => h (by cases e; rfl))
  | .error x, .error y =>
    if h : x = y then isTrue (by rw [h]) else isFalse (fun e => h (by cases e; rfl))
  | .ok _, .error _ => isFalse (fun e => by cases e)
  | .error _, .ok _ => isFalse (fun e => by cases e)

/-- The slice expression `s[i:]`: panics when `i` is out of range. -/
def sliceFrom (s : GoString) (i : Nat) : Run GoString :=
  if i ≤ s.length then .ok (s.drop i) else .error .panic

/-! ## `unicode/utf8` and `unicode` (standard library) -/

/-- Source: `utf8.RuneError`. -/
def RuneError : Int := 0xFFFD

/-- The table `first` of `unicode/utf8`: information about the first byte of an
encoding (`0xF0` ASCII, `0xF1` invalid, otherwise accept-range index in the high
nibble and size in the low one). -/
def utf8First (b : Nat) : Nat :=
  if b < 0x80 then 0xF0
  else if b < 0xC2 then 0xF1
  else if b < 0xE0 then 0x02
  else if b = 0xE0 then 0x13
  else if b < 0xED then 0x03
  else if b = 0xED then 0x23
  else if b < 0xF0 then 0x03
  else if b = 0xF0 then 0x34
  else if b < 0xF4 then 0x04
  else if b = 0xF4 then 0x44
  else 0xF1

/-- The table `acceptRanges` of `unicode/utf8`: the range allowed for the second
byte. -/
def utf8AcceptRange (i : Nat) : Nat × Nat :=
  if i = 0 then (0x80, 0xBF)
  else if i = 1 then (0xA0, 0xBF)
  else if i = 2 then (0x80, 0x9F)
  else if i = 3 then (0x90, 0xBF)
  else if i = 4 then (0x80, 0x8F)
  else (0, 0)

/-- Byte `i` of `s` as a number (`s[i]`; only read where `i < len(s)`). -/
def byteAt (s : GoString) (i : Nat) : Nat := (s.getD i 0).val

/-- The rune of a two-byte encoding: `rune(s0&mask2)<<6 | rune(s1&maskx)`. -/
def utf8Rune2 (s0 s1 : Nat) : Int := (((s0 &&& 0x1F) <<< 6 ||| (s1 &&& 0x3F) : Nat) : Int)

/-- The rune of a three-byte encoding:
`rune(s0&mask3)<<12 | rune(s1&maskx)<<6 | rune(s2&maskx)`. -/
def utf8Rune3 (s0 s1 s2 : Nat) : Int :=
  (((s0 &&& 0x0F) <<< 12 ||| (s1 &&& 0x3F) <<< 6 ||| (s2 &&& 0x3F) : Nat) : Int)

/-- The rune of a four-byte encoding:
`rune(s0&mask4)<<18 | rune(s1&maskx)<<12 | rune(s2&maskx)<<6 | rune(s3&maskx)`. -/
def utf8Rune4 (s0 s1 s2 s3 : Nat) : Int :=
  (((s0 &&& 0x07) <<< 18 ||| (s1 &&& 0x3F) <<< 12 ||| (s2 &&& 0x3F) <<< 6 ||| (s3 &&& 0x3F)
    : Nat) : Int)

/-- Go's `utf8.DecodeRuneInString`: the first rune of `s` and its width in bytes;
`(RuneError, 0)` for the empty string and `(RuneError, 1)` for an encoding that
is not valid UTF-8. -/
def DecodeRuneInString (s : GoString) : Int × Nat :=
  let n := s.length
  if n < 1 then (RuneError, 0)
  else
    let s0 := byteAt s 0
    let x := utf8First s0
    if x ≥ 0xF0 then
      (if x % 2 = 1 then RuneError else (s0 : Int), 1)
    else
      let sz := x % 8
      let accept := utf8AcceptRange (x / 16)
      if n < sz then (RuneError, 1)
      else
        let s1 := byteAt s 1
        if s1 < accept.1 ∨ accept.2 < s1 then (RuneError, 1)
        else if sz ≤ 2 then (utf8Rune2 s0 s1, 2)
        else
          let s2 := byteAt s 2
          if s2 < 0x80 ∨ 0xBF < s2 then (RuneError, 1)
          else if sz ≤ 3 then (utf8Rune3 s0 s1 s2, 3)
          else
            let s3 := byteAt s 3
            if s3 < 0x80 ∨ 0xBF < s3 then (RuneError, 1)
            else (utf8Rune4 s0 s1 s2 s3, 4)

/-- The letters of Latin-1, which `unicode.IsLetter` decides from its
`properties` table: `A-Z`, `a-z`, U+00AA, U+00B5, U+00BA, U+00C0-U+00D6,
U+00D8-U+00F6, U+00F8-U+00FF. -/
def latin1IsLetter (c : Int) : Bool :=
  decide (65 ≤ c ∧ c ≤ 90) || decide (97 ≤ c ∧ c ≤ 122) || c == 0xAA || c == 0xB5
    || c == 0xBA || decide (0xC0 ≤ c ∧ c ≤ 0xD6) || decide (0xD8 ≤ c ∧ c ≤ 0xF6)
    || decide (0xF8 ≤ c ∧ c ≤ 0xFF)

/-- The ASCII digits, the only digits `unicode.IsDigit` accepts up to U+00FF. -/
def latin1IsDigit (c : Int) : Bool := decide (48 ≤ c ∧ c ≤ 57)

/-- The predicates `unicode.IsLetter` and `unicode.IsDigit` of Go's standard
library.  Their range tables belong to the Go release, not to this repository, so
they are a parameter of the embedding; what is fixed is the part Go decides
without the range tables: a rune up to `unicode.MaxLatin1` (negative ones such
as `charEOF` included) is a letter or digit exactly when Latin-1 says so. -/
structure UnicodeTables where
  IsLetter : Int → Bool
  IsDigit : Int → Bool
  IsLetter_latin1 : ∀ c : Int, c ≤ 0xFF → IsLetter c = latin1IsLetter c
  IsDigit_latin1 : ∀ c : Int, c ≤ 0xFF → IsDigit c = latin1IsDigit c

/-- The tables cut down to Latin-1: no rune above U+00FF counts as a letter or a
digit.  It agrees with every Go release on inputs whose runes are all at most
U+00FF and serves to evaluate the embedding on such inputs. -/
def latin1Tables : UnicodeTables where
  IsLetter := latin1IsLetter
  IsDigit := latin1IsDigit
  IsLetter_latin1 := fun _ _ => rfl
  IsDigit_latin1 := fun _ _ => rfl

/-- Lean text, written `Text` because this package has a type `String` of its
own. -/
abbrev Text := String

/-- The UTF-8 bytes of a text whose characters are all ASCII (each character is
one byte, its code). -/
def ascii (text : Text) : GoString := text.data.map fun c => Fin.ofNat c.toNat

/-! ## Tokens and literals -/

/-- Source: `type Literal struct { kind LiteralKind; base Base; flags literalFlags }`. -/
structure Literal where
  kind : Nat
  base : Nat
  flags : Nat
deriving DecidableEq, Repr

/-- Source: `type Token struct { kind Kind; len uint32; literal Literal }`. -/
structure Token where
  kind : Nat
  len : Nat
  literal : Literal
deriving DecidableEq, Repr

/-! The constants of `type Kind uint8` (an `iota` block), `type LiteralKind uint8`
(an `iota` block), `type Base uint8` and `type literalFlags uint8` (all four flags
are `1 << 0`). -/

def KindInvalid : Nat := 0
def kindNone : Nat := 1
def KindLiteral : Nat := 2
def KindOpenParen : Nat := 3
def KindCloseParen : Nat := 4
def KindOpenBrace : Nat := 5
def KindCloseBrace : Nat := 6
def KindOpenBracket : Nat := 7
def KindCloseBracket : Nat := 8
def KindQuote : Nat := 9
def KindBackquote : Nat := 10
def KindDeref : Nat := 11
def KindMetadata : Nat := 12
def KindDispatch : Nat := 13
def KindUnquote : Nat := 14
def KindUnquoteSplicing : Nat := 15
def KindSymbol : Nat := 16
def KindWhitespace : Nat := 17
def KindLineComment : Nat := 18

def LiteralKindInteger : Nat := 0
def LiteralKindFloat : Nat := 1
def LiteralKindString : Nat := 2
def LiteralKindCharacter : Nat := 3

def BaseBinary : Nat := 2
def BaseOctal : Nat := 8
def BaseDecimal : Nat := 10
def BaseHexadecimal : Nat := 16

def literalFlagEmptyInt : Nat := 1
def literalFlagEmptyExponent : Nat := 1
def literalFlagUnterminated : Nat := 1
def literalFlagMissingChar : Nat := 1

/-- Source: `const charEOF rune = -1`. -/
def charEOF : Int := -1

/-- Source: `func (f *literalFlags) setIf(cond bool, flag literalFlags)`: `*f |= flag`
when `cond`, else `*f &= ^flag` (`^` is the complement of a `uint8`). -/
def setIf (f : Nat) (cond : Bool) (flag : Nat) : Nat :=
  if cond then f ||| flag else f &&& (flag ^^^ 0xFF)

/-- Source: `func (t Token) Kind() Kind`. -/
def Token.Kind (t : Token) : Nat := t.kind

/-- Source: `func (t Token) Len() int`: `int(t.len)` (an `int` holds every `uint32` the
tokenizer can reach: 64 bits, or a string shorter than `2^31` bytes). -/
def Token.Len (t : Token) : Nat := t.len

/-- Source: `func (t Token) Literal() Literal`: panics unless the kind is `KindLiteral`. -/
def Token.Literal (t : Token) : Run Literal :=
  if KindLiteral ≠ t.kind then .error .panic else .ok t.literal

/-- Source: `func (k Kind) string() string`: panics in the `default` case. -/
def Kind.string (k : Nat) : Run Text :=
  if k = KindInvalid then .ok "invalid"
  else if k = KindOpenParen then .ok "open-paren"
  else if k = KindCloseParen then .ok "close-paren"
  else if k = KindOpenBrace then .ok "open-brace"
  else if k = KindCloseBrace then .ok "close-brace"
  else if k = KindOpenBracket then .ok "open-bracket"
  else if k = KindCloseBracket then .ok "close-bracket"
  else if k = KindQuote then .ok "quote"
  else if k = KindBackquote then .ok "backquote"
  else if k = KindDeref then .ok "deref"
  else if k = KindMetadata then .ok "metadata"
  else if k = KindDispatch then .ok "dispatch"
  else if k = KindUnquote then .ok "unquote"
  else if k = KindUnquoteSplicing then .ok "unquote-splicing"
  else if k = KindSymbol then .ok "symbol"
  else if k = KindWhitespace then .ok "whitespace"
  else if k = KindLineComment then .ok "line-comment"
  else .error .panic

/-- Source: `func (l Literal) Kind() LiteralKind`. -/
def Literal.Kind (l : Literal) : Nat := l.kind

/-- Source: `type Integer struct { l Literal }`. -/
structure Integer where
  l : Literal
deriving DecidableEq, Repr

/-- Source: `type Float struct { l Literal }`. -/
structure Float where
  l : Literal
deriving DecidableEq, Repr

/-- Source: `type String struct { l Literal }`. -/
structure String where
  l : Literal
deriving DecidableEq, Repr

/-- Source: `type Character struct { l Literal }`. -/
structure Character where
  l : Literal
deriving DecidableEq, Repr

/-- Source: `func (l Literal) Integer() Integer`. -/
def Literal.Integer (l : Literal) : Run Integer :=
  if LiteralKindInteger ≠ l.Kind then .error .panic else .ok ⟨l⟩

/-- Source: `func (l Literal) Float() Float`. -/
def Literal.Float (l : Literal) : Run Float :=
  if LiteralKindFloat ≠ l.Kind then .error .panic else .ok ⟨l⟩

/-- Source: `func (l Literal) String() String`. -/
def Literal.String (l : Literal) : Run String :=
  if LiteralKindString ≠ l.Kind then .error .panic else .ok ⟨l⟩

/-- Source: `func (l Literal) Character() Character`. -/
def Literal.Character (l : Literal) : Run Character :=
  if LiteralKindCharacter ≠ l.Kind then .error .panic else .ok ⟨l⟩

/-- Source: `func (l Integer) Base() Base`. -/
def Integer.Base (l : Integer) : Nat := l.l.base

/-- Source: `func (l Integer) EmptyInt() bool`. -/
def Integer.EmptyInt (l : Integer) : Bool := l.l.flags &&& literalFlagEmptyInt != 0

/-- Source: `func (l Float) EmptyExponent() bool`. -/
def Float.EmptyExponent (l : Float) : Bool := l.l.flags &&& literalFlagEmptyExponent != 0

/-- Source: `func (l String) Unterminated() bool`. -/
def String.Unterminated (l : String) : Bool := l.l.flags &&& literalFlagUnterminated != 0

/-- Source: `func (l Character) MissingCharacter() bool`. -/
def Character.MissingCharacter (l : Character) : Bool :=
  l.l.flags &&& literalFlagMissingChar != 0

/-! ## The tokenizer -/

/-- Source: `type tokenizer struct { consumer TokenConsumer; s string; posWithinTok uint32 }`;
the consumer is only used by `Tokenize`, which passes it along itself. -/
structure tokenizer where
  s : GoString
  posWithinTok : Nat
deriving DecidableEq, Repr

/-- Source: `func (t *tokenizer) bump() rune`. -/
def tokenizer.bump (t : tokenizer) : Run (Int × tokenizer) :=
  if t.s.length = 0 then .ok (charEOF, t)
  else
    let d := DecodeRuneInString t.s
    match sliceFrom t.s d.2 with
    | .error e => .error e
    | .ok rest => .ok (d.1, { s := rest, posWithinTok := (t.posWithinTok + d.2) % 4294967296 })

/-- Source: `func (t *tokenizer) first() rune`. -/
def tokenizer.first (t : tokenizer) : Int :=
  if t.s.length = 0 then charEOF else (DecodeRuneInString t.s).1

/-- Source: `func (t *tokenizer) second() rune`. -/
def tokenizer.second (t : tokenizer) : Run Int :=
  if t.s.length ≤ 1 then .ok charEOF
  else
    match sliceFrom t.s (DecodeRuneInString t.s).2 with
    | .error e => .error e
    | .ok rest => .ok (DecodeRuneInString rest).1

/-- Source: `func (t *tokenizer) posWithinToken() uint32`. -/
def tokenizer.posWithinToken (t : tokenizer) : Nat := t.posWithinTok

/-- Source: `func (t *tokenizer) resetPosWithinToken()`. -/
def tokenizer.resetPosWithinToken (t : tokenizer) : tokenizer := { t with posWithinTok := 0 }

/-- Source: `func (t *tokenizer) isWhitespace(c rune) bool`. -/
def isWhitespace (c : Int) : Bool :=
  c == 0x0009 || c == 0x000A || c == 0x000B || c == 0x000C || c == 0x000D || c == 0x0020
    || c == 0x0085 || c == 0x200E || c == 0x200F || c == 0x2028 || c == 0x2029

/-- Source: `func (t *tokenizer) isSymbolStart(c rune) bool`: a letter or one of
`+ - * / ! _ ? < > = . :`. -/
def isSymbolStart (U : UnicodeTables) (c : Int) : Bool :=
  if U.IsLetter c then true
  else c == 43 || c == 45 || c == 42 || c == 47 || c == 33 || c == 95 || c == 63 || c == 60
    || c == 62 || c == 61 || c == 46 || c == 58

/-- Source: `func (t *tokenizer) isSymbolContinue(c rune) bool`: symbol start, digit or
the apostrophe. -/
def isSymbolContinue (U : UnicodeTables) (c : Int) : Bool :=
  if isSymbolStart U c then true
  else if U.IsDigit c then true
  else c == 39

/-- Source: `func (t *tokenizer) isBinaryContinue(c rune) bool`. -/
def isBinaryContinue (c : Int) : Bool := c == 48 || c == 49 || c == 95

/-- Source: `func (t *tokenizer) isOctalContinue(c rune) bool`. -/
def isOctalContinue (c : Int) : Bool := (decide (c ≥ 48) && decide (c ≤ 55)) || c == 95

/-- Source: `func (t *tokenizer) isDecimal(c rune) bool`. -/
def isDecimal (c : Int) : Bool := decide (c ≥ 48) && decide (c ≤ 57)

/-- Source: `func (t *tokenizer) isDecimalContinue(c rune) bool`. -/
def isDecimalContinue (c : Int) : Bool := isDecimal c || c == 95

/-- Source: `func (t *tokenizer) isHexContinue(c rune) bool`. -/
def isHexContinue (c : Int) : Bool :=
  isDecimalContinue c || (decide (c ≥ 97) && decide (c ≤ 102))
    || (decide (c ≥ 65) && decide (c ≤ 70))

/-- The loop `for pred(t.first()) { found = true; t.bump() }` shared by
`whitespace`, `eatSymbol` and the four `eat...Digits`; `found` is the named
result of the digit eaters. -/
def tokenizer.eatLoop (pred : Int → Bool) : Nat → Bool → tokenizer → Run (Bool × tokenizer)
  | 0, _, _ => .error .fuel
  | n + 1, found, t =>
    if pred t.first then
      match t.bump with
      | .error e => .error e
      | .ok (_, t1) => tokenizer.eatLoop pred n true t1
    else .ok (found, t)

/-- Source: `func (t *tokenizer) eatBinaryDigits() (found bool)`. -/
def tokenizer.eatBinaryDigits (t : tokenizer) : Run (Bool × tokenizer) :=
  t.eatLoop isBinaryContinue (t.s.length + 1) false

/-- Source: `func (t *tokenizer) eatOctalDigits() (found bool)`. -/
def tokenizer.eatOctalDigits (t : tokenizer) : Run (Bool × tokenizer) :=
  t.eatLoop isOctalContinue (t.s.length + 1) false

/-- Source: `func (t *tokenizer) eatHexDigits() (found bool)`. -/
def tokenizer.eatHexDigits (t : tokenizer) : Run (Bool × tokenizer) :=
  t.eatLoop isHexContinue (t.s.length + 1) false

/-- Source: `func (t *tokenizer) eatDecimalDigits() (found bool)`. -/
def tokenizer.eatDecimalDigits (t : tokenizer) : Run (Bool × tokenizer) :=
  t.eatLoop isDecimalContinue (t.s.length + 1) false

/-- Source: `func (t *tokenizer) eatFloatExponent() (found bool)`. -/
def tokenizer.eatFloatExponent (t : tokenizer) : Run (Bool × tokenizer) :=
  if t.first = 43 ∨ t.first = 45 then
    match t.bump with
    | .error e => .error e
    | .ok (_, t1) => t1.eatDecimalDigits
  else t.eatDecimalDigits

/-- Source: `func (t *tokenizer) eatSymbol()`. -/
def tokenizer.eatSymbol (U : UnicodeTables) (t : tokenizer) : Run tokenizer :=
  match t.eatLoop (isSymbolContinue U) (t.s.length + 1) false with
  | .error e => .error e
  | .ok (_, t1) => .ok t1

/-- The composite literal `Token{kind: k}`. -/
def Token.ofKind (k : Nat) : Token := { kind := k, len := 0, literal := ⟨0, 0, 0⟩ }

/-- The composite literal
`Token{kind: KindLiteral, literal: Literal{kind: k, base: b, flags: f}}`. -/
def Token.ofLiteral (k b f : Nat) : Token :=
  { kind := KindLiteral, len := 0, literal := ⟨k, b, f⟩ }

/-- Source: `func (t *tokenizer) whitespace() Token`. -/
def tokenizer.whitespace (t : tokenizer) : Run (Token × tokenizer) :=
  match t.eatLoop isWhitespace (t.s.length + 1) false with
  | .error e => .error e
  | .ok (_, t1) => .ok (Token.ofKind KindWhitespace, t1)

/-- Source: `func (t *tokenizer) symbol() Token`. -/
def tokenizer.symbol (U : UnicodeTables) (t : tokenizer) : Run (Token × tokenizer) :=
  match t.eatSymbol U with
  | .error e => .error e
  | .ok t1 => .ok (Token.ofKind KindSymbol, t1)

/-- The three `case` bodies of the prefix switch in `numeric`: `t.bump()`, the
digit eater of the base, `flags.setIf(!found, literalFlagEmptyInt)`. -/
def tokenizer.numericBase (eat : tokenizer → Run (Bool × tokenizer)) (base : Nat)
    (t : tokenizer) : Run (Token × tokenizer) :=
  match t.bump with
  | .error e => .error e
  | .ok (_, t1) =>
    match eat t1 with
    | .error e => .error e
    | .ok (found, t2) =>
      .ok (Token.ofLiteral LiteralKindInteger base (setIf 0 (!found) literalFlagEmptyInt), t2)

/-- The two places of `numeric` that read an exponent: `t.bump()` over the `e`,
then `flags.setIf(!t.eatFloatExponent(), literalFlagEmptyExponent)`. -/
def tokenizer.numericExponent (t : tokenizer) : Run (Token × tokenizer) :=
  match t.bump with
  | .error e => .error e
  | .ok (_, t1) =>
    match t1.eatFloatExponent with
    | .error e => .error e
    | .ok (found, t2) =>
      .ok (Token.ofLiteral LiteralKindFloat 0 (setIf 0 (!found) literalFlagEmptyExponent), t2)

/-- The part of `numeric` after the prefix switch (from `t.eatDecimalDigits()`
on). -/
def tokenizer.numericDecimal (t : tokenizer) : Run (Token × tokenizer) :=
  match t.eatDecimalDigits with
  | .error e => .error e
  | .ok (_, t1) =>
    if t1.first = 46 then
      match t1.second with
      | .error e => .error e
      | .ok c2 =>
        if !isDecimalContinue c2 then
          .ok (Token.ofLiteral LiteralKindInteger BaseDecimal 0, t1)
        else
          match t1.bump with
          | .error e => .error e
          | .ok (_, t2) =>
            match t2.eatDecimalDigits with
            | .error e => .error e
            | .ok (_, t3) =>
              if t3.first = 101 ∨ t3.first = 69 then t3.numericExponent
              else .ok (Token.ofLiteral LiteralKindFloat 0 0, t3)
    else if t1.first = 101 ∨ t1.first = 69 then t1.numericExponent
    else .ok (Token.ofLiteral LiteralKindInteger BaseDecimal 0, t1)

/-- Source: `func (t *tokenizer) numeric(firstDigit rune) Token`. -/
def tokenizer.numeric (t : tokenizer) (firstDigit : Int) : Run (Token × tokenizer) :=
  if firstDigit = 48 then
    if t.first = 98 then t.numericBase tokenizer.eatBinaryDigits BaseBinary
    else if t.first = 111 then t.numericBase tokenizer.eatOctalDigits BaseOctal
    else if t.first = 120 then t.numericBase tokenizer.eatHexDigits BaseHexadecimal
    else t.numericDecimal
  else t.numericDecimal

/-- Source: `func (t *tokenizer) character() Token`. -/
def tokenizer.character (U : UnicodeTables) (t : tokenizer) : Run (Token × tokenizer) :=
  match t.bump with
  | .error e => .error e
  | .ok (c, t1) =>
    if isSymbolStart U c then
      match t1.eatSymbol U with
      | .error e => .error e
      | .ok t2 => .ok (Token.ofLiteral LiteralKindCharacter 0 0, t2)
    else
      .ok (Token.ofLiteral LiteralKindCharacter 0
        (setIf 0 (decide (c = charEOF)) literalFlagMissingChar), t1)

/-- The `for` loop of `func (t *tokenizer) string() Token`. -/
def tokenizer.stringLoop : Nat → tokenizer → Run (Token × tokenizer)
  | 0, _ => .error .fuel
  | n + 1, t =>
    match t.bump with
    | .error e => .error e
    | .ok (c, t1) =>
      if c = charEOF then
        .ok (Token.ofLiteral LiteralKindString 0 (setIf 0 true literalFlagUnterminated), t1)
      else if c = 34 then .ok (Token.ofLiteral LiteralKindString 0 0, t1)
      else if c = 92 then
        if t1.first = 34 ∨ t1.first = 92 then
          match t1.bump with
          | .error e => .error e
          | .ok (_, t2) => tokenizer.stringLoop n t2
        else tokenizer.stringLoop n t1
      else tokenizer.stringLoop n t1

/-- Source: `func (t *tokenizer) string() Token`. -/
def tokenizer.string (t : tokenizer) : Run (Token × tokenizer) :=
  tokenizer.stringLoop (t.s.length + 1) t

/-- The `for` loop of `lineComment`: it goes on while the next rune is neither
`charEOF` nor a line feed. -/
def isCommentContinue (c : Int) : Bool := !(c == charEOF || c == 10)

/-- Source: `func (t *tokenizer) lineComment() Token`. -/
def tokenizer.lineComment (t : tokenizer) : Run (Token × tokenizer) :=
  match t.eatLoop isCommentContinue (t.s.length + 1) false with
  | .error e => .error e
  | .ok (_, t1) => .ok (Token.ofKind KindLineComment, t1)

/-- Source: `func (t *tokenizer) unquote() Token`. -/
def tokenizer.unquote (t : tokenizer) : Run (Token × tokenizer) :=
  if t.first = 64 then
    match t.bump with
    | .error e => .error e
    | .ok (_, t1) => .ok (Token.ofKind KindUnquoteSplicing, t1)
  else .ok (Token.ofKind KindUnquote, t)

/-- The `switch firstChar` of `nextToken`. -/
def tokenizer.punctuation (U : UnicodeTables) (t : tokenizer) (firstChar : Int) :
    Run (Token × tokenizer) :=
  if firstChar = 92 then t.character U
  else if firstChar = 34 then t.string
  else if firstChar = 59 then t.lineComment
  else if firstChar = 40 then .ok (Token.ofKind KindOpenParen, t)
  else if firstChar = 41 then .ok (Token.ofKind KindCloseParen, t)
  else if firstChar = 123 then .ok (Token.ofKind KindOpenBrace, t)
  else if firstChar = 125 then .ok (Token.ofKind KindCloseBrace, t)
  else if firstChar = 91 then .ok (Token.ofKind KindOpenBracket, t)
  else if firstChar = 93 then .ok (Token.ofKind KindCloseBracket, t)
  else if firstChar = 39 then .ok (Token.ofKind KindQuote, t)
  else if firstChar = 96 then .ok (Token.ofKind KindBackquote, t)
  else if firstChar = 64 then .ok (Token.ofKind KindDeref, t)
  else if firstChar = 94 then .ok (Token.ofKind KindMetadata, t)
  else if firstChar = 35 then .ok (Token.ofKind KindDispatch, t)
  else if firstChar = 126 then t.unquote
  else .ok (Token.ofKind KindInvalid, t)

/-- Source: `func (t *tokenizer) nextToken() Token`. -/
def tokenizer.nextToken (U : UnicodeTables) (t : tokenizer) : Run (Token × tokenizer) :=
  match t.bump with
  | .error e => .error e
  | .ok (firstChar, t1) =>
    if firstChar = charEOF then .ok (Token.ofKind kindNone, t1)
    else if isWhitespace firstChar then t1.whitespace
    else if isSymbolStart U firstChar then t1.symbol U
    else if isDecimal firstChar then t1.numeric firstChar
    else t1.punctuation U firstChar

/-- Source: `func (t *tokenizer) Advance() Token`. -/
def tokenizer.Advance (U : UnicodeTables) (t : tokenizer) : Run (Token × tokenizer) :=
  match t.nextToken U with
  | .error e => .error e
  | .ok (token, t1) => .ok ({ token with len := t1.posWithinToken }, t1.resetPosWithinToken)

/-- The `for` loop of `Tokenize`; the consumer is a state `σ` with its
`ConsumeToken` method `consume`. -/
def Tokenize.loop {σ : Type} (U : UnicodeTables) (consume : σ → Token → σ) :
    Nat → tokenizer → σ → Run σ
  | 0, _, _ => .error .fuel
  | n + 1, t, c =>
    match t.Advance U with
    | .error e => .error e
    | .ok (token, t1) =>
      if token.Kind = kindNone then .ok c
      else Tokenize.loop U consume n t1 (consume c token)

/-- Source: `func Tokenize(consumer TokenConsumer, s string) error`: the consumer as the
loop leaves it and the returned `error` (`none` is `nil`). -/
def Tokenize {σ : Type} (U : UnicodeTables) (consume : σ → Token → σ) (consumer : σ)
    (s : GoString) : Run (σ × Option Text) :=
  match Tokenize.loop U consume (s.length + 1) { s := s, posWithinTok := 0 } consumer with
  | .error e => .error e
  | .ok c => .ok (c, none)

/-- The `sliceConsumer` of the tests: `ConsumeToken` appends the token. -/
def sliceConsume (tokens : List Token) (token : Token) : List Token := tokens ++ [token]

/-- The tokens `Tokenize` delivers for `s`, in the order of delivery. -/
def tokensOf (U : UnicodeTables) (s : GoString) : Run (List Token) :=
  match Tokenize U sliceConsume [] s with
  | .error e => .error e
  | .ok (tokens, _) => .ok tokens

/-! ## Auxiliary notions for the proofs -/

/-- The tokens the loop of `Tokenize` hands to the consumer from state `t` on,
first token first: the successive results of `Advance` up to the `kindNone`
sentinel. -/
def tokenizer.scan (U : UnicodeTables) : Nat → tokenizer → Run (List Token)
  | 0, _ => .error .fuel
  | n + 1, t =>
    match t.Advance U with
    | .error e => .error e
    | .ok (token, t1) =>
      if token.Kind = kindNone then .ok []
      else
        match tokenizer.scan U n t1 with
        | .error e => .error e
        | .ok rest => .ok (token :: rest)

/-- State `t1` is state `t` after `k` more bytes were consumed: the remaining
text lost its first `k` bytes and the `uint32` counter went up by `k`. -/
def Consumed (t t1 : tokenizer) (k : Nat) : Prop :=
  k ≤ t.s.length ∧ t1.s = t.s.drop k ∧ t1.posWithinTok = (t.posWithinTok + k) % 4294967296

/-- The 18 exported kinds, `kindNone` left out. -/
def publicKinds : List Nat :=
  [KindInvalid, KindLiteral, KindOpenParen, KindCloseParen, KindOpenBrace, KindCloseBrace,
    KindOpenBracket, KindCloseBracket, KindQuote, KindBackquote, KindDeref, KindMetadata,
    KindDispatch, KindUnquote, KindUnquoteSplicing, KindSymbol, KindWhitespace,
    KindLineComment]

/-- The shapes of the tokens the sub-scanners build (the length apart): a token
of an exported kind other than `KindLiteral` with the zero literal, an integer
with a base prefix, a decimal integer without flag, or a float, string or
character without base. -/
def Token.scanned (token : Token) : Prop :=
  (token.kind ∈ publicKinds ∧ token.kind ≠ KindLiteral ∧ token.literal = ⟨0, 0, 0⟩)
    ∨ (token.kind = KindLiteral ∧ token.literal.kind = LiteralKindInteger
      ∧ token.literal.base ∈ [BaseBinary, BaseOctal, BaseHexadecimal]
      ∧ token.literal.flags ≤ 1)
    ∨ (token.kind = KindLiteral ∧ token.literal.kind = LiteralKindInteger
      ∧ token.literal.base = BaseDecimal ∧ token.literal.flags = 0)
    ∨ (token.kind = KindLiteral
      ∧ token.literal.kind ∈ [LiteralKindFloat, LiteralKindString, LiteralKindCharacter]
      ∧ token.literal.base = 0 ∧ token.literal.flags ≤ 1)

instance Token.instDecidableScanned (token : Token) : Decidable token.scanned := by
  unfold Token.scanned
  infer_instance

/-- The run `r`, started in state `t`, returns a token of one of the shapes of
`Token.scanned` after consuming at least `m` bytes. -/
def ReturnsToken (r : Run (Token × tokenizer)) (t : tokenizer) (m : Nat) : Prop :=
  ∃ token t1 k, r = .ok (token, t1) ∧ Consumed t t1 k ∧ m ≤ k ∧ token.scanned

/-- The three base prefixes `0b`, `0o` and `0x`. -/
inductive BasePrefix where
  | binary
  | octal
  | hexadecimal
deriving DecidableEq, Repr

/-- The letter that follows the `0`. -/
def BasePrefix.letter : BasePrefix → Byte
  | .binary => 98
  | .octal => 111
  | .hexadecimal => 120

/-- The digit set of the base plus the underscore, as the spec words it: binary
`0,1,_`; octal `0-7,_`; hex `0-9,a-f,A-F,_` (the bytes `0` = 48 .. `9` = 57,
`a` = 97 .. `f` = 102, `A` = 65 .. `F` = 70, `_` = 95). -/
def BasePrefix.specDigitSet : BasePrefix → GoString
  | .binary => [48, 49, 95]
  | .octal => [48, 49, 50, 51, 52, 53, 54, 55, 95]
  | .hexadecimal =>
    [48, 49, 50, 51, 52, 53, 54, 55, 56, 57, 97, 98, 99, 100, 101, 102, 65, 66, 67, 68, 69, 70,
      95]

/-- The digits of the base proper, without the underscore, as the spec words
them. -/
def BasePrefix.specDigits : BasePrefix → GoString
  | .binary => [48, 49]
  | .octal => [48, 49, 50, 51, 52, 53, 54, 55]
  | .hexadecimal =>
    [48, 49, 50, 51, 52, 53, 54, 55, 56, 57, 97, 98, 99, 100, 101, 102, 65, 66, 67, 68, 69, 70]

/-- The base the code stores for the prefix. -/
def BasePrefix.base : BasePrefix → Nat
  | .binary => BaseBinary
  | .octal => BaseOctal
  | .hexadecimal => BaseHexadecimal

/-- The test the code's digit eater of the prefix applies to each rune. -/
def BasePrefix.isContinue : BasePrefix → Int → Bool
  | .binary => isBinaryContinue
  | .octal => isOctalContinue
  | .hexadecimal => isHexContinue

/-- The digit eater the code calls for the prefix. -/
def BasePrefix.eat : BasePrefix → tokenizer → Run (Bool × tokenizer)
  | .binary => tokenizer.eatBinaryDigits
  | .octal => tokenizer.eatOctalDigits
  | .hexadecimal => tokenizer.eatHexDigits

/-- Whether a run returned normally. -/
def succeeds {α : Type} (r : Run α) : Bool :=
  match r with
  | .ok _ => true
  | .error _ => false

/-- The four kind-specific views of a literal, as "did the call return". -/
def Literal.views (l : Literal) : List Bool :=
  [succeeds l.Integer, succeeds l.Float, succeeds l.String, succeeds l.Character]

/-! ## The notions of the specification

The definitions named `spec...` follow the words of the specification (its
character sets, its "digit run", "exponent", "unit of a string body"); the
theorems compare them with the code.  Runs and units are counted in codepoints
as `utf8.DecodeRuneInString` reads them, so they are defined for every byte
sequence. -/

/-- `Codepoints p s k`: the first `k` bytes of `s` are whole codepoints of `s`,
read one after the other the way `utf8.DecodeRuneInString` reads them, and each
of these codepoints passes the test `p`. -/
inductive Codepoints (p : Int → Bool) : GoString → Nat → Prop
  | nil (s : GoString) : Codepoints p s 0
  | cons (s : GoString) (k : Nat) (hne : s ≠ [])
      (hp : p (DecodeRuneInString s).1 = true)
      (h : Codepoints p (s.drop (DecodeRuneInString s).2) k) :
      Codepoints p s ((DecodeRuneInString s).2 + k)

/-- The characters of a decimal digit run, as the spec words them: the decimal
digits (`0` = 48 .. `9` = 57) and the underscore (`_` = 95). -/
def specDecimalRunSet : GoString := [48, 49, 50, 51, 52, 53, 54, 55, 56, 57, 95]

/-- Whether a byte is a character of a decimal digit run. -/
def inDecimalRun (b : Byte) : Bool := decide (b ∈ specDecimalRunSet)

/-- The spec's condition for a Float, on the text `rest` that follows the digit
run: `rest` starts with `.` (46) and a character of a digit run, or it starts
with `e` (101) or `E` (69). -/
def specFloatFollows (rest : GoString) : Bool :=
  match rest with
  | [] => false
  | m :: tl =>
    (m == 46 && (match tl with
      | [] => false
      | c :: _ => inDecimalRun c)) || m == 101 || m == 69

/-- The spec's "starts with the prefix `0b`, `0o` or `0x`". -/
def specBasePrefixed (s : GoString) : Bool :=
  match s with
  | d :: m :: _ => d == 48 && (m == 98 || m == 111 || m == 120)
  | _ => false

/-- The kinds of the `switch firstChar` of `nextToken` that are neither a literal
nor a line comment. -/
def punctuationKinds : List Nat :=
  [KindInvalid, KindOpenParen, KindCloseParen, KindOpenBrace, KindCloseBrace, KindOpenBracket,
    KindCloseBracket, KindQuote, KindBackquote, KindDeref, KindMetadata, KindDispatch,
    KindUnquote, KindUnquoteSplicing]

/-- What follows the part of a decimal number before the exponent, given the
text `rest` after the integer part `D`: when `rest` starts with `.` (46) and a
character of a digit run, the text after the dot and its digit run (the
fractional part); `rest` itself otherwise. -/
def specAfterFraction (rest : GoString) : GoString :=
  match rest with
  | [] => rest
  | m :: tl =>
    if m == 46 && (match tl with
      | [] => false
      | c :: _ => inDecimalRun c) then tl.dropWhile inDecimalRun
    else rest

/-- The exponent of a decimal number, given the text `after` that follows its
integer and fractional part: `none` when `after` does not start with the marker
`e` (101) or `E` (69); otherwise the digit run (decimal digits and underscores)
that follows the marker and its optional sign `+` (43) or `-` (45). -/
def specExponentDigits (after : GoString) : Option GoString :=
  match after with
  | [] => none
  | m :: e =>
    if m == 101 || m == 69 then
      some ((match e with
        | [] => []
        | c :: tl => if c == 43 || c == 45 then tl else c :: tl).takeWhile inDecimalRun)
    else none

/-- `StringUnits s rest`: the text `s` is a sequence of string units followed by
`rest`.  A unit is one codepoint other than `"` (34) and `\` (92), or a
backslash followed by one codepoint; the codepoints are those
`utf8.DecodeRuneInString` reads from the text, one after the other. -/
inductive StringUnits : GoString → GoString → Prop
  | done (s : GoString) : StringUnits s s
  | char (s rest : GoString) (hne : s ≠ []) (h1 : (DecodeRuneInString s).1 ≠ 34)
      (h2 : (DecodeRuneInString s).1 ≠ 92)
      (h : StringUnits (s.drop (DecodeRuneInString s).2) rest) : StringUnits s rest
  | escape (s rest : GoString) (hne : s ≠ [])
      (h : StringUnits (s.drop (DecodeRuneInString s).2) rest) : StringUnits (92 :: s) rest

/-- The whitespace set as the spec lists it: U+0009, U+000A, U+000B, U+000C,
U+000D, U+0020, U+0085, U+200E, U+200F, U+2028, U+2029. -/
def specWhitespaceSet : List Int :=
  [0x0009, 0x000A, 0x000B, 0x000C, 0x000D, 0x0020, 0x0085, 0x200E, 0x200F, 0x2028, 0x2029]

/-- Whether a codepoint is in the spec's whitespace set. -/
def inWhitespaceSet (c : Int) : Bool := decide (c ∈ specWhitespaceSet)

/-- The spec's symbol-start characters that are not letters: `+ - * / ! _ ? < > = . :`
(43, 45, 42, 47, 33, 95, 63, 60, 62, 61, 46, 58). -/
def specSymbolPunctuation : List Int := [43, 45, 42, 47, 33, 95, 63, 60, 62, 61, 46, 58]

/-- The spec's symbol-start character: a Unicode letter or one of
`+ - * / ! _ ? < > = . :`. -/
def specSymbolStart (U : UnicodeTables) (c : Int) : Bool :=
  U.IsLetter c || decide (c ∈ specSymbolPunctuation)

/-- The spec's characters of a symbol after the first: a symbol-start character,
a Unicode digit or the apostrophe (39). -/
def specSymbolContinue (U : UnicodeTables) (c : Int) : Bool :=
  specSymbolStart U c || U.IsDigit c || c == 39

/-- No whitespace rune of the tokenizer is a letter.  Go's tables have this
property: U+0009 .. U+000D, U+0020 and U+0085 are no letters of Latin-1, and
U+200E, U+200F (category Cf), U+2028 (Zl) and U+2029 (Zp) are no letters of
Unicode; the last four lie beyond the part `UnicodeTables` fixes. -/
def UnicodeTables.whitespaceNotLetter (U : UnicodeTables) : Prop :=
  ∀ c : Int, isWhitespace c = true → U.IsLetter c = false

/-- The number of bytes before the first line feed (U+000A, the byte 10) of a
text, or the length of the text when it has none. -/
def specBeforeLineFeed (s : GoString) : Nat := (s.takeWhile (fun x => x != 10)).length

/-- The `switch` of the dispatch table of the specification, for a lead codepoint
that is no whitespace, no symbol-start character and no ASCII digit: `\` (92)
and `"` (34) give a Literal, `;` (59) a LineComment, `(` `)` `{` `}` `[` `]`
(40, 41, 123, 125, 91, 93) the six group tokens, `'` (39) Quote, the backquote
(96) Backquote, `@` (64) Deref, `^` (94) Metadata, `#` (35) Dispatch, `~` (126)
Unquote (or UnquoteSplicing, which the table lists beside it), anything else
Invalid. -/
def specPunctuationKind (c : Int) : Nat :=
  if c = 92 then KindLiteral
  else if c = 34 then KindLiteral
  else if c = 59 then KindLineComment
  else if c = 40 then KindOpenParen
  else if c = 41 then KindCloseParen
  else if c = 123 then KindOpenBrace
  else if c = 125 then KindCloseBrace
  else if c = 91 then KindOpenBracket
  else if c = 93 then KindCloseBracket
  else if c = 39 then KindQuote
  else if c = 96 then KindBackquote
  else if c = 64 then KindDeref
  else if c = 94 then KindMetadata
  else if c = 35 then KindDispatch
  else if c = 126 then KindUnquote
  else KindInvalid

/-- The dispatch table of the specification in its priority order: the kind of
the token that starts with codepoint `c` (whitespace set, then symbol start, then
ASCII digit, then the punctuation). -/
def specLeadKind (U : UnicodeTables) (c : Int) : Nat :=
  if inWhitespaceSet c then KindWhitespace
  else if specSymbolStart U c then KindSymbol
  else if 48 ≤ c ∧ c ≤ 57 then KindLiteral
  else specPunctuationKind c

/-- The eleven single-character punctuation tokens of the specification, byte and
kind: `(` `)` `{` `}` `[` `]` `'` backquote `@` `^` `#`. -/
def specSingleCharacter : List (Byte × Nat) :=
  [(40, KindOpenParen), (41, KindCloseParen), (123, KindOpenBrace), (125, KindCloseBrace),
    (91, KindOpenBracket), (93, KindCloseBracket), (39, KindQuote), (96, KindBackquote),
    (64, KindDeref), (94, KindMetadata), (35, KindDispatch)]

/-- The number of bytes the UTF-8 standard gives to the encoding of codepoint
`c`: one below U+0080, two below U+0800, three below U+10000, four from there
on. -/
def specUTF8Width (c : Int) : Nat :=
  if c < 0x80 then 1 else if c < 0x800 then 2 else if c < 0x10000 then 3 else 4

/-- The lead characters the dispatch table of the specification names after the
digits: `\` `"` `;` `(` `)` `{` `}` `[` `]` `'` backquote `@` `^` `#` `~`. -/
def specPunctuationLeads : List Int :=
  [92, 34, 59, 40, 41, 123, 125, 91, 93, 39, 96, 64, 94, 35, 126]

/-- The two-codepoint lookahead of the specification (`peek2()`): the codepoint
that follows the next codepoint of the remaining text `s`, or the end-of-input
sentinel when fewer than two codepoints remain. -/
def specPeek2 (s : GoString) : Int :=
  if s = [] ∨ s.drop (DecodeRuneInString s).2 = [] then charEOF
  else (DecodeRuneInString (s.drop (DecodeRuneInString s).2)).1

/-! ## Rendering: the `Format` methods -/

/-- The verb `%d` of `fmt` on a number that is not negative. -/
def fmtDecimal (n : Nat) : Text := toString n

/-- The verb `%t` of `fmt`. -/
def fmtBool (b : Bool) : Text := if b then "true" else "false"

/-- An operand of `fmt.Fprintf` that has a `Format` method is written by that
method, which `fmt` runs under a `recover`: should the method panic, `fmt` writes
a notice in its place and goes on (the notice also names the panic value, which
a `Fault` does not carry). -/
def fmtFormatter (r : Run Text) : Text :=
  match r with
  | .ok text => text
  | .error _ => "%!v(PANIC=Format method)"

/-- Source: `func (l Integer) Format(f fmt.State, c rune)`: the text written to
`f`; of the state only `f.Flag('+')` is read, here `plus`. -/
def Integer.Format (l : Integer) (plus : Bool) (c : Int) : Text :=
  if c = 118 ∧ plus = true then
    "token.Integer\x7bBase:" ++ fmtDecimal l.Base ++ " EmptyInt:" ++ fmtBool l.EmptyInt ++ "\x7d"
  else "\x7b" ++ fmtDecimal l.Base ++ " " ++ fmtBool l.EmptyInt ++ "\x7d"

/-- Source: `func (l Float) Format(f fmt.State, c rune)`. -/
def Float.Format (l : Float) (plus : Bool) (c : Int) : Text :=
  if c = 118 ∧ plus = true then
    "token.Float\x7bEmptyExponent:" ++ fmtBool l.EmptyExponent ++ "\x7d"
  else "\x7b" ++ fmtBool l.EmptyExponent ++ "\x7d"

/-- Source: `func (l String) Format(f fmt.State, c rune)`. -/
def String.Format (l : String) (plus : Bool) (c : Int) : Text :=
  if c = 118 ∧ plus = true then
    "token.String\x7bUnterminated:" ++ fmtBool l.Unterminated ++ "\x7d"
  else "\x7b" ++ fmtBool l.Unterminated ++ "\x7d"

/-- Source: `func (l Character) Format(f fmt.State, c rune)`. -/
def Character.Format (l : Character) (plus : Bool) (c : Int) : Text :=
  if c = 118 ∧ plus = true then
    "token.Character\x7bMissingCharacter:" ++ fmtBool l.MissingCharacter ++ "\x7d"
  else "\x7b" ++ fmtBool l.MissingCharacter ++ "\x7d"

/-- Source: `func (l Literal) Format(f fmt.State, c rune)`: the text written to
`f`.  Each `switch l.kind` has no `default`: for a kind that is none of the four
nothing is written.  The view of the case is taken before `fmt.Fprintf` is
called, so its panic would leave `Format`. -/
def Literal.Format (l : Literal) (plus : Bool) (c : Int) : Run Text :=
  if c = 118 then
    if plus = true then
      if l.kind = LiteralKindInteger then
        match l.Integer with
        | .error e => .error e
        | .ok v => .ok ("token.Literal\x7b" ++ v.Format true 118 ++ "\x7d")
      else if l.kind = LiteralKindFloat then
        match l.Float with
        | .error e => .error e
        | .ok v => .ok ("token.Literal\x7b" ++ v.Format true 118 ++ "\x7d")
      else if l.kind = LiteralKindString then
        match l.String with
        | .error e => .error e
        | .ok v => .ok ("token.Literal\x7b" ++ v.Format true 118 ++ "\x7d")
      else if l.kind = LiteralKindCharacter then
        match l.Character with
        | .error e => .error e
        | .ok v => .ok ("token.Literal\x7b" ++ v.Format true 118 ++ "\x7d")
      else .ok ""
    else
      if l.kind = LiteralKindInteger then
        match l.Integer with
        | .error e => .error e
        | .ok v => .ok ("\x7btoken.Integer" ++ v.Format false 118 ++ "\x7d")
      else if l.kind = LiteralKindFloat then
        match l.Float with
        | .error e => .error e
        | .ok v => .ok ("\x7btoken.Float" ++ v.Format false 118 ++ "\x7d")
      else if l.kind = LiteralKindString then
        match l.String with
        | .error e => .error e
        | .ok v => .ok ("\x7btoken.String" ++ v.Format false 118 ++ "\x7d")
      else if l.kind = LiteralKindCharacter then
        match l.Character with
        | .error e => .error e
        | .ok v => .ok ("\x7btoken.Character" ++ v.Format false 118 ++ "\x7d")
      else .ok ""
  else
    if l.kind = LiteralKindInteger then
      match l.Integer with
      | .error e => .error e
      | .ok _ => .ok "\x7btoken.Integer\x7d"
    else if l.kind = LiteralKindFloat then
      match l.Float with
      | .error e => .error e
      | .ok _ => .ok "\x7btoken.Float\x7d"
    else if l.kind = LiteralKindString then
      match l.String with
      | .error e => .error e
      | .ok _ => .ok "\x7btoken.String\x7d"
    else if l.kind = LiteralKindCharacter then
      match l.Character with
      | .error e => .error e
      | .ok _ => .ok "\x7btoken.Character\x7d"
    else .ok ""

/-- Source: `func (t Token) Format(f fmt.State, c rune)`: the text written to
`f`, or the panic of `t.Literal()` or `t.Kind().string()`, which are called
before `fmt.Fprintf` is. -/
def Token.Format (t : Token) (plus : Bool) (c : Int) : Run Text :=
  if c = 118 then
    if plus = true then
      if t.Kind = KindLiteral then
        match t.Literal with
        | .error e => .error e
        | .ok l =>
          .ok ("token.Token\x7bKind:" ++ fmtFormatter (l.Format true 118) ++ " Len:"
            ++ fmtDecimal t.Len ++ "\x7d")
      else
        match Kind.string t.Kind with
        | .error e => .error e
        | .ok name => .ok ("token.Token\x7bKind:" ++ name ++ " Len:" ++ fmtDecimal t.Len ++ "\x7d")
    else
      if t.Kind = KindLiteral then
        match t.Literal with
        | .error e => .error e
        | .ok l =>
          .ok ("\x7b" ++ fmtFormatter (l.Format false 118) ++ " " ++ fmtDecimal t.Len ++ "\x7d")
      else
        match Kind.string t.Kind with
        | .error e => .error e
        | .ok name => .ok ("\x7b" ++ name ++ " " ++ fmtDecimal t.Len ++ "\x7d")
  else
    if t.Kind = KindLiteral then
      match t.Literal with
      | .error e => .error e
      | .ok _ => .ok ("\x7btoken.Literal " ++ fmtDecimal t.Len ++ "\x7d")
    else
      match Kind.string t.Kind with
      | .error e => .error e
      | .ok name => .ok ("\x7b" ++ name ++ " " ++ fmtDecimal t.Len ++ "\x7d")

/-- The 17 kinds that have a name and the name `Kind.string` gives each, as
`TestFormat` expects them. -/
def specKindNames : List (Nat × Text) :=
  [(KindInvalid, "invalid"), (KindOpenParen, "open-paren"), (KindCloseParen, "close-paren"),
    (KindOpenBrace, "open-brace"), (KindCloseBrace, "close-brace"),
    (KindOpenBracket, "open-bracket"), (KindCloseBracket, "close-bracket"),
    (KindQuote, "quote"), (KindBackquote, "backquote"), (KindDeref, "deref"),
    (KindMetadata, "metadata"), (KindDispatch, "dispatch"), (KindUnquote, "unquote"),
    (KindUnquoteSplicing, "unquote-splicing"), (KindSymbol, "symbol"),
    (KindWhitespace, "whitespace"), (KindLineComment, "line-comment")]

/-! ## Codepoint boundaries and valid UTF-8 -/

/-- State `t1` is state `t` after whole codepoints were consumed: the remaining
text lost a prefix of `k` bytes that the decoder reads as a sequence of runes. -/
def Whole (t t1 : tokenizer) : Prop :=
  ∃ k, Codepoints (fun _ => true) t.s k ∧ t1.s = t.s.drop k

/-- The text `s` is the UTF-8 encoding of the codepoints `cs`: it is a sequence
of well-formed encodings, which the decoder reads as `cs` one after the other
(for an encoding that is not well-formed `DecodeRuneInString` returns
`(RuneError, 1)`). -/
inductive Encodes : List Int → GoString → Prop
  | nil : Encodes [] []
  | cons (c : Int) (cs : List Int) (s : GoString) (hne : s ≠ [])
      (hwf : DecodeRuneInString s ≠ (RuneError, 1)) (hc : (DecodeRuneInString s).1 = c)
      (h : Encodes cs (s.drop (DecodeRuneInString s).2)) : Encodes (c :: cs) s

/-- The text is valid UTF-8 (Go's `utf8.ValidString`): it is the encoding of
some sequence of codepoints. -/
def ValidUTF8 (s : GoString) : Prop := ∃ cs, Encodes cs s

/-- The slices of `s` cut at the running sums of the lengths `ks`. -/
def sliceAt (s : GoString) : List Nat → List GoString
  | [] => []
  | k :: ks => s.take k :: sliceAt (s.drop k) ks

/-- The text of `n` letters U+00E9 (e with acute accent, the two bytes `C3 A9`)
followed by `rest`. -/
def accentRun : Nat → GoString → GoString
  | 0, rest => rest
  | n + 1, rest => 0xC3 :: 0xA9 :: accentRun n rest

/-! ## Facts about the standard-library part -/

theorem utf8First_cases (b : Nat) :
    utf8First b = 0xF0 ∨ utf8First b = 0xF1 ∨ utf8First b = 0x02 ∨ utf8First b = 0x13
      ∨ utf8First b = 0x03 ∨ utf8First b = 0x23 ∨ utf8First b = 0x34 ∨ utf8First b = 0x04
      ∨ utf8First b = 0x44 := by
  unfold utf8First
  by_cases h1 : b < 0x80
  · rw [if_pos h1]; omega
  rw [if_neg h1]
  by_cases h2 : b < 0xC2
  · rw [if_pos h2]; omega
  rw [if_neg h2]
  by_cases h3 : b < 0xE0
  · rw [if_pos h3]; omega
  rw [if_neg h3]
  by_cases h4 : b = 0xE0
  · rw [if_pos h4]; omega
  rw [if_neg h4]
  by_cases h5 : b < 0xED
  · rw [if_pos h5]; omega
  rw [if_neg h5]
  by_cases h6 : b = 0xED
  · rw [if_pos h6]; omega
  rw [if_neg h6]
  by_cases h7 : b < 0xF0
  · rw [if_pos h7]; omega
  rw [if_neg h7]
  by_cases h8 : b = 0xF0
  · rw [if_pos h8]; omega
  rw [if_neg h8]
  by_cases h9 : b < 0xF4
  · rw [if_pos h9]; omega
  rw [if_neg h9]
  by_cases h10 : b = 0xF4
  · rw [if_pos h10]; omega
  rw [if_neg h10]; omega

theorem utf8First_size (b : Nat) (h : utf8First b < 0xF0) :
    2 ≤ utf8First b % 8 ∧ utf8First b % 8 ≤ 4 := by
  rcases utf8First_cases b with h1 | h1 | h1 | h1 | h1 | h1 | h1 | h1 | h1 <;> omega

theorem utf8Rune2_nonneg (a b : Nat) : 0 ≤ utf8Rune2 a b := Int.natCast_nonneg _

theorem utf8Rune3_nonneg (a b c : Nat) : 0 ≤ utf8Rune3 a b c := Int.natCast_nonneg _

theorem utf8Rune4_nonneg (a b c d : Nat) : 0 ≤ utf8Rune4 a b c d := Int.natCast_nonneg _

theorem decode_bounds (s : GoString) (h : s ≠ []) :
    0 ≤ (DecodeRuneInString s).1 ∧ 1 ≤ (DecodeRuneInString s).2
      ∧ (DecodeRuneInString s).2 ≤ s.length := by
  have hl : 0 < s.length := List.length_pos.mpr h
  have h2 := utf8Rune2_nonneg (byteAt s 0) (byteAt s 1)
  have h3 := utf8Rune3_nonneg (byteAt s 0) (byteAt s 1) (byteAt s 2)
  have h4 := utf8Rune4_nonneg (byteAt s 0) (byteAt s 1) (byteAt s 2) (byteAt s 3)
  have key : ∀ d, d = DecodeRuneInString s → 0 ≤ d.1 ∧ 1 ≤ d.2 ∧ d.2 ≤ s.length := by
    intro d hd
    unfold DecodeRuneInString RuneError at hd
    dsimp only at hd
    rw [if_neg (by omega)] at hd
    by_cases hx : utf8First (byteAt s 0) ≥ 0xF0
    · rw [if_pos hx] at hd
      by_cases hm : utf8First (byteAt s 0) % 2 = 1
      · rw [if_pos hm] at hd; subst hd; dsimp only; omega
      · rw [if_neg hm] at hd; subst hd; dsimp only; omega
    rw [if_neg hx] at hd
    have hs := utf8First_size (byteAt s 0) (by omega)
    generalize utf8First (byteAt s 0) % 8 = sz at *
    by_cases c1 : s.length < sz
    · rw [if_pos c1] at hd; subst hd; dsimp only; omega
    rw [if_neg c1] at hd
    split at hd
    · subst hd; dsimp only; omega
    by_cases c3 : sz ≤ 2
    · rw [if_pos c3] at hd; subst hd; dsimp only; omega
    rw [if_neg c3] at hd
    split at hd
    · subst hd; dsimp only; omega
    by_cases c5 : sz ≤ 3
    · rw [if_pos c5] at hd; subst hd; dsimp only; omega
    rw [if_neg c5] at hd
    split at hd
    · subst hd; dsimp only; omega
    · subst hd; dsimp only; omega
  exact key _ rfl

theorem decode_ascii (b : Byte) (s : GoString) (h : b.val < 128) :
    DecodeRuneInString (b :: s) = ((b.val : Int), 1) := by
  have h1 : utf8First b.val = 0xF0 := by
    unfold utf8First
    rw [if_pos h]
  unfold DecodeRuneInString
  dsimp only
  rw [if_neg (by simp)]
  have h0 : byteAt (b :: s) 0 = b.val := rfl
  rw [h0, h1]
  simp

/-! ## The cursor -/

theorem first_of_nil (t : tokenizer) (h : t.s = []) : t.first = charEOF := by
  simp [tokenizer.first, h]

theorem first_of_ne_nil (t : tokenizer) (h : t.s ≠ []) :
    t.first = (DecodeRuneInString t.s).1 := by
  have hl : t.s.length ≠ 0 := fun h0 => h (List.length_eq_zero.mp h0)
  simp [tokenizer.first, hl]

theorem first_ne_eof (t : tokenizer) (h : t.s ≠ []) : t.first ≠ charEOF := by
  rw [first_of_ne_nil t h]
  have := (decode_bounds t.s h).1
  unfold charEOF
  omega

theorem bump_of_nil (t : tokenizer) (h : t.s = []) : t.bump = .ok (charEOF, t) := by
  simp [tokenizer.bump, h]

theorem bump_of_ne_nil (t : tokenizer) (h : t.s ≠ []) :
    t.bump = .ok ((DecodeRuneInString t.s).1,
      { s := t.s.drop (DecodeRuneInString t.s).2,
        posWithinTok := (t.posWithinTok + (DecodeRuneInString t.s).2) % 4294967296 }) := by
  have hl : t.s.length ≠ 0 := fun h0 => h (List.length_eq_zero.mp h0)
  have hb := (decode_bounds t.s h).2.2
  simp [tokenizer.bump, hl, sliceFrom, hb]

theorem Consumed.refl (t : tokenizer) (h : t.posWithinTok < 4294967296) : Consumed t t 0 := by
  refine ⟨Nat.zero_le _, by simp, ?_⟩
  omega

theorem Consumed.trans {a b c : tokenizer} {j k : Nat} (h1 : Consumed a b j)
    (h2 : Consumed b c k) : Consumed a c (j + k) := by
  obtain ⟨h1a, h1b, h1c⟩ := h1
  obtain ⟨h2a, h2b, h2c⟩ := h2
  rw [h1b, List.length_drop] at h2a
  refine ⟨by omega, ?_, ?_⟩
  · rw [h2b, h1b, List.drop_drop]
  · rw [h2c, h1c]
    omega

theorem Consumed.pos_lt {a b : tokenizer} {k : Nat} (h : Consumed a b k) :
    b.posWithinTok < 4294967296 := by
  rw [h.2.2]
  omega

theorem Consumed.length {a b : tokenizer} {k : Nat} (h : Consumed a b k) :
    b.s.length + k = a.s.length := by
  obtain ⟨h1, h2, _⟩ := h
  rw [h2, List.length_drop]
  omega

/-- A `bump` on text that is not empty returns its first rune and consumes the
`k ≥ 1` bytes of it. -/
theorem bump_consumed (t : tokenizer) (h : t.s ≠ []) :
    ∃ t1 k, t.bump = .ok ((DecodeRuneInString t.s).1, t1) ∧ Consumed t t1 k ∧ 1 ≤ k := by
  have hb := decode_bounds t.s h
  exact ⟨_, _, bump_of_ne_nil t h, ⟨hb.2.2, rfl, rfl⟩, hb.2.1⟩

/-- A loop `for pred(t.first()) { t.bump() }` whose test fails at the end of the
text returns within the budget, having consumed some bytes, at a rune that fails
the test. -/
theorem eatLoop_spec (pred : Int → Bool) (hEOF : pred charEOF = false) :
    ∀ (fuel : Nat) (found : Bool) (t : tokenizer), t.s.length < fuel →
      t.posWithinTok < 4294967296 →
      ∃ found1 t1 k, t.eatLoop pred fuel found = .ok (found1, t1) ∧ Consumed t t1 k
        ∧ pred t1.first = false := by
  intro fuel
  induction fuel with
  | zero => intro _ t h; omega
  | succ n ih =>
    intro found t hlen hpos
    unfold tokenizer.eatLoop
    by_cases hp : pred t.first = true
    · rw [if_pos hp]
      have hne : t.s ≠ [] := by
        intro h0
        rw [first_of_nil t h0, hEOF] at hp
        exact Bool.noConfusion hp
      obtain ⟨t1, k, hb, hc, hk⟩ := bump_consumed t hne
      rw [hb]
      have hl := hc.length
      obtain ⟨f2, t2, k2, he, hc2, hp2⟩ := ih true t1 (by omega) hc.pos_lt
      exact ⟨f2, t2, k + k2, he, hc.trans hc2, hp2⟩
    · rw [if_neg hp]
      exact ⟨found, t, 0, rfl, Consumed.refl t hpos, by simpa using hp⟩

theorem bump_returns (t : tokenizer) (hpos : t.posWithinTok < 4294967296) :
    ∃ c t1 k, t.bump = .ok (c, t1) ∧ Consumed t t1 k := by
  by_cases h : t.s = []
  · exact ⟨_, _, 0, bump_of_nil t h, Consumed.refl t hpos⟩
  · obtain ⟨t1, k, hb, hc, _⟩ := bump_consumed t h
    exact ⟨_, t1, k, hb, hc⟩

theorem second_returns (t : tokenizer) : ∃ c, t.second = .ok c := by
  unfold tokenizer.second
  by_cases h : t.s.length ≤ 1
  · exact ⟨_, by rw [if_pos h]⟩
  · rw [if_neg h]
    have hne : t.s ≠ [] := by
      intro h0
      rw [h0] at h
      simp at h
    have hb := (decode_bounds t.s hne).2.2
    simp [sliceFrom, hb]

/-! ## Every sub-scanner returns -/

theorem ReturnsToken.after {r : Run (Token × tokenizer)} {t t1 : tokenizer} {j m : Nat}
    (hc : Consumed t t1 j) (h : ReturnsToken r t1 m) : ReturnsToken r t (j + m) := by
  obtain ⟨token, t2, k, hr, hc2, hm, hk⟩ := h
  exact ⟨token, t2, j + k, hr, hc.trans hc2, by omega, hk⟩

theorem ReturnsToken.weaken {r : Run (Token × tokenizer)} {t : tokenizer} {m n : Nat}
    (h : ReturnsToken r t m) (hn : n ≤ m) : ReturnsToken r t n := by
  obtain ⟨token, t2, k, hr, hc2, hm, hk⟩ := h
  exact ⟨token, t2, k, hr, hc2, by omega, hk⟩

theorem ReturnsToken.here (token : Token) (t : tokenizer) (hpos : t.posWithinTok < 4294967296)
    (hk : token.scanned) : ReturnsToken (.ok (token, t)) t 0 :=
  ⟨token, t, 0, rfl, Consumed.refl t hpos, Nat.le_refl 0, hk⟩

theorem scanned_public (token : Token) (h : token.scanned) : token.kind ∈ publicKinds := by
  rcases h with h | h | h | h
  · exact h.1
  all_goals
    rw [h.1]
    decide

theorem scanned_integer (base : Nat) (cond : Bool)
    (hb : base ∈ [BaseBinary, BaseOctal, BaseHexadecimal]) :
    (Token.ofLiteral LiteralKindInteger base (setIf 0 cond literalFlagEmptyInt)).scanned := by
  refine Or.inr (Or.inl ⟨rfl, rfl, hb, ?_⟩)
  show setIf 0 cond literalFlagEmptyInt ≤ 1
  cases cond <;> decide

theorem scanned_flag (kind : Nat) (cond : Bool) (flag : Nat) (hf : flag = 1)
    (hk : kind ∈ [LiteralKindFloat, LiteralKindString, LiteralKindCharacter]) :
    (Token.ofLiteral kind 0 (setIf 0 cond flag)).scanned := by
  subst hf
  refine Or.inr (Or.inr (Or.inr ⟨rfl, hk, rfl, ?_⟩))
  show setIf 0 cond 1 ≤ 1
  cases cond <;> decide

theorem isSymbolContinue_eof (U : UnicodeTables) : isSymbolContinue U charEOF = false := by
  have h1 := U.IsLetter_latin1 charEOF (by decide)
  have h2 := U.IsDigit_latin1 charEOF (by decide)
  have h3 : latin1IsLetter charEOF = false := by decide
  have h4 : latin1IsDigit charEOF = false := by decide
  rw [h3] at h1
  rw [h4] at h2
  have h5 : isSymbolStart U charEOF = false := by
    unfold isSymbolStart
    rw [h1]
    decide
  unfold isSymbolContinue
  rw [h5, h2]
  decide

theorem whitespace_returns (t : tokenizer) (hpos : t.posWithinTok < 4294967296) :
    ReturnsToken t.whitespace t 0 := by
  obtain ⟨f, t1, k, he, hc, _⟩ :=
    eatLoop_spec isWhitespace (by decide) (t.s.length + 1) false t (by omega) hpos
  unfold tokenizer.whitespace
  rw [he]
  exact ⟨_, t1, k, rfl, hc, Nat.zero_le _, by decide⟩

theorem lineComment_returns (t : tokenizer) (hpos : t.posWithinTok < 4294967296) :
    ReturnsToken t.lineComment t 0 := by
  obtain ⟨f, t1, k, he, hc, _⟩ :=
    eatLoop_spec isCommentContinue (by decide) (t.s.length + 1) false t (by omega) hpos
  unfold tokenizer.lineComment
  rw [he]
  exact ⟨_, t1, k, rfl, hc, Nat.zero_le _, by decide⟩

theorem eatSymbol_returns (U : UnicodeTables) (t : tokenizer)
    (hpos : t.posWithinTok < 4294967296) :
    ∃ t1 k, t.eatSymbol U = .ok t1 ∧ Consumed t t1 k := by
  obtain ⟨f, t1, k, he, hc, _⟩ :=
    eatLoop_spec (isSymbolContinue U) (isSymbolContinue_eof U) (t.s.length + 1) false t
      (by omega) hpos
  unfold tokenizer.eatSymbol
  rw [he]
  exact ⟨t1, k, rfl, hc⟩

theorem symbol_returns (U : UnicodeTables) (t : tokenizer)
    (hpos : t.posWithinTok < 4294967296) : ReturnsToken (t.symbol U) t 0 := by
  obtain ⟨t1, k, he, hc⟩ := eatSymbol_returns U t hpos
  unfold tokenizer.symbol
  rw [he]
  exact ⟨_, t1, k, rfl, hc, Nat.zero_le _, by decide⟩

theorem eatDigits_returns (pred : Int → Bool) (hEOF : pred charEOF = false) (t : tokenizer)
    (hpos : t.posWithinTok < 4294967296) :
    ∃ found t1 k, t.eatLoop pred (t.s.length + 1) false = .ok (found, t1) ∧ Consumed t t1 k := by
  obtain ⟨f, t1, k, he, hc, _⟩ := eatLoop_spec pred hEOF (t.s.length + 1) false t (by omega) hpos
  exact ⟨f, t1, k, he, hc⟩

theorem eatFloatExponent_returns (t : tokenizer) (hpos : t.posWithinTok < 4294967296) :
    ∃ found t1 k, t.eatFloatExponent = .ok (found, t1) ∧ Consumed t t1 k := by
  unfold tokenizer.eatFloatExponent
  split
  · obtain ⟨c, t1, k, hb, hc⟩ := bump_returns t hpos
    rw [hb]
    obtain ⟨f, t2, k2, he, hc2⟩ := eatDigits_returns isDecimalContinue (by decide) t1 hc.pos_lt
    exact ⟨f, t2, k + k2, he, hc.trans hc2⟩
  · exact eatDigits_returns isDecimalContinue (by decide) t hpos

theorem numericBase_returns (eat : tokenizer → Run (Bool × tokenizer)) (base : Nat)
    (hbase : base ∈ [BaseBinary, BaseOctal, BaseHexadecimal])
    (heat : ∀ t : tokenizer, t.posWithinTok < 4294967296 →
      ∃ found t1 k, eat t = .ok (found, t1) ∧ Consumed t t1 k)
    (t : tokenizer) (hpos : t.posWithinTok < 4294967296) :
    ReturnsToken (t.numericBase eat base) t 0 := by
  obtain ⟨c, t1, k, hb, hc⟩ := bump_returns t hpos
  obtain ⟨f, t2, k2, he, hc2⟩ := heat t1 hc.pos_lt
  unfold tokenizer.numericBase
  rw [hb]
  dsimp only
  rw [he]
  exact ⟨_, t2, k + k2, rfl, hc.trans hc2, Nat.zero_le _, scanned_integer _ _ hbase⟩

theorem numericExponent_returns (t : tokenizer) (hpos : t.posWithinTok < 4294967296) :
    ReturnsToken t.numericExponent t 0 := by
  obtain ⟨c, t1, k, hb, hc⟩ := bump_returns t hpos
  obtain ⟨f, t2, k2, he, hc2⟩ := eatFloatExponent_returns t1 hc.pos_lt
  unfold tokenizer.numericExponent
  rw [hb]
  dsimp only
  rw [he]
  exact ⟨_, t2, k + k2, rfl, hc.trans hc2, Nat.zero_le _, scanned_flag _ _ _ rfl (by decide)⟩

theorem numericDecimal_returns (t : tokenizer) (hpos : t.posWithinTok < 4294967296) :
    ReturnsToken t.numericDecimal t 0 := by
  obtain ⟨f, t1, k, he, hc⟩ := eatDigits_returns isDecimalContinue (by decide) t hpos
  unfold tokenizer.numericDecimal tokenizer.eatDecimalDigits
  rw [he]
  dsimp only
  split
  · obtain ⟨c2, h2⟩ := second_returns t1
    rw [h2]
    dsimp only
    split
    · exact ⟨_, t1, k, rfl, hc, Nat.zero_le _, by decide⟩
    · obtain ⟨c, t2, k2, hb, hc2⟩ := bump_returns t1 hc.pos_lt
      rw [hb]
      dsimp only
      obtain ⟨f3, t3, k3, he3, hc3⟩ :=
        eatDigits_returns isDecimalContinue (by decide) t2 hc2.pos_lt
      rw [he3]
      dsimp only
      have hc13 := hc.trans (hc2.trans hc3)
      split
      · have := (numericExponent_returns t3 hc3.pos_lt).after hc13
        exact this.weaken (Nat.zero_le _)
      · exact ⟨_, t3, _, rfl, hc13, Nat.zero_le _, by decide⟩
  · split
    · have := (numericExponent_returns t1 hc.pos_lt).after hc
      exact this.weaken (Nat.zero_le _)
    · exact ⟨_, t1, k, rfl, hc, Nat.zero_le _, by decide⟩

theorem numeric_returns (t : tokenizer) (firstDigit : Int)
    (hpos : t.posWithinTok < 4294967296) : ReturnsToken (t.numeric firstDigit) t 0 := by
  unfold tokenizer.numeric
  split
  · split
    · exact numericBase_returns _ _ (by decide)
        (fun t h => eatDigits_returns isBinaryContinue (by decide) t h) t hpos
    · split
      · exact numericBase_returns _ _ (by decide)
          (fun t h => eatDigits_returns isOctalContinue (by decide) t h) t hpos
      · split
        · exact numericBase_returns _ _ (by decide)
            (fun t h => eatDigits_returns isHexContinue (by decide) t h) t hpos
        · exact numericDecimal_returns t hpos
  · exact numericDecimal_returns t hpos

theorem character_returns (U : UnicodeTables) (t : tokenizer)
    (hpos : t.posWithinTok < 4294967296) : ReturnsToken (t.character U) t 0 := by
  obtain ⟨c, t1, k, hb, hc⟩ := bump_returns t hpos
  unfold tokenizer.character
  rw [hb]
  dsimp only
  split
  · obtain ⟨t2, k2, he, hc2⟩ := eatSymbol_returns U t1 hc.pos_lt
    rw [he]
    exact ⟨_, t2, k + k2, rfl, hc.trans hc2, Nat.zero_le _, by decide⟩
  · exact ⟨_, t1, k, rfl, hc, Nat.zero_le _, scanned_flag _ _ _ rfl (by decide)⟩

theorem stringLoop_returns :
    ∀ (fuel : Nat) (t : tokenizer), t.s.length < fuel → t.posWithinTok < 4294967296 →
      ReturnsToken (tokenizer.stringLoop fuel t) t 0 := by
  intro fuel
  induction fuel with
  | zero => intro t h; omega
  | succ n ih =>
    intro t hlen hpos
    unfold tokenizer.stringLoop
    by_cases hnil : t.s = []
    · rw [bump_of_nil t hnil]
      dsimp only
      rw [if_pos rfl]
      exact ⟨_, t, 0, rfl, Consumed.refl t hpos, Nat.zero_le _, by decide⟩
    · obtain ⟨t1, k, hb, hc, hk⟩ := bump_consumed t hnil
      rw [hb]
      dsimp only
      have hl := hc.length
      have ih1 : ReturnsToken (tokenizer.stringLoop n t1) t 0 :=
        ((ih t1 (by omega) hc.pos_lt).after hc).weaken (Nat.zero_le _)
      split
      · exact ⟨_, t1, k, rfl, hc, Nat.zero_le _, by decide⟩
      · split
        · exact ⟨_, t1, k, rfl, hc, Nat.zero_le _, by decide⟩
        · split
          · split
            · obtain ⟨c2, t2, k2, hb2, hc2⟩ := bump_returns t1 hc.pos_lt
              rw [hb2]
              dsimp only
              have hl2 := hc2.length
              exact ((ih t2 (by omega) hc2.pos_lt).after (hc.trans hc2)).weaken (Nat.zero_le _)
            · exact ih1
          · exact ih1

theorem string_returns (t : tokenizer) (hpos : t.posWithinTok < 4294967296) :
    ReturnsToken t.string t 0 :=
  stringLoop_returns (t.s.length + 1) t (by omega) hpos

theorem unquote_returns (t : tokenizer) (hpos : t.posWithinTok < 4294967296) :
    ReturnsToken t.unquote t 0 := by
  unfold tokenizer.unquote
  split
  · obtain ⟨c, t1, k, hb, hc⟩ := bump_returns t hpos
    rw [hb]
    exact ⟨_, t1, k, rfl, hc, Nat.zero_le _, by decide⟩
  · exact ReturnsToken.here _ t hpos (by decide)

theorem ReturnsToken.ite {c : Prop} [Decidable c] {a b : Run (Token × tokenizer)}
    {t : tokenizer} {m : Nat} (ha : c → ReturnsToken a t m) (hb : ¬c → ReturnsToken b t m) :
    ReturnsToken (if c then a else b) t m := by
  by_cases h : c
  · rw [if_pos h]; exact ha h
  · rw [if_neg h]; exact hb h

theorem punctuation_returns (U : UnicodeTables) (t : tokenizer) (firstChar : Int)
    (hpos : t.posWithinTok < 4294967296) : ReturnsToken (t.punctuation U firstChar) t 0 := by
  unfold tokenizer.punctuation
  refine ReturnsToken.ite (fun _ => character_returns U t hpos) fun _ => ?_
  refine ReturnsToken.ite (fun _ => string_returns t hpos) fun _ => ?_
  refine ReturnsToken.ite (fun _ => lineComment_returns t hpos) fun _ => ?_
  refine ReturnsToken.ite (fun _ => ReturnsToken.here _ t hpos (by decide)) fun _ => ?_
  refine ReturnsToken.ite (fun _ => ReturnsToken.here _ t hpos (by decide)) fun _ => ?_
  refine ReturnsToken.ite (fun _ => ReturnsToken.here _ t hpos (by decide)) fun _ => ?_
  refine ReturnsToken.ite (fun _ => ReturnsToken.here _ t hpos (by decide)) fun _ => ?_
  refine ReturnsToken.ite (fun _ => ReturnsToken.here _ t hpos (by decide)) fun _ => ?_
  refine ReturnsToken.ite (fun _ => ReturnsToken.here _ t hpos (by decide)) fun _ => ?_
  refine ReturnsToken.ite (fun _ => ReturnsToken.here _ t hpos (by decide)) fun _ => ?_
  refine ReturnsToken.ite (fun _ => ReturnsToken.here _ t hpos (by decide)) fun _ => ?_
  refine ReturnsToken.ite (fun _ => ReturnsToken.here _ t hpos (by decide)) fun _ => ?_
  refine ReturnsToken.ite (fun _ => ReturnsToken.here _ t hpos (by decide)) fun _ => ?_
  refine ReturnsToken.ite (fun _ => ReturnsToken.here _ t hpos (by decide)) fun _ => ?_
  refine ReturnsToken.ite (fun _ => unquote_returns t hpos) fun _ => ?_
  exact ReturnsToken.here _ t hpos (by decide)

/-- On text that is not empty `nextToken` returns a token of an exported kind and
consumes at least one byte. -/
theorem nextToken_returns (U : UnicodeTables) (t : tokenizer) (hne : t.s ≠ []) :
    ReturnsToken (t.nextToken U) t 1 := by
  obtain ⟨t1, k, hb, hc, hk⟩ := bump_consumed t hne
  have hc1 : (DecodeRuneInString t.s).1 ≠ charEOF := by
    have := (decode_bounds t.s hne).1
    unfold charEOF
    omega
  unfold tokenizer.nextToken
  rw [hb]
  dsimp only
  rw [if_neg hc1]
  have hp1 := hc.pos_lt
  have lift : ∀ r, ReturnsToken r t1 0 → ReturnsToken r t 1 := fun r h =>
    (h.after hc).weaken (by omega)
  split
  · exact lift _ (whitespace_returns t1 hp1)
  · split
    · exact lift _ (symbol_returns U t1 hp1)
    · split
      · exact lift _ (numeric_returns t1 _ hp1)
      · exact lift _ (punctuation_returns U t1 _ hp1)

theorem nextToken_of_nil (U : UnicodeTables) (t : tokenizer) (h : t.s = []) :
    t.nextToken U = .ok (Token.ofKind kindNone, t) := by
  unfold tokenizer.nextToken
  rw [bump_of_nil t h]
  dsimp only
  rw [if_pos rfl]

/-! ## `Advance` and the loop of `Tokenize` -/

theorem publicKinds_ne_none (k : Nat) (h : k ∈ publicKinds) : k ≠ kindNone := by
  intro h0
  rw [h0] at h
  revert h
  decide

theorem advance_of_nextToken (U : UnicodeTables) (t : tokenizer) (token : Token)
    (t1 : tokenizer) (h : t.nextToken U = .ok (token, t1)) :
    t.Advance U = .ok (⟨token.kind, t1.posWithinTok, token.literal⟩, ⟨t1.s, 0⟩) := by
  unfold tokenizer.Advance
  rw [h]
  rfl

/-- From a fresh state on text that is not empty, `Advance` returns a token of one of
the scanned shapes whose length is the number `k ≥ 1` of bytes consumed, modulo
`2^32`, and leaves a fresh state on the rest of the text. -/
theorem advance_spec (U : UnicodeTables) (s : GoString) (hne : s ≠ []) :
    ∃ token k, tokenizer.Advance U ⟨s, 0⟩ = .ok (token, ⟨s.drop k, 0⟩) ∧ 1 ≤ k ∧ k ≤ s.length
      ∧ token.len = k % 4294967296 ∧ token.scanned := by
  obtain ⟨token, t1, k, hr, ⟨hk, hs, hp⟩, hm, hkind⟩ := nextToken_returns U ⟨s, 0⟩ hne
  refine ⟨{ token with len := t1.posWithinTok }, k, ?_, hm, hk, ?_, hkind⟩
  · unfold tokenizer.Advance
    rw [hr]
    dsimp only [tokenizer.posWithinToken, tokenizer.resetPosWithinToken]
    rw [hs]
  · dsimp only
    rw [hp]
    dsimp only
    rw [Nat.zero_add]

theorem advance_nil (U : UnicodeTables) :
    tokenizer.Advance U ⟨[], 0⟩ = .ok (Token.ofKind kindNone, ⟨[], 0⟩) := by
  unfold tokenizer.Advance
  rw [nextToken_of_nil U ⟨[], 0⟩ rfl]
  rfl

/-- The budget does not matter once it exceeds the length of the text. -/
theorem scan_fuel (U : UnicodeTables) :
    ∀ (n1 n2 : Nat) (s : GoString), s.length < n1 → s.length < n2 →
      tokenizer.scan U n1 ⟨s, 0⟩ = tokenizer.scan U n2 ⟨s, 0⟩ := by
  intro n1
  induction n1 with
  | zero => intro _ s h; omega
  | succ a ih =>
    intro n2 s h1 h2
    cases n2 with
    | zero => omega
    | succ b =>
      simp only [tokenizer.scan]
      by_cases hnil : s = []
      · subst hnil
        rw [advance_nil]
        rfl
      · obtain ⟨token, k, hadv, hk1, hk2, _, hkind⟩ := advance_spec U s hnil
        rw [hadv]
        dsimp only
        have hkn : ¬token.Kind = kindNone := publicKinds_ne_none _ (scanned_public _ hkind)
        rw [if_neg hkn, if_neg hkn]
        have hl : (s.drop k).length = s.length - k := List.length_drop _ _
        rw [ih b (s.drop k) (by omega) (by omega)]

/-- The loop of `Tokenize` folds the consumer over the tokens of `scan`: every
token is handed over once, in order. -/
theorem loop_eq_scan {σ : Type} (U : UnicodeTables) (consume : σ → Token → σ) :
    ∀ (n : Nat) (t : tokenizer) (c : σ),
      Tokenize.loop U consume n t c =
        match tokenizer.scan U n t with
        | .error e => .error e
        | .ok tokens => .ok (tokens.foldl consume c) := by
  intro n
  induction n with
  | zero => intro t c; rfl
  | succ n ih =>
    intro t c
    simp only [Tokenize.loop, tokenizer.scan]
    cases hadv : tokenizer.Advance U t with
    | error e => rfl
    | ok r =>
      obtain ⟨token, t1⟩ := r
      dsimp only
      by_cases hk : token.Kind = kindNone
      · rw [if_pos hk, if_pos hk]
        rfl
      · rw [if_neg hk, if_neg hk, ih]
        cases tokenizer.scan U n t1 with
        | error e => rfl
        | ok rest => rfl

theorem foldl_sliceConsume (tokens acc : List Token) :
    tokens.foldl sliceConsume acc = acc ++ tokens := by
  induction tokens generalizing acc with
  | nil => simp
  | cons a rest ih => simp [List.foldl, sliceConsume, ih]

theorem tokensOf_eq_scan (U : UnicodeTables) (s : GoString) :
    tokensOf U s = tokenizer.scan U (s.length + 1) ⟨s, 0⟩ := by
  unfold tokensOf Tokenize
  rw [loop_eq_scan]
  cases tokenizer.scan U (s.length + 1) ⟨s, 0⟩ with
  | error e => rfl
  | ok tokens =>
    dsimp only
    rw [foldl_sliceConsume]
    rfl

theorem tokensOf_nil (U : UnicodeTables) : tokensOf U [] = .ok [] := by
  rw [tokensOf_eq_scan]
  simp only [List.length_nil, Nat.zero_add, tokenizer.scan]
  rw [advance_nil]
  rfl

/-- The tokens of a text are its first token followed by the tokens of what the
first token left. -/
theorem tokensOf_cons (U : UnicodeTables) (s : GoString) (token : Token) (k : Nat)
    (hadv : tokenizer.Advance U ⟨s, 0⟩ = .ok (token, ⟨s.drop k, 0⟩)) (hk1 : 1 ≤ k)
    (hk2 : k ≤ s.length) (hkind : token.kind ≠ kindNone) :
    tokensOf U s =
      match tokensOf U (s.drop k) with
      | .error e => .error e
      | .ok rest => .ok (token :: rest) := by
  have hl : (s.drop k).length = s.length - k := List.length_drop _ _
  rw [tokensOf_eq_scan U (s.drop k),
    scan_fuel U ((s.drop k).length + 1) s.length (s.drop k) (by omega) (by omega),
    tokensOf_eq_scan U s]
  simp only [tokenizer.scan]
  rw [hadv]
  dsimp only
  have hkn : ¬token.Kind = kindNone := hkind
  rw [if_neg hkn]

/-- Induction over the tokens of a text: `Tokenize` returns for every text, and a
property that holds for the empty text and passes from the rest to the whole
holds for the tokens delivered. -/
theorem tokensOf_induction (U : UnicodeTables) (P : GoString → List Token → Prop)
    (hnil : P [] [])
    (hcons : ∀ (s : GoString) (token : Token) (k : Nat) (rest : List Token), s ≠ [] →
      tokenizer.Advance U ⟨s, 0⟩ = .ok (token, ⟨s.drop k, 0⟩) → 1 ≤ k → k ≤ s.length →
      token.len = k % 4294967296 → token.scanned →
      tokensOf U (s.drop k) = .ok rest → tokensOf U s = .ok (token :: rest) →
      P (s.drop k) rest → P s (token :: rest)) :
    ∀ s : GoString, ∃ tokens, tokensOf U s = .ok tokens ∧ P s tokens := by
  have main : ∀ (n : Nat) (s : GoString), s.length ≤ n →
      ∃ tokens, tokensOf U s = .ok tokens ∧ P s tokens := by
    intro n
    induction n with
    | zero =>
      intro s hs
      have : s = [] := List.length_eq_zero.mp (by omega)
      subst this
      exact ⟨[], tokensOf_nil U, hnil⟩
    | succ n ih =>
      intro s hs
      by_cases hnil1 : s = []
      · subst hnil1
        exact ⟨[], tokensOf_nil U, hnil⟩
      · obtain ⟨token, k, hadv, hk1, hk2, hlen, hkind⟩ := advance_spec U s hnil1
        have hl : (s.drop k).length = s.length - k := List.length_drop _ _
        obtain ⟨rest, hrest, hP⟩ := ih (s.drop k) (by omega)
        have hall : tokensOf U s = .ok (token :: rest) := by
          rw [tokensOf_cons U s token k hadv hk1 hk2
            (publicKinds_ne_none _ (scanned_public _ hkind)), hrest]
        exact ⟨token :: rest, hall,
          hcons s token k rest hnil1 hadv hk1 hk2 hlen hkind hrest hall hP⟩
  intro s
  exact main s.length s (Nat.le_refl _)

/-! ## Runs of ASCII bytes -/

theorem first_ascii (b : Byte) (s : GoString) (p : Nat) (h : b.val < 128) :
    tokenizer.first ⟨b :: s, p⟩ = (b.val : Int) := by
  rw [first_of_ne_nil _ (List.cons_ne_nil b s)]
  show (DecodeRuneInString (b :: s)).1 = _
  rw [decode_ascii b s h]

theorem bump_ascii (b : Byte) (s : GoString) (p : Nat) (h : b.val < 128) :
    tokenizer.bump ⟨b :: s, p⟩ = .ok ((b.val : Int), ⟨s, (p + 1) % 4294967296⟩) := by
  rw [bump_of_ne_nil _ (List.cons_ne_nil b s)]
  show Except.ok ((DecodeRuneInString (b :: s)).1,
    (⟨List.drop (DecodeRuneInString (b :: s)).2 (b :: s),
      (p + (DecodeRuneInString (b :: s)).2) % 4294967296⟩ : tokenizer)) = _
  rw [decode_ascii b s h]
  rfl

/-- A loop `for pred(t.first()) { found = true; t.bump() }` in front of a run `r`
of ASCII bytes that pass the test, followed by text whose first rune fails it,
consumes exactly the run. -/
theorem eatLoop_ascii_run (pred : Int → Bool) :
    ∀ (r rest : GoString) (fuel : Nat) (found : Bool) (p : Nat),
      (∀ b ∈ r, b.val < 128 ∧ pred (b.val : Int) = true) →
      pred (tokenizer.first ⟨rest, 0⟩) = false → (r ++ rest).length < fuel → p < 4294967296 →
      tokenizer.eatLoop pred fuel found ⟨r ++ rest, p⟩
        = .ok (found || !r.isEmpty, ⟨rest, (p + r.length) % 4294967296⟩) := by
  intro r
  induction r with
  | nil =>
    intro rest fuel found p _ hrest hfuel hp
    cases fuel with
    | zero => omega
    | succ n =>
      have h1 : pred (tokenizer.first ⟨rest, p⟩) = false := hrest
      simp only [List.nil_append, tokenizer.eatLoop, h1]
      simp only [List.isEmpty_nil, Bool.not_true, Bool.or_false, List.length_nil, Nat.add_zero,
        Nat.mod_eq_of_lt hp]
      rfl
  | cons b r ih =>
    intro rest fuel found p hr hrest hfuel hp
    cases fuel with
    | zero => omega
    | succ n =>
      have hb := hr b (List.mem_cons_self b r)
      have hr1 : ∀ c ∈ r, c.val < 128 ∧ pred (c.val : Int) = true :=
        fun c hc => hr c (List.mem_cons_of_mem b hc)
      have hlen : (r ++ rest).length < n := by
        simp only [List.cons_append, List.length_cons] at hfuel
        omega
      simp only [List.cons_append, tokenizer.eatLoop]
      rw [first_ascii b (r ++ rest) p hb.1, hb.2, if_pos rfl, bump_ascii b (r ++ rest) p hb.1]
      dsimp only
      rw [ih rest n true ((p + 1) % 4294967296) hr1 hrest hlen (Nat.mod_lt _ (by decide))]
      have harith : ((p + 1) % 4294967296 + r.length) % 4294967296
          = (p + (r.length + 1)) % 4294967296 := by omega
      simp only [List.length_cons, List.isEmpty_cons, Bool.not_false, Bool.or_true, Bool.true_or,
        harith]

/-- A text of `n + 1` spaces is one Whitespace token whose length is `n + 1`
modulo `2^32`. -/
theorem advance_spaces (U : UnicodeTables) (n : Nat) :
    tokenizer.Advance U ⟨List.replicate (n + 1) 32, 0⟩
      = .ok (⟨KindWhitespace, (n + 1) % 4294967296, ⟨0, 0, 0⟩⟩, ⟨[], 0⟩) := by
  have hrun : ∀ b ∈ List.replicate n (32 : Byte), b.val < 128 ∧ isWhitespace (b.val : Int) = true := by
    intro b hb
    rw [List.eq_of_mem_replicate hb]
    decide
  have hloop := eatLoop_ascii_run isWhitespace (List.replicate n 32) [] (n + 1) false 1 hrun
    (by decide) (by simp) (by decide)
  rw [List.append_nil, List.length_replicate] at hloop
  have hn : tokenizer.nextToken U ⟨List.replicate (n + 1) 32, 0⟩
      = .ok (Token.ofKind KindWhitespace, ⟨[], (1 + n) % 4294967296⟩) := by
    unfold tokenizer.nextToken
    rw [List.replicate_succ, bump_ascii 32 _ 0 (by decide)]
    dsimp only
    rw [if_neg (by decide), if_pos (by decide)]
    unfold tokenizer.whitespace
    dsimp only
    rw [List.length_replicate, hloop]
  have harith : (1 + n) % 4294967296 = (n + 1) % 4294967296 := by omega
  rw [advance_of_nextToken U _ _ _ hn]
  dsimp only [Token.ofKind]
  rw [harith]

theorem tokensOf_spaces (U : UnicodeTables) (n : Nat) :
    tokensOf U (List.replicate (n + 1) 32)
      = .ok [⟨KindWhitespace, (n + 1) % 4294967296, ⟨0, 0, 0⟩⟩] := by
  have hdrop : List.drop (n + 1) (List.replicate (n + 1) (32 : Byte)) = [] := by
    apply List.drop_eq_nil_of_le
    rw [List.length_replicate]
  have hadv := advance_spaces U n
  rw [← hdrop] at hadv
  have hkind : KindWhitespace ≠ kindNone := by decide
  rw [tokensOf_cons U _ _ (n + 1) hadv (by omega) (by rw [List.length_replicate]) hkind,
    hdrop, tokensOf_nil]

theorem tokensOf_four_gib_of_spaces (U : UnicodeTables) :
    tokensOf U (List.replicate 4294967296 32) = .ok [⟨KindWhitespace, 0, ⟨0, 0, 0⟩⟩] :=
  tokensOf_spaces U 4294967295

theorem four_gib_of_spaces_ne_nil : List.replicate 4294967296 (32 : Byte) ≠ [] := by
  intro h
  have hl := congrArg List.length h
  rw [List.length_replicate] at hl
  exact absurd hl (by decide)

/-! ## ASCII text does not depend on the range tables -/

theorem isSymbolStart_latin1 (U : UnicodeTables) (c : Int) (hc : c ≤ 0xFF) :
    isSymbolStart U c = isSymbolStart latin1Tables c := by
  unfold isSymbolStart
  rw [U.IsLetter_latin1 c hc]
  rfl

theorem isSymbolContinue_latin1 (U : UnicodeTables) (c : Int) (hc : c ≤ 0xFF) :
    isSymbolContinue U c = isSymbolContinue latin1Tables c := by
  unfold isSymbolContinue
  rw [isSymbolStart_latin1 U c hc, U.IsDigit_latin1 c hc]
  rfl

theorem first_le_of_ascii (t : tokenizer) (h : ∀ b ∈ t.s, b.val < 128) : t.first ≤ 0xFF := by
  obtain ⟨s, p⟩ := t
  cases s with
  | nil =>
    rw [first_of_nil _ rfl]
    decide
  | cons b s =>
    have hb := h b (List.mem_cons_self b s)
    rw [first_ascii b s p hb]
    omega

theorem bump_of_ascii (t : tokenizer) (h : ∀ b ∈ t.s, b.val < 128) :
    ∃ c t1, t.bump = .ok (c, t1) ∧ c ≤ 0xFF ∧ ∀ b ∈ t1.s, b.val < 128 := by
  obtain ⟨s, p⟩ := t
  cases s with
  | nil => exact ⟨_, _, bump_of_nil _ rfl, by decide, h⟩
  | cons b s =>
    have hb := h b (List.mem_cons_self b s)
    exact ⟨_, _, bump_ascii b s p hb, by omega, fun c hc => h c (List.mem_cons_of_mem b hc)⟩

theorem eatLoop_congr (p1 p2 : Int → Bool) (hp : ∀ c : Int, c ≤ 0xFF → p1 c = p2 c) :
    ∀ (fuel : Nat) (found : Bool) (t : tokenizer), (∀ b ∈ t.s, b.val < 128) →
      t.eatLoop p1 fuel found = t.eatLoop p2 fuel found := by
  intro fuel
  induction fuel with
  | zero => intro _ _ _; rfl
  | succ n ih =>
    intro found t h
    simp only [tokenizer.eatLoop]
    rw [hp _ (first_le_of_ascii t h)]
    obtain ⟨c, t1, hb, _, h1⟩ := bump_of_ascii t h
    rw [hb]
    dsimp only
    rw [ih true t1 h1]

theorem eatSymbol_ascii (U : UnicodeTables) (t : tokenizer) (h : ∀ b ∈ t.s, b.val < 128) :
    t.eatSymbol U = t.eatSymbol latin1Tables := by
  unfold tokenizer.eatSymbol
  rw [eatLoop_congr _ _ (isSymbolContinue_latin1 U) _ _ t h]

theorem character_ascii (U : UnicodeTables) (t : tokenizer) (h : ∀ b ∈ t.s, b.val < 128) :
    t.character U = t.character latin1Tables := by
  unfold tokenizer.character
  obtain ⟨c, t1, hb, hc, h1⟩ := bump_of_ascii t h
  rw [hb]
  dsimp only
  rw [isSymbolStart_latin1 U c hc, eatSymbol_ascii U t1 h1]

theorem nextToken_ascii (U : UnicodeTables) (t : tokenizer) (h : ∀ b ∈ t.s, b.val < 128) :
    t.nextToken U = t.nextToken latin1Tables := by
  unfold tokenizer.nextToken
  obtain ⟨c, t1, hb, hc, h1⟩ := bump_of_ascii t h
  rw [hb]
  dsimp only
  unfold tokenizer.symbol tokenizer.punctuation
  rw [isSymbolStart_latin1 U c hc, eatSymbol_ascii U t1 h1, character_ascii U t1 h1]

theorem advance_ascii (U : UnicodeTables) (t : tokenizer) (h : ∀ b ∈ t.s, b.val < 128) :
    t.Advance U = t.Advance latin1Tables := by
  unfold tokenizer.Advance
  rw [nextToken_ascii U t h]

theorem scan_ascii (U : UnicodeTables) :
    ∀ (n : Nat) (s : GoString), (∀ b ∈ s, b.val < 128) →
      tokenizer.scan U n ⟨s, 0⟩ = tokenizer.scan latin1Tables n ⟨s, 0⟩ := by
  intro n
  induction n with
  | zero => intro _ _; rfl
  | succ n ih =>
    intro s h
    simp only [tokenizer.scan]
    rw [advance_ascii U ⟨s, 0⟩ h]
    by_cases hnil : s = []
    · subst hnil
      rw [advance_nil]
      rfl
    · obtain ⟨token, k, hadv, _, _, _, _⟩ := advance_spec latin1Tables s hnil
      rw [hadv]
      dsimp only
      rw [ih (s.drop k) (fun b hb => h b (List.mem_of_mem_drop hb))]

/-- On a text of ASCII bytes every choice of range tables gives the tokens the
Latin-1 tables give. -/
theorem tokensOf_ascii (U : UnicodeTables) (s : GoString) (h : ∀ b ∈ s, b.val < 128) :
    tokensOf U s = tokensOf latin1Tables s := by
  rw [tokensOf_eq_scan, tokensOf_eq_scan, scan_ascii U _ s h]

/-! ## Base-prefixed integers -/

theorem specDigitSet_isContinue (x : BasePrefix) :
    ∀ b ∈ x.specDigitSet, b.val < 128 ∧ x.isContinue (b.val : Int) = true := by
  intro b hb
  cases x
  · simp only [BasePrefix.specDigitSet, List.mem_cons, List.mem_singleton, List.not_mem_nil,
      or_false, Fin.ext_iff] at hb
    refine ⟨by omega, ?_⟩
    simp only [BasePrefix.isContinue, isBinaryContinue, Bool.or_eq_true, beq_iff_eq]
    omega
  · simp only [BasePrefix.specDigitSet, List.mem_cons, List.mem_singleton, List.not_mem_nil,
      or_false, Fin.ext_iff] at hb
    refine ⟨by omega, ?_⟩
    simp only [BasePrefix.isContinue, isOctalContinue, Bool.or_eq_true, Bool.and_eq_true,
      beq_iff_eq, decide_eq_true_eq]
    omega
  · simp only [BasePrefix.specDigitSet, List.mem_cons, List.mem_singleton, List.not_mem_nil,
      or_false, Fin.ext_iff] at hb
    refine ⟨by omega, ?_⟩
    simp only [BasePrefix.isContinue, isHexContinue, isDecimalContinue, isDecimal,
      Bool.or_eq_true, Bool.and_eq_true, beq_iff_eq, decide_eq_true_eq]
    omega

theorem isContinue_of_not_mem (x : BasePrefix) (c : Int)
    (h : ∀ b ∈ x.specDigitSet, c ≠ (b.val : Int)) : x.isContinue c = false := by
  cases x
  · simp only [BasePrefix.specDigitSet, List.forall_mem_cons, List.not_mem_nil, IsEmpty.forall_iff, implies_true,
      and_true] at h
    simp at h
    simp only [BasePrefix.isContinue, isBinaryContinue, Bool.or_eq_false_iff, beq_eq_false_iff_ne]
    omega
  · simp only [BasePrefix.specDigitSet, List.forall_mem_cons, List.not_mem_nil, IsEmpty.forall_iff, implies_true,
      and_true] at h
    simp at h
    simp only [BasePrefix.isContinue, isOctalContinue, Bool.or_eq_false_iff,
      Bool.and_eq_false_imp, beq_eq_false_iff_ne, decide_eq_true_eq, decide_eq_false_iff_not]
    omega
  · simp only [BasePrefix.specDigitSet, List.forall_mem_cons, List.not_mem_nil, IsEmpty.forall_iff, implies_true,
      and_true] at h
    simp at h
    simp only [BasePrefix.isContinue, isHexContinue, isDecimalContinue, isDecimal,
      Bool.or_eq_false_iff, Bool.and_eq_false_imp, beq_eq_false_iff_ne, decide_eq_true_eq,
      decide_eq_false_iff_not]
    omega

theorem numericBase_run (eat : tokenizer → Run (Bool × tokenizer)) (pred : Int → Bool)
    (heat : ∀ t : tokenizer, eat t = t.eatLoop pred (t.s.length + 1) false) (base : Nat)
    (letter : Byte) (hl : letter.val < 128) (r rest : GoString)
    (hr : ∀ b ∈ r, b.val < 128 ∧ pred (b.val : Int) = true)
    (hrest : pred (tokenizer.first ⟨rest, 0⟩) = false) (p : Nat) :
    tokenizer.numericBase eat base ⟨letter :: (r ++ rest), p⟩
      = .ok (Token.ofLiteral LiteralKindInteger base
          (setIf 0 (!(false || !r.isEmpty)) literalFlagEmptyInt),
        ⟨rest, ((p + 1) % 4294967296 + r.length) % 4294967296⟩) := by
  unfold tokenizer.numericBase
  rw [bump_ascii letter _ p hl]
  dsimp only
  rw [heat, eatLoop_ascii_run pred r rest _ false _ hr hrest (by simp)
    (Nat.mod_lt _ (by decide))]

theorem BasePrefix.eat_eq (x : BasePrefix) (t : tokenizer) :
    x.eat t = t.eatLoop x.isContinue (t.s.length + 1) false := by
  cases x <;> rfl

theorem BasePrefix.letter_lt (x : BasePrefix) : x.letter.val < 128 := by
  cases x <;> decide

theorem BasePrefix.isContinue_eof (x : BasePrefix) : x.isContinue charEOF = false := by
  cases x <;> decide

theorem BasePrefix.base_mem (x : BasePrefix) :
    x.base ∈ [BaseBinary, BaseOctal, BaseHexadecimal] := by
  cases x <;> decide

/-- On `0` followed by a base letter `nextToken` goes to the prefix case of
`numeric` for that base. -/
theorem nextToken_zero_letter (U : UnicodeTables) (x : BasePrefix) (tail : GoString) :
    tokenizer.nextToken U ⟨48 :: x.letter :: tail, 0⟩
      = tokenizer.numericBase x.eat x.base ⟨x.letter :: tail, (0 + 1) % 4294967296⟩ := by
  unfold tokenizer.nextToken
  rw [bump_ascii 48 _ 0 (by decide)]
  dsimp only
  have h48 : ((48 : Byte).val : Int) = 48 := rfl
  rw [h48, if_neg (by decide), if_neg (by decide), isSymbolStart_latin1 U 48 (by decide),
    if_neg (by decide), if_pos (by decide)]
  unfold tokenizer.numeric
  rw [if_pos rfl, first_ascii _ _ _ x.letter_lt]
  cases x
  · have hl : (((BasePrefix.binary.letter : Byte).val : Nat) : Int) = 98 := rfl
    rw [hl, if_pos rfl]
    rfl
  · have hl : (((BasePrefix.octal.letter : Byte).val : Nat) : Int) = 111 := rfl
    rw [hl, if_neg (by decide), if_pos rfl]
    rfl
  · have hl : (((BasePrefix.hexadecimal.letter : Byte).val : Nat) : Int) = 120 := rfl
    rw [hl, if_neg (by decide), if_neg (by decide), if_pos rfl]
    rfl

/-- The first token of `0`, a base letter, a run `r` of characters that pass the
digit test of the base, and a rest whose first rune fails it: an integer of that
base that ends where the run ends, with the flag set exactly when the run is
empty and the length `2 + |r|` modulo `2^32`. -/
theorem advance_base_prefixed (U : UnicodeTables) (x : BasePrefix) (r rest : GoString)
    (hr : ∀ b ∈ r, b.val < 128 ∧ x.isContinue (b.val : Int) = true)
    (hrest : x.isContinue (tokenizer.first ⟨rest, 0⟩) = false) :
    tokenizer.Advance U ⟨48 :: x.letter :: (r ++ rest), 0⟩
      = .ok (⟨KindLiteral, (2 + r.length) % 4294967296,
          ⟨LiteralKindInteger, x.base, if r = [] then 1 else 0⟩⟩, ⟨rest, 0⟩) := by
  have hflag : setIf 0 (!(false || !r.isEmpty)) literalFlagEmptyInt = if r = [] then 1 else 0 := by
    cases r <;> rfl
  have harith : (((0 + 1) % 4294967296 + 1) % 4294967296 + r.length) % 4294967296
      = (2 + r.length) % 4294967296 := by
    omega
  have hn := nextToken_zero_letter U x (r ++ rest)
  rw [numericBase_run x.eat x.isContinue x.eat_eq x.base x.letter x.letter_lt r rest hr hrest]
    at hn
  rw [advance_of_nextToken U _ _ _ hn]
  dsimp only [Token.ofLiteral]
  rw [hflag, harith]

/-- The first token of any text that starts with `0` and a base letter is an
integer literal of that base. -/
theorem advance_base_prefix_kind (U : UnicodeTables) (x : BasePrefix) (tail : GoString) :
    ∃ len flags t1, tokenizer.Advance U ⟨48 :: x.letter :: tail, 0⟩
      = .ok (⟨KindLiteral, len, ⟨LiteralKindInteger, x.base, flags⟩⟩, t1) := by
  obtain ⟨found, t1, k, he, _⟩ := eatDigits_returns x.isContinue x.isContinue_eof
    ⟨tail, ((0 + 1) % 4294967296 + 1) % 4294967296⟩ (Nat.mod_lt _ (by decide))
  have hn : tokenizer.nextToken U ⟨48 :: x.letter :: tail, 0⟩
      = .ok (Token.ofLiteral LiteralKindInteger x.base (setIf 0 (!found) literalFlagEmptyInt),
        t1) := by
    rw [nextToken_zero_letter]
    unfold tokenizer.numericBase
    rw [bump_ascii _ _ _ x.letter_lt]
    dsimp only
    rw [x.eat_eq, he]
  exact ⟨_, _, _, advance_of_nextToken U _ _ _ hn⟩

/-- A text that starts with a dot starts with a Symbol token. -/
theorem advance_dot (U : UnicodeTables) (tail : GoString) :
    ∃ len t1, tokenizer.Advance U ⟨46 :: tail, 0⟩ = .ok (⟨KindSymbol, len, ⟨0, 0, 0⟩⟩, t1) := by
  obtain ⟨t1, k, he, _⟩ := eatSymbol_returns U ⟨tail, (0 + 1) % 4294967296⟩
    (Nat.mod_lt _ (by decide))
  have hn : tokenizer.nextToken U ⟨46 :: tail, 0⟩ = .ok (Token.ofKind KindSymbol, t1) := by
    unfold tokenizer.nextToken
    rw [bump_ascii 46 _ 0 (by decide)]
    dsimp only
    have h46 : ((46 : Byte).val : Int) = 46 := rfl
    rw [h46, if_neg (by decide), if_neg (by decide), isSymbolStart_latin1 U 46 (by decide),
      if_pos (by decide)]
    unfold tokenizer.symbol
    rw [he]
  exact ⟨_, _, advance_of_nextToken U _ _ _ hn⟩

theorem isContinue_first_rest (x : BasePrefix) (rest : GoString)
    (hrest : rest = [] ∨ ∀ b ∈ x.specDigitSet, tokenizer.first ⟨rest, 0⟩ ≠ (b.val : Int)) :
    x.isContinue (tokenizer.first ⟨rest, 0⟩) = false := by
  rcases hrest with h | h
  · rw [h, first_of_nil _ rfl]
    exact x.isContinue_eof
  · exact isContinue_of_not_mem x _ h

theorem isContinue_first_byte (x : BasePrefix) (c : Byte) (rest : GoString) (hc : c.val < 128)
    (hx : c ∉ x.specDigitSet) : x.isContinue (tokenizer.first ⟨c :: rest, 0⟩) = false := by
  rw [first_ascii c rest 0 hc]
  apply isContinue_of_not_mem
  intro b hb heq
  have hval : c.val = b.val := by exact_mod_cast heq
  exact hx (by rw [Fin.ext hval]; exact hb)

/-- The text `0b` followed by `n + 1` zeros is one binary integer without flag,
of length `n + 3` modulo `2^32`. -/
theorem advance_binary_zeros (U : UnicodeTables) (n : Nat) :
    tokenizer.Advance U ⟨48 :: 98 :: (List.replicate (n + 1) 48 ++ []), 0⟩
      = .ok (⟨KindLiteral, (2 + (n + 1)) % 4294967296, ⟨LiteralKindInteger, BaseBinary, 0⟩⟩,
        ⟨[], 0⟩) := by
  have hr : ∀ b ∈ List.replicate (n + 1) (48 : Byte),
      b.val < 128 ∧ BasePrefix.binary.isContinue (b.val : Int) = true := by
    intro b hb
    rw [List.eq_of_mem_replicate hb]
    decide
  have h := advance_base_prefixed U .binary (List.replicate (n + 1) 48) [] hr (by decide)
  have hne : List.replicate (n + 1) (48 : Byte) ≠ [] := by
    rw [List.replicate_succ]
    exact List.cons_ne_nil _ _
  rw [List.length_replicate, if_neg hne] at h
  exact h

/-- A token of a scanned shape that is an integer of base 10 has no flag. -/
theorem scanned_decimal_not_empty (token : Token) (h : token.scanned) (l : Literal)
    (i : Integer) (hl : token.Literal = .ok l) (hi : l.Integer = .ok i)
    (hb : i.Base = BaseDecimal) : i.EmptyInt = false := by
  unfold Token.Literal at hl
  by_cases hk : KindLiteral ≠ token.kind
  · rw [if_pos hk] at hl
    cases hl
  · rw [if_neg hk] at hl
    cases hl
    unfold Literal.Integer at hi
    by_cases hk2 : LiteralKindInteger ≠ token.literal.Kind
    · rw [if_pos hk2] at hi
      cases hi
    · rw [if_neg hk2] at hi
      cases hi
      have hk3 : token.literal.kind = LiteralKindInteger := (not_not.mp hk2).symm
      have hb1 : token.literal.base = BaseDecimal := hb
      rcases h with h | h | h | h
      · exact absurd h.2.1 (fun hne => hk (fun heq => hne heq.symm))
      · have hmem := h.2.2.1
        rw [hb1] at hmem
        exact absurd hmem (by decide)
      · show (token.literal.flags &&& literalFlagEmptyInt != 0) = false
        rw [h.2.2.2]
        rfl
      · have hmem := h.2.1
        rw [hk3] at hmem
        exact absurd hmem (by decide)

/-! ## Runes and bytes -/

theorem or_ge_left (a b : Nat) : a ≤ a ||| b :=
  Nat.le_of_testBit (by
    intro i h
    rw [Nat.testBit_or, h]
    rfl)

theorem or_ge_right (a b : Nat) : b ≤ a ||| b :=
  Nat.le_of_testBit (by
    intro i h
    rw [Nat.testBit_or, h]
    exact Bool.or_true _)

theorem utf8Rune2_ge (s0 s1 : Nat) (h : 2 ≤ s0 % 32) : 128 ≤ utf8Rune2 s0 s1 := by
  unfold utf8Rune2
  have h1 : s0 &&& 0x1F = s0 % 32 := Nat.and_pow_two_sub_one_eq_mod s0 5
  have hA : 128 ≤ (s0 &&& 0x1F) <<< 6 := by
    rw [h1, Nat.shiftLeft_eq]
    omega
  exact_mod_cast le_trans hA (or_ge_left _ _)

theorem utf8Rune3_ge (s0 s1 s2 : Nat) (h : 1 ≤ s0 % 16 ∨ 2 ≤ s1 % 64) :
    128 ≤ utf8Rune3 s0 s1 s2 := by
  unfold utf8Rune3
  have h0 : s0 &&& 0x0F = s0 % 16 := Nat.and_pow_two_sub_one_eq_mod s0 4
  have h1 : s1 &&& 0x3F = s1 % 64 := Nat.and_pow_two_sub_one_eq_mod s1 6
  have hA : 128 ≤ (s0 &&& 0x0F) <<< 12 ||| (s1 &&& 0x3F) <<< 6 := by
    rcases h with h | h
    · refine le_trans ?_ (or_ge_left _ _)
      rw [h0, Nat.shiftLeft_eq]
      omega
    · refine le_trans ?_ (or_ge_right _ _)
      rw [h1, Nat.shiftLeft_eq]
      omega
  exact_mod_cast le_trans hA (or_ge_left _ _)

theorem utf8Rune4_ge (s0 s1 s2 s3 : Nat) (h : 1 ≤ s0 % 8 ∨ 1 ≤ s1 % 64) :
    128 ≤ utf8Rune4 s0 s1 s2 s3 := by
  unfold utf8Rune4
  have h0 : s0 &&& 0x07 = s0 % 8 := Nat.and_pow_two_sub_one_eq_mod s0 3
  have h1 : s1 &&& 0x3F = s1 % 64 := Nat.and_pow_two_sub_one_eq_mod s1 6
  have hA : 128 ≤ (s0 &&& 0x07) <<< 18 ||| (s1 &&& 0x3F) <<< 12 := by
    rcases h with h | h
    · refine le_trans ?_ (or_ge_left _ _)
      rw [h0, Nat.shiftLeft_eq]
      omega
    · refine le_trans ?_ (or_ge_right _ _)
      rw [h1, Nat.shiftLeft_eq]
      omega
  exact_mod_cast le_trans (le_trans hA (or_ge_left _ _)) (or_ge_left _ _)

/-- What the table `first` says about a byte that is not ASCII. -/
theorem utf8First_high (b : Nat) (h : 128 ≤ b) :
    utf8First b = 0xF1
      ∨ (utf8First b = 0x02 ∧ 0xC2 ≤ b ∧ b < 0xE0)
      ∨ (utf8First b = 0x13 ∧ b = 0xE0)
      ∨ ((utf8First b = 0x03 ∨ utf8First b = 0x23) ∧ 0xE1 ≤ b ∧ b < 0xF0)
      ∨ (utf8First b = 0x34 ∧ b = 0xF0)
      ∨ ((utf8First b = 0x04 ∨ utf8First b = 0x44) ∧ 0xF1 ≤ b ∧ b < 0xF5) := by
  unfold utf8First
  rw [if_neg (by omega)]
  by_cases h2 : b < 0xC2
  · rw [if_pos h2]; omega
  rw [if_neg h2]
  by_cases h3 : b < 0xE0
  · rw [if_pos h3]; omega
  rw [if_neg h3]
  by_cases h4 : b = 0xE0
  · rw [if_pos h4]; omega
  rw [if_neg h4]
  by_cases h5 : b < 0xED
  · rw [if_pos h5]; omega
  rw [if_neg h5]
  by_cases h6 : b = 0xED
  · rw [if_pos h6]; omega
  rw [if_neg h6]
  by_cases h7 : b < 0xF0
  · rw [if_pos h7]; omega
  rw [if_neg h7]
  by_cases h8 : b = 0xF0
  · rw [if_pos h8]; omega
  rw [if_neg h8]
  by_cases h9 : b < 0xF4
  · rw [if_pos h9]; omega
  rw [if_neg h9]
  by_cases h10 : b = 0xF4
  · rw [if_pos h10]; omega
  rw [if_neg h10]; omega

theorem utf8AcceptRange_lo (x : Nat)
    (h : x = 0x02 ∨ x = 0x13 ∨ x = 0x03 ∨ x = 0x23 ∨ x = 0x34 ∨ x = 0x04 ∨ x = 0x44) :
    0x80 ≤ (utf8AcceptRange (x / 16)).1 ∧ (x = 0x13 → (utf8AcceptRange (x / 16)).1 = 0xA0)
      ∧ (x = 0x34 → (utf8AcceptRange (x / 16)).1 = 0x90)
      ∧ (utf8AcceptRange (x / 16)).2 ≤ 0xBF := by
  rcases h with h | h | h | h | h | h | h <;> subst h <;> decide

/-- A string whose first byte is not ASCII decodes to a rune that is not ASCII,
and every further byte of that rune's encoding is not ASCII either. -/
theorem decode_high (s : GoString) (hne : s ≠ []) (h : 128 ≤ byteAt s 0) :
    128 ≤ (DecodeRuneInString s).1
      ∧ ∀ i, 1 ≤ i → i < (DecodeRuneInString s).2 → 128 ≤ byteAt s i := by
  have hl : 0 < s.length := List.length_pos.mpr hne
  have hb : byteAt s 0 < 256 := (s.getD 0 0).isLt
  have key : ∀ d, d = DecodeRuneInString s →
      128 ≤ d.1 ∧ ∀ i, 1 ≤ i → i < d.2 → 128 ≤ byteAt s i := by
    intro d hd
    unfold DecodeRuneInString RuneError at hd
    dsimp only at hd
    rw [if_neg (by omega)] at hd
    have hf := utf8First_high (byteAt s 0) h
    by_cases hx : utf8First (byteAt s 0) ≥ 0xF0
    · rw [if_pos hx] at hd
      have hm : utf8First (byteAt s 0) % 2 = 1 := by omega
      rw [if_pos hm] at hd; subst hd; dsimp only
      exact ⟨by omega, fun i h1 h2 => by omega⟩
    rw [if_neg hx] at hd
    have hacc := utf8AcceptRange_lo (utf8First (byteAt s 0)) (by omega)
    generalize utf8AcceptRange (utf8First (byteAt s 0) / 16) = acc at *
    by_cases c1 : s.length < utf8First (byteAt s 0) % 8
    · rw [if_pos c1] at hd; subst hd; dsimp only
      exact ⟨by omega, fun i h1 h2 => by omega⟩
    rw [if_neg c1] at hd
    by_cases c2 : byteAt s 1 < acc.1 ∨ acc.2 < byteAt s 1
    · rw [if_pos c2] at hd; subst hd; dsimp only
      exact ⟨by omega, fun i h1 h2 => by omega⟩
    rw [if_neg c2] at hd
    by_cases c3 : utf8First (byteAt s 0) % 8 ≤ 2
    · rw [if_pos c3] at hd; subst hd; dsimp only
      refine ⟨utf8Rune2_ge _ _ (by omega), fun i h1 h2 => ?_⟩
      have hi : i = 1 := by omega
      subst hi
      omega
    rw [if_neg c3] at hd
    by_cases c4 : byteAt s 2 < 0x80 ∨ 0xBF < byteAt s 2
    · rw [if_pos c4] at hd; subst hd; dsimp only
      exact ⟨by omega, fun i h1 h2 => by omega⟩
    rw [if_neg c4] at hd
    by_cases c5 : utf8First (byteAt s 0) % 8 ≤ 3
    · rw [if_pos c5] at hd; subst hd; dsimp only
      refine ⟨utf8Rune3_ge _ _ _ (by omega), fun i h1 h2 => ?_⟩
      have hi : i = 1 ∨ i = 2 := by omega
      rcases hi with hi | hi <;> subst hi <;> omega
    rw [if_neg c5] at hd
    by_cases c6 : byteAt s 3 < 0x80 ∨ 0xBF < byteAt s 3
    · rw [if_pos c6] at hd; subst hd; dsimp only
      exact ⟨by omega, fun i h1 h2 => by omega⟩
    rw [if_neg c6] at hd
    subst hd; dsimp only
    refine ⟨utf8Rune4_ge _ _ _ _ (by omega), fun i h1 h2 => ?_⟩
    have hi : i = 1 ∨ i = 2 ∨ i = 3 := by omega
    rcases hi with hi | hi | hi <;> subst hi <;> omega
  exact key _ rfl

/-- A rune below 128 is read from one ASCII byte. -/
theorem decode_low (s : GoString) (hne : s ≠ []) (h : (DecodeRuneInString s).1 < 128) :
    ∃ b tl, s = b :: tl ∧ b.val < 128 ∧ (DecodeRuneInString s) = ((b.val : Int), 1) := by
  cases s with
  | nil => exact absurd rfl hne
  | cons b tl =>
    by_cases hb : b.val < 128
    · exact ⟨b, tl, rfl, hb, decode_ascii b tl hb⟩
    · have := (decode_high (b :: tl) hne (by show 128 ≤ b.val; omega)).1
      omega

/-! ## Longest runs of codepoints -/

theorem Codepoints.le_length {p : Int → Bool} {s : GoString} {k : Nat}
    (h : Codepoints p s k) : k ≤ s.length := by
  induction h with
  | nil s => exact Nat.zero_le _
  | cons s k hne hp _ ih =>
    have hb := (decode_bounds s hne).2.2
    rw [List.length_drop] at ih
    omega

/-- A run that stops at a codepoint failing the test (or at the end of the text)
is the longest one. -/
theorem Codepoints.le_of_stop {p : Int → Bool} {s : GoString} {k : Nat}
    (h : Codepoints p s k)
    (hstop : s.drop k = [] ∨ p (DecodeRuneInString (s.drop k)).1 = false) :
    ∀ j, Codepoints p s j → j ≤ k := by
  induction h with
  | nil s =>
    intro j hj
    cases hj with
    | nil => exact Nat.le_refl _
    | cons _ j hne hp _ =>
      rw [List.drop_zero] at hstop
      rcases hstop with h0 | h0
      · exact absurd h0 hne
      · rw [h0] at hp
        exact Bool.noConfusion hp
  | cons s k hne hp _ ih =>
    intro j hj
    rw [← List.drop_drop] at hstop
    cases hj with
    | nil => exact Nat.zero_le _
    | cons _ j _ _ hj1 =>
      have := ih hstop j hj1
      omega

/-- A loop `for pred(t.first()) { found = true; t.bump() }` consumes the longest
run of codepoints that pass the test. -/
theorem eatLoop_run (pred : Int → Bool) (hEOF : pred charEOF = false) :
    ∀ (fuel : Nat) (found : Bool) (t : tokenizer), t.s.length < fuel →
      t.posWithinTok < 4294967296 →
      ∃ k, t.eatLoop pred fuel found
          = .ok (found || decide (0 < k), ⟨t.s.drop k, (t.posWithinTok + k) % 4294967296⟩)
        ∧ Codepoints pred t.s k
        ∧ (t.s.drop k = [] ∨ pred (DecodeRuneInString (t.s.drop k)).1 = false) := by
  intro fuel
  induction fuel with
  | zero => intro _ t h; omega
  | succ n ih =>
    intro found t hlen hpos
    unfold tokenizer.eatLoop
    by_cases hp : pred t.first = true
    · rw [if_pos hp]
      have hne : t.s ≠ [] := by
        intro h0
        rw [first_of_nil t h0, hEOF] at hp
        exact Bool.noConfusion hp
      have hb := decode_bounds t.s hne
      rw [first_of_ne_nil t hne] at hp
      rw [bump_of_ne_nil t hne]
      dsimp only
      obtain ⟨k, he, hc, hs⟩ := ih true
        ⟨t.s.drop (DecodeRuneInString t.s).2,
          (t.posWithinTok + (DecodeRuneInString t.s).2) % 4294967296⟩
        (by simp only [List.length_drop]; omega) (Nat.mod_lt _ (by decide))
      refine ⟨(DecodeRuneInString t.s).2 + k, ?_, Codepoints.cons t.s k hne hp hc, ?_⟩
      · rw [he]
        have h1 : (true || decide (0 < k)) = (found || decide (0 < (DecodeRuneInString t.s).2 + k)) := by
          have : decide (0 < (DecodeRuneInString t.s).2 + k) = true := decide_eq_true (by omega)
          rw [this]
          simp
        have h2 : ((t.posWithinTok + (DecodeRuneInString t.s).2) % 4294967296 + k) % 4294967296
            = (t.posWithinTok + ((DecodeRuneInString t.s).2 + k)) % 4294967296 := by omega
        simp only [h1, h2, List.drop_drop]
      · rw [← List.drop_drop]
        exact hs
    · rw [if_neg hp]
      refine ⟨0, ?_, Codepoints.nil _, ?_⟩
      · simp [Nat.mod_eq_of_lt hpos]
      · by_cases h0 : t.s = []
        · left; simpa using h0
        · right
          rw [first_of_ne_nil t h0] at hp
          simpa using hp

/-- The loop in front of a given longest run consumes exactly that run. -/
theorem eatLoop_of_run (pred : Int → Bool) (hEOF : pred charEOF = false) (s : GoString)
    (k : Nat) (h : Codepoints pred s k)
    (hstop : s.drop k = [] ∨ pred (DecodeRuneInString (s.drop k)).1 = false) (fuel : Nat)
    (found : Bool) (p : Nat) (hfuel : s.length < fuel) (hp : p < 4294967296) :
    tokenizer.eatLoop pred fuel found ⟨s, p⟩
      = .ok (found || decide (0 < k), ⟨s.drop k, (p + k) % 4294967296⟩) := by
  obtain ⟨j, he, hc, hs⟩ := eatLoop_run pred hEOF fuel found ⟨s, p⟩ hfuel hp
  have h1 := h.le_of_stop hstop j hc
  have h2 := hc.le_of_stop hs k h
  have : j = k := by omega
  subst this
  exact he

/-- A run of ASCII bytes that pass the test is a run of codepoints. -/
theorem Codepoints.of_ascii (p : Int → Bool) :
    ∀ (r rest : GoString), (∀ b ∈ r, b.val < 128 ∧ p (b.val : Int) = true) →
      Codepoints p (r ++ rest) r.length := by
  intro r
  induction r with
  | nil => intro rest _; exact Codepoints.nil _
  | cons b r ih =>
    intro rest hr
    have hb := hr b (List.mem_cons_self b r)
    have hd := decode_ascii b (r ++ rest) hb.1
    have h1 := Codepoints.cons (b :: (r ++ rest)) r.length (List.cons_ne_nil _ _)
      (by rw [hd]; exact hb.2)
      (by rw [hd]; exact ih rest (fun c hc => hr c (List.mem_cons_of_mem b hc)))
    rw [hd] at h1
    rw [List.length_cons, Nat.add_comm]
    exact h1

/-! ## Decimal numbers -/

/-- A rune below 128 in front of the cursor is one ASCII byte of the text. -/
theorem first_low (s : GoString) (p : Nat) (c : Int) (h : tokenizer.first ⟨s, p⟩ = c)
    (h0 : 0 ≤ c) (h1 : c < 128) : ∃ b tl, s = b :: tl ∧ (b.val : Int) = c ∧ b.val < 128 := by
  have hne : s ≠ [] := by
    intro h2
    rw [first_of_nil _ h2] at h
    unfold charEOF at h
    omega
  rw [first_of_ne_nil _ hne] at h
  have h : (DecodeRuneInString s).1 = c := h
  obtain ⟨b, tl, hs, hb, hd⟩ := decode_low s hne (by show (DecodeRuneInString s).1 < 128; omega)
  refine ⟨b, tl, hs, ?_, hb⟩
  have : (DecodeRuneInString s).1 = (b.val : Int) := by rw [hd]
  show (b.val : Int) = c
  omega

theorem specDecimalRunSet_iff (b : Byte) :
    b ∈ specDecimalRunSet ↔ (b.val < 128 ∧ isDecimalContinue (b.val : Int) = true) := by
  simp only [specDecimalRunSet, List.mem_cons, List.mem_singleton, List.not_mem_nil,
    or_false, Fin.ext_iff, isDecimalContinue, isDecimal, Bool.or_eq_true, Bool.and_eq_true,
    beq_iff_eq, decide_eq_true_eq]
  have : ((95 : Fin 256) : Nat) = 95 := rfl
  omega

theorem inDecimalRun_iff (b : Byte) :
    inDecimalRun b = true ↔ (b.val < 128 ∧ isDecimalContinue (b.val : Int) = true) := by
  unfold inDecimalRun
  rw [decide_eq_true_eq]
  exact specDecimalRunSet_iff b

/-- The next rune continues a decimal digit run exactly when the next byte is a
character of such a run. -/
theorem isDecimalContinue_first (s : GoString) (p : Nat) :
    isDecimalContinue (tokenizer.first ⟨s, p⟩) = true
      ↔ ∃ b tl, s = b :: tl ∧ inDecimalRun b = true := by
  constructor
  · intro h
    have hr : 0 ≤ tokenizer.first ⟨s, p⟩ ∧ tokenizer.first ⟨s, p⟩ < 128 := by
      simp only [isDecimalContinue, isDecimal, Bool.or_eq_true, Bool.and_eq_true, beq_iff_eq,
        decide_eq_true_eq] at h
      omega
    obtain ⟨b, tl, hs, hb, hlt⟩ := first_low s p _ rfl hr.1 hr.2
    refine ⟨b, tl, hs, (inDecimalRun_iff b).mpr ⟨hlt, ?_⟩⟩
    rw [hb]
    exact h
  · rintro ⟨b, tl, hs, hb⟩
    have hb2 := (inDecimalRun_iff b).mp hb
    rw [hs, first_ascii b tl p hb2.1]
    exact hb2.2

theorem isDecimalContinue_first_false (s : GoString) (p : Nat)
    (h : ∀ b tl, s = b :: tl → inDecimalRun b = false) :
    isDecimalContinue (tokenizer.first ⟨s, p⟩) = false := by
  cases hc : isDecimalContinue (tokenizer.first ⟨s, p⟩) with
  | false => rfl
  | true =>
    obtain ⟨b, tl, hs, hb⟩ := (isDecimalContinue_first s p).mp hc
    rw [h b tl hs] at hb
    exact Bool.noConfusion hb

/-- Source: `second()` after an ASCII byte is the rune that follows it. -/
theorem second_ascii (b : Byte) (tl : GoString) (p : Nat) (hb : b.val < 128) :
    tokenizer.second ⟨b :: tl, p⟩ = .ok (tokenizer.first ⟨tl, 0⟩) := by
  unfold tokenizer.second
  cases tl with
  | nil => rfl
  | cons c tl =>
    rw [if_neg (by simp)]
    dsimp only
    rw [decode_ascii b (c :: tl) hb]
    rfl

theorem digit_dispatch (U : UnicodeTables) (c : Int) (h : 48 ≤ c ∧ c ≤ 57) :
    c ≠ charEOF ∧ isWhitespace c = false ∧ isSymbolStart U c = false ∧ isDecimal c = true := by
  refine ⟨by unfold charEOF; omega, ?_, ?_, ?_⟩
  · simp only [isWhitespace, Bool.or_eq_false_iff, beq_eq_false_iff_ne]
    omega
  · rw [isSymbolStart_latin1 U c (by omega)]
    simp only [isSymbolStart, latin1Tables, latin1IsLetter, Bool.or_eq_true, beq_iff_eq,
      decide_eq_true_eq, Bool.or_eq_false_iff, beq_eq_false_iff_ne]
    rw [if_neg (by omega)]
    simp only [Bool.or_eq_false_iff, beq_eq_false_iff_ne]
    omega
  · simp only [isDecimal, Bool.and_eq_true, decide_eq_true_eq]
    omega

/-- On a decimal digit `nextToken` goes to `numeric`. -/
theorem nextToken_digit (U : UnicodeTables) (d : Byte) (tail : GoString)
    (hd : 48 ≤ d.val ∧ d.val ≤ 57) :
    tokenizer.nextToken U ⟨d :: tail, 0⟩
      = tokenizer.numeric ⟨tail, (0 + 1) % 4294967296⟩ (d.val : Int) := by
  obtain ⟨h1, h2, h3, h4⟩ := digit_dispatch U (d.val : Int) (by omega)
  unfold tokenizer.nextToken
  rw [bump_ascii d _ 0 (by omega)]
  dsimp only
  rw [if_neg h1, h2, h3, h4, if_neg (by decide), if_neg (by decide), if_pos rfl]

theorem first_ne_of_head (s : GoString) (p : Nat) (c : Byte) (hc : c.val < 128)
    (h : ∀ tl, s ≠ c :: tl) : tokenizer.first ⟨s, p⟩ ≠ (c.val : Int) := by
  intro hf
  obtain ⟨b, tl, hs, hb, _⟩ := first_low s p _ hf (by omega) (by omega)
  have : b = c := Fin.ext (by exact_mod_cast hb)
  rw [this] at hs
  exact h tl hs

/-- The decimal digit eater in front of a digit run `r` followed by a byte that
is not of such a run consumes exactly `r`. -/
theorem eatDecimalDigits_run (r rest : GoString) (p : Nat)
    (hr : ∀ b ∈ r, inDecimalRun b = true)
    (hrest : ∀ b tl, rest = b :: tl → inDecimalRun b = false) (hp : p < 4294967296) :
    tokenizer.eatDecimalDigits ⟨r ++ rest, p⟩
      = .ok (!r.isEmpty, ⟨rest, (p + r.length) % 4294967296⟩) := by
  unfold tokenizer.eatDecimalDigits
  rw [eatLoop_ascii_run isDecimalContinue r rest _ false p
    (fun b hb => (inDecimalRun_iff b).mp (hr b hb))
    (isDecimalContinue_first_false rest 0 hrest) (by simp) hp]
  rfl

/-- Source: `numeric`, the `default` case after the digits: no dot and no exponent
marker follows, the token is a decimal integer. -/
theorem numericDecimal_integer (r rest : GoString) (p : Nat)
    (hr : ∀ b ∈ r, inDecimalRun b = true)
    (hrest : ∀ b tl, rest = b :: tl → inDecimalRun b = false) (hp : p < 4294967296)
    (h : ∀ b tl, rest = b :: tl → b ≠ 46 ∧ b ≠ 101 ∧ b ≠ 69) :
    tokenizer.numericDecimal ⟨r ++ rest, p⟩
      = .ok (Token.ofLiteral LiteralKindInteger BaseDecimal 0,
        ⟨rest, (p + r.length) % 4294967296⟩) := by
  unfold tokenizer.numericDecimal
  rw [eatDecimalDigits_run r rest p hr hrest hp]
  dsimp only
  have h1 : tokenizer.first ⟨rest, (p + r.length) % 4294967296⟩ ≠ 46 :=
    first_ne_of_head rest _ 46 (by decide) (fun tl hs => (h 46 tl hs).1 rfl)
  have h2 : tokenizer.first ⟨rest, (p + r.length) % 4294967296⟩ ≠ 101 :=
    first_ne_of_head rest _ 101 (by decide) (fun tl hs => (h 101 tl hs).2.1 rfl)
  have h3 : tokenizer.first ⟨rest, (p + r.length) % 4294967296⟩ ≠ 69 :=
    first_ne_of_head rest _ 69 (by decide) (fun tl hs => (h 69 tl hs).2.2 rfl)
  rw [if_neg h1, if_neg (fun h4 => h4.elim h2 h3)]

/-- Source: `numeric`, case `'.'` with `!t.isDecimalContinue(t.second())`: the dot is
left in the text and the token is a decimal integer. -/
theorem numericDecimal_trailing_dot (r rest : GoString) (p : Nat)
    (hr : ∀ b ∈ r, inDecimalRun b = true) (hp : p < 4294967296)
    (h : ∀ b tl, rest = b :: tl → inDecimalRun b = false) :
    tokenizer.numericDecimal ⟨r ++ 46 :: rest, p⟩
      = .ok (Token.ofLiteral LiteralKindInteger BaseDecimal 0,
        ⟨46 :: rest, (p + r.length) % 4294967296⟩) := by
  unfold tokenizer.numericDecimal
  rw [eatDecimalDigits_run r (46 :: rest) p hr
    (fun b tl hs => by cases hs; decide) hp]
  dsimp only
  have h46 : ((46 : Byte).val : Int) = 46 := rfl
  rw [first_ascii 46 rest _ (by decide), h46, if_pos rfl, second_ascii 46 rest _ (by decide)]
  dsimp only
  rw [isDecimalContinue_first_false rest 0 h]
  rfl

/-- Source: `numeric`, case `'.'` with a digit run `f` after the dot: the dot and the
run are consumed, the text goes on at `rest`. -/
theorem numericDecimal_fraction (r f rest : GoString) (p : Nat)
    (hr : ∀ b ∈ r, inDecimalRun b = true) (hf : ∀ b ∈ f, inDecimalRun b = true)
    (hne : f ≠ []) (hrest : ∀ b tl, rest = b :: tl → inDecimalRun b = false)
    (hp : p < 4294967296) :
    tokenizer.numericDecimal ⟨r ++ 46 :: (f ++ rest), p⟩
      = if tokenizer.first ⟨rest, (p + r.length + 1 + f.length) % 4294967296⟩ = 101
          ∨ tokenizer.first ⟨rest, (p + r.length + 1 + f.length) % 4294967296⟩ = 69 then
          tokenizer.numericExponent ⟨rest, (p + r.length + 1 + f.length) % 4294967296⟩
        else .ok (Token.ofLiteral LiteralKindFloat 0 0,
          ⟨rest, (p + r.length + 1 + f.length) % 4294967296⟩) := by
  unfold tokenizer.numericDecimal
  rw [eatDecimalDigits_run r (46 :: (f ++ rest)) p hr
    (fun b tl hs => by cases hs; decide) hp]
  dsimp only
  have h46 : ((46 : Byte).val : Int) = 46 := rfl
  rw [first_ascii 46 _ _ (by decide), h46, if_pos rfl, second_ascii 46 _ _ (by decide)]
  dsimp only
  have hc : isDecimalContinue (tokenizer.first ⟨f ++ rest, 0⟩) = true := by
    cases f with
    | nil => exact absurd rfl hne
    | cons b f =>
      exact (isDecimalContinue_first _ 0).mpr ⟨b, f ++ rest, rfl, hf b (List.mem_cons_self b f)⟩
  rw [hc]
  have harith : (((p + r.length) % 4294967296 + 1) % 4294967296 + f.length) % 4294967296
      = (p + r.length + 1 + f.length) % 4294967296 := by omega
  rw [if_neg (by decide), bump_ascii 46 _ _ (by decide)]
  dsimp only
  rw [eatDecimalDigits_run f rest _ hf hrest (Nat.mod_lt _ (by decide)), harith]

/-- Source: `numeric`, case `'e', 'E'` right after the digits. -/
theorem numericDecimal_exponent (r : GoString) (m : Byte) (rest : GoString) (p : Nat)
    (hr : ∀ b ∈ r, inDecimalRun b = true) (hm : m = 101 ∨ m = 69) (hp : p < 4294967296) :
    tokenizer.numericDecimal ⟨r ++ m :: rest, p⟩
      = tokenizer.numericExponent ⟨m :: rest, (p + r.length) % 4294967296⟩ := by
  have hm1 : m.val < 128 := by rcases hm with h | h <;> subst h <;> decide
  have hm2 : ((m.val : Int) = 101 ∨ (m.val : Int) = 69) ∧ (m.val : Int) ≠ 46 := by
    rcases hm with h | h <;> subst h <;> decide
  unfold tokenizer.numericDecimal
  rw [eatDecimalDigits_run r (m :: rest) p hr
    (fun b tl hs => by cases hs; rcases hm with h | h <;> subst h <;> decide) hp]
  dsimp only
  rw [first_ascii m rest _ hm1, if_neg hm2.2, if_pos hm2.1]

/-- Source: the exponent of `numeric`: the marker, an optional sign and a digit run
`x` are consumed; the flag is set exactly when `x` is empty. -/
theorem numericExponent_run (m : Byte) (sign x rest : GoString) (p : Nat) (hm : m.val < 128)
    (hsign : sign = [] ∨ sign = [43] ∨ sign = [45])
    (hnosign : sign = [] → ∀ b tl, x ++ rest = b :: tl → b ≠ 43 ∧ b ≠ 45)
    (hx : ∀ b ∈ x, inDecimalRun b = true)
    (hrest : ∀ b tl, rest = b :: tl → inDecimalRun b = false) :
    tokenizer.numericExponent ⟨m :: (sign ++ (x ++ rest)), p⟩
      = .ok (Token.ofLiteral LiteralKindFloat 0 (if x = [] then 1 else 0),
        ⟨rest, (p + 1 + sign.length + x.length) % 4294967296⟩) := by
  have hflag : setIf 0 (!(!x.isEmpty)) literalFlagEmptyExponent = if x = [] then 1 else 0 := by
    cases x <;> rfl
  unfold tokenizer.numericExponent
  rw [bump_ascii m _ p hm]
  dsimp only
  unfold tokenizer.eatFloatExponent
  rcases hsign with hs | hs | hs
  · subst hs
    have h1 : tokenizer.first ⟨x ++ rest, (p + 1) % 4294967296⟩ ≠ 43 :=
      first_ne_of_head (x ++ rest) _ 43 (by decide) (fun tl hs => (hnosign rfl 43 tl hs).1 rfl)
    have h2 : tokenizer.first ⟨x ++ rest, (p + 1) % 4294967296⟩ ≠ 45 :=
      first_ne_of_head (x ++ rest) _ 45 (by decide) (fun tl hs => (hnosign rfl 45 tl hs).2 rfl)
    have harith : ((p + 1) % 4294967296 + x.length) % 4294967296
        = (p + 1 + ([] : GoString).length + x.length) % 4294967296 := by
      simp only [List.length_nil]
      omega
    rw [List.nil_append, if_neg (fun h4 => h4.elim h1 h2),
      eatDecimalDigits_run x rest _ hx hrest (Nat.mod_lt _ (by decide))]
    dsimp only
    rw [hflag, harith]
  · subst hs
    have harith : (((p + 1) % 4294967296 + 1) % 4294967296 + x.length) % 4294967296
        = (p + 1 + ([43] : GoString).length + x.length) % 4294967296 := by
      simp only [List.length_singleton]
      omega
    have hc : ((43 : Byte).val : Int) = 43 := rfl
    rw [List.singleton_append, first_ascii 43 _ _ (by decide), hc, if_pos (Or.inl rfl),
      bump_ascii 43 _ _ (by decide)]
    dsimp only
    rw [eatDecimalDigits_run x rest _ hx hrest (Nat.mod_lt _ (by decide))]
    dsimp only
    rw [hflag, harith]
  · subst hs
    have harith : (((p + 1) % 4294967296 + 1) % 4294967296 + x.length) % 4294967296
        = (p + 1 + ([45] : GoString).length + x.length) % 4294967296 := by
      simp only [List.length_singleton]
      omega
    have hc : ((45 : Byte).val : Int) = 45 := rfl
    rw [List.singleton_append, first_ascii 45 _ _ (by decide), hc, if_pos (Or.inr rfl),
      bump_ascii 45 _ _ (by decide)]
    dsimp only
    rw [eatDecimalDigits_run x rest _ hx hrest (Nat.mod_lt _ (by decide))]
    dsimp only
    rw [hflag, harith]

/-- Source: `numeric` without a base prefix is the decimal part. -/
theorem numeric_decimal (t : tokenizer) (d : Int)
    (h : ¬(d = 48 ∧ (t.first = 98 ∨ t.first = 111 ∨ t.first = 120))) :
    t.numeric d = t.numericDecimal := by
  unfold tokenizer.numeric
  by_cases hd : d = 48
  · rw [if_pos hd]
    have h1 : ¬t.first = 98 := fun h1 => h ⟨hd, Or.inl h1⟩
    have h2 : ¬t.first = 111 := fun h1 => h ⟨hd, Or.inr (Or.inl h1)⟩
    have h3 : ¬t.first = 120 := fun h1 => h ⟨hd, Or.inr (Or.inr h1)⟩
    rw [if_neg h1, if_neg h2, if_neg h3]
  · rw [if_neg hd]

theorem span_run (p : Byte → Bool) (s : GoString) :
    ∃ r rest, s = r ++ rest ∧ (∀ b ∈ r, p b = true) ∧ (∀ b tl, rest = b :: tl → p b = false)
      ∧ s.takeWhile p = r ∧ s.dropWhile p = rest := by
  refine ⟨s.takeWhile p, s.dropWhile p, (List.takeWhile_append_dropWhile p s).symm,
    fun b hb => List.mem_takeWhile_imp hb, ?_, rfl, rfl⟩
  intro b tl hs
  have h := List.head?_dropWhile_not p s
  rw [hs] at h
  exact h

theorem numericExponent_float (t : tokenizer) (hpos : t.posWithinTok < 4294967296) :
    ∃ flags t1, t.numericExponent = .ok (Token.ofLiteral LiteralKindFloat 0 flags, t1) := by
  obtain ⟨c, t1, k, hb, hc⟩ := bump_returns t hpos
  obtain ⟨f, t2, k2, he, _⟩ := eatFloatExponent_returns t1 hc.pos_lt
  unfold tokenizer.numericExponent
  rw [hb]
  dsimp only
  rw [he]
  exact ⟨_, t2, rfl⟩

/-- The decimal part of `numeric` on a digit run `r` followed by `rest`: a Float
when the spec's condition holds of `rest`, the decimal integer without flag
otherwise. -/
theorem numericDecimal_kind (r rest : GoString) (p : Nat)
    (hr : ∀ b ∈ r, inDecimalRun b = true)
    (hrest : ∀ b tl, rest = b :: tl → inDecimalRun b = false) (hp : p < 4294967296) :
    ∃ tok t1, tokenizer.numericDecimal ⟨r ++ rest, p⟩ = .ok (tok, t1)
      ∧ tok.kind = KindLiteral
      ∧ (specFloatFollows rest = true → tok.literal.kind = LiteralKindFloat)
      ∧ (specFloatFollows rest = false
          → tok.literal = ⟨LiteralKindInteger, BaseDecimal, 0⟩) := by
  cases rest with
  | nil =>
    refine ⟨_, _, numericDecimal_integer r [] p hr hrest hp (fun b tl hs => by cases hs),
      rfl, fun h => absurd h (by decide), fun _ => rfl⟩
  | cons m tl =>
    by_cases h46 : m = 46
    · subst h46
      cases tl with
      | nil =>
        refine ⟨_, _, numericDecimal_trailing_dot r [] p hr hp (fun b tl hs => by cases hs),
          rfl, fun h => absurd h (by decide), fun _ => rfl⟩
      | cons c tl =>
        cases hc : inDecimalRun c with
        | false =>
          have hs : specFloatFollows (46 :: c :: tl) = false := by
            simp only [specFloatFollows, hc]
            decide
          refine ⟨_, _, numericDecimal_trailing_dot r (c :: tl) p hr hp
            (fun b tl hs => by cases hs; exact hc), rfl, fun h => ?_, fun _ => rfl⟩
          rw [hs] at h
          cases h
        | true =>
          have hs : specFloatFollows (46 :: c :: tl) = true := by
            simp only [specFloatFollows, hc]
            decide
          obtain ⟨f, rest2, hsp, hf, hrest2, _, _⟩ := span_run inDecimalRun (c :: tl)
          have hne : f ≠ [] := by
            intro h0
            rw [h0, List.nil_append] at hsp
            have := hrest2 c tl hsp.symm
            rw [hc] at this
            cases this
          have hn := numericDecimal_fraction r f rest2 p hr hf hne hrest2 hp
          rw [← hsp] at hn
          by_cases he : tokenizer.first ⟨rest2, (p + r.length + 1 + f.length) % 4294967296⟩ = 101
              ∨ tokenizer.first ⟨rest2, (p + r.length + 1 + f.length) % 4294967296⟩ = 69
          · rw [if_pos he] at hn
            obtain ⟨flags, t1, hx⟩ := numericExponent_float
              ⟨rest2, (p + r.length + 1 + f.length) % 4294967296⟩ (Nat.mod_lt _ (by decide))
            rw [hx] at hn
            refine ⟨_, _, hn, rfl, fun _ => rfl, fun h => ?_⟩
            rw [hs] at h
            cases h
          · rw [if_neg he] at hn
            refine ⟨_, _, hn, rfl, fun _ => rfl, fun h => ?_⟩
            rw [hs] at h
            cases h
    · by_cases hm : m = 101 ∨ m = 69
      · have hs : specFloatFollows (m :: tl) = true := by
          rcases hm with h | h <;> subst h <;> simp [specFloatFollows]
        have hn := numericDecimal_exponent r m tl p hr hm hp
        obtain ⟨flags, t1, hx⟩ := numericExponent_float
          ⟨m :: tl, (p + r.length) % 4294967296⟩ (Nat.mod_lt _ (by decide))
        rw [hx] at hn
        refine ⟨_, _, hn, rfl, fun _ => rfl, fun h => ?_⟩
        rw [hs] at h
        cases h
      · have hs : specFloatFollows (m :: tl) = false := by
          have h1 : (m == 46) = false := beq_false_of_ne h46
          have h2 : (m == 101) = false := beq_false_of_ne (fun h => hm (Or.inl h))
          have h3 : (m == 69) = false := beq_false_of_ne (fun h => hm (Or.inr h))
          simp only [specFloatFollows, h1, h2, h3]
          rfl
        refine ⟨_, _, numericDecimal_integer r (m :: tl) p hr hrest hp ?_, rfl, fun h => ?_,
          fun _ => rfl⟩
        · intro b tl2 hb
          cases hb
          exact ⟨h46, fun h => hm (Or.inl h), fun h => hm (Or.inr h)⟩
        · rw [hs] at h
          cases h

/-- A text that starts with a decimal digit and not with a base prefix goes to
the decimal part of `numeric`. -/
theorem nextToken_decimal (U : UnicodeTables) (d : Byte) (tail : GoString)
    (hd : 48 ≤ d.val ∧ d.val ≤ 57) (hnp : specBasePrefixed (d :: tail) = false) :
    tokenizer.nextToken U ⟨d :: tail, 0⟩
      = tokenizer.numericDecimal ⟨tail, (0 + 1) % 4294967296⟩ := by
  rw [nextToken_digit U d tail hd]
  apply numeric_decimal
  rintro ⟨h48, hl⟩
  have hd48 : d = 48 := Fin.ext (by exact_mod_cast h48)
  have key : ∀ c : Byte, c.val < 128 → (c == 98 || c == 111 || c == 120) = true →
      tokenizer.first ⟨tail, (0 + 1) % 4294967296⟩ ≠ (c.val : Int) := by
    intro c hc hc2
    apply first_ne_of_head _ _ c hc
    intro tl hs
    rw [hs, hd48] at hnp
    simp only [specBasePrefixed] at hnp
    rw [hc2] at hnp
    cases hnp
  rcases hl with h | h | h
  · exact key 98 (by decide) (by decide) h
  · exact key 111 (by decide) (by decide) h
  · exact key 120 (by decide) (by decide) h

/-! ## The views of a literal -/

theorem token_literal_eq (token : Token) (h : token.kind = KindLiteral) :
    token.Literal = .ok token.literal := by
  unfold Token.Literal
  rw [if_neg (fun hn => hn h.symm)]

theorem token_literal_ok (token : Token) (l : Literal) (h : token.Literal = .ok l) :
    token.kind = KindLiteral ∧ token.literal = l := by
  unfold Token.Literal at h
  by_cases hk : KindLiteral ≠ token.kind
  · rw [if_pos hk] at h
    cases h
  · rw [if_neg hk] at h
    cases h
    exact ⟨(not_not.mp hk).symm, rfl⟩

theorem literal_integer_eq (l : Literal) (h : l.kind = LiteralKindInteger) :
    l.Integer = .ok ⟨l⟩ := by
  unfold Literal.Integer
  rw [if_neg (fun hn => hn h.symm)]

theorem literal_integer_ok (l : Literal) (i : Integer) (h : l.Integer = .ok i) :
    l.kind = LiteralKindInteger ∧ i.l = l := by
  unfold Literal.Integer at h
  by_cases hk : LiteralKindInteger ≠ l.Kind
  · rw [if_pos hk] at h
    cases h
  · rw [if_neg hk] at h
    cases h
    exact ⟨(not_not.mp hk).symm, rfl⟩

theorem literal_float_eq (l : Literal) (h : l.kind = LiteralKindFloat) :
    l.Float = .ok ⟨l⟩ := by
  unfold Literal.Float
  rw [if_neg (fun hn => hn h.symm)]

theorem literal_float_ok (l : Literal) (f : Float) (h : l.Float = .ok f) :
    l.kind = LiteralKindFloat ∧ f.l = l := by
  unfold Literal.Float at h
  by_cases hk : LiteralKindFloat ≠ l.Kind
  · rw [if_pos hk] at h
    cases h
  · rw [if_neg hk] at h
    cases h
    exact ⟨(not_not.mp hk).symm, rfl⟩

theorem literal_string_eq (l : Literal) (h : l.kind = LiteralKindString) :
    l.String = .ok ⟨l⟩ := by
  unfold Literal.String
  rw [if_neg (fun hn => hn h.symm)]

theorem literal_string_ok (l : Literal) (x : String) (h : l.String = .ok x) :
    l.kind = LiteralKindString ∧ x.l = l := by
  unfold Literal.String at h
  by_cases hk : LiteralKindString ≠ l.Kind
  · rw [if_pos hk] at h
    cases h
  · rw [if_neg hk] at h
    cases h
    exact ⟨(not_not.mp hk).symm, rfl⟩

theorem literal_character_eq (l : Literal) (h : l.kind = LiteralKindCharacter) :
    l.Character = .ok ⟨l⟩ := by
  unfold Literal.Character
  rw [if_neg (fun hn => hn h.symm)]

theorem literal_character_ok (l : Literal) (x : Character) (h : l.Character = .ok x) :
    l.kind = LiteralKindCharacter ∧ x.l = l := by
  unfold Literal.Character at h
  by_cases hk : LiteralKindCharacter ≠ l.Kind
  · rw [if_pos hk] at h
    cases h
  · rw [if_neg hk] at h
    cases h
    exact ⟨(not_not.mp hk).symm, rfl⟩

/-- Every token `Tokenize` delivers has one of the scanned shapes. -/
theorem tokensOf_scanned (U : UnicodeTables) (s : GoString) :
    ∃ tokens, tokensOf U s = .ok tokens ∧ ∀ token ∈ tokens, token.scanned :=
  tokensOf_induction U (fun _ tokens => ∀ token ∈ tokens, token.scanned)
    (fun _ h => absurd h (List.not_mem_nil _))
    (by
      intro s token k rest _ _ _ _ _ hsc _ _ ih x hx
      rcases List.mem_cons.mp hx with h | h
      · rw [h]
        exact hsc
      · exact ih x h) s

/-- An integer of a scanned shape has one of the four bases. -/
theorem scanned_integer_base (token : Token) (h : token.scanned)
    (hk : token.literal.kind = LiteralKindInteger) (hl : token.kind = KindLiteral) :
    token.literal.base ∈ [BaseBinary, BaseOctal, BaseDecimal, BaseHexadecimal] := by
  rcases h with h | h | h | h
  · exact absurd hl h.2.1
  · have hm := h.2.2.1
    simp only [List.mem_cons, List.mem_singleton, List.not_mem_nil, or_false] at hm ⊢
    rcases hm with h1 | h1 | h1
    · exact Or.inl h1
    · exact Or.inr (Or.inl h1)
    · exact Or.inr (Or.inr (Or.inr h1))
  · rw [h.2.2.1]
    decide
  · have hm := h.2.1
    rw [hk] at hm
    exact absurd hm (by decide)

/-- The first token of a text that starts with a decimal digit and not with a
base prefix: a literal that is a Float when the spec's condition holds of what
follows the digit run, and the decimal integer without flag otherwise. -/
theorem advance_decimal (U : UnicodeTables) (d : Byte) (tail : GoString)
    (hd : 48 ≤ d.val ∧ d.val ≤ 57) (hnp : specBasePrefixed (d :: tail) = false) :
    ∃ len lit t1, tokenizer.Advance U ⟨d :: tail, 0⟩ = .ok (⟨KindLiteral, len, lit⟩, t1)
      ∧ (specFloatFollows (tail.dropWhile inDecimalRun) = true → lit.kind = LiteralKindFloat)
      ∧ (specFloatFollows (tail.dropWhile inDecimalRun) = false
          → lit = ⟨LiteralKindInteger, BaseDecimal, 0⟩) := by
  obtain ⟨r, rest, hs, hr, hrest, _, hdrop⟩ := span_run inDecimalRun tail
  obtain ⟨tok, t1, hn, hk, h1, h2⟩ :=
    numericDecimal_kind r rest ((0 + 1) % 4294967296) hr hrest (by decide)
  rw [← hs, ← nextToken_decimal U d tail hd hnp] at hn
  have ha := advance_of_nextToken U _ _ _ hn
  rw [hk] at ha
  rw [hdrop]
  exact ⟨_, _, _, ha, h1, h2⟩

theorem specBasePrefixed_letter (d : Byte) (tail : GoString)
    (h : specBasePrefixed (d :: tail) = true) :
    ∃ (x : BasePrefix) (tl : GoString), d :: tail = 48 :: x.letter :: tl := by
  cases tail with
  | nil => exact absurd h (by simp [specBasePrefixed])
  | cons m tl =>
    simp only [specBasePrefixed, Bool.and_eq_true, Bool.or_eq_true, beq_iff_eq] at h
    obtain ⟨h1, h2⟩ := h
    subst h1
    rcases h2 with (h2 | h2) | h2
    · exact ⟨.binary, tl, by rw [h2]; rfl⟩
    · exact ⟨.octal, tl, by rw [h2]; rfl⟩
    · exact ⟨.hexadecimal, tl, by rw [h2]; rfl⟩

/-! ## The kind of the token follows from the lead rune -/

theorem whitespace_shape (t : tokenizer) (tok : Token) (t1 : tokenizer)
    (h : t.whitespace = .ok (tok, t1)) : tok = Token.ofKind KindWhitespace := by
  unfold tokenizer.whitespace at h
  split at h
  · cases h
  · cases h
    rfl

theorem symbol_shape (U : UnicodeTables) (t : tokenizer) (tok : Token) (t1 : tokenizer)
    (h : t.symbol U = .ok (tok, t1)) : tok = Token.ofKind KindSymbol := by
  unfold tokenizer.symbol at h
  split at h
  · cases h
  · cases h
    rfl

theorem lineComment_shape (t : tokenizer) (tok : Token) (t1 : tokenizer)
    (h : t.lineComment = .ok (tok, t1)) : tok = Token.ofKind KindLineComment := by
  unfold tokenizer.lineComment at h
  split at h
  · cases h
  · cases h
    rfl

theorem numericBase_shape (eat : tokenizer → Run (Bool × tokenizer)) (base : Nat)
    (t : tokenizer) (tok : Token) (t1 : tokenizer)
    (h : t.numericBase eat base = .ok (tok, t1)) :
    tok.kind = KindLiteral ∧ tok.literal.kind = LiteralKindInteger := by
  unfold tokenizer.numericBase at h
  split at h
  · cases h
  · split at h
    · cases h
    · cases h
      exact ⟨rfl, rfl⟩

theorem numericExponent_shape (t : tokenizer) (tok : Token) (t1 : tokenizer)
    (h : t.numericExponent = .ok (tok, t1)) :
    tok.kind = KindLiteral ∧ tok.literal.kind = LiteralKindFloat := by
  unfold tokenizer.numericExponent at h
  split at h
  · cases h
  · split at h
    · cases h
    · cases h
      exact ⟨rfl, rfl⟩

theorem numericDecimal_shape (t : tokenizer) (tok : Token) (t1 : tokenizer)
    (h : t.numericDecimal = .ok (tok, t1)) :
    tok.kind = KindLiteral
      ∧ (tok.literal.kind = LiteralKindInteger ∨ tok.literal.kind = LiteralKindFloat) := by
  unfold tokenizer.numericDecimal at h
  split at h
  · cases h
  · split at h
    · split at h
      · cases h
      · split at h
        · cases h
          exact ⟨rfl, Or.inl rfl⟩
        · split at h
          · cases h
          · split at h
            · cases h
            · split at h
              · have := numericExponent_shape _ _ _ h
                exact ⟨this.1, Or.inr this.2⟩
              · cases h
                exact ⟨rfl, Or.inr rfl⟩
    · split at h
      · have := numericExponent_shape _ _ _ h
        exact ⟨this.1, Or.inr this.2⟩
      · cases h
        exact ⟨rfl, Or.inl rfl⟩

theorem numeric_shape (t : tokenizer) (d : Int) (tok : Token) (t1 : tokenizer)
    (h : t.numeric d = .ok (tok, t1)) :
    tok.kind = KindLiteral
      ∧ (tok.literal.kind = LiteralKindInteger ∨ tok.literal.kind = LiteralKindFloat) := by
  have hb : ∀ eat base, t.numericBase eat base = .ok (tok, t1) →
      tok.kind = KindLiteral
        ∧ (tok.literal.kind = LiteralKindInteger ∨ tok.literal.kind = LiteralKindFloat) :=
    fun eat base h1 =>
      ⟨(numericBase_shape eat base t tok t1 h1).1, Or.inl (numericBase_shape eat base t tok t1 h1).2⟩
  unfold tokenizer.numeric at h
  split at h
  · split at h
    · exact hb _ _ h
    · split at h
      · exact hb _ _ h
      · split at h
        · exact hb _ _ h
        · exact numericDecimal_shape t tok t1 h
  · exact numericDecimal_shape t tok t1 h

theorem character_shape (U : UnicodeTables) (t : tokenizer) (tok : Token) (t1 : tokenizer)
    (h : t.character U = .ok (tok, t1)) :
    tok.kind = KindLiteral ∧ tok.literal.kind = LiteralKindCharacter := by
  unfold tokenizer.character at h
  split at h
  · cases h
  · split at h
    · split at h
      · cases h
      · cases h
        exact ⟨rfl, rfl⟩
    · cases h
      exact ⟨rfl, rfl⟩

theorem stringLoop_shape : ∀ (fuel : Nat) (t : tokenizer) (tok : Token) (t1 : tokenizer),
    tokenizer.stringLoop fuel t = .ok (tok, t1) →
    tok.kind = KindLiteral ∧ tok.literal.kind = LiteralKindString := by
  intro fuel
  induction fuel with
  | zero =>
    intro t tok t1 h
    cases h
  | succ n ih =>
    intro t tok t1 h
    unfold tokenizer.stringLoop at h
    split at h
    · cases h
    · split at h
      · cases h
        exact ⟨rfl, rfl⟩
      · split at h
        · cases h
          exact ⟨rfl, rfl⟩
        · split at h
          · split at h
            · split at h
              · cases h
              · exact ih _ _ _ h
            · exact ih _ _ _ h
          · exact ih _ _ _ h

theorem string_shape (t : tokenizer) (tok : Token) (t1 : tokenizer)
    (h : t.string = .ok (tok, t1)) :
    tok.kind = KindLiteral ∧ tok.literal.kind = LiteralKindString :=
  stringLoop_shape _ t tok t1 h

theorem unquote_shape (t : tokenizer) (tok : Token) (t1 : tokenizer)
    (h : t.unquote = .ok (tok, t1)) : tok.kind ∈ punctuationKinds := by
  unfold tokenizer.unquote at h
  split at h
  · split at h
    · cases h
    · cases h
      decide
  · cases h
    decide

theorem shape_ite {c : Prop} [Decidable c] {a b : Run (Token × tokenizer)} {P : Prop}
    {x : Token × tokenizer} (h : (if c then a else b) = .ok x) (ha : c → a = .ok x → P)
    (hb : ¬c → b = .ok x → P) : P := by
  by_cases hc : c
  · rw [if_pos hc] at h
    exact ha hc h
  · rw [if_neg hc] at h
    exact hb hc h

theorem punctuation_shape (U : UnicodeTables) (t : tokenizer) (c : Int) (tok : Token)
    (t1 : tokenizer) (h : t.punctuation U c = .ok (tok, t1)) :
    (c = 92 → tok.kind = KindLiteral ∧ tok.literal.kind = LiteralKindCharacter)
      ∧ (c = 34 → tok.kind = KindLiteral ∧ tok.literal.kind = LiteralKindString)
      ∧ (c = 59 → tok.kind = KindLineComment)
      ∧ (c ≠ 92 → c ≠ 34 → c ≠ 59 → tok.kind ∈ punctuationKinds) := by
  unfold tokenizer.punctuation at h
  refine shape_ite h (fun hc h1 => ?_) (fun h92 h => ?_)
  · exact ⟨fun _ => character_shape U t tok t1 h1, fun h2 => by omega, fun h2 => by omega,
      fun h2 => absurd hc h2⟩
  refine shape_ite h (fun hc h1 => ?_) (fun h34 h => ?_)
  · exact ⟨fun h2 => by omega, fun _ => string_shape t tok t1 h1, fun h2 => by omega,
      fun _ h2 => absurd hc h2⟩
  refine shape_ite h (fun hc h1 => ?_) (fun h59 h => ?_)
  · refine ⟨fun h2 => by omega, fun h2 => by omega, fun _ => ?_, fun _ _ h2 => absurd hc h2⟩
    rw [lineComment_shape t tok t1 h1]
    rfl
  refine ⟨fun h2 => absurd h2 h92, fun h2 => absurd h2 h34, fun h2 => absurd h2 h59,
    fun _ _ _ => ?_⟩
  refine shape_ite h (fun _ h1 => by cases h1; decide) (fun _ h => ?_)
  refine shape_ite h (fun _ h1 => by cases h1; decide) (fun _ h => ?_)
  refine shape_ite h (fun _ h1 => by cases h1; decide) (fun _ h => ?_)
  refine shape_ite h (fun _ h1 => by cases h1; decide) (fun _ h => ?_)
  refine shape_ite h (fun _ h1 => by cases h1; decide) (fun _ h => ?_)
  refine shape_ite h (fun _ h1 => by cases h1; decide) (fun _ h => ?_)
  refine shape_ite h (fun _ h1 => by cases h1; decide) (fun _ h => ?_)
  refine shape_ite h (fun _ h1 => by cases h1; decide) (fun _ h => ?_)
  refine shape_ite h (fun _ h1 => by cases h1; decide) (fun _ h => ?_)
  refine shape_ite h (fun _ h1 => by cases h1; decide) (fun _ h => ?_)
  refine shape_ite h (fun _ h1 => by cases h1; decide) (fun _ h => ?_)
  refine shape_ite h (fun _ h1 => unquote_shape t tok t1 h1) (fun _ h => ?_)
  cases h
  decide

/-- Source: the dispatch of `nextToken` on the lead rune `c` of a text that is not
empty: the kind of the token follows from `c`. -/
theorem advance_lead (U : UnicodeTables) (s : GoString) (token : Token) (t1 : tokenizer)
    (hne : s ≠ []) (h : tokenizer.Advance U ⟨s, 0⟩ = .ok (token, t1)) :
    (isWhitespace (DecodeRuneInString s).1 = true → token.kind = KindWhitespace)
      ∧ (isWhitespace (DecodeRuneInString s).1 = false →
          isSymbolStart U (DecodeRuneInString s).1 = true → token.kind = KindSymbol)
      ∧ (isWhitespace (DecodeRuneInString s).1 = false →
          isSymbolStart U (DecodeRuneInString s).1 = false →
          isDecimal (DecodeRuneInString s).1 = true →
          token.kind = KindLiteral
            ∧ (token.literal.kind = LiteralKindInteger ∨ token.literal.kind = LiteralKindFloat))
      ∧ (isWhitespace (DecodeRuneInString s).1 = false →
          isSymbolStart U (DecodeRuneInString s).1 = false →
          isDecimal (DecodeRuneInString s).1 = false →
          ((DecodeRuneInString s).1 = 92 →
              token.kind = KindLiteral ∧ token.literal.kind = LiteralKindCharacter)
            ∧ ((DecodeRuneInString s).1 = 34 →
              token.kind = KindLiteral ∧ token.literal.kind = LiteralKindString)
            ∧ ((DecodeRuneInString s).1 = 59 → token.kind = KindLineComment)
            ∧ ((DecodeRuneInString s).1 ≠ 92 → (DecodeRuneInString s).1 ≠ 34 →
              (DecodeRuneInString s).1 ≠ 59 → token.kind ∈ punctuationKinds)) := by
  unfold tokenizer.Advance at h
  cases hn : tokenizer.nextToken U ⟨s, 0⟩ with
  | error e =>
    rw [hn] at h
    cases h
  | ok x =>
    obtain ⟨tok, t2⟩ := x
    rw [hn] at h
    cases h
    show (_ → tok.kind = _) ∧ (_ → _ → tok.kind = _)
      ∧ (_ → _ → _ → tok.kind = _ ∧ (tok.literal.kind = _ ∨ tok.literal.kind = _))
      ∧ (_ → _ → _ → (_ → tok.kind = _ ∧ tok.literal.kind = _)
        ∧ (_ → tok.kind = _ ∧ tok.literal.kind = _) ∧ (_ → tok.kind = _)
        ∧ (_ → _ → _ → tok.kind ∈ _))
    unfold tokenizer.nextToken at hn
    rw [bump_of_ne_nil ⟨s, 0⟩ hne] at hn
    dsimp only at hn
    have hc1 : (DecodeRuneInString s).1 ≠ charEOF := by
      have := (decode_bounds s hne).1
      unfold charEOF
      omega
    rw [if_neg hc1] at hn
    cases hw : isWhitespace (DecodeRuneInString s).1 with
    | true =>
      rw [hw, if_pos rfl] at hn
      refine ⟨fun _ => ?_, fun h1 => Bool.noConfusion h1, fun h1 => Bool.noConfusion h1,
        fun h1 => Bool.noConfusion h1⟩
      rw [whitespace_shape _ _ _ hn]
      rfl
    | false =>
      rw [hw, if_neg (by decide)] at hn
      cases hs : isSymbolStart U (DecodeRuneInString s).1 with
      | true =>
        rw [hs, if_pos rfl] at hn
        refine ⟨fun h1 => Bool.noConfusion h1, fun _ _ => ?_,
          fun _ h1 => Bool.noConfusion h1, fun _ h1 => Bool.noConfusion h1⟩
        rw [symbol_shape U _ _ _ hn]
        rfl
      | false =>
        rw [hs, if_neg (by decide)] at hn
        cases hd : isDecimal (DecodeRuneInString s).1 with
        | true =>
          rw [hd, if_pos rfl] at hn
          exact ⟨fun h1 => Bool.noConfusion h1, fun _ h1 => Bool.noConfusion h1,
            fun _ _ _ => numeric_shape _ _ _ _ hn, fun _ _ h1 => Bool.noConfusion h1⟩
        | false =>
          rw [hd, if_neg (by decide)] at hn
          exact ⟨fun h1 => Bool.noConfusion h1, fun _ h1 => Bool.noConfusion h1,
            fun _ _ h1 => Bool.noConfusion h1, fun _ _ _ => punctuation_shape U _ _ _ _ hn⟩

theorem punctuationKinds_not (k : Nat) (h : k ∈ punctuationKinds) :
    k ≠ KindLiteral ∧ k ≠ KindSymbol ∧ k ≠ KindWhitespace ∧ k ≠ KindLineComment := by
  simp only [punctuationKinds, List.mem_cons, List.mem_singleton, List.not_mem_nil,
    or_false] at h
  rcases h with h | h | h | h | h | h | h | h | h | h | h | h | h | h <;> subst h <;> decide

/-- A Whitespace token starts at a whitespace rune. -/
theorem advance_whitespace_lead (U : UnicodeTables) (s : GoString) (token : Token)
    (t1 : tokenizer) (hne : s ≠ []) (h : tokenizer.Advance U ⟨s, 0⟩ = .ok (token, t1))
    (hk : token.kind = KindWhitespace) : isWhitespace (DecodeRuneInString s).1 = true := by
  obtain ⟨_, h2, h3, h4⟩ := advance_lead U s token t1 hne h
  cases hw : isWhitespace (DecodeRuneInString s).1 with
  | true => rfl
  | false =>
    exfalso
    cases hs : isSymbolStart U (DecodeRuneInString s).1 with
    | true =>
      have := h2 hw hs
      rw [hk] at this
      exact absurd this (by decide)
    | false =>
      cases hd : isDecimal (DecodeRuneInString s).1 with
      | true =>
        have := (h3 hw hs hd).1
        rw [hk] at this
        exact absurd this (by decide)
      | false =>
        obtain ⟨p1, p2, p3, p4⟩ := h4 hw hs hd
        by_cases c1 : (DecodeRuneInString s).1 = 92
        · have := (p1 c1).1
          rw [hk] at this
          exact absurd this (by decide)
        by_cases c2 : (DecodeRuneInString s).1 = 34
        · have := (p2 c2).1
          rw [hk] at this
          exact absurd this (by decide)
        by_cases c3 : (DecodeRuneInString s).1 = 59
        · have := p3 c3
          rw [hk] at this
          exact absurd this (by decide)
        exact (punctuationKinds_not _ (p4 c1 c2 c3)).2.2.1 hk

/-- A Symbol token starts at a symbol-start rune that is not whitespace. -/
theorem advance_symbol_lead (U : UnicodeTables) (s : GoString) (token : Token)
    (t1 : tokenizer) (hne : s ≠ []) (h : tokenizer.Advance U ⟨s, 0⟩ = .ok (token, t1))
    (hk : token.kind = KindSymbol) :
    isWhitespace (DecodeRuneInString s).1 = false
      ∧ isSymbolStart U (DecodeRuneInString s).1 = true := by
  obtain ⟨h1, _, h3, h4⟩ := advance_lead U s token t1 hne h
  cases hw : isWhitespace (DecodeRuneInString s).1 with
  | true =>
    have := h1 hw
    rw [hk] at this
    exact absurd this (by decide)
  | false =>
    refine ⟨rfl, ?_⟩
    cases hs : isSymbolStart U (DecodeRuneInString s).1 with
    | true => rfl
    | false =>
      exfalso
      cases hd : isDecimal (DecodeRuneInString s).1 with
      | true =>
        have := (h3 hw hs hd).1
        rw [hk] at this
        exact absurd this (by decide)
      | false =>
        obtain ⟨p1, p2, p3, p4⟩ := h4 hw hs hd
        by_cases c1 : (DecodeRuneInString s).1 = 92
        · have := (p1 c1).1
          rw [hk] at this
          exact absurd this (by decide)
        by_cases c2 : (DecodeRuneInString s).1 = 34
        · have := (p2 c2).1
          rw [hk] at this
          exact absurd this (by decide)
        by_cases c3 : (DecodeRuneInString s).1 = 59
        · have := p3 c3
          rw [hk] at this
          exact absurd this (by decide)
        exact (punctuationKinds_not _ (p4 c1 c2 c3)).2.1 hk

/-- A literal starts at a decimal digit (Integer, Float), at a backslash
(Character) or at a double quote (String). -/
theorem advance_literal_lead (U : UnicodeTables) (s : GoString) (token : Token)
    (t1 : tokenizer) (hne : s ≠ []) (h : tokenizer.Advance U ⟨s, 0⟩ = .ok (token, t1))
    (hk : token.kind = KindLiteral) :
    (token.literal.kind = LiteralKindInteger ∨ token.literal.kind = LiteralKindFloat →
        ∃ d tail, s = d :: tail ∧ 48 ≤ d.val ∧ d.val ≤ 57)
      ∧ (token.literal.kind = LiteralKindCharacter → ∃ tail, s = 92 :: tail)
      ∧ (token.literal.kind = LiteralKindString → ∃ tail, s = 34 :: tail) := by
  obtain ⟨h1, h2, h3, h4⟩ := advance_lead U s token t1 hne h
  have hbyte : ∀ c : Byte, c.val < 128 → (DecodeRuneInString s).1 = (c.val : Int) →
      ∃ tail, s = c :: tail := by
    intro c hc he
    obtain ⟨b, tl, hs, hb, _⟩ := first_low s 0 (c.val : Int)
      (by rw [first_of_ne_nil _ hne]; exact he) (by omega) (by omega)
    have : b = c := Fin.ext (by exact_mod_cast hb)
    rw [this] at hs
    exact ⟨tl, hs⟩
  cases hw : isWhitespace (DecodeRuneInString s).1 with
  | true =>
    have := h1 hw
    rw [hk] at this
    exact absurd this (by decide)
  | false =>
    cases hs : isSymbolStart U (DecodeRuneInString s).1 with
    | true =>
      have := h2 hw hs
      rw [hk] at this
      exact absurd this (by decide)
    | false =>
      cases hd : isDecimal (DecodeRuneInString s).1 with
      | true =>
        have hkind := (h3 hw hs hd).2
        have hr : 48 ≤ (DecodeRuneInString s).1 ∧ (DecodeRuneInString s).1 ≤ 57 := by
          simp only [isDecimal, Bool.and_eq_true, decide_eq_true_eq] at hd
          omega
        refine ⟨fun _ => ?_, fun hc => ?_, fun hc => ?_⟩
        · have hf : tokenizer.first ⟨s, 0⟩ = (DecodeRuneInString s).1 :=
            first_of_ne_nil ⟨s, 0⟩ hne
          obtain ⟨b, tl, hsb, hb, _⟩ := first_low s 0 _ hf (by omega) (by omega)
          exact ⟨b, tl, hsb, by omega, by omega⟩
        · rw [hc] at hkind
          exact absurd hkind (by decide)
        · rw [hc] at hkind
          exact absurd hkind (by decide)
      | false =>
        obtain ⟨p1, p2, p3, p4⟩ := h4 hw hs hd
        by_cases c1 : (DecodeRuneInString s).1 = 92
        · have hkind := (p1 c1).2
          refine ⟨fun hc => ?_, fun _ => hbyte 92 (by decide) c1, fun hc => ?_⟩
          · rw [hkind] at hc
            exact absurd hc (by decide)
          · rw [hkind] at hc
            exact absurd hc (by decide)
        by_cases c2 : (DecodeRuneInString s).1 = 34
        · have hkind := (p2 c2).2
          refine ⟨fun hc => ?_, fun hc => ?_, fun _ => hbyte 34 (by decide) c2⟩
          · rw [hkind] at hc
            exact absurd hc (by decide)
          · rw [hkind] at hc
            exact absurd hc (by decide)
        exfalso
        by_cases c3 : (DecodeRuneInString s).1 = 59
        · have := p3 c3
          rw [hk] at this
          exact absurd this (by decide)
        exact (punctuationKinds_not _ (p4 c1 c2 c3)).1 hk

/-- A LineComment token starts at a semicolon. -/
theorem advance_lineComment_lead (U : UnicodeTables) (s : GoString) (token : Token)
    (t1 : tokenizer) (hne : s ≠ []) (h : tokenizer.Advance U ⟨s, 0⟩ = .ok (token, t1))
    (hk : token.kind = KindLineComment) : ∃ tail, s = 59 :: tail := by
  obtain ⟨h1, h2, h3, h4⟩ := advance_lead U s token t1 hne h
  cases hw : isWhitespace (DecodeRuneInString s).1 with
  | true =>
    have := h1 hw
    rw [hk] at this
    exact absurd this (by decide)
  | false =>
    cases hs : isSymbolStart U (DecodeRuneInString s).1 with
    | true =>
      have := h2 hw hs
      rw [hk] at this
      exact absurd this (by decide)
    | false =>
      cases hd : isDecimal (DecodeRuneInString s).1 with
      | true =>
        have := (h3 hw hs hd).1
        rw [hk] at this
        exact absurd this (by decide)
      | false =>
        obtain ⟨p1, p2, p3, p4⟩ := h4 hw hs hd
        by_cases c1 : (DecodeRuneInString s).1 = 92
        · have := (p1 c1).1
          rw [hk] at this
          exact absurd this (by decide)
        by_cases c2 : (DecodeRuneInString s).1 = 34
        · have := (p2 c2).1
          rw [hk] at this
          exact absurd this (by decide)
        by_cases c3 : (DecodeRuneInString s).1 = 59
        · obtain ⟨b, tl, hsb, hb, _⟩ := first_low s 0 59
            (by rw [first_of_ne_nil _ hne]; exact c3) (by omega) (by omega)
          have : b = 59 := Fin.ext (by exact_mod_cast hb)
          rw [this] at hsb
          exact ⟨tl, hsb⟩
        exact absurd hk (punctuationKinds_not _ (p4 c1 c2 c3)).2.2.2

/-! ## Decimal integers and floats -/

/-- After the first token `Tokenize` goes on with the rest of the text: the
tokens of `s` are the first token and the tokens of what `Advance` left. -/
theorem tokensOf_after (U : UnicodeTables) (s : GoString) (token : Token) (t1 : tokenizer)
    (hne : s ≠ []) (h : tokenizer.Advance U ⟨s, 0⟩ = .ok (token, t1)) :
    ∃ rest, tokensOf U t1.s = .ok rest ∧ tokensOf U s = .ok (token :: rest) := by
  obtain ⟨token1, k, hadv, hk1, hk2, _, hkind⟩ := advance_spec U s hne
  rw [h] at hadv
  cases hadv
  obtain ⟨rest, hrest, _⟩ := tokensOf_scanned U (s.drop k)
  refine ⟨rest, hrest, ?_⟩
  rw [tokensOf_cons U s token k h hk1 hk2 (publicKinds_ne_none _ (scanned_public _ hkind)),
    hrest]

theorem inDecimalRun_of_mem (b : Byte) (h : b ∈ specDecimalRunSet) : inDecimalRun b = true :=
  decide_eq_true h

theorem inDecimalRun_of_not_mem (b : Byte) (h : b ∉ specDecimalRunSet) :
    inDecimalRun b = false :=
  decide_eq_false h

/-- A digit followed by a digit run and a dot does not start with a base prefix. -/
theorem specBasePrefixed_run_dot (d : Byte) (r rest : GoString)
    (hr : ∀ b ∈ r, inDecimalRun b = true) :
    specBasePrefixed (d :: (r ++ 46 :: rest)) = false := by
  cases r with
  | nil =>
    simp only [List.nil_append, specBasePrefixed]
    have : ((46 : Byte) == 98 || (46 : Byte) == 111 || (46 : Byte) == 120) = false := by decide
    rw [this, Bool.and_false]
  | cons b r =>
    have hb := (inDecimalRun_iff b).mp (hr b (List.mem_cons_self b r))
    have h2 : (b == 98 || b == 111 || b == 120) = false := by
      have h3 := hb.2
      simp only [isDecimalContinue, isDecimal, Bool.or_eq_true, Bool.and_eq_true, beq_iff_eq,
        decide_eq_true_eq] at h3
      simp only [Bool.or_eq_false_iff, beq_eq_false_iff_ne, ne_eq, Fin.ext_iff]
      have h98 : ((98 : Byte) : Nat) = 98 := rfl
      have h111 : ((111 : Byte) : Nat) = 111 := rfl
      have h120 : ((120 : Byte) : Nat) = 120 := rfl
      omega
    simp only [List.cons_append, specBasePrefixed]
    rw [h2, Bool.and_false]

/-- The first token of a digit `d`, a digit run `r`, a dot and a rest that does
not go on with a character of a digit run: the decimal integer `d r`, of length
`1 + |r|` modulo `2^32`; the dot stays in the text. -/
theorem advance_trailing_dot (U : UnicodeTables) (d : Byte) (r rest : GoString)
    (hd : 48 ≤ d.val ∧ d.val ≤ 57) (hr : ∀ b ∈ r, inDecimalRun b = true)
    (hrest : ∀ b tl, rest = b :: tl → inDecimalRun b = false) :
    tokenizer.Advance U ⟨d :: (r ++ 46 :: rest), 0⟩
      = .ok (⟨KindLiteral, (1 + r.length) % 4294967296,
          ⟨LiteralKindInteger, BaseDecimal, 0⟩⟩, ⟨46 :: rest, 0⟩) := by
  have hn := nextToken_decimal U d (r ++ 46 :: rest) hd (specBasePrefixed_run_dot d r rest hr)
  rw [numericDecimal_trailing_dot r rest _ hr (by decide) hrest] at hn
  rw [advance_of_nextToken U _ _ _ hn]
  rfl

/-- The text of `n + 1` digits `1` and a dot starts with a decimal integer of
length `n + 1` modulo `2^32`. -/
theorem advance_ones_dot (U : UnicodeTables) (n : Nat) :
    tokenizer.Advance U ⟨49 :: (List.replicate n 49 ++ 46 :: []), 0⟩
      = .ok (⟨KindLiteral, (1 + n) % 4294967296, ⟨LiteralKindInteger, BaseDecimal, 0⟩⟩,
        ⟨46 :: [], 0⟩) := by
  have h := advance_trailing_dot U 49 (List.replicate n 49) [] (by decide)
    (fun b hb => by rw [List.eq_of_mem_replicate hb]; decide) (fun b tl hs => by cases hs)
  rw [List.length_replicate] at h
  exact h

/-- Source: the exponent of `numeric` against the spec's reading of it: the flag is
set exactly when the digit run after the marker and its sign is empty. -/
theorem numericExponent_spec (m : Byte) (e : GoString) (p : Nat) (hm : m = 101 ∨ m = 69) :
    ∃ x t1, specExponentDigits (m :: e) = some x
      ∧ tokenizer.numericExponent ⟨m :: e, p⟩
        = .ok (Token.ofLiteral LiteralKindFloat 0 (if x = [] then 1 else 0), t1) := by
  have hm1 : m.val < 128 := by rcases hm with h | h <;> subst h <;> decide
  have hm2 : (m == 101 || m == 69) = true := by rcases hm with h | h <;> subst h <;> decide
  have hspec : specExponentDigits (m :: e) = some ((match e with
        | [] => []
        | c :: tl => if c == 43 || c == 45 then tl else c :: tl).takeWhile inDecimalRun) := by
    simp only [specExponentDigits, hm2, if_true]
    rfl
  cases e with
  | nil =>
    exact ⟨[], _, by rw [hspec]; rfl,
      numericExponent_run m [] [] [] p hm1 (Or.inl rfl) (fun _ b tl hs => by cases hs)
        (fun b hb => absurd hb (List.not_mem_nil _)) (fun b tl hs => by cases hs)⟩
  | cons c tl =>
    by_cases hc : c = 43 ∨ c = 45
    · have hc2 : (c == 43 || c == 45) = true := by rcases hc with h | h <;> subst h <;> decide
      obtain ⟨x, rest, hsp, hx, hrest, htake, _⟩ := span_run inDecimalRun tl
      have hs : specExponentDigits (m :: c :: tl) = some x := by
        rw [hspec]
        simp only [hc2, if_true, htake]
      have := numericExponent_run m [c] x rest p hm1
        (by rcases hc with h | h <;> subst h <;> simp) (fun h => by cases h) hx hrest
      rw [← hsp] at this
      exact ⟨x, _, hs, this⟩
    · have hc2 : (c == 43 || c == 45) = false := by
        have h1 : (c == 43) = false := beq_false_of_ne (fun h => hc (Or.inl h))
        have h2 : (c == 45) = false := beq_false_of_ne (fun h => hc (Or.inr h))
        rw [h1, h2]
        rfl
      obtain ⟨x, rest, hsp, hx, hrest, htake, _⟩ := span_run inDecimalRun (c :: tl)
      have hs : specExponentDigits (m :: c :: tl) = some x := by
        rw [hspec]
        simp only [hc2]
        rw [if_neg (by decide), htake]
      have := numericExponent_run m [] x rest p hm1 (Or.inl rfl)
        (fun _ b tl2 hs => by
          rw [← hsp] at hs
          cases hs
          exact ⟨fun h => hc (Or.inl h), fun h => hc (Or.inr h)⟩) hx hrest
      rw [List.nil_append, ← hsp] at this
      exact ⟨x, _, hs, this⟩

/-- The decimal part of `numeric` where the spec's condition for a Float holds:
a Float whose flag is set exactly when the spec's exponent digit run is there
and empty. -/
theorem numericDecimal_float (r rest : GoString) (p : Nat)
    (hr : ∀ b ∈ r, inDecimalRun b = true)
    (hrest : ∀ b tl, rest = b :: tl → inDecimalRun b = false) (hp : p < 4294967296)
    (hfl : specFloatFollows rest = true) :
    ∃ flags t1, tokenizer.numericDecimal ⟨r ++ rest, p⟩
        = .ok (Token.ofLiteral LiteralKindFloat 0 flags, t1)
      ∧ flags ≤ 1 ∧ (flags = 1 ↔ specExponentDigits (specAfterFraction rest) = some []) := by
  have hflag : ∀ x : GoString, (if x = [] then 1 else 0) ≤ 1
      ∧ ((if x = [] then 1 else 0) = 1 ↔ some x = some ([] : GoString)) := by
    intro x
    cases x with
    | nil => exact ⟨by decide, by simp⟩
    | cons b x => exact ⟨by simp, by simp⟩
  have hexp : ∀ (after : GoString) (q : Nat),
      ∃ flags t1, (if tokenizer.first ⟨after, q⟩ = 101 ∨ tokenizer.first ⟨after, q⟩ = 69 then
            tokenizer.numericExponent ⟨after, q⟩
          else .ok (Token.ofLiteral LiteralKindFloat 0 0, ⟨after, q⟩))
          = .ok (Token.ofLiteral LiteralKindFloat 0 flags, t1)
        ∧ flags ≤ 1 ∧ (flags = 1 ↔ specExponentDigits after = some []) := by
    intro after q
    cases after with
    | nil =>
      refine ⟨0, ⟨[], q⟩, ?_, by decide, by simp [specExponentDigits]⟩
      rw [first_of_nil _ rfl, if_neg (by decide)]
    | cons m e =>
      by_cases hm : m = 101 ∨ m = 69
      · have hm1 : m.val < 128 := by rcases hm with h | h <;> subst h <;> decide
        have hm2 : (m.val : Int) = 101 ∨ (m.val : Int) = 69 := by
          rcases hm with h | h <;> subst h <;> decide
        obtain ⟨x, t1, hs, hn⟩ := numericExponent_spec m e q hm
        rw [first_ascii m e q hm1, if_pos hm2, hn, hs]
        exact ⟨_, t1, rfl, (hflag x).1, (hflag x).2⟩
      · have h1 : tokenizer.first ⟨m :: e, q⟩ ≠ 101 :=
          first_ne_of_head _ _ 101 (by decide)
            (fun tl hs => hm (Or.inl (by cases hs; rfl)))
        have h2 : tokenizer.first ⟨m :: e, q⟩ ≠ 69 :=
          first_ne_of_head _ _ 69 (by decide)
            (fun tl hs => hm (Or.inr (by cases hs; rfl)))
        have hs : specExponentDigits (m :: e) = none := by
          have e1 : (m == 101) = false := beq_false_of_ne (fun h => hm (Or.inl h))
          have e2 : (m == 69) = false := beq_false_of_ne (fun h => hm (Or.inr h))
          simp only [specExponentDigits, e1, e2]
          rfl
        rw [if_neg (fun h => h.elim h1 h2), hs]
        exact ⟨0, _, rfl, by decide, by simp⟩
  cases rest with
  | nil => exact absurd hfl (by decide)
  | cons m tl =>
    by_cases h46 : m = 46
    · subst h46
      cases tl with
      | nil => exact absurd hfl (by decide)
      | cons c tl =>
        cases hc : inDecimalRun c with
        | false =>
          have hs : specFloatFollows (46 :: c :: tl) = false := by
            simp only [specFloatFollows, hc]
            decide
          rw [hs] at hfl
          cases hfl
        | true =>
          obtain ⟨f, rest2, hsp, hf, hrest2, _, hdrop⟩ := span_run inDecimalRun (c :: tl)
          have hne : f ≠ [] := by
            intro h0
            rw [h0, List.nil_append] at hsp
            have := hrest2 c tl hsp.symm
            rw [hc] at this
            cases this
          have hn := numericDecimal_fraction r f rest2 p hr hf hne hrest2 hp
          rw [← hsp] at hn
          have haf : specAfterFraction (46 :: c :: tl) = rest2 := by
            simp only [specAfterFraction, hc]
            exact hdrop
          rw [hn, haf]
          exact hexp rest2 _
    · by_cases hm : m = 101 ∨ m = 69
      · have haf : specAfterFraction (m :: tl) = m :: tl := by
          have h1 : (m == 46) = false := beq_false_of_ne h46
          simp only [specAfterFraction, h1]
          rfl
        obtain ⟨x, t1, hs, hn⟩ := numericExponent_spec m tl ((p + r.length) % 4294967296) hm
        rw [numericDecimal_exponent r m tl p hr hm hp, hn, haf, hs]
        exact ⟨_, t1, rfl, (hflag x).1, (hflag x).2⟩
      · have hs : specFloatFollows (m :: tl) = false := by
          have h1 : (m == 46) = false := beq_false_of_ne h46
          have h2 : (m == 101) = false := beq_false_of_ne (fun h => hm (Or.inl h))
          have h3 : (m == 69) = false := beq_false_of_ne (fun h => hm (Or.inr h))
          simp only [specFloatFollows, h1, h2, h3]
          rfl
        rw [hs] at hfl
        cases hfl

/-- A text whose first token is a literal is not empty. -/
theorem advance_literal_ne_nil (U : UnicodeTables) (s : GoString) (token : Token)
    (t1 : tokenizer) (h : tokenizer.Advance U ⟨s, 0⟩ = .ok (token, t1))
    (hk : token.kind = KindLiteral) : s ≠ [] := by
  intro h0
  rw [h0, advance_nil] at h
  cases h
  exact absurd hk (by decide)

/-! ## Strings -/

/-- The rest after some units is a suffix of the text. -/
theorem StringUnits.suffix {s rest : GoString} (h : StringUnits s rest) :
    ∃ body, s = body ++ rest := by
  induction h with
  | done s => exact ⟨[], rfl⟩
  | char s rest hne _ _ _ ih =>
    obtain ⟨body, hb⟩ := ih
    refine ⟨s.take (DecodeRuneInString s).2 ++ body, ?_⟩
    rw [List.append_assoc, ← hb, List.take_append_drop]
  | escape s rest hne _ ih =>
    obtain ⟨body, hb⟩ := ih
    refine ⟨92 :: (s.take (DecodeRuneInString s).2 ++ body), ?_⟩
    rw [List.cons_append, List.append_assoc, ← hb, List.take_append_drop]

/-- Source: the loop of `string()` runs over units without returning. -/
theorem stringLoop_units {s rest : GoString} (h : StringUnits s rest) :
    ∀ (fuel p : Nat), s.length < fuel → p < 4294967296 →
      ∃ fuel1, rest.length < fuel1 ∧ rest.length ≤ s.length
        ∧ tokenizer.stringLoop fuel ⟨s, p⟩
          = tokenizer.stringLoop fuel1 ⟨rest, (p + (s.length - rest.length)) % 4294967296⟩ := by
  induction h with
  | done s =>
    intro fuel p hf hp
    refine ⟨fuel, hf, Nat.le_refl _, ?_⟩
    rw [Nat.sub_self, Nat.add_zero, Nat.mod_eq_of_lt hp]
  | char s rest hne h1 h2 _ ih =>
    intro fuel p hf hp
    have hb := decode_bounds s hne
    cases fuel with
    | zero => omega
    | succ n =>
      obtain ⟨fuel1, hf1, hle, he⟩ := ih n ((p + (DecodeRuneInString s).2) % 4294967296)
        (by rw [List.length_drop]; omega) (Nat.mod_lt _ (by decide))
      rw [List.length_drop] at hle he
      refine ⟨fuel1, hf1, by omega, ?_⟩
      have hc : (DecodeRuneInString s).1 ≠ charEOF := by unfold charEOF; omega
      have harith : ((p + (DecodeRuneInString s).2) % 4294967296
          + (s.length - (DecodeRuneInString s).2 - rest.length)) % 4294967296
          = (p + (s.length - rest.length)) % 4294967296 := by omega
      rw [tokenizer.stringLoop, bump_of_ne_nil ⟨s, p⟩ hne]
      dsimp only
      rw [if_neg hc, if_neg h1, if_neg h2, he, harith]
  | escape s rest hne _ ih =>
    intro fuel p hf hp
    have hb := decode_bounds s hne
    have hlen : (92 :: s).length = s.length + 1 := List.length_cons _ _
    rw [hlen] at hf ⊢
    cases fuel with
    | zero => omega
    | succ n =>
      have h92 : ((92 : Byte).val : Int) = 92 := rfl
      rw [tokenizer.stringLoop, bump_ascii 92 s p (by decide)]
      dsimp only
      rw [h92, if_neg (by decide), if_neg (by decide), if_pos rfl]
      by_cases hq : tokenizer.first ⟨s, (p + 1) % 4294967296⟩ = 34
          ∨ tokenizer.first ⟨s, (p + 1) % 4294967296⟩ = 92
      · rw [if_pos hq, bump_of_ne_nil ⟨s, (p + 1) % 4294967296⟩ hne]
        dsimp only
        obtain ⟨fuel1, hf1, hle, he⟩ := ih n
          (((p + 1) % 4294967296 + (DecodeRuneInString s).2) % 4294967296)
          (by rw [List.length_drop]; omega) (Nat.mod_lt _ (by decide))
        rw [List.length_drop] at hle he
        refine ⟨fuel1, hf1, by omega, ?_⟩
        have harith : (((p + 1) % 4294967296 + (DecodeRuneInString s).2) % 4294967296
            + (s.length - (DecodeRuneInString s).2 - rest.length)) % 4294967296
            = (p + (s.length + 1 - rest.length)) % 4294967296 := by omega
        rw [he, harith]
      · rw [if_neg hq]
        cases n with
        | zero => omega
        | succ m =>
          obtain ⟨fuel1, hf1, hle, he⟩ := ih m
            (((p + 1) % 4294967296 + (DecodeRuneInString s).2) % 4294967296)
            (by rw [List.length_drop]; omega) (Nat.mod_lt _ (by decide))
          rw [List.length_drop] at hle he
          refine ⟨fuel1, hf1, by omega, ?_⟩
          have hfirst : tokenizer.first ⟨s, (p + 1) % 4294967296⟩ = (DecodeRuneInString s).1 :=
            first_of_ne_nil _ hne
          rw [hfirst] at hq
          have hc : (DecodeRuneInString s).1 ≠ charEOF := by unfold charEOF; omega
          have harith : (((p + 1) % 4294967296 + (DecodeRuneInString s).2) % 4294967296
              + (s.length - (DecodeRuneInString s).2 - rest.length)) % 4294967296
              = (p + (s.length + 1 - rest.length)) % 4294967296 := by omega
          rw [tokenizer.stringLoop, bump_of_ne_nil ⟨s, (p + 1) % 4294967296⟩ hne]
          dsimp only
          rw [if_neg hc, if_neg (fun h => hq (Or.inl h)), if_neg (fun h => hq (Or.inr h)), he,
            harith]

/-- Source: `string()`, `case '"'`. -/
theorem stringLoop_quote (fuel : Nat) (rest : GoString) (p : Nat)
    (hf : (34 :: rest).length < fuel) :
    tokenizer.stringLoop fuel ⟨34 :: rest, p⟩
      = .ok (Token.ofLiteral LiteralKindString 0 0, ⟨rest, (p + 1) % 4294967296⟩) := by
  cases fuel with
  | zero => exact absurd hf (Nat.not_lt_zero _)
  | succ n =>
    have h34 : ((34 : Byte).val : Int) = 34 := rfl
    rw [tokenizer.stringLoop, bump_ascii 34 rest p (by decide)]
    dsimp only
    rw [h34, if_neg (by decide), if_pos rfl]

/-- Source: `string()`, `case charEOF`. -/
theorem stringLoop_eof (fuel : Nat) (p : Nat) (hf : 0 < fuel) :
    tokenizer.stringLoop fuel ⟨[], p⟩
      = .ok (Token.ofLiteral LiteralKindString 0 1, ⟨[], p⟩) := by
  cases fuel with
  | zero => exact absurd hf (Nat.lt_irrefl _)
  | succ n =>
    rw [tokenizer.stringLoop, bump_of_nil ⟨[], p⟩ rfl]
    dsimp only
    rw [if_pos rfl]
    rfl

/-- Source: `string()` on a backslash at the end of the text. -/
theorem stringLoop_backslash_eof (fuel : Nat) (p : Nat) (hf : ([92] : GoString).length < fuel) :
    tokenizer.stringLoop fuel ⟨[92], p⟩
      = .ok (Token.ofLiteral LiteralKindString 0 1, ⟨[], (p + 1) % 4294967296⟩) := by
  cases fuel with
  | zero => exact absurd hf (Nat.not_lt_zero _)
  | succ n =>
    have h92 : ((92 : Byte).val : Int) = 92 := rfl
    have hn : 0 < n := by
      simp only [List.length_singleton] at hf
      omega
    rw [tokenizer.stringLoop, bump_ascii 92 [] p (by decide)]
    dsimp only
    rw [h92, if_neg (by decide), if_neg (by decide), if_pos rfl, first_of_nil _ rfl,
      if_neg (by decide), stringLoop_eof n _ hn]

/-- Source: `string()` on units followed by a closing quote. -/
theorem string_closed (s rest : GoString) (p : Nat) (h : StringUnits s (34 :: rest))
    (hp : p < 4294967296) :
    tokenizer.string ⟨s, p⟩
      = .ok (Token.ofLiteral LiteralKindString 0 0,
        ⟨rest, (p + (s.length - rest.length)) % 4294967296⟩) := by
  obtain ⟨fuel1, hf1, hle, he⟩ := stringLoop_units h (s.length + 1) p (by omega) hp
  rw [List.length_cons] at hle he
  have harith : ((p + (s.length - (rest.length + 1))) % 4294967296 + 1) % 4294967296
      = (p + (s.length - rest.length)) % 4294967296 := by omega
  unfold tokenizer.string
  rw [he, stringLoop_quote fuel1 rest _ hf1, harith]

/-- Source: `string()` on units that reach the end of the text, a last lone backslash
included. -/
theorem string_open (s : GoString) (p : Nat) (h : StringUnits s [] ∨ StringUnits s [92])
    (hp : p < 4294967296) :
    tokenizer.string ⟨s, p⟩
      = .ok (Token.ofLiteral LiteralKindString 0 1, ⟨[], (p + s.length) % 4294967296⟩) := by
  unfold tokenizer.string
  rcases h with h | h
  · obtain ⟨fuel1, hf1, hle, he⟩ := stringLoop_units h (s.length + 1) p (by omega) hp
    rw [List.length_nil, Nat.sub_zero] at he
    rw [he, stringLoop_eof fuel1 _ (by omega)]
  · obtain ⟨fuel1, hf1, hle, he⟩ := stringLoop_units h (s.length + 1) p (by omega) hp
    rw [List.length_singleton] at hle he
    have harith : ((p + (s.length - 1)) % 4294967296 + 1) % 4294967296
        = (p + s.length) % 4294967296 := by omega
    rw [he, stringLoop_backslash_eof fuel1 _ hf1, harith]

/-- Every text is a sequence of string units up to the end of the text, up to a
last lone backslash, or up to a first unescaped closing quote. -/
theorem StringUnits.total : ∀ (n : Nat) (s : GoString), s.length ≤ n →
    StringUnits s [] ∨ StringUnits s [92] ∨ ∃ rest, StringUnits s (34 :: rest) := by
  intro n
  induction n with
  | zero =>
    intro s hs
    have : s = [] := List.length_eq_zero.mp (Nat.le_zero.mp hs)
    rw [this]
    exact Or.inl (StringUnits.done [])
  | succ n ih =>
    intro s hs
    by_cases hne : s = []
    · rw [hne]
      exact Or.inl (StringUnits.done [])
    have hb := decode_bounds s hne
    have lift : ∀ {s1 : GoString}, (∀ r, StringUnits s1 r → StringUnits s r) →
        (StringUnits s1 [] ∨ StringUnits s1 [92] ∨ ∃ rest, StringUnits s1 (34 :: rest)) →
        StringUnits s [] ∨ StringUnits s [92] ∨ ∃ rest, StringUnits s (34 :: rest) := by
      intro s1 f h
      rcases h with h | h | ⟨rest, h⟩
      · exact Or.inl (f _ h)
      · exact Or.inr (Or.inl (f _ h))
      · exact Or.inr (Or.inr ⟨rest, f _ h⟩)
    by_cases h34 : (DecodeRuneInString s).1 = 34
    · obtain ⟨b, tl, hsb, hbv, _⟩ := first_low s 0 34
        (by rw [first_of_ne_nil _ hne]; exact h34) (by decide) (by decide)
      have : b = 34 := Fin.ext (by exact_mod_cast hbv)
      rw [hsb, this]
      exact Or.inr (Or.inr ⟨tl, StringUnits.done _⟩)
    by_cases h92 : (DecodeRuneInString s).1 = 92
    · obtain ⟨b, tl, hsb, hbv, _⟩ := first_low s 0 92
        (by rw [first_of_ne_nil _ hne]; exact h92) (by decide) (by decide)
      have hb92 : b = 92 := Fin.ext (by exact_mod_cast hbv)
      rw [hb92] at hsb
      by_cases htl : tl = []
      · rw [hsb, htl]
        exact Or.inr (Or.inl (StringUnits.done _))
      · have hb2 := decode_bounds tl htl
        have hlen : (tl.drop (DecodeRuneInString tl).2).length ≤ n := by
          rw [hsb, List.length_cons] at hs
          rw [List.length_drop]
          omega
        have := ih _ hlen
        rw [hsb]
        rcases this with h | h | ⟨rest, h⟩
        · exact Or.inl (StringUnits.escape tl _ htl h)
        · exact Or.inr (Or.inl (StringUnits.escape tl _ htl h))
        · exact Or.inr (Or.inr ⟨rest, StringUnits.escape tl _ htl h⟩)
    · have hlen : (s.drop (DecodeRuneInString s).2).length ≤ n := by
        rw [List.length_drop]
        omega
      exact lift (fun r h => StringUnits.char s r hne h34 h92 h) (ih _ hlen)

/-- On a double quote `nextToken` goes to `string`. -/
theorem nextToken_quote (U : UnicodeTables) (s : GoString) :
    tokenizer.nextToken U ⟨34 :: s, 0⟩ = tokenizer.string ⟨s, (0 + 1) % 4294967296⟩ := by
  unfold tokenizer.nextToken
  rw [bump_ascii 34 _ 0 (by decide)]
  dsimp only
  have h34 : ((34 : Byte).val : Int) = 34 := rfl
  rw [h34, if_neg (by decide), if_neg (by decide), isSymbolStart_latin1 U 34 (by decide),
    if_neg (by decide), if_neg (by decide)]
  unfold tokenizer.punctuation
  rw [if_neg (by decide), if_pos rfl]

/-- The first token of a double quote, string units and a closing quote: a String
without flag that ends after the closing quote. -/
theorem advance_string_closed (U : UnicodeTables) (s rest : GoString)
    (h : StringUnits s (34 :: rest)) :
    tokenizer.Advance U ⟨34 :: s, 0⟩
      = .ok (⟨KindLiteral, (1 + (s.length - rest.length)) % 4294967296,
          ⟨LiteralKindString, 0, 0⟩⟩, ⟨rest, 0⟩) := by
  have hn := nextToken_quote U s
  rw [string_closed s rest _ h (by decide)] at hn
  rw [advance_of_nextToken U _ _ _ hn]
  rfl

/-- The first token of a double quote and string units up to the end of the text:
an unterminated String that takes the whole text. -/
theorem advance_string_open (U : UnicodeTables) (s : GoString)
    (h : StringUnits s [] ∨ StringUnits s [92]) :
    tokenizer.Advance U ⟨34 :: s, 0⟩
      = .ok (⟨KindLiteral, (1 + s.length) % 4294967296, ⟨LiteralKindString, 0, 1⟩⟩,
        ⟨[], 0⟩) := by
  have hn := nextToken_quote U s
  rw [string_open s _ h (by decide)] at hn
  rw [advance_of_nextToken U _ _ _ hn]
  rfl

/-- A token that takes the whole text is the only token. -/
theorem tokensOf_single (U : UnicodeTables) (s : GoString) (token : Token) (hne : s ≠ [])
    (h : tokenizer.Advance U ⟨s, 0⟩ = .ok (token, ⟨[], 0⟩)) : tokensOf U s = .ok [token] := by
  obtain ⟨rest, hr, hall⟩ := tokensOf_after U s token _ hne h
  have h0 : tokensOf U [] = .ok rest := hr
  rw [tokensOf_nil] at h0
  cases h0
  exact hall

/-- A run of the letter `a` and a closing quote is a sequence of string units
followed by the quote. -/
theorem StringUnits.of_quoted_letters (n : Nat) :
    StringUnits (List.replicate n 97 ++ [34]) [34] := by
  induction n with
  | zero => exact StringUnits.done _
  | succ n ih =>
    have hd := decode_ascii 97 (List.replicate n 97 ++ [34]) (by decide)
    rw [List.replicate_succ, List.cons_append]
    refine StringUnits.char _ _ (List.cons_ne_nil _ _) ?_ ?_ ?_
    · rw [hd]
      decide
    · rw [hd]
      decide
    · rw [hd]
      exact ih

/-- The text `"`, `n` letters `a`, `"` starts with a String without flag of
length `n + 2` modulo `2^32` that takes the whole text. -/
theorem advance_quoted_letters (U : UnicodeTables) (n : Nat) :
    tokenizer.Advance U ⟨34 :: (List.replicate n 97 ++ [34]), 0⟩
      = .ok (⟨KindLiteral, (n + 2) % 4294967296, ⟨LiteralKindString, 0, 0⟩⟩, ⟨[], 0⟩) := by
  have h := advance_string_closed U (List.replicate n 97 ++ [34]) [] (StringUnits.of_quoted_letters n)
  rw [List.length_append, List.length_replicate, List.length_singleton, List.length_nil,
    Nat.sub_zero, Nat.add_comm 1 (n + 1)] at h
  exact h

/-- Units that reach a closing quote do not reach the end of the text. -/
theorem StringUnits.closed_not_open (s rest : GoString) (h : StringUnits s (34 :: rest))
    (ho : StringUnits s [] ∨ StringUnits s [92]) : False := by
  have h1 := string_closed s rest 0 h (by decide)
  rw [string_open s 0 ho (by decide)] at h1
  cases h1

/-! ## Characters and symbols -/

/-- The width of a rune is at most 4 bytes. -/
theorem decode_size_le (s : GoString) : (DecodeRuneInString s).2 ≤ 4 := by
  have key : ∀ d, d = DecodeRuneInString s → d.2 ≤ 4 := by
    intro d hd
    unfold DecodeRuneInString at hd
    dsimp only at hd
    split at hd
    · subst hd; exact Nat.zero_le _
    split at hd
    · subst hd; dsimp only; omega
    split at hd
    · subst hd; dsimp only; omega
    split at hd
    · subst hd; dsimp only; omega
    split at hd
    · subst hd; dsimp only; omega
    split at hd
    · subst hd; dsimp only; omega
    split at hd
    · subst hd; dsimp only; omega
    split at hd
    · subst hd; dsimp only; omega
    · subst hd; dsimp only; omega
  exact key _ rfl

/-- On a backslash `nextToken` goes to `character`. -/
theorem nextToken_backslash (U : UnicodeTables) (s : GoString) :
    tokenizer.nextToken U ⟨92 :: s, 0⟩ = tokenizer.character U ⟨s, (0 + 1) % 4294967296⟩ := by
  unfold tokenizer.nextToken
  rw [bump_ascii 92 _ 0 (by decide)]
  dsimp only
  have h92 : ((92 : Byte).val : Int) = 92 := rfl
  rw [h92, if_neg (by decide), if_neg (by decide), isSymbolStart_latin1 U 92 (by decide),
    if_neg (by decide), if_neg (by decide)]
  unfold tokenizer.punctuation
  rw [if_pos rfl]

theorem isSymbolStart_eof (U : UnicodeTables) : isSymbolStart U charEOF = false := by
  rw [isSymbolStart_latin1 U charEOF (by decide)]
  decide

/-- Source: `character()` at the end of the text: `MissingCharacter` is set. -/
theorem character_eof (U : UnicodeTables) (p : Nat) :
    tokenizer.character U ⟨[], p⟩
      = .ok (Token.ofLiteral LiteralKindCharacter 0 1, ⟨[], p⟩) := by
  unfold tokenizer.character
  rw [bump_of_nil _ rfl]
  dsimp only
  rw [isSymbolStart_eof U, if_neg (by decide)]
  rfl

/-- Source: `character()` in front of a rune that does not start a symbol: that rune
alone is consumed. -/
theorem character_single (U : UnicodeTables) (s : GoString) (p : Nat) (hne : s ≠ [])
    (h : isSymbolStart U (DecodeRuneInString s).1 = false) :
    tokenizer.character U ⟨s, p⟩
      = .ok (Token.ofLiteral LiteralKindCharacter 0 0,
        ⟨s.drop (DecodeRuneInString s).2, (p + (DecodeRuneInString s).2) % 4294967296⟩) := by
  have hb := decode_bounds s hne
  have hc : (DecodeRuneInString s).1 ≠ charEOF := by unfold charEOF; omega
  have hflag : setIf 0 (decide ((DecodeRuneInString s).1 = charEOF)) literalFlagMissingChar
      = 0 := by
    rw [decide_eq_false hc]
    rfl
  unfold tokenizer.character
  rw [bump_of_ne_nil ⟨s, p⟩ hne]
  dsimp only
  rw [h, if_neg (by decide), hflag]

/-- Source: `character()` in front of a rune that starts a symbol: the rune and the
longest run of symbol-continue codepoints after it are consumed. -/
theorem character_symbol (U : UnicodeTables) (s : GoString) (p : Nat) (hne : s ≠ [])
    (h : isSymbolStart U (DecodeRuneInString s).1 = true) :
    ∃ k, tokenizer.character U ⟨s, p⟩
        = .ok (Token.ofLiteral LiteralKindCharacter 0 0,
          ⟨s.drop ((DecodeRuneInString s).2 + k),
            (p + ((DecodeRuneInString s).2 + k)) % 4294967296⟩)
      ∧ Codepoints (isSymbolContinue U) (s.drop (DecodeRuneInString s).2) k
      ∧ (s.drop ((DecodeRuneInString s).2 + k) = []
        ∨ isSymbolContinue U (DecodeRuneInString (s.drop ((DecodeRuneInString s).2 + k))).1
          = false) := by
  obtain ⟨k, he, hc, hs⟩ := eatLoop_run (isSymbolContinue U) (isSymbolContinue_eof U)
    ((s.drop (DecodeRuneInString s).2).length + 1) false
    ⟨s.drop (DecodeRuneInString s).2, (p + (DecodeRuneInString s).2) % 4294967296⟩
    (Nat.lt_succ_self _) (Nat.mod_lt _ (by decide))
  dsimp only at he hc hs
  rw [List.drop_drop] at he hs
  have harith : ((p + (DecodeRuneInString s).2) % 4294967296 + k) % 4294967296
      = (p + ((DecodeRuneInString s).2 + k)) % 4294967296 := by omega
  rw [harith] at he
  refine ⟨k, ?_, hc, ?_⟩
  · unfold tokenizer.character
    rw [bump_of_ne_nil ⟨s, p⟩ hne]
    dsimp only
    rw [h, if_pos rfl]
    unfold tokenizer.eatSymbol
    dsimp only
    rw [he]
  · exact hs

/-- The first token of a backslash at the end of the text. -/
theorem advance_backslash_eof (U : UnicodeTables) :
    tokenizer.Advance U ⟨[92], 0⟩
      = .ok (⟨KindLiteral, 1, ⟨LiteralKindCharacter, 0, 1⟩⟩, ⟨[], 0⟩) := by
  have hn := nextToken_backslash U []
  rw [character_eof] at hn
  rw [advance_of_nextToken U _ _ _ hn]
  rfl

/-- The first token of a backslash and a rune that does not start a symbol: the
Character of the backslash and that rune alone. -/
theorem advance_backslash_single (U : UnicodeTables) (s : GoString) (hne : s ≠ [])
    (h : isSymbolStart U (DecodeRuneInString s).1 = false) :
    tokenizer.Advance U ⟨92 :: s, 0⟩
      = .ok (⟨KindLiteral, 1 + (DecodeRuneInString s).2, ⟨LiteralKindCharacter, 0, 0⟩⟩,
        ⟨s.drop (DecodeRuneInString s).2, 0⟩) := by
  have hn := nextToken_backslash U s
  rw [character_single U s _ hne h] at hn
  rw [advance_of_nextToken U _ _ _ hn]
  have hsz := decode_size_le s
  have harith : ((0 + 1) % 4294967296 + (DecodeRuneInString s).2) % 4294967296
      = 1 + (DecodeRuneInString s).2 := by omega
  dsimp only [Token.ofLiteral]
  rw [harith]

/-- The first token of a backslash and a rune that starts a symbol: the Character
of the backslash, that rune and the longest run of symbol-continue codepoints
after it. -/
theorem advance_backslash_symbol (U : UnicodeTables) (s : GoString) (hne : s ≠ [])
    (h : isSymbolStart U (DecodeRuneInString s).1 = true) :
    ∃ k, tokenizer.Advance U ⟨92 :: s, 0⟩
        = .ok (⟨KindLiteral, (1 + ((DecodeRuneInString s).2 + k)) % 4294967296,
            ⟨LiteralKindCharacter, 0, 0⟩⟩, ⟨s.drop ((DecodeRuneInString s).2 + k), 0⟩)
      ∧ Codepoints (isSymbolContinue U) (s.drop (DecodeRuneInString s).2) k
      ∧ (s.drop ((DecodeRuneInString s).2 + k) = []
        ∨ isSymbolContinue U (DecodeRuneInString (s.drop ((DecodeRuneInString s).2 + k))).1
          = false) := by
  obtain ⟨k, hc, hcp, hs⟩ := character_symbol U s ((0 + 1) % 4294967296) hne h
  have hn := nextToken_backslash U s
  rw [hc] at hn
  refine ⟨k, ?_, hcp, hs⟩
  rw [advance_of_nextToken U _ _ _ hn]
  rfl

/-- The first token of a text whose lead rune starts a symbol and is not
whitespace: the Symbol of that rune and the longest run of symbol-continue
codepoints after it. -/
theorem advance_symbol (U : UnicodeTables) (s : GoString) (hne : s ≠ [])
    (hw : isWhitespace (DecodeRuneInString s).1 = false)
    (h : isSymbolStart U (DecodeRuneInString s).1 = true) :
    ∃ k, tokenizer.Advance U ⟨s, 0⟩
        = .ok (⟨KindSymbol, ((DecodeRuneInString s).2 + k) % 4294967296, ⟨0, 0, 0⟩⟩,
          ⟨s.drop ((DecodeRuneInString s).2 + k), 0⟩)
      ∧ Codepoints (isSymbolContinue U) (s.drop (DecodeRuneInString s).2) k
      ∧ (s.drop ((DecodeRuneInString s).2 + k) = []
        ∨ isSymbolContinue U (DecodeRuneInString (s.drop ((DecodeRuneInString s).2 + k))).1
          = false) := by
  have hb := decode_bounds s hne
  have hc1 : (DecodeRuneInString s).1 ≠ charEOF := by unfold charEOF; omega
  obtain ⟨k, he, hcp, hs⟩ := eatLoop_run (isSymbolContinue U) (isSymbolContinue_eof U)
    ((s.drop (DecodeRuneInString s).2).length + 1) false
    ⟨s.drop (DecodeRuneInString s).2, (0 + (DecodeRuneInString s).2) % 4294967296⟩
    (Nat.lt_succ_self _) (Nat.mod_lt _ (by decide))
  dsimp only at he hcp hs
  rw [List.drop_drop] at he hs
  have harith : ((0 + (DecodeRuneInString s).2) % 4294967296 + k) % 4294967296
      = ((DecodeRuneInString s).2 + k) % 4294967296 := by omega
  rw [harith] at he
  have hn : tokenizer.nextToken U ⟨s, 0⟩
      = .ok (Token.ofKind KindSymbol,
        ⟨s.drop ((DecodeRuneInString s).2 + k),
          ((DecodeRuneInString s).2 + k) % 4294967296⟩) := by
    unfold tokenizer.nextToken
    rw [bump_of_ne_nil ⟨s, 0⟩ hne]
    dsimp only
    rw [if_neg hc1, hw, if_neg (by decide), h, if_pos rfl]
    unfold tokenizer.symbol tokenizer.eatSymbol
    dsimp only
    rw [he]
  exact ⟨k, advance_of_nextToken U _ _ _ hn, hcp, hs⟩

/-- The text `\` followed by `n + 1` letters `a` is one Character of length
`n + 2` modulo `2^32`. -/
theorem advance_backslash_letters (U : UnicodeTables) (n : Nat) :
    tokenizer.Advance U ⟨92 :: (97 :: (List.replicate n 97 ++ [])), 0⟩
      = .ok (⟨KindLiteral, (n + 2) % 4294967296, ⟨LiteralKindCharacter, 0, 0⟩⟩, ⟨[], 0⟩) := by
  have hsym : isSymbolContinue U 97 = true := by
    rw [isSymbolContinue_latin1 U 97 (by decide)]
    decide
  have hstart : isSymbolStart U 97 = true := by
    rw [isSymbolStart_latin1 U 97 (by decide)]
    decide
  have hr : ∀ b ∈ List.replicate n (97 : Byte),
      b.val < 128 ∧ isSymbolContinue U (b.val : Int) = true := by
    intro b hb
    rw [List.eq_of_mem_replicate hb]
    exact ⟨by decide, hsym⟩
  have he := eatLoop_ascii_run (isSymbolContinue U) (List.replicate n 97) [] 
    ((List.replicate n (97 : Byte) ++ []).length + 1) false (((0 + 1) % 4294967296 + 1) % 4294967296)
    hr (by rw [first_of_nil _ rfl]; exact isSymbolContinue_eof U) (Nat.lt_succ_self _)
    (Nat.mod_lt _ (by decide))
  rw [List.length_replicate] at he
  have harith : (((0 + 1) % 4294967296 + 1) % 4294967296 + n) % 4294967296
      = (n + 2) % 4294967296 := by omega
  rw [harith] at he
  have hn : tokenizer.nextToken U ⟨92 :: (97 :: (List.replicate n 97 ++ [])), 0⟩
      = .ok (Token.ofLiteral LiteralKindCharacter 0 0, ⟨[], (n + 2) % 4294967296⟩) := by
    rw [nextToken_backslash]
    unfold tokenizer.character
    rw [bump_ascii 97 _ _ (by decide)]
    dsimp only
    have h97 : ((97 : Byte).val : Int) = 97 := rfl
    rw [h97, hstart, if_pos rfl]
    unfold tokenizer.eatSymbol
    dsimp only
    rw [he]
  exact advance_of_nextToken U _ _ _ hn

/-! ## Line comments and whitespace -/

/-- The bytes of a codepoint other than the ASCII character `b` do not contain
the byte `b`. -/
theorem decode_bytes_ne (s : GoString) (hne : s ≠ []) (b : Byte) (hb : b.val < 128)
    (hr : (DecodeRuneInString s).1 ≠ (b.val : Int)) :
    ∀ x ∈ s.take (DecodeRuneInString s).2, x ≠ b := by
  intro x hx hxb
  obtain ⟨i, hi, hget⟩ := List.mem_take_iff_getElem.mp hx
  have hi1 : i < (DecodeRuneInString s).2 := by omega
  have hi2 : i < s.length := by omega
  have hbyte : byteAt s i = x.val := by
    unfold byteAt
    rw [List.getD_eq_getElem s 0 hi2, hget]
  cases s with
  | nil => exact hne rfl
  | cons b0 tl =>
    by_cases h0 : b0.val < 128
    · rw [decode_ascii b0 tl h0] at hr hi1
      have hi0 : i = 0 := by
        have : i < 1 := hi1
        omega
      subst hi0
      have hx0 : x = b0 := hget.symm
      rw [hxb] at hx0
      rw [hx0] at hr
      exact hr rfl
    · have hhigh := decode_high (b0 :: tl) hne (by show 128 ≤ b0.val; omega)
      have hxv : x.val < 128 := by rw [hxb]; exact hb
      by_cases hi0 : i = 0
      · subst hi0
        have hx0 : x = b0 := hget.symm
        rw [hx0] at hxv
        exact h0 hxv
      · have := hhigh.2 i (by omega) hi1
        omega

/-- A run of codepoints other than the ASCII character `b` that stops at `b` or
at the end of the text is the text before the first byte `b`. -/
theorem Codepoints.before_byte (p : Int → Bool) (b : Byte) (hb : b.val < 128)
    (hp : ∀ c : Int, 0 ≤ c → (p c = false ↔ c = (b.val : Int))) {s : GoString} {k : Nat}
    (h : Codepoints p s k)
    (hstop : s.drop k = [] ∨ p (DecodeRuneInString (s.drop k)).1 = false) :
    k = (s.takeWhile (fun x => x != b)).length := by
  induction h with
  | nil s =>
    rw [List.drop_zero] at hstop
    by_cases hne : s = []
    · rw [hne]
      rfl
    · rcases hstop with h0 | h0
      · exact absurd h0 hne
      · have hc := (hp _ (decode_bounds s hne).1).mp h0
        obtain ⟨x, tl, hs, hx, _⟩ := first_low s 0 (b.val : Int)
          (by rw [first_of_ne_nil _ hne]; exact hc) (by omega) (by omega)
        have hxb : x = b := Fin.ext (by exact_mod_cast hx)
        rw [hs, hxb, List.takeWhile_cons]
        simp
  | cons s k hne hpc _ ih =>
    rw [← List.drop_drop] at hstop
    have hk := ih hstop
    have hr : (DecodeRuneInString s).1 ≠ (b.val : Int) := by
      intro hc
      have := (hp _ (decode_bounds s hne).1).mpr hc
      rw [this] at hpc
      exact Bool.noConfusion hpc
    have hbytes := decode_bytes_ne s hne b hb hr
    have hsplit : s = s.take (DecodeRuneInString s).2 ++ s.drop (DecodeRuneInString s).2 :=
      (List.take_append_drop _ _).symm
    have htw : s.takeWhile (fun x => x != b)
        = s.take (DecodeRuneInString s).2
          ++ (s.drop (DecodeRuneInString s).2).takeWhile (fun x => x != b) := by
      conv_lhs => rw [hsplit]
      exact List.takeWhile_append_of_pos (fun a ha => by simpa using hbytes a ha)
    have hlen : (s.take (DecodeRuneInString s).2).length = (DecodeRuneInString s).2 := by
      rw [List.length_take]
      have := (decode_bounds s hne).2.2
      omega
    rw [htw, List.length_append, hlen, ← hk]

theorem isCommentContinue_iff (c : Int) (hc : 0 ≤ c) :
    isCommentContinue c = false ↔ c = ((10 : Byte).val : Int) := by
  have h10 : ((10 : Byte).val : Int) = 10 := rfl
  rw [h10]
  simp only [isCommentContinue, Bool.not_eq_false', Bool.or_eq_true, beq_iff_eq]
  unfold charEOF
  omega

/-- On a semicolon `nextToken` goes to `lineComment`. -/
theorem nextToken_semicolon (U : UnicodeTables) (s : GoString) :
    tokenizer.nextToken U ⟨59 :: s, 0⟩ = tokenizer.lineComment ⟨s, (0 + 1) % 4294967296⟩ := by
  unfold tokenizer.nextToken
  rw [bump_ascii 59 _ 0 (by decide)]
  dsimp only
  have h59 : ((59 : Byte).val : Int) = 59 := rfl
  rw [h59, if_neg (by decide), if_neg (by decide), isSymbolStart_latin1 U 59 (by decide),
    if_neg (by decide), if_neg (by decide)]
  unfold tokenizer.punctuation
  rw [if_neg (by decide), if_neg (by decide), if_pos rfl]

/-- The first token of a text that starts with a semicolon: the LineComment that
takes the bytes before the first line feed (byte 10), all bytes when there is
none. -/
theorem advance_lineComment (U : UnicodeTables) (tail : GoString) :
    tokenizer.Advance U ⟨59 :: tail, 0⟩
      = .ok (⟨KindLineComment,
          ((59 :: tail).takeWhile (fun x => x != 10)).length % 4294967296, ⟨0, 0, 0⟩⟩,
        ⟨(59 :: tail).drop ((59 :: tail).takeWhile (fun x => x != 10)).length, 0⟩) := by
  obtain ⟨k, he, hcp, hstop⟩ := eatLoop_run isCommentContinue (by decide) (tail.length + 1)
    false ⟨tail, (0 + 1) % 4294967296⟩ (Nat.lt_succ_self _) (Nat.mod_lt _ (by decide))
  dsimp only at he hcp hstop
  have hk := Codepoints.before_byte isCommentContinue 10 (by decide) isCommentContinue_iff hcp
    hstop
  have htw : ((59 : Byte) :: tail).takeWhile (fun x => x != 10)
      = 59 :: tail.takeWhile (fun x => x != 10) := by
    rw [List.takeWhile_cons]
    rfl
  have hn : tokenizer.nextToken U ⟨59 :: tail, 0⟩
      = .ok (Token.ofKind KindLineComment,
        ⟨tail.drop k, ((0 + 1) % 4294967296 + k) % 4294967296⟩) := by
    rw [nextToken_semicolon]
    unfold tokenizer.lineComment
    dsimp only
    rw [he]
  rw [advance_of_nextToken U _ _ _ hn, htw, List.length_cons, List.drop_succ_cons, ← hk]
  have harith : ((0 + 1) % 4294967296 + k) % 4294967296 = (k + 1) % 4294967296 := by omega
  dsimp only [Token.ofKind]
  rw [harith]

theorem isWhitespace_eq_spec : isWhitespace = inWhitespaceSet := by
  funext c
  simp only [isWhitespace, inWhitespaceSet, specWhitespaceSet, List.mem_cons,
    List.mem_singleton, List.not_mem_nil, or_false]
  rw [Bool.eq_iff_iff]
  simp only [Bool.or_eq_true, beq_iff_eq, decide_eq_true_eq]
  omega

theorem isSymbolStart_eq_spec (U : UnicodeTables) : isSymbolStart U = specSymbolStart U := by
  funext c
  unfold isSymbolStart specSymbolStart
  cases U.IsLetter c with
  | true => rfl
  | false =>
    rw [if_neg (by decide), Bool.false_or, Bool.eq_iff_iff]
    simp only [specSymbolPunctuation, List.mem_cons, List.mem_singleton, List.not_mem_nil,
      or_false, Bool.or_eq_true, beq_iff_eq, decide_eq_true_eq]
    omega

theorem isSymbolContinue_eq_spec (U : UnicodeTables) :
    isSymbolContinue U = specSymbolContinue U := by
  funext c
  unfold isSymbolContinue specSymbolContinue
  rw [isSymbolStart_eq_spec U]
  cases specSymbolStart U c with
  | true => rfl
  | false =>
    cases U.IsDigit c with
    | true => rfl
    | false => rfl

theorem latin1_whitespaceNotLetter : latin1Tables.whitespaceNotLetter := by
  intro c h
  simp only [isWhitespace, Bool.or_eq_true, beq_iff_eq] at h
  show latin1IsLetter c = false
  simp only [latin1IsLetter, Bool.or_eq_false_iff, decide_eq_false_iff_not,
    beq_eq_false_iff_ne]
  omega

/-- With tables in which no whitespace rune is a letter, a symbol-start rune is
not whitespace. -/
theorem isWhitespace_of_symbolStart (U : UnicodeTables) (hU : U.whitespaceNotLetter) (c : Int)
    (h : isSymbolStart U c = true) : isWhitespace c = false := by
  cases hw : isWhitespace c with
  | false => rfl
  | true =>
    have hl := hU c hw
    unfold isSymbolStart at h
    rw [hl, if_neg (by decide)] at h
    simp only [isWhitespace, Bool.or_eq_true, beq_iff_eq] at hw
    simp only [Bool.or_eq_true, beq_iff_eq] at h
    omega

/-- The first token of a text whose lead rune is whitespace: the Whitespace of
that rune and the longest run of whitespace codepoints after it. -/
theorem advance_whitespace (U : UnicodeTables) (s : GoString) (hne : s ≠ [])
    (hw : isWhitespace (DecodeRuneInString s).1 = true) :
    ∃ k, tokenizer.Advance U ⟨s, 0⟩
        = .ok (⟨KindWhitespace, ((DecodeRuneInString s).2 + k) % 4294967296, ⟨0, 0, 0⟩⟩,
          ⟨s.drop ((DecodeRuneInString s).2 + k), 0⟩)
      ∧ Codepoints isWhitespace (s.drop (DecodeRuneInString s).2) k
      ∧ (s.drop ((DecodeRuneInString s).2 + k) = []
        ∨ isWhitespace (DecodeRuneInString (s.drop ((DecodeRuneInString s).2 + k))).1
          = false) := by
  have hb := decode_bounds s hne
  have hc1 : (DecodeRuneInString s).1 ≠ charEOF := by unfold charEOF; omega
  obtain ⟨k, he, hcp, hs⟩ := eatLoop_run isWhitespace (by decide)
    ((s.drop (DecodeRuneInString s).2).length + 1) false
    ⟨s.drop (DecodeRuneInString s).2, (0 + (DecodeRuneInString s).2) % 4294967296⟩
    (Nat.lt_succ_self _) (Nat.mod_lt _ (by decide))
  dsimp only at he hcp hs
  rw [List.drop_drop] at he hs
  have harith : ((0 + (DecodeRuneInString s).2) % 4294967296 + k) % 4294967296
      = ((DecodeRuneInString s).2 + k) % 4294967296 := by omega
  rw [harith] at he
  have hn : tokenizer.nextToken U ⟨s, 0⟩
      = .ok (Token.ofKind KindWhitespace,
        ⟨s.drop ((DecodeRuneInString s).2 + k),
          ((DecodeRuneInString s).2 + k) % 4294967296⟩) := by
    unfold tokenizer.nextToken
    rw [bump_of_ne_nil ⟨s, 0⟩ hne]
    dsimp only
    rw [if_neg hc1, hw, if_pos rfl]
    unfold tokenizer.whitespace
    dsimp only
    rw [he]
  exact ⟨k, advance_of_nextToken U _ _ _ hn, hcp, hs⟩

/-- A text whose first token is not the sentinel is not empty. -/
theorem advance_ne_nil (U : UnicodeTables) (s : GoString) (token : Token) (t1 : tokenizer)
    (h : tokenizer.Advance U ⟨s, 0⟩ = .ok (token, t1)) (hk : token.kind ≠ kindNone) :
    s ≠ [] := by
  intro h0
  rw [h0, advance_nil] at h
  cases h
  exact hk rfl

/-- Two tokens of `Tokenize` that follow each other are not both of kind `kind`,
when a token of that kind starts at a rune passing `start` and ends before a
rune failing it. -/
theorem tokensOf_not_adjacent (U : UnicodeTables) (kind : Nat) (start : Int → Bool)
    (hlead : ∀ (s : GoString) (token : Token) (t1 : tokenizer), s ≠ [] →
      tokenizer.Advance U ⟨s, 0⟩ = .ok (token, t1) → token.kind = kind →
      start (DecodeRuneInString s).1 = true
        ∧ (t1.s = [] ∨ start (DecodeRuneInString t1.s).1 = false)) (s : GoString) :
    ∃ tokens, tokensOf U s = .ok tokens
      ∧ List.Chain' (fun a b : Token => ¬(a.Kind = kind ∧ b.Kind = kind)) tokens := by
  obtain ⟨tokens, ht, hP⟩ := tokensOf_induction U
    (fun s tokens =>
      List.Chain' (fun a b : Token => ¬(a.Kind = kind ∧ b.Kind = kind)) tokens
        ∧ ∀ token ∈ tokens.head?, token.kind = kind →
          s ≠ [] ∧ start (DecodeRuneInString s).1 = true)
    ⟨List.chain'_nil, fun token h => by cases h⟩
    (by
      intro s token k rest hne hadv _ _ _ _ _ _ ih
      refine ⟨List.chain'_cons'.mpr ⟨fun y hy hboth => ?_, ih.1⟩, fun tok htok hk => ?_⟩
      · obtain ⟨hne2, hstart⟩ := ih.2 y hy hboth.2
        rcases (hlead s token _ hne hadv hboth.1).2 with h0 | h0
        · exact hne2 h0
        · have h1 : start (DecodeRuneInString (s.drop k)).1 = false := h0
          rw [hstart] at h1
          exact Bool.noConfusion h1
      · have : tok = token := by
          simp only [List.head?_cons, Option.mem_def, Option.some.injEq] at htok
          exact htok.symm
        rw [this] at hk
        exact ⟨hne, (hlead s token _ hne hadv hk).1⟩) s
  exact ⟨tokens, ht, hP.1⟩

/-- The first token of a backslash and more text: a Character without flag that
takes `k ≥ 2` bytes. -/
theorem advance_backslash (U : UnicodeTables) (s : GoString) (hne : s ≠ []) :
    ∃ k, 2 ≤ k ∧ k ≤ (92 :: s).length
      ∧ tokenizer.Advance U ⟨92 :: s, 0⟩
        = .ok (⟨KindLiteral, k % 4294967296, ⟨LiteralKindCharacter, 0, 0⟩⟩,
          ⟨(92 :: s).drop k, 0⟩) := by
  have hb := decode_bounds s hne
  have hsz := decode_size_le s
  cases h : isSymbolStart U (DecodeRuneInString s).1 with
  | false =>
    refine ⟨(DecodeRuneInString s).2 + 1, by omega, by rw [List.length_cons]; omega, ?_⟩
    rw [advance_backslash_single U s hne h, List.drop_succ_cons,
      Nat.mod_eq_of_lt (by omega), Nat.add_comm]
  | true =>
    obtain ⟨k, hadv, hcp, _⟩ := advance_backslash_symbol U s hne h
    have hle := hcp.le_length
    rw [List.length_drop] at hle
    refine ⟨(DecodeRuneInString s).2 + k + 1, by omega, by rw [List.length_cons]; omega, ?_⟩
    rw [hadv, List.drop_succ_cons, Nat.add_comm 1]

/-- A letter `a` and `n` more of them, up to the end of the text, are a run of
`n + 1` bytes of symbol-continue codepoints. -/
theorem Codepoints.of_letter_run (U : UnicodeTables) (n : Nat) :
    Codepoints (isSymbolContinue U) (97 :: (List.replicate n 97 ++ [])) (n + 1) := by
  have hsym : isSymbolContinue U 97 = true := by
    rw [isSymbolContinue_latin1 U 97 (by decide)]
    decide
  have h := Codepoints.of_ascii (isSymbolContinue U) (97 :: List.replicate n 97) []
    (by
      intro b hb
      rcases List.mem_cons.mp hb with h | h
      · rw [h]
        exact ⟨by decide, hsym⟩
      · rw [List.eq_of_mem_replicate h]
        exact ⟨by decide, hsym⟩)
  rw [List.length_cons, List.length_replicate] at h
  exact h

/-- The text of `n + 1` letters `a` is one Symbol of length `n + 1` modulo
`2^32`. -/
theorem advance_letters (U : UnicodeTables) (n : Nat) :
    tokenizer.Advance U ⟨97 :: (List.replicate n 97 ++ []), 0⟩
      = .ok (⟨KindSymbol, (n + 1) % 4294967296, ⟨0, 0, 0⟩⟩, ⟨[], 0⟩) := by
  have hsym : isSymbolContinue U 97 = true := by
    rw [isSymbolContinue_latin1 U 97 (by decide)]
    decide
  have hstart : isSymbolStart U 97 = true := by
    rw [isSymbolStart_latin1 U 97 (by decide)]
    decide
  have hr : ∀ b ∈ List.replicate n (97 : Byte),
      b.val < 128 ∧ isSymbolContinue U (b.val : Int) = true := by
    intro b hb
    rw [List.eq_of_mem_replicate hb]
    exact ⟨by decide, hsym⟩
  have he := eatLoop_ascii_run (isSymbolContinue U) (List.replicate n 97) []
    ((List.replicate n (97 : Byte) ++ []).length + 1) false ((0 + 1) % 4294967296)
    hr (by rw [first_of_nil _ rfl]; exact isSymbolContinue_eof U) (Nat.lt_succ_self _)
    (Nat.mod_lt _ (by decide))
  rw [List.length_replicate] at he
  have harith : ((0 + 1) % 4294967296 + n) % 4294967296 = (n + 1) % 4294967296 := by omega
  rw [harith] at he
  have hn : tokenizer.nextToken U ⟨97 :: (List.replicate n 97 ++ []), 0⟩
      = .ok (Token.ofKind KindSymbol, ⟨[], (n + 1) % 4294967296⟩) := by
    unfold tokenizer.nextToken
    rw [bump_ascii 97 _ 0 (by decide)]
    dsimp only
    have h97 : ((97 : Byte).val : Int) = 97 := rfl
    rw [h97, if_neg (by decide), if_neg (by decide), hstart, if_pos rfl]
    unfold tokenizer.symbol tokenizer.eatSymbol
    dsimp only
    rw [he]
  exact advance_of_nextToken U _ _ _ hn

/-- A text of `n` letters `a` is a run of `n` bytes of symbol-continue
codepoints. -/
theorem Codepoints.of_replicate (U : UnicodeTables) (n : Nat) :
    Codepoints (isSymbolContinue U) (List.replicate n 97 ++ []) n := by
  have hsym : isSymbolContinue U 97 = true := by
    rw [isSymbolContinue_latin1 U 97 (by decide)]
    decide
  have h := Codepoints.of_ascii (isSymbolContinue U) (List.replicate n 97) []
    (by
      intro b hb
      rw [List.eq_of_mem_replicate hb]
      exact ⟨by decide, hsym⟩)
  rw [List.length_replicate] at h
  exact h

/-- A Symbol token starts at a symbol-continue rune and ends before a rune that
is none. -/
theorem symbol_lead_and_stop (U : UnicodeTables) (s : GoString) (token : Token)
    (t1 : tokenizer) (hne : s ≠ []) (h : tokenizer.Advance U ⟨s, 0⟩ = .ok (token, t1))
    (hk : token.kind = KindSymbol) :
    isSymbolContinue U (DecodeRuneInString s).1 = true
      ∧ (t1.s = [] ∨ isSymbolContinue U (DecodeRuneInString t1.s).1 = false) := by
  obtain ⟨hw, hs⟩ := advance_symbol_lead U s token t1 hne h hk
  obtain ⟨k, hadv, _, hstop⟩ := advance_symbol U s hne hw hs
  rw [hadv] at h
  cases h
  refine ⟨?_, hstop⟩
  unfold isSymbolContinue
  rw [hs, if_pos rfl]

theorem specBeforeLineFeed_take (s : GoString) :
    (10 : Byte) ∉ s.take (specBeforeLineFeed s)
      ∧ (s.drop (specBeforeLineFeed s) = [] ∨ ∃ tl, s.drop (specBeforeLineFeed s) = 10 :: tl) := by
  obtain ⟨r, rest, hs, hr, hrest, htake, _⟩ := span_run (fun x : Byte => x != 10) s
  unfold specBeforeLineFeed
  rw [htake, hs, List.take_left' rfl, List.drop_left' rfl]
  constructor
  · intro hmem
    have := hr 10 hmem
    exact absurd this (by decide)
  · cases rest with
    | nil => exact Or.inl rfl
    | cons b tl =>
      right
      have h := hrest b tl rfl
      have hb : b = 10 := by simpa using h
      exact ⟨tl, by rw [hb]⟩

/-- The text `;` followed by `n` letters `a` is one LineComment of length `n + 1`
modulo `2^32`. -/
theorem advance_comment_letters (U : UnicodeTables) (n : Nat) :
    tokenizer.Advance U ⟨59 :: (List.replicate n 97 ++ []), 0⟩
      = .ok (⟨KindLineComment, (n + 1) % 4294967296, ⟨0, 0, 0⟩⟩, ⟨[], 0⟩) := by
  have hr : ∀ b ∈ List.replicate n (97 : Byte),
      b.val < 128 ∧ isCommentContinue (b.val : Int) = true := by
    intro b hb
    rw [List.eq_of_mem_replicate hb]
    decide
  have he := eatLoop_ascii_run isCommentContinue (List.replicate n 97) []
    ((List.replicate n (97 : Byte) ++ []).length + 1) false ((0 + 1) % 4294967296)
    hr (by decide) (Nat.lt_succ_self _) (Nat.mod_lt _ (by decide))
  rw [List.length_replicate] at he
  have harith : ((0 + 1) % 4294967296 + n) % 4294967296 = (n + 1) % 4294967296 := by omega
  rw [harith] at he
  have hn : tokenizer.nextToken U ⟨59 :: (List.replicate n 97 ++ []), 0⟩
      = .ok (Token.ofKind KindLineComment, ⟨[], (n + 1) % 4294967296⟩) := by
    rw [nextToken_semicolon]
    unfold tokenizer.lineComment
    dsimp only
    rw [he]
  exact advance_of_nextToken U _ _ _ hn

/-- A Whitespace token starts at a whitespace rune, consists of whitespace
codepoints and ends before a rune that is none. -/
theorem whitespace_lead_and_stop (U : UnicodeTables) (s : GoString) (token : Token)
    (t1 : tokenizer) (hne : s ≠ []) (h : tokenizer.Advance U ⟨s, 0⟩ = .ok (token, t1))
    (hk : token.kind = KindWhitespace) :
    isWhitespace (DecodeRuneInString s).1 = true
      ∧ (t1.s = [] ∨ isWhitespace (DecodeRuneInString t1.s).1 = false)
      ∧ ∃ k, t1 = ⟨s.drop k, 0⟩ ∧ token.len = k % 4294967296 ∧ Codepoints isWhitespace s k
        ∧ ∀ j, Codepoints isWhitespace s j → j ≤ k := by
  have hw := advance_whitespace_lead U s token t1 hne h hk
  obtain ⟨k, hadv, hcp, hstop⟩ := advance_whitespace U s hne hw
  rw [hadv] at h
  cases h
  have hall := Codepoints.cons s k hne hw hcp
  exact ⟨hw, hstop, _, rfl, rfl, hall, hall.le_of_stop hstop⟩

/-- A text of `n` spaces is a run of `n` bytes of whitespace codepoints. -/
theorem Codepoints.of_spaces (n : Nat) :
    Codepoints inWhitespaceSet (List.replicate n 32) n := by
  have h := Codepoints.of_ascii inWhitespaceSet (List.replicate n 32) []
    (by
      intro b hb
      rw [List.eq_of_mem_replicate hb]
      decide)
  rw [List.length_replicate, List.append_nil] at h
  exact h

/-! ## The dispatch of `nextToken` -/

/-- The dispatch of `nextToken` on a text that is not empty, with the lead rune
already consumed. -/
theorem nextToken_dispatch (U : UnicodeTables) (s : GoString) (hne : s ≠ []) :
    tokenizer.nextToken U ⟨s, 0⟩
      = if isWhitespace (DecodeRuneInString s).1 then
          tokenizer.whitespace
            ⟨s.drop (DecodeRuneInString s).2, (0 + (DecodeRuneInString s).2) % 4294967296⟩
        else if isSymbolStart U (DecodeRuneInString s).1 then
          tokenizer.symbol U
            ⟨s.drop (DecodeRuneInString s).2, (0 + (DecodeRuneInString s).2) % 4294967296⟩
        else if isDecimal (DecodeRuneInString s).1 then
          tokenizer.numeric
            ⟨s.drop (DecodeRuneInString s).2, (0 + (DecodeRuneInString s).2) % 4294967296⟩
            (DecodeRuneInString s).1
        else
          tokenizer.punctuation U
            ⟨s.drop (DecodeRuneInString s).2, (0 + (DecodeRuneInString s).2) % 4294967296⟩
            (DecodeRuneInString s).1 := by
  unfold tokenizer.nextToken
  rw [bump_of_ne_nil ⟨s, 0⟩ hne]
  dsimp only
  have hc1 : (DecodeRuneInString s).1 ≠ charEOF := by
    have := (decode_bounds s hne).1
    unfold charEOF
    omega
  rw [if_neg hc1]

/-- The width of a rune is below `2^32`, so the counter holds it after the lead
rune. -/
theorem lead_width_mod (s : GoString) :
    (0 + (DecodeRuneInString s).2) % 4294967296 = (DecodeRuneInString s).2 := by
  have := decode_size_le s
  omega

/-- A lead rune that is no whitespace, no symbol start and no digit goes to the
`switch` of `nextToken`. -/
theorem nextToken_switch (U : UnicodeTables) (s : GoString) (hne : s ≠ [])
    (hw : isWhitespace (DecodeRuneInString s).1 = false)
    (hs : isSymbolStart U (DecodeRuneInString s).1 = false)
    (hd : isDecimal (DecodeRuneInString s).1 = false) :
    tokenizer.nextToken U ⟨s, 0⟩
      = tokenizer.punctuation U ⟨s.drop (DecodeRuneInString s).2, (DecodeRuneInString s).2⟩
          (DecodeRuneInString s).1 := by
  rw [nextToken_dispatch U s hne, hw, hs, hd, if_neg (by decide), if_neg (by decide),
    if_neg (by decide), lead_width_mod]

/-- The lead byte `b` of a text is ASCII and no whitespace, no symbol start and no
digit: `nextToken` goes to its `switch` with one byte consumed. -/
theorem nextToken_switch_ascii (U : UnicodeTables) (b : Byte) (rest : GoString)
    (hb : b.val < 128) (hw : isWhitespace (b.val : Int) = false)
    (hs : isSymbolStart latin1Tables (b.val : Int) = false)
    (hd : isDecimal (b.val : Int) = false) :
    tokenizer.nextToken U ⟨b :: rest, 0⟩ = tokenizer.punctuation U ⟨rest, 1⟩ (b.val : Int) := by
  have h := nextToken_switch U (b :: rest) (List.cons_ne_nil _ _)
  rw [decode_ascii b rest hb] at h
  dsimp only at h
  rw [isSymbolStart_latin1 U _ (by omega)] at h
  exact h hw hs hd

/-- What `Advance` returned is what `nextToken` returned, with the length filled
in and the counter reset. -/
theorem advance_inv (U : UnicodeTables) (t : tokenizer) (token : Token) (t1 : tokenizer)
    (h : t.Advance U = .ok (token, t1)) :
    ∃ tok t2, t.nextToken U = .ok (tok, t2)
      ∧ token = ⟨tok.kind, t2.posWithinTok, tok.literal⟩ ∧ t1 = ⟨t2.s, 0⟩ := by
  unfold tokenizer.Advance at h
  cases hn : t.nextToken U with
  | error e =>
    rw [hn] at h
    cases h
  | ok x =>
    obtain ⟨tok, t2⟩ := x
    rw [hn] at h
    cases h
    exact ⟨tok, t2, rfl, rfl, rfl⟩

theorem unquote_kind (t : tokenizer) (tok : Token) (t1 : tokenizer)
    (h : t.unquote = .ok (tok, t1)) :
    tok.kind = KindUnquote ∨ tok.kind = KindUnquoteSplicing := by
  unfold tokenizer.unquote at h
  split at h
  · split at h
    · cases h
    · cases h
      exact Or.inr rfl
  · cases h
    exact Or.inl rfl

/-- The kind the `switch` of `nextToken` gives is the kind of the table. -/
theorem punctuation_kind (U : UnicodeTables) (t : tokenizer) (c : Int) (tok : Token)
    (t1 : tokenizer) (h : t.punctuation U c = .ok (tok, t1)) :
    tok.kind = specPunctuationKind c ∨ (c = 126 ∧ tok.kind = KindUnquoteSplicing) := by
  unfold tokenizer.punctuation at h
  refine shape_ite h (fun hc h1 => ?_) (fun h92 h => ?_)
  · subst hc
    exact Or.inl (character_shape U t tok t1 h1).1
  refine shape_ite h (fun hc h1 => ?_) (fun h34 h => ?_)
  · subst hc
    exact Or.inl (string_shape t tok t1 h1).1
  refine shape_ite h (fun hc h1 => ?_) (fun h59 h => ?_)
  · subst hc
    rw [lineComment_shape t tok t1 h1]
    exact Or.inl rfl
  refine shape_ite h (fun hc h1 => by subst hc; cases h1; exact Or.inl rfl) (fun h40 h => ?_)
  refine shape_ite h (fun hc h1 => by subst hc; cases h1; exact Or.inl rfl) (fun h41 h => ?_)
  refine shape_ite h (fun hc h1 => by subst hc; cases h1; exact Or.inl rfl) (fun h123 h => ?_)
  refine shape_ite h (fun hc h1 => by subst hc; cases h1; exact Or.inl rfl) (fun h125 h => ?_)
  refine shape_ite h (fun hc h1 => by subst hc; cases h1; exact Or.inl rfl) (fun h91 h => ?_)
  refine shape_ite h (fun hc h1 => by subst hc; cases h1; exact Or.inl rfl) (fun h93 h => ?_)
  refine shape_ite h (fun hc h1 => by subst hc; cases h1; exact Or.inl rfl) (fun h39 h => ?_)
  refine shape_ite h (fun hc h1 => by subst hc; cases h1; exact Or.inl rfl) (fun h96 h => ?_)
  refine shape_ite h (fun hc h1 => by subst hc; cases h1; exact Or.inl rfl) (fun h64 h => ?_)
  refine shape_ite h (fun hc h1 => by subst hc; cases h1; exact Or.inl rfl) (fun h94 h => ?_)
  refine shape_ite h (fun hc h1 => by subst hc; cases h1; exact Or.inl rfl) (fun h35 h => ?_)
  refine shape_ite h (fun hc h1 => ?_) (fun h126 h => ?_)
  · subst hc
    rcases unquote_kind t tok t1 h1 with hk | hk
    · exact Or.inl hk
    · exact Or.inr ⟨rfl, hk⟩
  cases h
  refine Or.inl ?_
  unfold specPunctuationKind
  rw [if_neg h92, if_neg h34, if_neg h59, if_neg h40, if_neg h41, if_neg h123, if_neg h125,
    if_neg h91, if_neg h93, if_neg h39, if_neg h96, if_neg h64, if_neg h94, if_neg h35,
    if_neg h126]
  rfl

theorem isDecimal_iff (c : Int) : isDecimal c = true ↔ 48 ≤ c ∧ c ≤ 57 := by
  simp only [isDecimal, Bool.and_eq_true, decide_eq_true_eq]

/-- The kind of the first token of a text is the kind the dispatch table of the
specification gives to its lead rune; after `~` it is Unquote or
UnquoteSplicing. -/
theorem advance_kind (U : UnicodeTables) (s : GoString) (token : Token) (t1 : tokenizer)
    (hne : s ≠ []) (h : tokenizer.Advance U ⟨s, 0⟩ = .ok (token, t1)) :
    token.kind = specLeadKind U (DecodeRuneInString s).1
      ∨ ((DecodeRuneInString s).1 = 126 ∧ token.kind = KindUnquoteSplicing) := by
  obtain ⟨h1, h2, h3, _⟩ := advance_lead U s token t1 hne h
  unfold specLeadKind
  rw [← isWhitespace_eq_spec, ← isSymbolStart_eq_spec U]
  cases hw : isWhitespace (DecodeRuneInString s).1 with
  | true =>
    rw [if_pos rfl]
    exact Or.inl (h1 hw)
  | false =>
    rw [if_neg (by decide)]
    cases hs : isSymbolStart U (DecodeRuneInString s).1 with
    | true =>
      rw [if_pos rfl]
      exact Or.inl (h2 hw hs)
    | false =>
      rw [if_neg (by decide)]
      cases hd : isDecimal (DecodeRuneInString s).1 with
      | true =>
        rw [if_pos ((isDecimal_iff _).mp hd)]
        exact Or.inl (h3 hw hs hd).1
      | false =>
        have hnd : ¬(48 ≤ (DecodeRuneInString s).1 ∧ (DecodeRuneInString s).1 ≤ 57) := by
          intro hc
          rw [(isDecimal_iff _).mpr hc] at hd
          exact Bool.noConfusion hd
        rw [if_neg hnd]
        obtain ⟨tok, t2, hn, htok, _⟩ := advance_inv U _ token t1 h
        rw [nextToken_switch U s hne hw hs hd] at hn
        rw [htok]
        exact punctuation_kind U _ _ tok t2 hn

/-- Each of the eleven single-character punctuation tokens takes its one byte,
whatever follows. -/
theorem advance_single (U : UnicodeTables) (p : Byte × Nat) (hp : p ∈ specSingleCharacter)
    (rest : GoString) :
    tokenizer.Advance U ⟨p.1 :: rest, 0⟩ = .ok (⟨p.2, 1, ⟨0, 0, 0⟩⟩, ⟨rest, 0⟩) := by
  have key : ∀ (b : Byte) (k : Nat), b.val < 128 → isWhitespace (b.val : Int) = false →
      isSymbolStart latin1Tables (b.val : Int) = false → isDecimal (b.val : Int) = false →
      (∀ t : tokenizer, t.punctuation U (b.val : Int) = .ok (Token.ofKind k, t)) →
      tokenizer.Advance U ⟨b :: rest, 0⟩ = .ok (⟨k, 1, ⟨0, 0, 0⟩⟩, ⟨rest, 0⟩) := by
    intro b k hb hw hs hd hpunct
    have hn := nextToken_switch_ascii U b rest hb hw hs hd
    rw [hpunct] at hn
    exact advance_of_nextToken U _ _ _ hn
  simp only [specSingleCharacter, List.mem_cons, List.mem_singleton, List.not_mem_nil,
    or_false] at hp
  rcases hp with h | h | h | h | h | h | h | h | h | h | h <;> subst h <;>
    exact key _ _ (by decide) (by decide) (by decide) (by decide) (fun t => rfl)

/-! ## The width of a rune -/

theorem utf8First_ascii (b : Nat) (h : utf8First b = 0xF0) : b < 128 := by
  by_contra hb
  have := utf8First_high b (by omega)
  omega

theorem utf8Rune2_lt (s0 s1 : Nat) : utf8Rune2 s0 s1 < 0x800 := by
  unfold utf8Rune2
  have h0 : s0 &&& 0x1F = s0 % 32 := Nat.and_pow_two_sub_one_eq_mod s0 5
  have h1 : s1 &&& 0x3F = s1 % 64 := Nat.and_pow_two_sub_one_eq_mod s1 6
  have hA : (s0 &&& 0x1F) <<< 6 < 2 ^ 11 := by
    rw [h0, Nat.shiftLeft_eq]
    omega
  have hB : s1 &&& 0x3F < 2 ^ 11 := by
    rw [h1]
    omega
  have := Nat.or_lt_two_pow hA hB
  exact_mod_cast this

theorem utf8Rune3_lt (s0 s1 s2 : Nat) : utf8Rune3 s0 s1 s2 < 0x10000 := by
  unfold utf8Rune3
  have h0 : s0 &&& 0x0F = s0 % 16 := Nat.and_pow_two_sub_one_eq_mod s0 4
  have h1 : s1 &&& 0x3F = s1 % 64 := Nat.and_pow_two_sub_one_eq_mod s1 6
  have h2 : s2 &&& 0x3F = s2 % 64 := Nat.and_pow_two_sub_one_eq_mod s2 6
  have hA : (s0 &&& 0x0F) <<< 12 < 2 ^ 16 := by
    rw [h0, Nat.shiftLeft_eq]
    omega
  have hB : (s1 &&& 0x3F) <<< 6 < 2 ^ 16 := by
    rw [h1, Nat.shiftLeft_eq]
    omega
  have hC : s2 &&& 0x3F < 2 ^ 16 := by
    rw [h2]
    omega
  have := Nat.or_lt_two_pow (Nat.or_lt_two_pow hA hB) hC
  exact_mod_cast this

theorem utf8Rune3_ge_two_bytes (s0 s1 s2 : Nat) (h : 1 ≤ s0 % 16 ∨ 32 ≤ s1 % 64) :
    0x800 ≤ utf8Rune3 s0 s1 s2 := by
  unfold utf8Rune3
  have h0 : s0 &&& 0x0F = s0 % 16 := Nat.and_pow_two_sub_one_eq_mod s0 4
  have h1 : s1 &&& 0x3F = s1 % 64 := Nat.and_pow_two_sub_one_eq_mod s1 6
  have hA : 0x800 ≤ (s0 &&& 0x0F) <<< 12 ||| (s1 &&& 0x3F) <<< 6 := by
    rcases h with h | h
    · refine le_trans ?_ (or_ge_left _ _)
      rw [h0, Nat.shiftLeft_eq]
      omega
    · refine le_trans ?_ (or_ge_right _ _)
      rw [h1, Nat.shiftLeft_eq]
      omega
  exact_mod_cast le_trans hA (or_ge_left _ _)

theorem utf8Rune4_ge_three_bytes (s0 s1 s2 s3 : Nat) (h : 1 ≤ s0 % 8 ∨ 16 ≤ s1 % 64) :
    0x10000 ≤ utf8Rune4 s0 s1 s2 s3 := by
  unfold utf8Rune4
  have h0 : s0 &&& 0x07 = s0 % 8 := Nat.and_pow_two_sub_one_eq_mod s0 3
  have h1 : s1 &&& 0x3F = s1 % 64 := Nat.and_pow_two_sub_one_eq_mod s1 6
  have hA : 0x10000 ≤ (s0 &&& 0x07) <<< 18 ||| (s1 &&& 0x3F) <<< 12 := by
    rcases h with h | h
    · refine le_trans ?_ (or_ge_left _ _)
      rw [h0, Nat.shiftLeft_eq]
      omega
    · refine le_trans ?_ (or_ge_right _ _)
      rw [h1, Nat.shiftLeft_eq]
      omega
  exact_mod_cast le_trans (le_trans hA (or_ge_left _ _)) (or_ge_left _ _)

theorem specUTF8Width_eq (c : Int) :
    (c < 0x80 → specUTF8Width c = 1) ∧ (0x80 ≤ c → c < 0x800 → specUTF8Width c = 2)
      ∧ (0x800 ≤ c → c < 0x10000 → specUTF8Width c = 3)
      ∧ (0x10000 ≤ c → specUTF8Width c = 4) := by
  unfold specUTF8Width
  refine ⟨fun h => ?_, fun h1 h2 => ?_, fun h1 h2 => ?_, fun h => ?_⟩
  · rw [if_pos h]
  · rw [if_neg (by omega), if_pos h2]
  · rw [if_neg (by omega), if_neg (by omega), if_pos h2]
  · rw [if_neg (by omega), if_neg (by omega), if_neg (by omega)]

/-- The width `DecodeRuneInString` reports for a well-formed encoding is the
number of bytes the UTF-8 standard gives to the rune decoded. -/
theorem decode_width (s : GoString) (hne : s ≠ [])
    (h : DecodeRuneInString s ≠ (RuneError, 1)) :
    (DecodeRuneInString s).2 = specUTF8Width (DecodeRuneInString s).1 := by
  have hl : 0 < s.length := List.length_pos.mpr hne
  have hb : byteAt s 0 < 256 := (s.getD 0 0).isLt
  have key : ∀ d, d = DecodeRuneInString s → d ≠ (RuneError, 1) →
      d.2 = specUTF8Width d.1 := by
    intro d hd hbad
    unfold DecodeRuneInString RuneError at hd
    unfold RuneError at hbad
    dsimp only at hd
    rw [if_neg (by omega)] at hd
    by_cases hx : utf8First (byteAt s 0) ≥ 0xF0
    · rw [if_pos hx] at hd
      by_cases hm : utf8First (byteAt s 0) % 2 = 1
      · rw [if_pos hm] at hd
        exact absurd hd hbad
      · rw [if_neg hm] at hd
        subst hd
        dsimp only
        have hf : utf8First (byteAt s 0) = 0xF0 := by
          rcases utf8First_cases (byteAt s 0) with h1 | h1 | h1 | h1 | h1 | h1 | h1 | h1 | h1
            <;> omega
        have := utf8First_ascii _ hf
        exact ((specUTF8Width_eq _).1 (by omega)).symm
    rw [if_neg hx] at hd
    have h128 : 128 ≤ byteAt s 0 := by
      by_contra hlt
      have : utf8First (byteAt s 0) = 0xF0 := by
        unfold utf8First
        rw [if_pos (by omega)]
      omega
    have hf := utf8First_high (byteAt s 0) h128
    have hacc := utf8AcceptRange_lo (utf8First (byteAt s 0)) (by omega)
    generalize utf8AcceptRange (utf8First (byteAt s 0) / 16) = acc at *
    by_cases c1 : s.length < utf8First (byteAt s 0) % 8
    · rw [if_pos c1] at hd
      exact absurd hd hbad
    rw [if_neg c1] at hd
    by_cases c2 : byteAt s 1 < acc.1 ∨ acc.2 < byteAt s 1
    · rw [if_pos c2] at hd
      exact absurd hd hbad
    rw [if_neg c2] at hd
    by_cases c3 : utf8First (byteAt s 0) % 8 ≤ 2
    · rw [if_pos c3] at hd; subst hd; dsimp only
      have h1 := utf8Rune2_ge (byteAt s 0) (byteAt s 1) (by omega)
      have h2 := utf8Rune2_lt (byteAt s 0) (byteAt s 1)
      exact ((specUTF8Width_eq _).2.1 h1 h2).symm
    rw [if_neg c3] at hd
    by_cases c4 : byteAt s 2 < 0x80 ∨ 0xBF < byteAt s 2
    · rw [if_pos c4] at hd
      exact absurd hd hbad
    rw [if_neg c4] at hd
    by_cases c5 : utf8First (byteAt s 0) % 8 ≤ 3
    · rw [if_pos c5] at hd; subst hd; dsimp only
      have h1 := utf8Rune3_ge_two_bytes (byteAt s 0) (byteAt s 1) (byteAt s 2) (by omega)
      have h2 := utf8Rune3_lt (byteAt s 0) (byteAt s 1) (byteAt s 2)
      exact ((specUTF8Width_eq _).2.2.1 h1 h2).symm
    rw [if_neg c5] at hd
    by_cases c6 : byteAt s 3 < 0x80 ∨ 0xBF < byteAt s 3
    · rw [if_pos c6] at hd
      exact absurd hd hbad
    rw [if_neg c6] at hd
    subst hd; dsimp only
    have h1 := utf8Rune4_ge_three_bytes (byteAt s 0) (byteAt s 1) (byteAt s 2) (byteAt s 3)
      (by omega)
    exact ((specUTF8Width_eq _).2.2.2 h1).symm
  exact key _ rfl h

/-! ## Unquote, Invalid and the lookahead -/

/-- After a `~` the code looks at the next rune: an `@`. -/
theorem nextToken_tilde_at (U : UnicodeTables) (tl : GoString) :
    tokenizer.nextToken U ⟨126 :: 64 :: tl, 0⟩
      = .ok (Token.ofKind KindUnquoteSplicing, ⟨tl, 2⟩) := by
  rw [nextToken_switch_ascii U 126 _ (by decide) (by decide) (by decide) (by decide)]
  have h126 : ((126 : Byte).val : Int) = 126 := rfl
  rw [h126]
  unfold tokenizer.punctuation
  rw [if_neg (by decide), if_neg (by decide), if_neg (by decide), if_neg (by decide),
    if_neg (by decide), if_neg (by decide), if_neg (by decide), if_neg (by decide),
    if_neg (by decide), if_neg (by decide), if_neg (by decide), if_neg (by decide),
    if_neg (by decide), if_neg (by decide), if_pos rfl]
  unfold tokenizer.unquote
  have h64 : ((64 : Byte).val : Int) = 64 := rfl
  rw [first_ascii 64 tl 1 (by decide), h64, if_pos rfl, bump_ascii 64 tl 1 (by decide)]

/-- After a `~` the code looks at the next rune: anything but an `@`, or the end
of the text. -/
theorem nextToken_tilde_other (U : UnicodeTables) (rest : GoString)
    (h : ∀ tl, rest ≠ 64 :: tl) :
    tokenizer.nextToken U ⟨126 :: rest, 0⟩ = .ok (Token.ofKind KindUnquote, ⟨rest, 1⟩) := by
  rw [nextToken_switch_ascii U 126 _ (by decide) (by decide) (by decide) (by decide)]
  have h126 : ((126 : Byte).val : Int) = 126 := rfl
  rw [h126]
  unfold tokenizer.punctuation
  rw [if_neg (by decide), if_neg (by decide), if_neg (by decide), if_neg (by decide),
    if_neg (by decide), if_neg (by decide), if_neg (by decide), if_neg (by decide),
    if_neg (by decide), if_neg (by decide), if_neg (by decide), if_neg (by decide),
    if_neg (by decide), if_neg (by decide), if_pos rfl]
  unfold tokenizer.unquote
  have hf : tokenizer.first ⟨rest, 1⟩ ≠ ((64 : Byte).val : Int) :=
    first_ne_of_head rest 1 64 (by decide) h
  have h64 : ((64 : Byte).val : Int) = 64 := rfl
  rw [h64] at hf
  rw [if_neg hf]

/-- The `default` case of the `switch` of `nextToken`. -/
theorem punctuation_default (U : UnicodeTables) (t : tokenizer) (c : Int)
    (h : c ∉ specPunctuationLeads) :
    t.punctuation U c = .ok (Token.ofKind KindInvalid, t) := by
  have hc : ∀ k : Int, k ∈ specPunctuationLeads → ¬c = k := fun k hk hck => h (hck ▸ hk)
  unfold tokenizer.punctuation
  rw [if_neg (hc 92 (by decide)), if_neg (hc 34 (by decide)), if_neg (hc 59 (by decide)),
    if_neg (hc 40 (by decide)), if_neg (hc 41 (by decide)), if_neg (hc 123 (by decide)),
    if_neg (hc 125 (by decide)), if_neg (hc 91 (by decide)), if_neg (hc 93 (by decide)),
    if_neg (hc 39 (by decide)), if_neg (hc 96 (by decide)), if_neg (hc 64 (by decide)),
    if_neg (hc 94 (by decide)), if_neg (hc 35 (by decide)), if_neg (hc 126 (by decide))]

/-- The first token of a text whose lead rune the dispatch does not know: an
Invalid token that takes the bytes of that rune. -/
theorem advance_invalid (U : UnicodeTables) (s : GoString) (hne : s ≠ [])
    (hw : isWhitespace (DecodeRuneInString s).1 = false)
    (hs : isSymbolStart U (DecodeRuneInString s).1 = false)
    (hd : isDecimal (DecodeRuneInString s).1 = false)
    (hp : (DecodeRuneInString s).1 ∉ specPunctuationLeads) :
    tokenizer.Advance U ⟨s, 0⟩
      = .ok (⟨KindInvalid, (DecodeRuneInString s).2, ⟨0, 0, 0⟩⟩,
        ⟨s.drop (DecodeRuneInString s).2, 0⟩) := by
  have hn := nextToken_switch U s hne hw hs hd
  rw [punctuation_default U _ _ hp] at hn
  exact advance_of_nextToken U _ _ _ hn

/-- With two bytes or more left, `second()` decodes what follows the next rune
without asking whether anything does. -/
theorem second_of_long (t : tokenizer) (h : 1 < t.s.length) :
    t.second = .ok (DecodeRuneInString (t.s.drop (DecodeRuneInString t.s).2)).1 := by
  unfold tokenizer.second
  rw [if_neg (by omega)]
  have hne : t.s ≠ [] := by
    intro h0
    rw [h0] at h
    simp at h
  have hb := (decode_bounds t.s hne).2.2
  simp [sliceFrom, hb]

theorem second_of_short (t : tokenizer) (h : t.s.length ≤ 1) : t.second = .ok charEOF := by
  unfold tokenizer.second
  rw [if_pos h]

/-- With at most one byte left fewer than two codepoints remain. -/
theorem specPeek2_of_short (s : GoString) (h : s.length ≤ 1) : specPeek2 s = charEOF := by
  unfold specPeek2
  by_cases hne : s = []
  · rw [if_pos (Or.inl hne)]
  · have hb := (decode_bounds s hne).2.1
    have hd : s.drop (DecodeRuneInString s).2 = [] :=
      List.drop_eq_nil_of_le (by omega)
    rw [if_pos (Or.inr hd)]

theorem isDecimalContinue_RuneError :
    isDecimalContinue RuneError = isDecimalContinue charEOF := by
  decide

/-! ## Rendering a token -/

theorem Kind_string_named : ∀ p ∈ specKindNames, Kind.string p.1 = .ok p.2 := by
  decide

theorem Kind_string_unnamed (k : Nat) (h : k ∉ specKindNames.map Prod.fst) :
    Kind.string k = .error .panic := by
  have hc : ∀ j : Nat, j ∈ specKindNames.map Prod.fst → ¬k = j := fun j hj hkj => h (hkj ▸ hj)
  unfold Kind.string
  rw [if_neg (hc KindInvalid (by decide)), if_neg (hc KindOpenParen (by decide)),
    if_neg (hc KindCloseParen (by decide)), if_neg (hc KindOpenBrace (by decide)),
    if_neg (hc KindCloseBrace (by decide)), if_neg (hc KindOpenBracket (by decide)),
    if_neg (hc KindCloseBracket (by decide)), if_neg (hc KindQuote (by decide)),
    if_neg (hc KindBackquote (by decide)), if_neg (hc KindDeref (by decide)),
    if_neg (hc KindMetadata (by decide)), if_neg (hc KindDispatch (by decide)),
    if_neg (hc KindUnquote (by decide)), if_neg (hc KindUnquoteSplicing (by decide)),
    if_neg (hc KindSymbol (by decide)), if_neg (hc KindWhitespace (by decide)),
    if_neg (hc KindLineComment (by decide))]

/-- `Kind.string` returns for the 17 kinds that have a name and panics for every
other number. -/
theorem Kind_string_returns_iff (k : Nat) :
    ((∃ name, Kind.string k = .ok name) ↔ k ∈ specKindNames.map Prod.fst)
      ∧ (Kind.string k = .error .panic ↔ k ∉ specKindNames.map Prod.fst) := by
  by_cases hk : k ∈ specKindNames.map Prod.fst
  · obtain ⟨p, hp, hpk⟩ := List.mem_map.mp hk
    have hn := Kind_string_named p hp
    rw [hpk] at hn
    refine ⟨⟨fun _ => hk, fun _ => ⟨_, hn⟩⟩, ⟨fun h => ?_, fun h => absurd hk h⟩⟩
    rw [hn] at h
    cases h
  · have hn := Kind_string_unnamed k hk
    refine ⟨⟨fun h => ?_, fun h => absurd h hk⟩, ⟨fun _ => hk, fun _ => hn⟩⟩
    obtain ⟨name, h⟩ := h
    rw [hn] at h
    cases h

/-- Rendering a Literal token returns: `t.Literal()` passes its check. -/
theorem Token_Format_literal (t : Token) (plus : Bool) (c : Int) (h : t.Kind = KindLiteral) :
    ∃ text, t.Format plus c = .ok text := by
  have hl : t.Literal = .ok t.literal := by
    unfold Token.Literal
    rw [if_neg (fun hne => hne h.symm)]
  unfold Token.Format
  by_cases hc : c = 118
  · rw [if_pos hc]
    by_cases hp : plus = true
    · rw [if_pos hp, if_pos h, hl]
      exact ⟨_, rfl⟩
    · rw [if_neg hp, if_pos h, hl]
      exact ⟨_, rfl⟩
  · rw [if_neg hc, if_pos h, hl]
    exact ⟨_, rfl⟩

/-- Rendering a token that is no Literal returns or panics as `Kind.string`
does. -/
theorem Token_Format_other (t : Token) (plus : Bool) (c : Int) (h : t.Kind ≠ KindLiteral) :
    (∀ name, Kind.string t.Kind = .ok name → ∃ text, t.Format plus c = .ok text)
      ∧ (∀ e, Kind.string t.Kind = .error e → t.Format plus c = .error e) := by
  unfold Token.Format
  by_cases hc : c = 118
  · rw [if_pos hc]
    by_cases hp : plus = true
    · rw [if_pos hp, if_neg h]
      exact ⟨fun name hn => by rw [hn]; exact ⟨_, rfl⟩, fun e he => by rw [he]⟩
    · rw [if_neg hp, if_neg h]
      exact ⟨fun name hn => by rw [hn]; exact ⟨_, rfl⟩, fun e he => by rw [he]⟩
  · rw [if_neg hc, if_neg h]
    exact ⟨fun name hn => by rw [hn]; exact ⟨_, rfl⟩, fun e he => by rw [he]⟩

/-- The views `Literal.Format` takes are those of the literal's own kind, so it
returns for every literal. -/
theorem Literal_Format_returns (l : Literal) (plus : Bool) (c : Int) :
    ∃ text, l.Format plus c = .ok text := by
  have hI : l.kind = LiteralKindInteger → l.Integer = .ok ⟨l⟩ := by
    intro h
    unfold Literal.Integer
    rw [if_neg (fun hne => hne h.symm)]
  have hF : l.kind = LiteralKindFloat → l.Float = .ok ⟨l⟩ := by
    intro h
    unfold Literal.Float
    rw [if_neg (fun hne => hne h.symm)]
  have hS : l.kind = LiteralKindString → l.String = .ok ⟨l⟩ := by
    intro h
    unfold Literal.String
    rw [if_neg (fun hne => hne h.symm)]
  have hC : l.kind = LiteralKindCharacter → l.Character = .ok ⟨l⟩ := by
    intro h
    unfold Literal.Character
    rw [if_neg (fun hne => hne h.symm)]
  unfold Literal.Format
  by_cases hc : c = 118
  · rw [if_pos hc]
    by_cases hp : plus = true
    · rw [if_pos hp]
      by_cases h0 : l.kind = LiteralKindInteger
      · rw [if_pos h0, hI h0]
        exact ⟨_, rfl⟩
      rw [if_neg h0]
      by_cases h1 : l.kind = LiteralKindFloat
      · rw [if_pos h1, hF h1]
        exact ⟨_, rfl⟩
      rw [if_neg h1]
      by_cases h2 : l.kind = LiteralKindString
      · rw [if_pos h2, hS h2]
        exact ⟨_, rfl⟩
      rw [if_neg h2]
      by_cases h3 : l.kind = LiteralKindCharacter
      · rw [if_pos h3, hC h3]
        exact ⟨_, rfl⟩
      rw [if_neg h3]
      exact ⟨_, rfl⟩
    · rw [if_neg hp]
      by_cases h0 : l.kind = LiteralKindInteger
      · rw [if_pos h0, hI h0]
        exact ⟨_, rfl⟩
      rw [if_neg h0]
      by_cases h1 : l.kind = LiteralKindFloat
      · rw [if_pos h1, hF h1]
        exact ⟨_, rfl⟩
      rw [if_neg h1]
      by_cases h2 : l.kind = LiteralKindString
      · rw [if_pos h2, hS h2]
        exact ⟨_, rfl⟩
      rw [if_neg h2]
      by_cases h3 : l.kind = LiteralKindCharacter
      · rw [if_pos h3, hC h3]
        exact ⟨_, rfl⟩
      rw [if_neg h3]
      exact ⟨_, rfl⟩
  · rw [if_neg hc]
    by_cases h0 : l.kind = LiteralKindInteger
    · rw [if_pos h0, hI h0]
      exact ⟨_, rfl⟩
    rw [if_neg h0]
    by_cases h1 : l.kind = LiteralKindFloat
    · rw [if_pos h1, hF h1]
      exact ⟨_, rfl⟩
    rw [if_neg h1]
    by_cases h2 : l.kind = LiteralKindString
    · rw [if_pos h2, hS h2]
      exact ⟨_, rfl⟩
    rw [if_neg h2]
    by_cases h3 : l.kind = LiteralKindCharacter
    · rw [if_pos h3, hC h3]
      exact ⟨_, rfl⟩
    rw [if_neg h3]
    exact ⟨_, rfl⟩

theorem publicKinds_named (k : Nat) (h : k ∈ publicKinds) :
    k = KindLiteral ∨ k ∈ specKindNames.map Prod.fst := by
  simp only [publicKinds, List.mem_cons, List.mem_singleton, List.not_mem_nil, or_false] at h
  rcases h with h | h | h | h | h | h | h | h | h | h | h | h | h | h | h | h | h | h <;>
    subst h <;> decide

/-! ## Symbols that look like numbers -/

/-- A text of an ASCII symbol-start character and ASCII symbol-continue
characters up to its end is one Symbol. -/
theorem advance_ascii_symbol (U : UnicodeTables) (b : Byte) (body : GoString)
    (hb : b.val < 128) (hw : isWhitespace (b.val : Int) = false)
    (hstart : isSymbolStart latin1Tables (b.val : Int) = true)
    (hbody : ∀ x ∈ body, x.val < 128 ∧ isSymbolContinue latin1Tables (x.val : Int) = true) :
    tokenizer.Advance U ⟨b :: body, 0⟩
      = .ok (⟨KindSymbol, (body.length + 1) % 4294967296, ⟨0, 0, 0⟩⟩, ⟨[], 0⟩) := by
  have hr : ∀ x ∈ body, x.val < 128 ∧ isSymbolContinue U (x.val : Int) = true := by
    intro x hx
    obtain ⟨h1, h2⟩ := hbody x hx
    rw [isSymbolContinue_latin1 U _ (by omega)]
    exact ⟨h1, h2⟩
  have he := eatLoop_ascii_run (isSymbolContinue U) body [] (body.length + 1) false
    ((0 + 1) % 4294967296) hr (by rw [first_of_nil _ rfl]; exact isSymbolContinue_eof U)
    (by rw [List.append_nil]; exact Nat.lt_succ_self _) (Nat.mod_lt _ (by decide))
  rw [List.append_nil] at he
  have harith : ((0 + 1) % 4294967296 + body.length) % 4294967296
      = (body.length + 1) % 4294967296 := by omega
  rw [harith] at he
  have hn : tokenizer.nextToken U ⟨b :: body, 0⟩
      = .ok (Token.ofKind KindSymbol, ⟨[], (body.length + 1) % 4294967296⟩) := by
    unfold tokenizer.nextToken
    rw [bump_ascii b _ 0 hb]
    dsimp only
    have hne : (b.val : Int) ≠ charEOF := by
      unfold charEOF
      omega
    rw [if_neg hne, hw, if_neg (by decide), isSymbolStart_latin1 U _ (by omega), hstart,
      if_pos rfl]
    unfold tokenizer.symbol tokenizer.eatSymbol
    dsimp only
    rw [he]
  exact advance_of_nextToken U _ _ _ hn

theorem tokensOf_ascii_symbol (U : UnicodeTables) (b : Byte) (body : GoString)
    (hb : b.val < 128) (hw : isWhitespace (b.val : Int) = false)
    (hstart : isSymbolStart latin1Tables (b.val : Int) = true)
    (hbody : ∀ x ∈ body, x.val < 128 ∧ isSymbolContinue latin1Tables (x.val : Int) = true) :
    tokensOf U (b :: body)
      = .ok [⟨KindSymbol, (b :: body).length % 4294967296, ⟨0, 0, 0⟩⟩] :=
  tokensOf_single U _ _ (List.cons_ne_nil _ _)
    (advance_ascii_symbol U b body hb hw hstart hbody)

/-- An ASCII digit and the full stop continue a symbol. -/
theorem digit_or_dot_continues (x : Byte)
    (h : (48 ≤ x.val ∧ x.val ≤ 57) ∨ x = 46) :
    x.val < 128 ∧ isSymbolContinue latin1Tables (x.val : Int) = true := by
  rcases h with h | h
  · refine ⟨by omega, ?_⟩
    have hx : x.val = 48 ∨ x.val = 49 ∨ x.val = 50 ∨ x.val = 51 ∨ x.val = 52 ∨ x.val = 53
        ∨ x.val = 54 ∨ x.val = 55 ∨ x.val = 56 ∨ x.val = 57 := by omega
    rcases hx with hx | hx | hx | hx | hx | hx | hx | hx | hx | hx <;> rw [hx] <;> decide
  · subst h
    decide

/-- A sign and `n` digits `5`: one Symbol, whose length is `n + 1` modulo
`2^32`. -/
theorem tokensOf_minus_fives (U : UnicodeTables) (n : Nat) :
    tokensOf U (45 :: List.replicate n 53) = .ok [⟨KindSymbol, (n + 1) % 4294967296, ⟨0, 0, 0⟩⟩] := by
  have h := tokensOf_ascii_symbol U 45 (List.replicate n 53) (by decide) (by decide) (by decide)
    (by
      intro x hx
      rw [List.eq_of_mem_replicate hx]
      decide)
  rw [List.length_cons, List.length_replicate] at h
  exact h

/-! ## Tokens end where codepoints end -/

theorem Codepoints.followed_by {p : Int → Bool} {s : GoString} {j k : Nat}
    (h1 : Codepoints p s j) (h2 : Codepoints p (s.drop j) k) : Codepoints p s (j + k) := by
  induction h1 with
  | nil s =>
    rw [Nat.zero_add]
    exact h2
  | cons s j hne hp h ih =>
    rw [Nat.add_assoc]
    refine Codepoints.cons s (j + k) hne hp (ih ?_)
    rw [List.drop_drop]
    exact h2

theorem Whole.same (t : tokenizer) : Whole t t := ⟨0, Codepoints.nil _, rfl⟩

theorem Whole.chain {a b c : tokenizer} (h1 : Whole a b) (h2 : Whole b c) : Whole a c := by
  obtain ⟨j, hj, hb⟩ := h1
  obtain ⟨k, hk, hc⟩ := h2
  rw [hb] at hk hc
  exact ⟨j + k, hj.followed_by hk, by rw [hc, List.drop_drop]⟩

/-- A `bump` consumes one whole codepoint, or nothing at the end of the text. -/
theorem bump_whole (t : tokenizer) (c : Int) (t1 : tokenizer) (h : t.bump = .ok (c, t1)) :
    Whole t t1 := by
  by_cases hne : t.s = []
  · rw [bump_of_nil t hne] at h
    cases h
    exact Whole.same _
  · rw [bump_of_ne_nil t hne] at h
    cases h
    exact ⟨(DecodeRuneInString t.s).2 + 0, Codepoints.cons t.s 0 hne rfl (Codepoints.nil _), rfl⟩

theorem eatLoop_whole (pred : Int → Bool) :
    ∀ (fuel : Nat) (found : Bool) (t : tokenizer) (f : Bool) (t1 : tokenizer),
      t.eatLoop pred fuel found = .ok (f, t1) → Whole t t1 := by
  intro fuel
  induction fuel with
  | zero =>
    intro found t f t1 h
    cases h
  | succ n ih =>
    intro found t f t1 h
    unfold tokenizer.eatLoop at h
    by_cases hp : pred t.first = true
    · rw [if_pos hp] at h
      cases hb : t.bump with
      | error e =>
        rw [hb] at h
        cases h
      | ok x =>
        obtain ⟨c, t2⟩ := x
        rw [hb] at h
        exact (bump_whole t c t2 hb).chain (ih _ _ _ _ h)
    · rw [if_neg hp] at h
      cases h
      exact Whole.same _

theorem eatFloatExponent_whole (t : tokenizer) (f : Bool) (t1 : tokenizer)
    (h : t.eatFloatExponent = .ok (f, t1)) : Whole t t1 := by
  unfold tokenizer.eatFloatExponent at h
  by_cases hs : t.first = 43 ∨ t.first = 45
  · rw [if_pos hs] at h
    cases hb : t.bump with
    | error e =>
      rw [hb] at h
      cases h
    | ok x =>
      obtain ⟨c, t2⟩ := x
      rw [hb] at h
      exact (bump_whole t c t2 hb).chain (eatLoop_whole _ _ _ _ _ _ h)
  · rw [if_neg hs] at h
    exact eatLoop_whole _ _ _ _ _ _ h

theorem eatSymbol_whole (U : UnicodeTables) (t t1 : tokenizer) (h : t.eatSymbol U = .ok t1) :
    Whole t t1 := by
  unfold tokenizer.eatSymbol at h
  cases he : t.eatLoop (isSymbolContinue U) (t.s.length + 1) false with
  | error e =>
    rw [he] at h
    cases h
  | ok x =>
    obtain ⟨f, t2⟩ := x
    rw [he] at h
    cases h
    exact eatLoop_whole _ _ _ _ _ _ he

theorem whitespace_whole (t : tokenizer) (tok : Token) (t1 : tokenizer)
    (h : t.whitespace = .ok (tok, t1)) : Whole t t1 := by
  unfold tokenizer.whitespace at h
  cases he : t.eatLoop isWhitespace (t.s.length + 1) false with
  | error e =>
    rw [he] at h
    cases h
  | ok x =>
    obtain ⟨f, t2⟩ := x
    rw [he] at h
    cases h
    exact eatLoop_whole _ _ _ _ _ _ he

theorem symbol_whole (U : UnicodeTables) (t : tokenizer) (tok : Token) (t1 : tokenizer)
    (h : t.symbol U = .ok (tok, t1)) : Whole t t1 := by
  unfold tokenizer.symbol at h
  cases he : t.eatSymbol U with
  | error e =>
    rw [he] at h
    cases h
  | ok t2 =>
    rw [he] at h
    cases h
    exact eatSymbol_whole U _ _ he

theorem lineComment_whole (t : tokenizer) (tok : Token) (t1 : tokenizer)
    (h : t.lineComment = .ok (tok, t1)) : Whole t t1 := by
  unfold tokenizer.lineComment at h
  cases he : t.eatLoop isCommentContinue (t.s.length + 1) false with
  | error e =>
    rw [he] at h
    cases h
  | ok x =>
    obtain ⟨f, t2⟩ := x
    rw [he] at h
    cases h
    exact eatLoop_whole _ _ _ _ _ _ he

theorem numericBase_whole (eat : tokenizer → Run (Bool × tokenizer)) (base : Nat)
    (heat : ∀ a f b, eat a = .ok (f, b) → Whole a b)
    (t : tokenizer) (tok : Token) (t1 : tokenizer)
    (h : t.numericBase eat base = .ok (tok, t1)) : Whole t t1 := by
  unfold tokenizer.numericBase at h
  cases hb : t.bump with
  | error e =>
    rw [hb] at h
    cases h
  | ok x =>
    obtain ⟨c, t2⟩ := x
    rw [hb] at h
    dsimp only at h
    cases he : eat t2 with
    | error e =>
      rw [he] at h
      cases h
    | ok y =>
      obtain ⟨f, t3⟩ := y
      rw [he] at h
      cases h
      exact (bump_whole t c t2 hb).chain (heat _ _ _ he)

theorem numericExponent_whole (t : tokenizer) (tok : Token) (t1 : tokenizer)
    (h : t.numericExponent = .ok (tok, t1)) : Whole t t1 := by
  unfold tokenizer.numericExponent at h
  cases hb : t.bump with
  | error e =>
    rw [hb] at h
    cases h
  | ok x =>
    obtain ⟨c, t2⟩ := x
    rw [hb] at h
    dsimp only at h
    cases he : t2.eatFloatExponent with
    | error e =>
      rw [he] at h
      cases h
    | ok y =>
      obtain ⟨f, t3⟩ := y
      rw [he] at h
      cases h
      exact (bump_whole t c t2 hb).chain (eatFloatExponent_whole _ _ _ he)

theorem numericDecimal_whole (t : tokenizer) (tok : Token) (t1 : tokenizer)
    (h : t.numericDecimal = .ok (tok, t1)) : Whole t t1 := by
  unfold tokenizer.numericDecimal at h
  cases he : t.eatDecimalDigits with
  | error e =>
    rw [he] at h
    cases h
  | ok x =>
    obtain ⟨f, t2⟩ := x
    rw [he] at h
    dsimp only at h
    have h12 : Whole t t2 := eatLoop_whole _ _ _ _ _ _ he
    by_cases hdot : t2.first = 46
    · rw [if_pos hdot] at h
      cases hs : t2.second with
      | error e =>
        rw [hs] at h
        cases h
      | ok c2 =>
        rw [hs] at h
        dsimp only at h
        by_cases hc2 : (!isDecimalContinue c2) = true
        · rw [if_pos hc2] at h
          cases h
          exact h12
        · rw [if_neg hc2] at h
          cases hb : t2.bump with
          | error e =>
            rw [hb] at h
            cases h
          | ok y =>
            obtain ⟨c, t3⟩ := y
            rw [hb] at h
            dsimp only at h
            cases he2 : t3.eatDecimalDigits with
            | error e =>
              rw [he2] at h
              cases h
            | ok z =>
              obtain ⟨f2, t4⟩ := z
              rw [he2] at h
              dsimp only at h
              have h14 : Whole t t4 :=
                (h12.chain (bump_whole t2 c t3 hb)).chain (eatLoop_whole _ _ _ _ _ _ he2)
              by_cases hexp : t4.first = 101 ∨ t4.first = 69
              · rw [if_pos hexp] at h
                exact h14.chain (numericExponent_whole _ _ _ h)
              · rw [if_neg hexp] at h
                cases h
                exact h14
    · rw [if_neg hdot] at h
      by_cases hexp : t2.first = 101 ∨ t2.first = 69
      · rw [if_pos hexp] at h
        exact h12.chain (numericExponent_whole _ _ _ h)
      · rw [if_neg hexp] at h
        cases h
        exact h12

theorem numeric_whole (t : tokenizer) (d : Int) (tok : Token) (t1 : tokenizer)
    (h : t.numeric d = .ok (tok, t1)) : Whole t t1 := by
  have hb : ∀ pred base,
      t.numericBase (fun a => a.eatLoop pred (a.s.length + 1) false) base = .ok (tok, t1) →
      Whole t t1 :=
    fun pred base h1 =>
      numericBase_whole _ base (fun a f b he => eatLoop_whole _ _ _ _ _ _ he) t tok t1 h1
  unfold tokenizer.numeric at h
  split at h
  · split at h
    · exact hb isBinaryContinue _ h
    · split at h
      · exact hb isOctalContinue _ h
      · split at h
        · exact hb isHexContinue _ h
        · exact numericDecimal_whole t tok t1 h
  · exact numericDecimal_whole t tok t1 h

theorem character_whole (U : UnicodeTables) (t : tokenizer) (tok : Token) (t1 : tokenizer)
    (h : t.character U = .ok (tok, t1)) : Whole t t1 := by
  unfold tokenizer.character at h
  cases hb : t.bump with
  | error e =>
    rw [hb] at h
    cases h
  | ok x =>
    obtain ⟨c, t2⟩ := x
    rw [hb] at h
    dsimp only at h
    by_cases hs : isSymbolStart U c = true
    · rw [if_pos hs] at h
      cases he : t2.eatSymbol U with
      | error e =>
        rw [he] at h
        cases h
      | ok t3 =>
        rw [he] at h
        cases h
        exact (bump_whole t c t2 hb).chain (eatSymbol_whole U _ _ he)
    · rw [if_neg hs] at h
      cases h
      exact bump_whole t c _ hb

theorem stringLoop_whole : ∀ (fuel : Nat) (t : tokenizer) (tok : Token) (t1 : tokenizer),
    tokenizer.stringLoop fuel t = .ok (tok, t1) → Whole t t1 := by
  intro fuel
  induction fuel with
  | zero =>
    intro t tok t1 h
    cases h
  | succ n ih =>
    intro t tok t1 h
    unfold tokenizer.stringLoop at h
    cases hb : t.bump with
    | error e =>
      rw [hb] at h
      cases h
    | ok x =>
      obtain ⟨c, t2⟩ := x
      rw [hb] at h
      dsimp only at h
      have h12 := bump_whole t c t2 hb
      by_cases h1 : c = charEOF
      · rw [if_pos h1] at h
        cases h
        exact h12
      rw [if_neg h1] at h
      by_cases h2 : c = 34
      · rw [if_pos h2] at h
        cases h
        exact h12
      rw [if_neg h2] at h
      by_cases h3 : c = 92
      · rw [if_pos h3] at h
        by_cases h4 : t2.first = 34 ∨ t2.first = 92
        · rw [if_pos h4] at h
          cases hb2 : t2.bump with
          | error e =>
            rw [hb2] at h
            cases h
          | ok y =>
            obtain ⟨c2, t3⟩ := y
            rw [hb2] at h
            exact (h12.chain (bump_whole t2 c2 t3 hb2)).chain (ih _ _ _ h)
        · rw [if_neg h4] at h
          exact h12.chain (ih _ _ _ h)
      · rw [if_neg h3] at h
        exact h12.chain (ih _ _ _ h)

theorem unquote_whole (t : tokenizer) (tok : Token) (t1 : tokenizer)
    (h : t.unquote = .ok (tok, t1)) : Whole t t1 := by
  unfold tokenizer.unquote at h
  by_cases hf : t.first = 64
  · rw [if_pos hf] at h
    cases hb : t.bump with
    | error e =>
      rw [hb] at h
      cases h
    | ok x =>
      obtain ⟨c, t2⟩ := x
      rw [hb] at h
      cases h
      exact bump_whole t c _ hb
  · rw [if_neg hf] at h
    cases h
    exact Whole.same _

theorem punctuation_whole (U : UnicodeTables) (t : tokenizer) (c : Int) (tok : Token)
    (t1 : tokenizer) (h : t.punctuation U c = .ok (tok, t1)) : Whole t t1 := by
  unfold tokenizer.punctuation at h
  refine shape_ite h (fun _ h1 => character_whole U t tok t1 h1) (fun _ h => ?_)
  refine shape_ite h (fun _ h1 => stringLoop_whole _ t tok t1 h1) (fun _ h => ?_)
  refine shape_ite h (fun _ h1 => lineComment_whole t tok t1 h1) (fun _ h => ?_)
  refine shape_ite h (fun _ h1 => by cases h1; exact Whole.same _) (fun _ h => ?_)
  refine shape_ite h (fun _ h1 => by cases h1; exact Whole.same _) (fun _ h => ?_)
  refine shape_ite h (fun _ h1 => by cases h1; exact Whole.same _) (fun _ h => ?_)
  refine shape_ite h (fun _ h1 => by cases h1; exact Whole.same _) (fun _ h => ?_)
  refine shape_ite h (fun _ h1 => by cases h1; exact Whole.same _) (fun _ h => ?_)
  refine shape_ite h (fun _ h1 => by cases h1; exact Whole.same _) (fun _ h => ?_)
  refine shape_ite h (fun _ h1 => by cases h1; exact Whole.same _) (fun _ h => ?_)
  refine shape_ite h (fun _ h1 => by cases h1; exact Whole.same _) (fun _ h => ?_)
  refine shape_ite h (fun _ h1 => by cases h1; exact Whole.same _) (fun _ h => ?_)
  refine shape_ite h (fun _ h1 => by cases h1; exact Whole.same _) (fun _ h => ?_)
  refine shape_ite h (fun _ h1 => by cases h1; exact Whole.same _) (fun _ h => ?_)
  refine shape_ite h (fun _ h1 => unquote_whole t tok t1 h1) (fun _ h => ?_)
  cases h
  exact Whole.same _

/-- Every token ends where a codepoint of the text ends: `Advance` consumes a
prefix that the decoder reads as a sequence of whole runes. -/
theorem advance_whole (U : UnicodeTables) (s : GoString) (token : Token) (t1 : tokenizer)
    (h : tokenizer.Advance U ⟨s, 0⟩ = .ok (token, t1)) :
    ∃ k, Codepoints (fun _ => true) s k ∧ t1.s = s.drop k := by
  unfold tokenizer.Advance at h
  cases hn : tokenizer.nextToken U ⟨s, 0⟩ with
  | error e =>
    rw [hn] at h
    cases h
  | ok x =>
    obtain ⟨tok, t2⟩ := x
    rw [hn] at h
    cases h
    show Whole ⟨s, 0⟩ t2
    unfold tokenizer.nextToken at hn
    cases hb : tokenizer.bump ⟨s, 0⟩ with
    | error e =>
      rw [hb] at hn
      cases hn
    | ok y =>
      obtain ⟨c, t3⟩ := y
      rw [hb] at hn
      dsimp only at hn
      have h13 := bump_whole _ c t3 hb
      refine shape_ite hn (fun _ h1 => by cases h1; exact h13) (fun _ hn => ?_)
      refine shape_ite hn (fun _ h1 => h13.chain (whitespace_whole _ _ _ h1)) (fun _ hn => ?_)
      refine shape_ite hn (fun _ h1 => h13.chain (symbol_whole U _ _ _ h1)) (fun _ hn => ?_)
      refine shape_ite hn (fun _ h1 => h13.chain (numeric_whole _ _ _ _ h1)) (fun _ hn => ?_)
      exact h13.chain (punctuation_whole U _ _ _ _ hn)

theorem byteAt_take (s : GoString) (k i : Nat) (h : i < k) :
    byteAt (s.take k) i = byteAt s i := by
  unfold byteAt
  rw [List.getD_eq_getElem?_getD, List.getD_eq_getElem?_getD, List.getElem?_take_of_lt h]

/-- The decoder reads the first rune from the bytes of that rune alone: cutting
the text anywhere behind them changes nothing. -/
theorem decode_take (s : GoString) (k : Nat) (hne : s ≠ [])
    (hk : (DecodeRuneInString s).2 ≤ k) :
    DecodeRuneInString (s.take k) = DecodeRuneInString s := by
  have hl : 0 < s.length := List.length_pos.mpr hne
  have hk1 : 1 ≤ k := le_trans (decode_bounds s hne).2.1 hk
  have hlen : (s.take k).length = min k s.length := List.length_take _ _
  have hb0 : byteAt (s.take k) 0 = byteAt s 0 := byteAt_take s k 0 (by omega)
  have key : ∀ d, d = DecodeRuneInString s → d.2 ≤ k → DecodeRuneInString (s.take k) = d := by
    intro d hd hdk
    unfold DecodeRuneInString at hd ⊢
    dsimp only at hd ⊢
    rw [if_neg (by omega)] at hd
    rw [if_neg (by omega), hb0]
    by_cases hx : utf8First (byteAt s 0) ≥ 0xF0
    · rw [if_pos hx] at hd
      rw [if_pos hx]
      exact hd.symm
    rw [if_neg hx] at hd
    rw [if_neg hx]
    have hs := utf8First_size (byteAt s 0) (by omega)
    by_cases c1 : s.length < utf8First (byteAt s 0) % 8
    · rw [if_pos c1] at hd
      rw [if_pos (by omega)]
      exact hd.symm
    rw [if_neg c1] at hd
    by_cases c2 : byteAt s 1 < (utf8AcceptRange (utf8First (byteAt s 0) / 16)).1
        ∨ (utf8AcceptRange (utf8First (byteAt s 0) / 16)).2 < byteAt s 1
    · rw [if_pos c2] at hd
      by_cases ck : (s.take k).length < utf8First (byteAt s 0) % 8
      · rw [if_pos ck]
        exact hd.symm
      · rw [if_neg ck, byteAt_take s k 1 (by omega), if_pos c2]
        exact hd.symm
    rw [if_neg c2] at hd
    by_cases c3 : utf8First (byteAt s 0) % 8 ≤ 2
    · rw [if_pos c3] at hd
      subst hd
      dsimp only at hdk
      rw [if_neg (by omega), byteAt_take s k 1 (by omega), if_neg c2, if_pos c3]
    rw [if_neg c3] at hd
    by_cases c4 : byteAt s 2 < 0x80 ∨ 0xBF < byteAt s 2
    · rw [if_pos c4] at hd
      by_cases ck : (s.take k).length < utf8First (byteAt s 0) % 8
      · rw [if_pos ck]
        exact hd.symm
      · rw [if_neg ck, byteAt_take s k 1 (by omega), if_neg c2, if_neg c3,
          byteAt_take s k 2 (by omega), if_pos c4]
        exact hd.symm
    rw [if_neg c4] at hd
    by_cases c5 : utf8First (byteAt s 0) % 8 ≤ 3
    · rw [if_pos c5] at hd
      subst hd
      dsimp only at hdk
      rw [if_neg (by omega), byteAt_take s k 1 (by omega), if_neg c2, if_neg c3,
        byteAt_take s k 2 (by omega), if_neg c4, if_pos c5]
    rw [if_neg c5] at hd
    by_cases c6 : byteAt s 3 < 0x80 ∨ 0xBF < byteAt s 3
    · rw [if_pos c6] at hd
      by_cases ck : (s.take k).length < utf8First (byteAt s 0) % 8
      · rw [if_pos ck]
        exact hd.symm
      · rw [if_neg ck, byteAt_take s k 1 (by omega), if_neg c2, if_neg c3,
          byteAt_take s k 2 (by omega), if_neg c4, if_neg c5, byteAt_take s k 3 (by omega),
          if_pos c6]
        exact hd.symm
    rw [if_neg c6] at hd
    subst hd
    dsimp only at hdk
    rw [if_neg (by omega), byteAt_take s k 1 (by omega), if_neg c2, if_neg c3,
      byteAt_take s k 2 (by omega), if_neg c4, if_neg c5, byteAt_take s k 3 (by omega),
      if_neg c6]
  exact key _ rfl hk

/-- The encoding of codepoints has as many bytes as UTF-8 gives them. -/
theorem Encodes.byte_length {cs : List Int} {s : GoString} (h : Encodes cs s) :
    s.length = (cs.map specUTF8Width).sum := by
  induction h with
  | nil => rfl
  | cons c cs s hne hwf hc h ih =>
    have hb := decode_bounds s hne
    have hw := decode_width s hne hwf
    rw [List.length_drop] at ih
    rw [List.map_cons, List.sum_cons, ← ih, ← hc, ← hw]
    omega

/-- A cut of an encoding at a codepoint boundary leaves two encodings. -/
theorem Encodes.split {s : GoString} {k : Nat} (hk : Codepoints (fun _ => true) s k) :
    ∀ cs, Encodes cs s →
      ∃ cs1 cs2, cs = cs1 ++ cs2 ∧ Encodes cs1 (s.take k) ∧ Encodes cs2 (s.drop k) := by
  induction hk with
  | nil s =>
    intro cs h
    exact ⟨[], cs, rfl, Encodes.nil, h⟩
  | cons s j hne hp hrest ih =>
    intro cs h
    cases h with
    | nil => exact absurd rfl hne
    | cons c cs s hne2 hwf hc h =>
      obtain ⟨cs1, cs2, hcs, h1, h2⟩ := ih cs h
      have hb := decode_bounds s hne
      have hdt := decode_take s ((DecodeRuneInString s).2 + j) hne (Nat.le_add_right _ _)
      refine ⟨c :: cs1, cs2, by rw [hcs]; rfl, ?_, ?_⟩
      · refine Encodes.cons c cs1 _ ?_ (by rw [hdt]; exact hwf) (by rw [hdt]; exact hc) ?_
        · intro h0
          have := congrArg List.length h0
          rw [List.length_take] at this
          have hl : 0 < s.length := List.length_pos.mpr hne
          simp only [List.length_nil] at this
          omega
        · rw [hdt, List.drop_take, Nat.add_sub_cancel_left]
          exact h1
      · rw [← List.drop_drop]
        exact h2

theorem ValidUTF8.empty : ValidUTF8 [] := ⟨[], Encodes.nil⟩

/-- Bytes below 128 are valid UTF-8. -/
theorem ValidUTF8.of_ascii_bytes (s : GoString) (h : ∀ b ∈ s, b.val < 128) : ValidUTF8 s := by
  induction s with
  | nil => exact ValidUTF8.empty
  | cons b tl ih =>
    obtain ⟨cs, hcs⟩ := ih (fun x hx => h x (List.mem_cons_of_mem _ hx))
    have hd := decode_ascii b tl (h b (List.mem_cons_self _ _))
    refine ⟨(b.val : Int) :: cs, Encodes.cons _ cs _ (List.cons_ne_nil _ _) ?_ ?_ ?_⟩
    · rw [hd]
      intro h0
      have h1 := congrArg Prod.fst h0
      have hb := h b (List.mem_cons_self _ _)
      unfold RuneError at h1
      dsimp only at h1
      omega
    · rw [hd]
    · rw [hd]
      exact hcs

theorem decode_accent (rest : GoString) :
    DecodeRuneInString (0xC3 :: 0xA9 :: rest) = (0xE9, 2) := by
  have h0 : byteAt (0xC3 :: 0xA9 :: rest) 0 = 0xC3 := rfl
  have h1 : byteAt (0xC3 :: 0xA9 :: rest) 1 = 0xA9 := rfl
  have hf : utf8First 0xC3 = 0x02 := by decide
  have hl : (0xC3 :: 0xA9 :: rest).length = rest.length + 2 := rfl
  unfold DecodeRuneInString
  dsimp only
  rw [h0, h1, hf, hl, if_neg (by omega), if_neg (by decide), if_neg (by omega),
    if_neg (by decide), if_pos (by decide)]
  rfl

theorem accentRun_drop (n : Nat) (rest : GoString) : (accentRun n rest).drop (2 * n) = rest := by
  induction n with
  | zero => rfl
  | succ n ih =>
    have h : 2 * (n + 1) = 2 * n + 1 + 1 := by omega
    rw [h]
    exact ih

theorem accentRun_length (n : Nat) (rest : GoString) :
    (accentRun n rest).length = 2 * n + rest.length := by
  induction n with
  | zero => simp [accentRun]
  | succ n ih =>
    simp only [accentRun, List.length_cons, ih]
    omega

/-- A run of `n` letters U+00E9 is a run of `2 * n` bytes of symbol-continue
codepoints. -/
theorem Codepoints.of_accents (U : UnicodeTables) (n : Nat) (rest : GoString) :
    Codepoints (isSymbolContinue U) (accentRun n rest) (2 * n) := by
  have hsym : isSymbolContinue U 0xE9 = true := by
    rw [isSymbolContinue_latin1 U 0xE9 (by decide)]
    decide
  induction n with
  | zero => exact Codepoints.nil _
  | succ n ih =>
    have hd := decode_accent (accentRun n rest)
    have h1 := Codepoints.cons (0xC3 :: 0xA9 :: accentRun n rest) (2 * n)
      (List.cons_ne_nil _ _) (by rw [hd]; exact hsym) (by rw [hd]; exact ih)
    rw [hd] at h1
    have h : 2 * (n + 1) = 2 + 2 * n := by omega
    rw [h]
    exact h1

/-- A run of letters U+00E9 in front of an encoding is an encoding. -/
theorem Encodes.of_accent_run (n : Nat) (cs : List Int) (rest : GoString) (h : Encodes cs rest) :
    Encodes (List.replicate n 0xE9 ++ cs) (accentRun n rest) := by
  induction n with
  | zero => exact h
  | succ n ih =>
    have hd := decode_accent (accentRun n rest)
    show Encodes (0xE9 :: (List.replicate n 0xE9 ++ cs)) (0xC3 :: 0xA9 :: accentRun n rest)
    refine Encodes.cons _ _ _ (List.cons_ne_nil _ _) ?_ ?_ ?_
    · rw [hd]
      decide
    · rw [hd]
    · rw [hd]
      exact ih

/-- The text of `n + 1` letters U+00E9 and a space starts with a Symbol that
takes the letters: its length is `2 * n + 2` modulo `2^32`. -/
theorem advance_accents (U : UnicodeTables) (n : Nat) :
    tokenizer.Advance U ⟨0xC3 :: 0xA9 :: accentRun n [32], 0⟩
      = .ok (⟨KindSymbol, (2 + 2 * n) % 4294967296, ⟨0, 0, 0⟩⟩, ⟨[32], 0⟩) := by
  have hd := decode_accent (accentRun n [32])
  have hw : isWhitespace (DecodeRuneInString (0xC3 :: 0xA9 :: accentRun n [32])).1 = false := by
    rw [hd]
    decide
  have hstart : isSymbolStart U (DecodeRuneInString (0xC3 :: 0xA9 :: accentRun n [32])).1
      = true := by
    rw [hd, isSymbolStart_latin1 U _ (by decide)]
    decide
  obtain ⟨k, hadv, hcp, hstop⟩ := advance_symbol U _ (List.cons_ne_nil _ _) hw hstart
  rw [hd] at hadv hcp hstop
  have hcp2 : Codepoints (isSymbolContinue U) (accentRun n [32]) k := hcp
  have hrun := Codepoints.of_accents U n [32]
  have hstop1 : (accentRun n [32]).drop (2 * n) = []
      ∨ isSymbolContinue U (DecodeRuneInString ((accentRun n [32]).drop (2 * n))).1 = false := by
    rw [accentRun_drop]
    refine Or.inr ?_
    rw [decode_ascii 32 [] (by decide), isSymbolContinue_latin1 U _ (by decide)]
    decide
  have hstop2 : (accentRun n [32]).drop k = []
      ∨ isSymbolContinue U (DecodeRuneInString ((accentRun n [32]).drop k)).1 = false := by
    have h := hstop
    rw [← List.drop_drop] at h
    exact h
  have h1 := hrun.le_of_stop hstop1 k hcp2
  have h2 := hcp2.le_of_stop hstop2 (2 * n) hrun
  have hk : k = 2 * n := by omega
  subst hk
  have hdrop : (0xC3 :: 0xA9 :: accentRun n [32]).drop (2 + 2 * n) = [32] := by
    rw [← List.drop_drop]
    exact accentRun_drop n [32]
  rw [hdrop] at hadv
  exact hadv

/-- The text of `n + 1` letters U+00E9 and a space is a Symbol and a
Whitespace. -/
theorem tokensOf_accents (U : UnicodeTables) (n : Nat) :
    tokensOf U (0xC3 :: 0xA9 :: accentRun n [32])
      = .ok [⟨KindSymbol, (2 + 2 * n) % 4294967296, ⟨0, 0, 0⟩⟩,
        ⟨KindWhitespace, 1, ⟨0, 0, 0⟩⟩] := by
  obtain ⟨rest, hr, hall⟩ := tokensOf_after U _ _ _ (List.cons_ne_nil _ _) (advance_accents U n)
  have h32 : tokensOf U [32] = .ok [⟨KindWhitespace, 1, ⟨0, 0, 0⟩⟩] := tokensOf_spaces U 0
  have h0 : tokensOf U [32] = .ok rest := hr
  rw [h32] at h0
  cases h0
  exact hall

/-- The tokens end on codepoint boundaries: what `Advance` consumes is a prefix
of whole runes. -/
theorem advance_boundary (U : UnicodeTables) (s : GoString) (token : Token) (k : Nat)
    (hadv : tokenizer.Advance U ⟨s, 0⟩ = .ok (token, ⟨s.drop k, 0⟩)) (hk : k ≤ s.length) :
    Codepoints (fun _ => true) s k := by
  obtain ⟨j, hj, hs⟩ := advance_whole U s token _ hadv
  have hjl := hj.le_length
  have hlen := congrArg List.length hs
  dsimp only at hlen
  rw [List.length_drop, List.length_drop] at hlen
  have : j = k := by omega
  subst this
  exact hj

theorem sliceAt_sum (ks : List Nat) : ∀ s : GoString, ks.sum = s.length →
    (sliceAt s ks).flatten = s := by
  induction ks with
  | nil =>
    intro s h
    have : s = [] := List.length_eq_zero.mp h.symm
    rw [this]
    rfl
  | cons k ks ih =>
    intro s h
    rw [List.sum_cons] at h
    have hl : (s.drop k).length = s.length - k := List.length_drop _ _
    show s.take k ++ (sliceAt (s.drop k) ks).flatten = s
    rw [ih (s.drop k) (by omega), List.take_append_drop]

/-! ## The claims -/

set_option maxRecDepth 20000

/-- C1 (as amended): for every input, `Tokenize` returns and the sum of `Len()`
over the tokens it delivers is the byte length of the input modulo `2^32`; for
every input shorter than `2^32` bytes the sum is the byte length exactly. -/
theorem tokenize_length_sum (U : UnicodeTables) (s : GoString) :
    ∃ tokens, tokensOf U s = .ok tokens
      ∧ (tokens.map Token.Len).sum % 4294967296 = s.length % 4294967296
      ∧ (s.length < 4294967296 → (tokens.map Token.Len).sum = s.length) := by
  refine tokensOf_induction U
    (fun s tokens => (tokens.map Token.Len).sum % 4294967296 = s.length % 4294967296
      ∧ (s.length < 4294967296 → (tokens.map Token.Len).sum = s.length))
    ⟨rfl, fun _ => rfl⟩ ?_ s
  intro s token k rest _ _ _ hk2 hlen _ _ _ ih
  have hl : (s.drop k).length = s.length - k := List.length_drop _ _
  rw [hl] at ih
  obtain ⟨ih1, ih2⟩ := ih
  simp only [List.map_cons, List.sum_cons, Token.Len, hlen]
  refine ⟨by omega, ?_⟩
  intro hs
  rw [ih2 (by omega), Nat.mod_eq_of_lt (by omega)]
  omega

/-- C1, witness: the lengths of the tokens of `0b012 x;` (8 bytes) sum to 8. -/
theorem tokenize_length_sum_witness :
    ∃ tokens, tokensOf latin1Tables (ascii "0b012 x;") = .ok tokens
      ∧ (tokens.map Token.Len).sum = (ascii "0b012 x;").length := by
  obtain ⟨tokens, h1, _, h3⟩ := tokenize_length_sum latin1Tables (ascii "0b012 x;")
  exact ⟨tokens, h1, h3 (by decide)⟩

/-- C1, counterexample: a text of `2^32` spaces is delivered as one Whitespace
token whose `Len()` is 0, so the lengths sum to 0 and not to `2^32`. -/
theorem tokenize_length_sum_wraps :
    ∃ tokens, (∀ U, tokensOf U (List.replicate 4294967296 32) = .ok tokens)
      ∧ (tokens.map Token.Len).sum ≠ (List.replicate 4294967296 (32 : Byte)).length := by
  refine ⟨[⟨KindWhitespace, 0, ⟨0, 0, 0⟩⟩], tokensOf_four_gib_of_spaces, ?_⟩
  rw [List.length_replicate]
  decide

/-- C2 (as amended): on remaining input that is not empty `Advance` returns a
token and consumes `k ≥ 1` bytes, so the remaining input gets strictly shorter;
the token's length is `k` modulo `2^32`, hence at least 1 when the input is
shorter than `2^32` bytes.  `Tokenize` returns for every input and delivers at
most `len(s)` tokens. -/
theorem advance_progress (U : UnicodeTables) (s : GoString) :
    (s ≠ [] → ∃ token k, tokenizer.Advance U ⟨s, 0⟩ = .ok (token, ⟨s.drop k, 0⟩)
        ∧ 1 ≤ k ∧ k ≤ s.length ∧ (s.drop k).length < s.length
        ∧ token.Len = k % 4294967296 ∧ (s.length < 4294967296 → 1 ≤ token.Len))
      ∧ ∃ tokens, tokensOf U s = .ok tokens ∧ tokens.length ≤ s.length := by
  constructor
  · intro hne
    obtain ⟨token, k, hadv, hk1, hk2, hlen, _⟩ := advance_spec U s hne
    have hl : (s.drop k).length = s.length - k := List.length_drop _ _
    refine ⟨token, k, hadv, hk1, hk2, by omega, hlen, ?_⟩
    intro hs
    show 1 ≤ token.len
    rw [hlen, Nat.mod_eq_of_lt (by omega)]
    exact hk1
  · refine tokensOf_induction U (fun s tokens => tokens.length ≤ s.length) (Nat.le_refl _) ?_ s
    intro s token k rest _ _ hk1 hk2 _ _ _ _ ih
    have hl : (s.drop k).length = s.length - k := List.length_drop _ _
    rw [hl] at ih
    simp only [List.length_cons]
    omega

/-- C2, witness: the first token of `ab c` consumes bytes and has a length of at
least 1. -/
theorem advance_progress_witness :
    ∃ token k, tokenizer.Advance latin1Tables ⟨ascii "ab c", 0⟩
        = .ok (token, ⟨(ascii "ab c").drop k, 0⟩)
      ∧ 1 ≤ k ∧ k ≤ (ascii "ab c").length ∧ ((ascii "ab c").drop k).length < (ascii "ab c").length
      ∧ token.Len = k % 4294967296 ∧ ((ascii "ab c").length < 4294967296 → 1 ≤ token.Len) :=
  (advance_progress latin1Tables (ascii "ab c")).1 (by decide)

/-- C2, counterexample: on a text of `2^32` spaces, which is not empty, `Advance`
returns a token whose length is 0. -/
theorem advance_zero_length_token :
    List.replicate 4294967296 (32 : Byte) ≠ []
      ∧ ∃ token t1, (∀ U, tokenizer.Advance U ⟨List.replicate 4294967296 32, 0⟩ = .ok (token, t1))
        ∧ ¬1 ≤ token.Len :=
  ⟨four_gib_of_spaces_ne_nil, ⟨KindWhitespace, 0, ⟨0, 0, 0⟩⟩, ⟨[], 0⟩,
    fun U => advance_spaces U 4294967295, by decide⟩

/-- C3: for every input and every consumer, `Tokenize` returns normally (no
panic, no endless loop) and its error is `nil`; the only traces of malformed
input are in the tokens: a flag can only be set on a Literal token (every other
token carries the zero literal). -/
theorem Tokenize_never_fails (U : UnicodeTables) (s : GoString) :
    (∀ (σ : Type) (consume : σ → Token → σ) (consumer : σ),
        ∃ c, Tokenize U consume consumer s = .ok (c, none))
      ∧ ∃ tokens, tokensOf U s = .ok tokens
        ∧ ∀ token ∈ tokens, token.Kind ≠ KindLiteral → token.literal = ⟨0, 0, 0⟩ := by
  obtain ⟨tokens, htok, hP⟩ := tokensOf_induction U
    (fun _ tokens => ∀ token ∈ tokens, token.Kind ≠ KindLiteral → token.literal = ⟨0, 0, 0⟩)
    (fun _ h => absurd h (List.not_mem_nil _))
    (by
      intro s token k rest _ _ _ _ _ hsc _ _ ih x hx hne
      rcases List.mem_cons.mp hx with h | h
      · rw [h] at hne
        rw [h]
        rcases hsc with h1 | h1 | h1 | h1
        · exact h1.2.2
        · exact absurd h1.1 hne
        · exact absurd h1.1 hne
        · exact absurd h1.1 hne
      · exact ih x h hne) s
  refine ⟨?_, tokens, htok, hP⟩
  intro σ consume consumer
  rw [tokensOf_eq_scan] at htok
  unfold Tokenize
  rw [loop_eq_scan, htok]
  exact ⟨_, rfl⟩

/-- C4: the tokens handed to `ConsumeToken` are the tokens `Advance` produced
before the `kindNone` sentinel, each handed over once and in that order (the
consumer ends as the fold of its method over them), and each has one of the 18
exported kinds, never `kindNone`. -/
theorem Tokenize_delivers_public_kinds (U : UnicodeTables) (s : GoString) :
    ∃ tokens, tokenizer.scan U (s.length + 1) ⟨s, 0⟩ = .ok tokens
      ∧ tokensOf U s = .ok tokens
      ∧ (∀ token ∈ tokens, token.Kind ∈ publicKinds ∧ token.Kind ≠ kindNone)
      ∧ ∀ (σ : Type) (consume : σ → Token → σ) (consumer : σ),
          Tokenize U consume consumer s = .ok (tokens.foldl consume consumer, none) := by
  obtain ⟨tokens, htok, hP⟩ := tokensOf_induction U
    (fun _ tokens => ∀ token ∈ tokens, token.Kind ∈ publicKinds ∧ token.Kind ≠ kindNone)
    (fun _ h => absurd h (List.not_mem_nil _))
    (by
      intro s token k rest _ _ _ _ _ hkind _ _ ih x hx
      rcases List.mem_cons.mp hx with h | h
      · rw [h]
        exact ⟨scanned_public _ hkind, publicKinds_ne_none _ (scanned_public _ hkind)⟩
      · exact ih x h) s
  have hscan := htok
  rw [tokensOf_eq_scan] at hscan
  refine ⟨tokens, hscan, htok, hP, ?_⟩
  intro σ consume consumer
  unfold Tokenize
  rw [loop_eq_scan, hscan]

/-- C5 (as amended): for every input `s` that is not empty, the first token `t`
consumes some `k ≥ 1` bytes, and the tokens of `s` are `t` followed by the tokens
of `s` without its first `k` bytes; `t.Len()` is `k` modulo `2^32`, so the cut is
at `t.Len()` whenever the token is shorter than `2^32` bytes. -/
theorem tokens_independent (U : UnicodeTables) (s : GoString) (hne : s ≠ []) :
    ∃ token rest k, tokenizer.Advance U ⟨s, 0⟩ = .ok (token, ⟨s.drop k, 0⟩)
      ∧ 1 ≤ k ∧ k ≤ s.length ∧ token.Len = k % 4294967296
      ∧ tokensOf U s = .ok (token :: rest)
      ∧ tokensOf U (s.drop k) = .ok rest
      ∧ (k < 4294967296 → tokensOf U (s.drop token.Len) = .ok rest) := by
  obtain ⟨token, k, hadv, hk1, hk2, hl, hkind⟩ := advance_spec U s hne
  obtain ⟨rest, hrest, _⟩ := tokensOf_induction U (fun _ _ => True) trivial
    (fun _ _ _ _ _ _ _ _ _ _ _ _ _ => trivial) (s.drop k)
  refine ⟨token, rest, k, hadv, hk1, hk2, hl, ?_, hrest, ?_⟩
  · rw [tokensOf_cons U s token k hadv hk1 hk2
      (publicKinds_ne_none _ (scanned_public _ hkind)), hrest]
  · intro hlt
    have hk : token.Len = k := by
      show token.len = k
      rw [hl, Nat.mod_eq_of_lt hlt]
    rw [hk]
    exact hrest

/-- C5, witness: the input `"a" 0b_ x`, whose first token is a string. -/
theorem tokens_independent_witness :
    ∃ token rest k,
      tokenizer.Advance latin1Tables ⟨ascii "\"a\" 0b_ x", 0⟩
          = .ok (token, ⟨(ascii "\"a\" 0b_ x").drop k, 0⟩)
        ∧ 1 ≤ k ∧ k ≤ (ascii "\"a\" 0b_ x").length ∧ token.Len = k % 4294967296
        ∧ tokensOf latin1Tables (ascii "\"a\" 0b_ x") = .ok (token :: rest)
        ∧ tokensOf latin1Tables ((ascii "\"a\" 0b_ x").drop k) = .ok rest
        ∧ (k < 4294967296 →
          tokensOf latin1Tables ((ascii "\"a\" 0b_ x").drop token.Len) = .ok rest) :=
  tokens_independent latin1Tables (ascii "\"a\" 0b_ x") (by decide)

/-- C5, counterexample: the first token of a text of `2^32` spaces has length 0;
the text is that one token, and not that token followed by the tokens of the
text without its first 0 bytes. -/
theorem tokens_independent_wraps :
    ∃ token rest, (∀ U, tokensOf U (List.replicate 4294967296 32) = .ok (token :: rest))
      ∧ ∀ U, tokensOf U ((List.replicate 4294967296 (32 : Byte)).drop token.Len) ≠ .ok rest := by
  refine ⟨⟨KindWhitespace, 0, ⟨0, 0, 0⟩⟩, [], tokensOf_four_gib_of_spaces, ?_⟩
  intro U
  show tokensOf U (List.replicate 4294967296 32) ≠ .ok []
  rw [tokensOf_four_gib_of_spaces U]
  intro h
  cases h

theorem succeeds_ite {α : Type} (c : Prop) [Decidable c] (a : α) :
    succeeds (if c then (.error .panic : Run α) else .ok a) = !decide c := by
  by_cases h : c
  · rw [if_pos h, decide_eq_true h]
    rfl
  · rw [if_neg h, decide_eq_false h]
    rfl

/-- C6: `Token.Literal()` panics exactly when the token's kind is not
`KindLiteral`, and for a token of kind `KindLiteral` it returns the stored
literal unchanged. -/
theorem Token_Literal_kind_checked (t : Token) :
    (t.Literal = .error .panic ↔ t.Kind ≠ KindLiteral)
      ∧ (t.Kind = KindLiteral → t.Literal = .ok t.literal)
      ∧ ∀ l, t.Literal = .ok l → t.Kind = KindLiteral ∧ l = t.literal := by
  unfold Token.Literal Token.Kind
  by_cases h : KindLiteral = t.kind
  · rw [if_neg (not_not.mpr h)]
    refine ⟨⟨fun h1 => (by cases h1), fun h1 => absurd h.symm h1⟩, fun _ => rfl, ?_⟩
    intro l hl
    cases hl
    exact ⟨h.symm, rfl⟩
  · rw [if_pos h]
    refine ⟨⟨fun _ h1 => h h1.symm, fun _ => rfl⟩, fun h1 => absurd h1.symm h, ?_⟩
    intro l hl
    cases hl

/-- C6, witness: the two directions at an open parenthesis and at a decimal
integer. -/
theorem Token_Literal_kind_checked_witness :
    (Token.ofKind KindOpenParen).Literal = .error .panic
      ∧ (Token.ofLiteral LiteralKindInteger BaseDecimal 0).Literal
        = .ok ⟨LiteralKindInteger, BaseDecimal, 0⟩ :=
  ⟨(Token_Literal_kind_checked (Token.ofKind KindOpenParen)).1.mpr (by decide),
    (Token_Literal_kind_checked (Token.ofLiteral LiteralKindInteger BaseDecimal 0)).2.1 rfl⟩

/-- C7: each kind-specific view panics exactly when the literal's kind is not its
own, and otherwise returns the view that wraps the literal unchanged.  So for
every literal whose kind is one of the four `LiteralKind` constants, exactly one
of the four views succeeds, the one of its kind.  These are the literals there
are: the kind of a literal is written by the tokenizer alone (the fields are
not exported), every token `Tokenize` delivers carries one of the four, and so
does the zero `Literal`. -/
theorem Literal_views_kind_checked :
    (∀ l : Literal,
        ((l.Integer = .error .panic ↔ l.Kind ≠ LiteralKindInteger)
          ∧ (l.Kind = LiteralKindInteger → l.Integer = .ok ⟨l⟩))
        ∧ ((l.Float = .error .panic ↔ l.Kind ≠ LiteralKindFloat)
          ∧ (l.Kind = LiteralKindFloat → l.Float = .ok ⟨l⟩))
        ∧ ((l.String = .error .panic ↔ l.Kind ≠ LiteralKindString)
          ∧ (l.Kind = LiteralKindString → l.String = .ok ⟨l⟩))
        ∧ ((l.Character = .error .panic ↔ l.Kind ≠ LiteralKindCharacter)
          ∧ (l.Kind = LiteralKindCharacter → l.Character = .ok ⟨l⟩))
        ∧ (l.Kind ∈ [LiteralKindInteger, LiteralKindFloat, LiteralKindString,
            LiteralKindCharacter] → l.views.count true = 1))
      ∧ (∀ (U : UnicodeTables) (s : GoString), ∃ tokens, tokensOf U s = .ok tokens
        ∧ ∀ token ∈ tokens,
          token.literal.Kind ∈ [LiteralKindInteger, LiteralKindFloat, LiteralKindString,
            LiteralKindCharacter])
      ∧ (⟨0, 0, 0⟩ : Literal).Kind = LiteralKindInteger
      ∧ (⟨LiteralKindInteger, BaseDecimal, 0⟩ : Literal).views = [true, false, false, false]
      ∧ (⟨LiteralKindFloat, 0, 0⟩ : Literal).views = [false, true, false, false]
      ∧ (⟨LiteralKindString, 0, 1⟩ : Literal).views = [false, false, true, false]
      ∧ (⟨LiteralKindCharacter, 0, 0⟩ : Literal).views = [false, false, false, true] := by
  refine ⟨fun l => ?_, fun U s => ?_, rfl, by decide, by decide, by decide, by decide⟩
  · have view : ∀ (α : Type) (mk : Literal → α) (k : Nat),
        (((if k ≠ l.Kind then (.error .panic : Run α) else .ok (mk l)) = .error .panic
            ↔ l.Kind ≠ k)
          ∧ (l.Kind = k → (if k ≠ l.Kind then (.error .panic : Run α) else .ok (mk l))
            = .ok (mk l))) := by
      intro α mk k
      by_cases h : k = l.Kind
      · rw [if_neg (not_not.mpr h)]
        exact ⟨⟨fun h1 => (by cases h1), fun h1 => absurd h.symm h1⟩, fun _ => rfl⟩
      · rw [if_pos h]
        exact ⟨⟨fun _ h1 => h h1.symm, fun _ => rfl⟩, fun h1 => absurd h1.symm h⟩
    refine ⟨view _ Integer.mk _, view _ Float.mk _, view _ String.mk _, view _ Character.mk _,
      fun hk => ?_⟩
    obtain ⟨k, b, f⟩ := l
    have hk4 : k = 0 ∨ k = 1 ∨ k = 2 ∨ k = 3 := by
      simpa [Literal.Kind, LiteralKindInteger, LiteralKindFloat, LiteralKindString,
        LiteralKindCharacter] using hk
    rcases hk4 with h | h | h | h <;> subst h <;> rfl
  · obtain ⟨tokens, htok, hsc⟩ := tokensOf_scanned U s
    refine ⟨tokens, htok, fun token hmem => ?_⟩
    rcases hsc token hmem with h | h | h | h
    · rw [h.2.2]
      decide
    · show token.literal.kind ∈ _
      rw [h.2.1]
      decide
    · show token.literal.kind ∈ _
      rw [h.2.1]
      decide
    · show token.literal.kind ∈ _
      have hm := h.2.1
      simp only [List.mem_cons, List.mem_singleton, List.not_mem_nil, or_false] at hm
      rcases hm with hm | hm | hm <;> rw [hm] <;> decide

/-- C7, witness: the string literal of the tokenizer has exactly one view. -/
theorem Literal_views_kind_checked_witness :
    (⟨LiteralKindString, 0, 0⟩ : Literal).views.count true = 1 :=
  (Literal_views_kind_checked.1 ⟨LiteralKindString, 0, 0⟩).2.2.2.2 (by decide)

/-- C8 (as amended): for `0`, a base letter, a run `r` over the digit set of the
base plus underscore (underscores anywhere) and a rest that is empty or starts
with a rune outside that set, the first token is an Integer literal of base 2, 8
or 16 that ends where the run ends; its length is `2 + |r|` modulo `2^32`, hence
`2 + |r|` when that is below `2^32`.  `0b012` is Integer(base 2, length 4) and
Integer(base 10, length 1). -/
theorem base_prefixed_integer (U : UnicodeTables) :
    (∀ (x : BasePrefix) (r rest : GoString), (∀ b ∈ r, b ∈ x.specDigitSet) →
        (rest = [] ∨ ∀ b ∈ x.specDigitSet, tokenizer.first ⟨rest, 0⟩ ≠ (b.val : Int)) →
        ∃ token l i,
          tokenizer.Advance U ⟨48 :: x.letter :: (r ++ rest), 0⟩ = .ok (token, ⟨rest, 0⟩)
            ∧ token.Literal = .ok l ∧ l.Integer = .ok i ∧ i.Base = x.base
            ∧ token.Len = (2 + r.length) % 4294967296
            ∧ (2 + r.length < 4294967296 → token.Len = 2 + r.length))
      ∧ tokensOf U (ascii "0b012")
        = .ok [⟨KindLiteral, 4, ⟨LiteralKindInteger, BaseBinary, 0⟩⟩,
          ⟨KindLiteral, 1, ⟨LiteralKindInteger, BaseDecimal, 0⟩⟩] := by
  constructor
  · intro x r rest hr hrest
    have hadv := advance_base_prefixed U x r rest
      (fun b hb => specDigitSet_isContinue x b (hr b hb)) (isContinue_first_rest x rest hrest)
    refine ⟨_, _, _, hadv, rfl, rfl, rfl, rfl, ?_⟩
    intro hlt
    exact Nat.mod_eq_of_lt hlt
  · rw [tokensOf_ascii U _ (by decide)]
    decide

/-- C8, witness: the input `0x_fF_ z`. -/
theorem base_prefixed_integer_witness :
    ∃ token l i,
      tokenizer.Advance latin1Tables
          ⟨48 :: BasePrefix.hexadecimal.letter :: (ascii "_fF_" ++ ascii " z"), 0⟩
          = .ok (token, ⟨ascii " z", 0⟩)
        ∧ token.Literal = .ok l ∧ l.Integer = .ok i ∧ i.Base = BasePrefix.hexadecimal.base
        ∧ token.Len = (2 + (ascii "_fF_").length) % 4294967296
        ∧ (2 + (ascii "_fF_").length < 4294967296 → token.Len = 2 + (ascii "_fF_").length) :=
  (base_prefixed_integer latin1Tables).1 .hexadecimal (ascii "_fF_") (ascii " z") (by decide)
    (Or.inr (by decide))

/-- C8, counterexample: for `0b` followed by `2^32 - 2` zeros (a run over the
binary digit set, with an empty rest) the first token has length 0, not
`2 + |r| = 2^32`. -/
theorem base_prefixed_length_wraps :
    (∀ b ∈ List.replicate 4294967294 (48 : Byte), b ∈ BasePrefix.binary.specDigitSet)
      ∧ ∃ token t1,
        (∀ U, tokenizer.Advance U
          ⟨48 :: BasePrefix.binary.letter :: (List.replicate 4294967294 48 ++ []), 0⟩
            = .ok (token, t1))
        ∧ token.Len ≠ 2 + (List.replicate 4294967294 (48 : Byte)).length := by
  refine ⟨?_, ⟨KindLiteral, 0, ⟨LiteralKindInteger, BaseBinary, 0⟩⟩, ⟨[], 0⟩,
    fun U => advance_binary_zeros U 4294967293, ?_⟩
  · intro b hb
    rw [List.eq_of_mem_replicate hb]
    decide
  · rw [List.length_replicate]
    decide

/-- C9 (as amended): for a base-prefixed integer `EmptyInt` is true exactly when
the run after the prefix is empty (no digit and no underscore: an underscore
counts as found); every Integer literal of base 10 that `Tokenize` delivers has
`EmptyInt` false. -/
theorem EmptyInt_iff_run_empty (U : UnicodeTables) :
    (∀ (x : BasePrefix) (r rest : GoString), (∀ b ∈ r, b ∈ x.specDigitSet) →
        (rest = [] ∨ ∀ b ∈ x.specDigitSet, tokenizer.first ⟨rest, 0⟩ ≠ (b.val : Int)) →
        ∃ token l i,
          tokenizer.Advance U ⟨48 :: x.letter :: (r ++ rest), 0⟩ = .ok (token, ⟨rest, 0⟩)
            ∧ token.Literal = .ok l ∧ l.Integer = .ok i ∧ (i.EmptyInt = true ↔ r = []))
      ∧ ∀ s : GoString, ∃ tokens, tokensOf U s = .ok tokens
        ∧ ∀ token ∈ tokens, ∀ (l : Literal) (i : Integer), token.Literal = .ok l →
          l.Integer = .ok i → i.Base = BaseDecimal → i.EmptyInt = false := by
  constructor
  · intro x r rest hr hrest
    have hadv := advance_base_prefixed U x r rest
      (fun b hb => specDigitSet_isContinue x b (hr b hb)) (isContinue_first_rest x rest hrest)
    refine ⟨_, _, _, hadv, rfl, rfl, ?_⟩
    show ((if r = [] then 1 else 0) &&& literalFlagEmptyInt != 0) = true ↔ r = []
    by_cases h : r = []
    · rw [if_pos h]
      exact ⟨fun _ => h, fun _ => rfl⟩
    · rw [if_neg h]
      exact ⟨fun h0 => absurd h0 (by decide), fun h0 => absurd h0 h⟩
  · intro s
    refine tokensOf_induction U
      (fun _ tokens => ∀ token ∈ tokens, ∀ (l : Literal) (i : Integer), token.Literal = .ok l →
        l.Integer = .ok i → i.Base = BaseDecimal → i.EmptyInt = false)
      (fun _ h => absurd h (List.not_mem_nil _)) ?_ s
    intro s token k rest _ _ _ _ _ hsc _ _ ih x hx
    rcases List.mem_cons.mp hx with h | h
    · rw [h]
      exact scanned_decimal_not_empty token hsc
    · exact ih x h

/-- C9, witness: `0o_7` has a run that is not empty and `0o` has an empty one. -/
theorem EmptyInt_iff_run_empty_witness :
    (∃ token l i,
        tokenizer.Advance latin1Tables ⟨48 :: BasePrefix.octal.letter :: (ascii "_7" ++ []), 0⟩
            = .ok (token, ⟨[], 0⟩)
          ∧ token.Literal = .ok l ∧ l.Integer = .ok i ∧ (i.EmptyInt = true ↔ ascii "_7" = []))
      ∧ ∃ token l i,
        tokenizer.Advance latin1Tables ⟨48 :: BasePrefix.octal.letter :: ([] ++ []), 0⟩
            = .ok (token, ⟨[], 0⟩)
          ∧ token.Literal = .ok l ∧ l.Integer = .ok i ∧ (i.EmptyInt = true ↔ ([] : GoString) = []) :=
  ⟨(EmptyInt_iff_run_empty latin1Tables).1 .octal (ascii "_7") [] (by decide) (Or.inl rfl),
    (EmptyInt_iff_run_empty latin1Tables).1 .octal [] [] (by decide) (Or.inl rfl)⟩

/-- C9, counterexample: in `0b_` the run after the prefix is one underscore, so it
contains no digit, and yet the token is a binary Integer with `EmptyInt` false. -/
theorem EmptyInt_counts_underscore :
    (∀ b ∈ ascii "_", b ∉ BasePrefix.binary.specDigits)
      ∧ ∃ token l i,
        (∀ U, tokenizer.Advance U ⟨ascii "0b" ++ ascii "_", 0⟩ = .ok (token, ⟨[], 0⟩))
          ∧ token.Literal = .ok l ∧ l.Integer = .ok i ∧ i.Base = BaseBinary
          ∧ i.EmptyInt = false := by
  refine ⟨by decide, ⟨KindLiteral, 3, ⟨LiteralKindInteger, BaseBinary, 0⟩⟩, _, _, ?_, rfl, rfl,
    rfl, rfl⟩
  intro U
  rw [advance_ascii U _ (by decide)]
  decide

/-- C10: the first token of every input that starts with `0b`, `0o` or `0x` is an
Integer literal of that base, never a Float; a `.`, `e` or `E` outside the digit
set of the base that follows the digit run is left for the next token, and a dot
there starts a Symbol.  `0b1.0`, `0o1.0` and `0x1.0` are Integer(length 3) then
Symbol(length 2). -/
theorem base_prefixed_never_float (U : UnicodeTables) :
    (∀ (x : BasePrefix) (tail : GoString), ∃ token t1 l i,
        tokenizer.Advance U ⟨48 :: x.letter :: tail, 0⟩ = .ok (token, t1)
          ∧ token.Literal = .ok l ∧ l.Kind = LiteralKindInteger ∧ l.Float = .error .panic
          ∧ l.Integer = .ok i ∧ i.Base = x.base)
      ∧ (∀ (x : BasePrefix) (r : GoString) (c : Byte) (rest : GoString),
        (∀ b ∈ r, b ∈ x.specDigitSet) → c ∈ [(46 : Byte), 101, 69] → c ∉ x.specDigitSet →
        ∃ token l, tokenizer.Advance U ⟨48 :: x.letter :: (r ++ c :: rest), 0⟩
            = .ok (token, ⟨c :: rest, 0⟩)
          ∧ token.Literal = .ok l ∧ l.Kind = LiteralKindInteger)
      ∧ (∀ (x : BasePrefix) (r rest : GoString), (∀ b ∈ r, b ∈ x.specDigitSet) →
        ∃ token1 token2 t2,
          tokenizer.Advance U ⟨48 :: x.letter :: (r ++ 46 :: rest), 0⟩
              = .ok (token1, ⟨46 :: rest, 0⟩)
            ∧ tokenizer.Advance U ⟨46 :: rest, 0⟩ = .ok (token2, t2)
            ∧ token2.Kind = KindSymbol)
      ∧ tokensOf U (ascii "0b1.0")
        = .ok [⟨KindLiteral, 3, ⟨LiteralKindInteger, BaseBinary, 0⟩⟩, ⟨KindSymbol, 2, ⟨0, 0, 0⟩⟩]
      ∧ tokensOf U (ascii "0o1.0")
        = .ok [⟨KindLiteral, 3, ⟨LiteralKindInteger, BaseOctal, 0⟩⟩, ⟨KindSymbol, 2, ⟨0, 0, 0⟩⟩]
      ∧ tokensOf U (ascii "0x1.0")
        = .ok [⟨KindLiteral, 3, ⟨LiteralKindInteger, BaseHexadecimal, 0⟩⟩,
          ⟨KindSymbol, 2, ⟨0, 0, 0⟩⟩] := by
  have hrun : ∀ (x : BasePrefix) (r : GoString) (c : Byte) (rest : GoString),
      (∀ b ∈ r, b ∈ x.specDigitSet) → c.val < 128 → c ∉ x.specDigitSet →
      tokenizer.Advance U ⟨48 :: x.letter :: (r ++ c :: rest), 0⟩
        = .ok (⟨KindLiteral, (2 + r.length) % 4294967296,
          ⟨LiteralKindInteger, x.base, if r = [] then 1 else 0⟩⟩, ⟨c :: rest, 0⟩) :=
    fun x r c rest hr hc hx => advance_base_prefixed U x r (c :: rest)
      (fun b hb => specDigitSet_isContinue x b (hr b hb)) (isContinue_first_byte x c rest hc hx)
  refine ⟨?_, ?_, ?_, ?_, ?_, ?_⟩
  · intro x tail
    obtain ⟨len, flags, t1, hadv⟩ := advance_base_prefix_kind U x tail
    exact ⟨_, t1, _, _, hadv, rfl, rfl, rfl, rfl, rfl⟩
  · intro x r c rest hr hc hx
    have hlt : c.val < 128 := by
      simp only [List.mem_cons, List.mem_singleton, List.not_mem_nil, or_false] at hc
      rcases hc with h | h | h <;> rw [h] <;> decide
    exact ⟨_, _, hrun x r c rest hr hlt hx, rfl, rfl⟩
  · intro x r rest hr
    obtain ⟨len, t2, hdot⟩ := advance_dot U rest
    have hx : (46 : Byte) ∉ x.specDigitSet := by cases x <;> decide
    exact ⟨_, _, t2, hrun x r 46 rest hr (by decide) hx, hdot, rfl⟩
  · rw [tokensOf_ascii U _ (by decide)]
    decide
  · rw [tokensOf_ascii U _ (by decide)]
    decide
  · rw [tokensOf_ascii U _ (by decide)]
    decide

/-- C10, witness: in `0b1e5` the binary integer stops before the `e`, and in
`0o17.5` the dot starts a Symbol. -/
theorem base_prefixed_never_float_witness :
    (∃ token l, tokenizer.Advance latin1Tables
          ⟨48 :: BasePrefix.binary.letter :: (ascii "1" ++ 101 :: ascii "5"), 0⟩
          = .ok (token, ⟨101 :: ascii "5", 0⟩)
        ∧ token.Literal = .ok l ∧ l.Kind = LiteralKindInteger)
      ∧ ∃ token1 token2 t2,
        tokenizer.Advance latin1Tables
            ⟨48 :: BasePrefix.octal.letter :: (ascii "17" ++ 46 :: ascii "5"), 0⟩
            = .ok (token1, ⟨46 :: ascii "5", 0⟩)
          ∧ tokenizer.Advance latin1Tables ⟨46 :: ascii "5", 0⟩ = .ok (token2, t2)
          ∧ token2.Kind = KindSymbol :=
  ⟨(base_prefixed_never_float latin1Tables).2.1 .binary (ascii "1") 101 (ascii "5")
      (by decide) (by decide) (by decide),
    (base_prefixed_never_float latin1Tables).2.2.1 .octal (ascii "17") (ascii "5") (by decide)⟩

/-- C11: for every input that starts with an ASCII decimal digit `d` and not with
`0b`, `0o` or `0x`, with `D` the lead digit plus the longest run of decimal
digits and underscores after it (so that `tail.dropWhile inDecimalRun` is what
follows `D`): the first token is a literal, it is a Float exactly when `D` is
followed by `.` and a decimal digit or `_`, or directly by `e` or `E`
(`specFloatFollows`), and otherwise it is an Integer of base 10.  Every Integer
literal `Tokenize` delivers has a base in {2, 8, 10, 16}, and the first token of
a text that starts with a digit, when it is an Integer, has base 10 exactly when
the text does not start with a base prefix. -/
theorem decimal_integer_or_float (U : UnicodeTables) :
    (∀ (d : Byte) (tail : GoString), 48 ≤ d.val ∧ d.val ≤ 57 →
        specBasePrefixed (d :: tail) = false →
        ∃ token t1 l, tokenizer.Advance U ⟨d :: tail, 0⟩ = .ok (token, t1)
          ∧ token.Literal = .ok l
          ∧ (l.Kind = LiteralKindFloat
            ↔ specFloatFollows (tail.dropWhile inDecimalRun) = true)
          ∧ (l.Kind ≠ LiteralKindFloat → ∃ i, l.Integer = .ok i ∧ i.Base = BaseDecimal))
      ∧ (∀ s : GoString, ∃ tokens, tokensOf U s = .ok tokens
        ∧ ∀ token ∈ tokens, ∀ l i, token.Literal = .ok l → l.Integer = .ok i →
          i.Base ∈ [BaseBinary, BaseOctal, BaseDecimal, BaseHexadecimal])
      ∧ (∀ (d : Byte) (tail : GoString), 48 ≤ d.val ∧ d.val ≤ 57 →
        ∀ token t1 l i, tokenizer.Advance U ⟨d :: tail, 0⟩ = .ok (token, t1) →
          token.Literal = .ok l → l.Integer = .ok i →
          (i.Base = BaseDecimal ↔ specBasePrefixed (d :: tail) = false)) := by
  refine ⟨?_, ?_, ?_⟩
  · intro d tail hd hnp
    obtain ⟨len, lit, t1, ha, h1, h2⟩ := advance_decimal U d tail hd hnp
    refine ⟨_, t1, lit, ha, rfl, ?_, ?_⟩
    · cases hc : specFloatFollows (tail.dropWhile inDecimalRun) with
      | true => exact ⟨fun _ => rfl, fun _ => h1 hc⟩
      | false =>
        have h3 : lit.Kind = LiteralKindInteger := by rw [h2 hc]; rfl
        refine ⟨fun h => ?_, fun h => Bool.noConfusion h⟩
        rw [h3] at h
        exact absurd h (by decide)
    · intro hne
      cases hc : specFloatFollows (tail.dropWhile inDecimalRun) with
      | true => exact absurd (h1 hc) hne
      | false =>
        rw [h2 hc]
        exact ⟨_, rfl, rfl⟩
  · intro s
    obtain ⟨tokens, ht, hsc⟩ := tokensOf_scanned U s
    refine ⟨tokens, ht, ?_⟩
    intro token hmem l i hl hi
    obtain ⟨hk, hlit⟩ := token_literal_ok token l hl
    obtain ⟨hik, hil⟩ := literal_integer_ok l i hi
    show i.l.base ∈ _
    rw [hil, ← hlit]
    exact scanned_integer_base token (hsc token hmem) (by rw [hlit]; exact hik) hk
  · intro d tail hd token t1 l i ha hl hi
    obtain ⟨hk, hlit⟩ := token_literal_ok token l hl
    obtain ⟨hik, hil⟩ := literal_integer_ok l i hi
    have hb : i.Base = token.literal.base := by
      show i.l.base = _
      rw [hil, hlit]
    cases hp : specBasePrefixed (d :: tail) with
    | true =>
      obtain ⟨x, tl, hx⟩ := specBasePrefixed_letter d tail hp
      obtain ⟨len, flags, t2, hadv⟩ := advance_base_prefix_kind U x tl
      rw [hx, hadv] at ha
      cases ha
      refine ⟨fun h => ?_, fun h => Bool.noConfusion h⟩
      rw [hb] at h
      have h' : x.base = BaseDecimal := h
      exact absurd h' (by cases x <;> decide)
    | false =>
      obtain ⟨len, lit, t2, hadv, h1, h2⟩ := advance_decimal U d tail hd hp
      rw [hadv] at ha
      cases ha
      refine ⟨fun _ => rfl, fun _ => ?_⟩
      rw [hb]
      cases hc : specFloatFollows (tail.dropWhile inDecimalRun) with
      | true =>
        have h3 := h1 hc
        rw [← hlit] at hik
        rw [hik] at h3
        exact absurd h3 (by decide)
      | false =>
        show lit.base = BaseDecimal
        rw [h2 hc]

/-- C11, instances: `12.5`, `7e` and `3._` start with a Float, `12.x`, `0.` and
`00b1` with a decimal Integer. -/
theorem decimal_integer_or_float_witness :
    (∃ token t1 l, tokenizer.Advance latin1Tables ⟨49 :: ascii "2.5", 0⟩ = .ok (token, t1)
        ∧ token.Literal = .ok l
        ∧ (l.Kind = LiteralKindFloat
          ↔ specFloatFollows ((ascii "2.5").dropWhile inDecimalRun) = true)
        ∧ (l.Kind ≠ LiteralKindFloat → ∃ i, l.Integer = .ok i ∧ i.Base = BaseDecimal))
      ∧ specFloatFollows ((ascii "2.5").dropWhile inDecimalRun) = true
      ∧ specFloatFollows ((ascii "e").dropWhile inDecimalRun) = true
      ∧ specFloatFollows ((ascii "._").dropWhile inDecimalRun) = true
      ∧ specFloatFollows ((ascii "2.x").dropWhile inDecimalRun) = false
      ∧ specFloatFollows ((ascii ".").dropWhile inDecimalRun) = false
      ∧ specFloatFollows ((ascii "0b1").dropWhile inDecimalRun) = false :=
  ⟨(decimal_integer_or_float latin1Tables).1 49 (ascii "2.5") (by decide) (by decide),
    by decide, by decide, by decide, by decide, by decide, by decide⟩

/-- C12 (as amended): for a decimal digit `d`, a run `r` of decimal digits and
underscores (`D = d r`), a dot and a rest that is empty or starts with a byte
that is neither a decimal digit nor `_`, the first token is the Integer of base
10 that ends before the dot; its length is `|D|` modulo `2^32`, hence `|D|` when
that is below `2^32`; the second token is a Symbol that begins at the dot.  `0.`
is Integer(1), Symbol(1) and `0.o` is Integer(1), Symbol(2). -/
theorem trailing_dot_not_in_number (U : UnicodeTables) :
    (∀ (d : Byte) (r rest : GoString), 48 ≤ d.val ∧ d.val ≤ 57 →
        (∀ b ∈ r, b ∈ specDecimalRunSet) →
        (∀ b tl, rest = b :: tl → b ∉ specDecimalRunSet) →
        ∃ token l i len2 more,
          tokenizer.Advance U ⟨d :: r ++ 46 :: rest, 0⟩ = .ok (token, ⟨46 :: rest, 0⟩)
            ∧ token.Literal = .ok l ∧ l.Integer = .ok i ∧ i.Base = BaseDecimal
            ∧ token.Len = (d :: r).length % 4294967296
            ∧ ((d :: r).length < 4294967296 → token.Len = (d :: r).length)
            ∧ tokensOf U (d :: r ++ 46 :: rest)
              = .ok (token :: ⟨KindSymbol, len2, ⟨0, 0, 0⟩⟩ :: more))
      ∧ tokensOf U (ascii "0.")
        = .ok [⟨KindLiteral, 1, ⟨LiteralKindInteger, BaseDecimal, 0⟩⟩, ⟨KindSymbol, 1, ⟨0, 0, 0⟩⟩]
      ∧ tokensOf U (ascii "0.o")
        = .ok [⟨KindLiteral, 1, ⟨LiteralKindInteger, BaseDecimal, 0⟩⟩,
          ⟨KindSymbol, 2, ⟨0, 0, 0⟩⟩] := by
  refine ⟨?_, ?_, ?_⟩
  · intro d r rest hd hr hrest
    have hadv := advance_trailing_dot U d r rest hd
      (fun b hb => inDecimalRun_of_mem b (hr b hb))
      (fun b tl hs => inDecimalRun_of_not_mem b (hrest b tl hs))
    obtain ⟨len2, t2, hdot⟩ := advance_dot U rest
    obtain ⟨more, _, hmore⟩ := tokensOf_after U (46 :: rest) _ t2 (List.cons_ne_nil _ _) hdot
    obtain ⟨rest1, hr1, hall⟩ := tokensOf_after U (d :: (r ++ 46 :: rest)) _ _
      (List.cons_ne_nil _ _) hadv
    have hr2 : tokensOf U (46 :: rest) = .ok rest1 := hr1
    rw [hmore] at hr2
    cases hr2
    have hlen : (d :: r).length = 1 + r.length := by rw [List.length_cons, Nat.add_comm]
    refine ⟨_, _, _, len2, more, hadv, rfl, rfl, rfl, ?_, ?_, hall⟩
    · rw [hlen]
      rfl
    · intro hlt
      rw [hlen] at hlt ⊢
      exact Nat.mod_eq_of_lt hlt
  · rw [tokensOf_ascii U _ (by decide)]
    decide
  · rw [tokensOf_ascii U _ (by decide)]
    decide

/-- C12, witness: the input `1_0.x` (`x` is the byte 120). -/
theorem trailing_dot_not_in_number_witness :
    ∃ token l i len2 more,
      tokenizer.Advance latin1Tables ⟨49 :: ascii "_0" ++ 46 :: [120], 0⟩
          = .ok (token, ⟨46 :: [120], 0⟩)
        ∧ token.Literal = .ok l ∧ l.Integer = .ok i ∧ i.Base = BaseDecimal
        ∧ token.Len = (49 :: ascii "_0").length % 4294967296
        ∧ ((49 :: ascii "_0").length < 4294967296 → token.Len = (49 :: ascii "_0").length)
        ∧ tokensOf latin1Tables (49 :: ascii "_0" ++ 46 :: [120])
          = .ok (token :: ⟨KindSymbol, len2, ⟨0, 0, 0⟩⟩ :: more) :=
  (trailing_dot_not_in_number latin1Tables).1 49 (ascii "_0") [120] (by decide) (by decide)
    (fun b tl hs => by cases hs; decide)

/-- C12, counterexample: for `D` = `2^32` digits `1` followed by a dot and the end
of the text, the first token is the decimal Integer but its length is 0, not
`|D| = 2^32`. -/
theorem trailing_dot_length_wraps :
    (∀ b ∈ List.replicate 4294967295 (49 : Byte), b ∈ specDecimalRunSet)
      ∧ ∃ token t1,
        (∀ U, tokenizer.Advance U ⟨49 :: (List.replicate 4294967295 49 ++ 46 :: []), 0⟩
            = .ok (token, t1))
        ∧ token.Len ≠ ((49 : Byte) :: List.replicate 4294967295 49).length := by
  refine ⟨?_, ⟨KindLiteral, 0, ⟨LiteralKindInteger, BaseDecimal, 0⟩⟩, ⟨[46], 0⟩,
    fun U => advance_ones_dot U 4294967295, ?_⟩
  · intro b hb
    rw [List.eq_of_mem_replicate hb]
    decide
  · rw [List.length_cons, List.length_replicate]
    decide

/-- C13: every Float that is the first token of a text starts at a decimal digit
`d`, and its `EmptyExponent` is true exactly when the number has an exponent
marker (`e` or `E`, after the integer part or after the fractional part) and the
decimal digit run (digits and underscores) that follows the marker and its
optional sign is empty: `specExponentDigits` of what follows the integer and
fractional part is `some []`.  So a Float without marker (`none`) and a Float
whose exponent has digits have `EmptyExponent` false, as `12.3E10`,
`98_76_._54e+592` and `1_234E56` do; an underscore is a character of the run,
so `1e_` has `EmptyExponent` false as well. -/
theorem EmptyExponent_iff_exponent_empty (U : UnicodeTables) :
    (∀ (s : GoString) (token : Token) (t1 : tokenizer) (l : Literal) (f : Float),
        tokenizer.Advance U ⟨s, 0⟩ = .ok (token, t1) → token.Literal = .ok l →
        l.Float = .ok f →
        ∃ d tail, s = d :: tail ∧ 48 ≤ d.val ∧ d.val ≤ 57
          ∧ (f.EmptyExponent = true
            ↔ specExponentDigits (specAfterFraction (tail.dropWhile inDecimalRun)) = some []))
      ∧ tokensOf U (ascii "12.3E10") = .ok [⟨KindLiteral, 7, ⟨LiteralKindFloat, 0, 0⟩⟩]
      ∧ tokensOf U (ascii "98_76_._54e+592") = .ok [⟨KindLiteral, 15, ⟨LiteralKindFloat, 0, 0⟩⟩]
      ∧ tokensOf U (ascii "1_234E56") = .ok [⟨KindLiteral, 8, ⟨LiteralKindFloat, 0, 0⟩⟩]
      ∧ tokensOf U (ascii "1e_") = .ok [⟨KindLiteral, 3, ⟨LiteralKindFloat, 0, 0⟩⟩] := by
  refine ⟨?_, ?_, ?_, ?_, ?_⟩
  · intro s token t1 l f ha hl hf
    obtain ⟨hk, hlit⟩ := token_literal_ok token l hl
    obtain ⟨hfk, hfl⟩ := literal_float_ok l f hf
    have hne := advance_literal_ne_nil U s token t1 ha hk
    have htk : token.literal.kind = LiteralKindFloat := by rw [hlit]; exact hfk
    obtain ⟨d, tail, hs, hd⟩ := (advance_literal_lead U s token t1 hne ha hk).1 (Or.inr htk)
    subst hs
    refine ⟨d, tail, rfl, hd.1, hd.2, ?_⟩
    cases hp : specBasePrefixed (d :: tail) with
    | true =>
      obtain ⟨x, tl, hx⟩ := specBasePrefixed_letter d tail hp
      obtain ⟨len, flags, t2, hadv⟩ := advance_base_prefix_kind U x tl
      rw [hx, hadv] at ha
      cases ha
      have h3 : LiteralKindInteger = LiteralKindFloat := htk
      exact absurd h3 (by decide)
    | false =>
      cases hc : specFloatFollows (tail.dropWhile inDecimalRun) with
      | false =>
        obtain ⟨len, lit, t2, hadv, _, h2⟩ := advance_decimal U d tail hd hp
        rw [hadv] at ha
        cases ha
        have h3 : lit.kind = LiteralKindFloat := htk
        rw [h2 hc] at h3
        exact absurd h3 (by decide)
      | true =>
        obtain ⟨r, rest, hsp, hr, hrest, _, hdrop⟩ := span_run inDecimalRun tail
        rw [hdrop] at hc ⊢
        obtain ⟨flags, t2, hn, hle, hiff⟩ :=
          numericDecimal_float r rest ((0 + 1) % 4294967296) hr hrest (by decide) hc
        rw [← hsp, ← nextToken_decimal U d tail hd hp] at hn
        rw [advance_of_nextToken U _ _ _ hn] at ha
        cases ha
        have hflags : f.l.flags = flags := by rw [hfl, ← hlit]; rfl
        rw [← hiff]
        show (f.l.flags &&& literalFlagEmptyExponent != 0) = true ↔ _
        rw [hflags]
        have h01 : flags = 0 ∨ flags = 1 := by omega
        rcases h01 with h | h <;> subst h <;> decide
  · rw [tokensOf_ascii U _ (by decide)]
    decide
  · rw [tokensOf_ascii U _ (by decide)]
    decide
  · rw [tokensOf_ascii U _ (by decide)]
    decide
  · rw [tokensOf_ascii U _ (by decide)]
    decide

/-- C13, instances: `1e`, `1e+` and `2.5E-` have an empty exponent, `1e5`, `1e_`
and `2.5` do not. -/
theorem EmptyExponent_iff_exponent_empty_witness :
    (∃ d tail, ascii "2.5E-" = d :: tail ∧ 48 ≤ d.val ∧ d.val ≤ 57
        ∧ ((⟨⟨LiteralKindFloat, 0, 1⟩⟩ : Float).EmptyExponent = true
          ↔ specExponentDigits (specAfterFraction (tail.dropWhile inDecimalRun)) = some []))
      ∧ specExponentDigits (specAfterFraction ((ascii "e").dropWhile inDecimalRun)) = some []
      ∧ specExponentDigits (specAfterFraction ((ascii "e+").dropWhile inDecimalRun)) = some []
      ∧ specExponentDigits (specAfterFraction ((ascii ".5E-").dropWhile inDecimalRun)) = some []
      ∧ specExponentDigits (specAfterFraction ((ascii "e5").dropWhile inDecimalRun))
        = some (ascii "5")
      ∧ specExponentDigits (specAfterFraction ((ascii "e_").dropWhile inDecimalRun))
        = some (ascii "_")
      ∧ specExponentDigits (specAfterFraction ((ascii ".5").dropWhile inDecimalRun)) = none :=
  ⟨(EmptyExponent_iff_exponent_empty latin1Tables).1 (ascii "2.5E-")
      ⟨KindLiteral, 5, ⟨LiteralKindFloat, 0, 1⟩⟩ ⟨[], 0⟩ ⟨LiteralKindFloat, 0, 1⟩
      ⟨⟨LiteralKindFloat, 0, 1⟩⟩ (by decide) (by decide) (by decide),
    by decide, by decide, by decide, by decide, by decide, by decide⟩

/-- C14 (as amended): for every input `"` body `"` where the body is a sequence of
units, each one codepoint other than `"` and `\` or a backslash followed by one
codepoint, `Tokenize` delivers exactly one token, a String literal whose
`Unterminated` is false; its length is the length of the whole input modulo
`2^32`, hence that length when it is below `2^32`.  `"\""` and `"\"` are one
String of length 4. -/
theorem escapes_do_not_end_string (U : UnicodeTables) :
    (∀ body : GoString, StringUnits (body ++ [34]) [34] →
        ∃ token l x, tokensOf U (34 :: (body ++ [34])) = .ok [token]
          ∧ token.Literal = .ok l ∧ l.String = .ok x ∧ x.Unterminated = false
          ∧ token.Len = (34 :: (body ++ [34])).length % 4294967296
          ∧ ((34 :: (body ++ [34])).length < 4294967296
            → token.Len = (34 :: (body ++ [34])).length))
      ∧ tokensOf U (ascii "\"\\\"\"") = .ok [⟨KindLiteral, 4, ⟨LiteralKindString, 0, 0⟩⟩]
      ∧ tokensOf U (ascii "\"\\\\\"") = .ok [⟨KindLiteral, 4, ⟨LiteralKindString, 0, 0⟩⟩] := by
  refine ⟨?_, ?_, ?_⟩
  · intro body h
    have hadv := advance_string_closed U (body ++ [34]) [] h
    have hlen : (34 :: (body ++ [34])).length = 1 + ((body ++ [34]).length - ([] : GoString).length) := by
      simp only [List.length_cons, List.length_append, List.length_nil]
      omega
    refine ⟨_, _, _, tokensOf_single U (34 :: (body ++ [34])) _ (List.cons_ne_nil _ _) hadv,
      rfl, rfl, ?_, ?_, ?_⟩
    · show ((0 : Nat) &&& literalFlagUnterminated != 0) = false
      decide
    · rw [hlen]
      rfl
    · intro hlt
      rw [hlen] at hlt ⊢
      exact Nat.mod_eq_of_lt hlt
  · rw [tokensOf_ascii U _ (by decide)]
    decide
  · rw [tokensOf_ascii U _ (by decide)]
    decide

/-- C14, witness: the input `"a\"b"`, whose body is the units `a`, `\"`, `b`. -/
theorem escapes_do_not_end_string_witness :
    ∃ token l x, tokensOf latin1Tables (34 :: ([97, 92, 34, 98] ++ [34])) = .ok [token]
      ∧ token.Literal = .ok l ∧ l.String = .ok x ∧ x.Unterminated = false
      ∧ token.Len = (34 :: ([97, 92, 34, 98] ++ [34])).length % 4294967296
      ∧ ((34 :: ([97, 92, 34, 98] ++ [34])).length < 4294967296
        → token.Len = (34 :: ([97, 92, 34, 98] ++ [34])).length) :=
  (escapes_do_not_end_string latin1Tables).1 [97, 92, 34, 98]
    (StringUnits.char _ _ (by decide) (by decide) (by decide)
      (StringUnits.escape [34, 98, 34] _ (by decide)
        (StringUnits.char [98, 34] _ (by decide) (by decide) (by decide)
          (StringUnits.done [34]))))

/-- C14, counterexample: the input `"`, `2^32 - 2` letters `a`, `"` has the form
of the claim (its body consists of one-codepoint units), but the length of its
one String token is 0, not the length `2^32` of the whole input. -/
theorem string_length_wraps :
    StringUnits (List.replicate 4294967294 97 ++ [34]) [34]
      ∧ ∃ token, (∀ U, tokensOf U (34 :: (List.replicate 4294967294 97 ++ [34])) = .ok [token])
        ∧ token.Len ≠ (34 :: (List.replicate 4294967294 (97 : Byte) ++ [34])).length := by
  refine ⟨StringUnits.of_quoted_letters 4294967294,
    ⟨KindLiteral, 0, ⟨LiteralKindString, 0, 0⟩⟩, fun U => ?_, ?_⟩
  · exact tokensOf_single U (34 :: (List.replicate 4294967294 97 ++ [34])) _
      (List.cons_ne_nil _ _) (advance_quoted_letters U 4294967294)
  · rw [List.length_cons, List.length_append, List.length_replicate]
    decide

/-- C15 (as amended): for every input that starts with `"` the first token is a
String literal.  Its `Unterminated` is true exactly when the end of the input is
reached before an unescaped closing `"`: what follows the opening quote is a
sequence of units up to the end, or up to a last lone backslash.  That token
takes the whole input (the length of the input modulo `2^32`) and is the last
and only token.  When `Unterminated` is false the token is the opening quote, a
body of units and the closing `"` as its last byte; its length is the length of
that text modulo `2^32`, hence at least 2 when that is below `2^32`. -/
theorem Unterminated_iff_no_closing_quote (U : UnicodeTables) :
    (∀ s : GoString, ∃ token t1 l x,
        tokenizer.Advance U ⟨34 :: s, 0⟩ = .ok (token, t1)
          ∧ token.Literal = .ok l ∧ l.String = .ok x
          ∧ (x.Unterminated = true ↔ StringUnits s [] ∨ StringUnits s [92])
          ∧ (x.Unterminated = true →
            t1 = ⟨[], 0⟩ ∧ token.Len = (34 :: s).length % 4294967296
              ∧ tokensOf U (34 :: s) = .ok [token])
          ∧ (x.Unterminated = false →
            ∃ body rest, s = body ++ 34 :: rest ∧ StringUnits s (34 :: rest)
              ∧ t1 = ⟨rest, 0⟩
              ∧ token.Len = (34 :: (body ++ [34])).length % 4294967296
              ∧ ((34 :: (body ++ [34])).length < 4294967296 → 2 ≤ token.Len)))
      ∧ tokensOf U (ascii "\"ab") = .ok [⟨KindLiteral, 3, ⟨LiteralKindString, 0, 1⟩⟩]
      ∧ tokensOf U (ascii "\"a\\\"") = .ok [⟨KindLiteral, 4, ⟨LiteralKindString, 0, 1⟩⟩]
      ∧ tokensOf U (ascii "\"a\\") = .ok [⟨KindLiteral, 3, ⟨LiteralKindString, 0, 1⟩⟩]
      ∧ tokensOf U (ascii "\"a\"b")
        = .ok [⟨KindLiteral, 3, ⟨LiteralKindString, 0, 0⟩⟩, ⟨KindSymbol, 1, ⟨0, 0, 0⟩⟩] := by
  refine ⟨?_, ?_, ?_, ?_, ?_⟩
  · intro s
    rcases StringUnits.total s.length s (Nat.le_refl _) with h | h | ⟨rest, h⟩
    · have ho : StringUnits s [] ∨ StringUnits s [92] := Or.inl h
      have hadv := advance_string_open U s ho
      have hlen : (34 :: s).length = 1 + s.length := by rw [List.length_cons, Nat.add_comm]
      refine ⟨_, _, _, _, hadv, rfl, rfl, ⟨fun _ => ho, fun _ => ?_⟩, fun _ => ⟨rfl, ?_, ?_⟩,
        fun hf => ?_⟩
      · show ((1 : Nat) &&& literalFlagUnterminated != 0) = true
        decide
      · rw [hlen]
        rfl
      · exact tokensOf_single U (34 :: s) _ (List.cons_ne_nil _ _) hadv
      · have hf1 : ((1 : Nat) &&& literalFlagUnterminated != 0) = false := hf
        exact absurd hf1 (by decide)
    · have ho : StringUnits s [] ∨ StringUnits s [92] := Or.inr h
      have hadv := advance_string_open U s ho
      have hlen : (34 :: s).length = 1 + s.length := by rw [List.length_cons, Nat.add_comm]
      refine ⟨_, _, _, _, hadv, rfl, rfl, ⟨fun _ => ho, fun _ => ?_⟩, fun _ => ⟨rfl, ?_, ?_⟩,
        fun hf => ?_⟩
      · show ((1 : Nat) &&& literalFlagUnterminated != 0) = true
        decide
      · rw [hlen]
        rfl
      · exact tokensOf_single U (34 :: s) _ (List.cons_ne_nil _ _) hadv
      · have hf1 : ((1 : Nat) &&& literalFlagUnterminated != 0) = false := hf
        exact absurd hf1 (by decide)
    · have hadv := advance_string_closed U s rest h
      obtain ⟨body, hb⟩ := h.suffix
      have hlen : (34 :: (body ++ [34])).length = 1 + (s.length - rest.length) := by
        rw [hb]
        simp only [List.length_cons, List.length_append, List.length_nil]
        omega
      refine ⟨_, _, _, _, hadv, rfl, rfl, ⟨fun hf => ?_, fun ho => ?_⟩, fun hf => ?_,
        fun _ => ⟨body, rest, hb, h, rfl, ?_, ?_⟩⟩
      · have hf1 : ((0 : Nat) &&& literalFlagUnterminated != 0) = true := hf
        exact absurd hf1 (by decide)
      · exact (StringUnits.closed_not_open s rest h ho).elim
      · have hf1 : ((0 : Nat) &&& literalFlagUnterminated != 0) = true := hf
        exact absurd hf1 (by decide)
      · rw [hlen]
        rfl
      · intro hlt
        rw [hlen] at hlt
        show 2 ≤ (1 + (s.length - rest.length)) % 4294967296
        rw [Nat.mod_eq_of_lt hlt]
        rw [hb]
        simp only [List.length_cons, List.length_append]
        omega
  · rw [tokensOf_ascii U _ (by decide)]
    decide
  · rw [tokensOf_ascii U _ (by decide)]
    decide
  · rw [tokensOf_ascii U _ (by decide)]
    decide
  · rw [tokensOf_ascii U _ (by decide)]
    decide

/-- C15, instance: the input `"a\"`, whose closing quote is escaped. -/
theorem Unterminated_iff_no_closing_quote_witness :
    ∃ token t1 l x,
      tokenizer.Advance latin1Tables ⟨34 :: [97, 92, 34], 0⟩ = .ok (token, t1)
        ∧ token.Literal = .ok l ∧ l.String = .ok x
        ∧ (x.Unterminated = true
          ↔ StringUnits [97, 92, 34] [] ∨ StringUnits [97, 92, 34] [92])
        ∧ (x.Unterminated = true →
          t1 = ⟨[], 0⟩ ∧ token.Len = (34 :: [97, 92, 34]).length % 4294967296
            ∧ tokensOf latin1Tables (34 :: [97, 92, 34]) = .ok [token])
        ∧ (x.Unterminated = false →
          ∃ body rest, [97, 92, 34] = body ++ 34 :: rest ∧ StringUnits [97, 92, 34] (34 :: rest)
            ∧ t1 = ⟨rest, 0⟩
            ∧ token.Len = (34 :: (body ++ [34])).length % 4294967296
            ∧ ((34 :: (body ++ [34])).length < 4294967296 → 2 ≤ token.Len)) :=
  (Unterminated_iff_no_closing_quote latin1Tables).1 [97, 92, 34]

/-- C15, counterexample: the input `"`, `2^32 - 2` letters `a`, `"` starts with a
String whose `Unterminated` is false, and the length of that token is 0, not at
least 2. -/
theorem terminated_string_length_wraps :
    ∃ token t1 l x,
      (∀ U, tokenizer.Advance U ⟨34 :: (List.replicate 4294967294 97 ++ [34]), 0⟩
          = .ok (token, t1))
        ∧ token.Literal = .ok l ∧ l.String = .ok x ∧ x.Unterminated = false
        ∧ ¬2 ≤ token.Len :=
  ⟨⟨KindLiteral, 0, ⟨LiteralKindString, 0, 0⟩⟩, ⟨[], 0⟩, ⟨LiteralKindString, 0, 0⟩,
    ⟨⟨LiteralKindString, 0, 0⟩⟩, fun U => advance_quoted_letters U 4294967294, rfl, rfl,
    by decide, by decide⟩

/-- C16 (as amended): every Character that is the first token of a text starts at
a backslash; its `MissingCharacter` is true exactly when that backslash is the
last byte of the input, and then the token has length 1 and is the last and
only token.  Every other Character token has `MissingCharacter` false and takes
`k ≥ 2` bytes; its length is `k` modulo `2^32`, hence at least 2 when `k` is
below `2^32`. -/
theorem MissingCharacter_iff_backslash_last (U : UnicodeTables) :
    (∀ (s : GoString) (token : Token) (t1 : tokenizer) (l : Literal) (x : Character),
        tokenizer.Advance U ⟨s, 0⟩ = .ok (token, t1) → token.Literal = .ok l →
        l.Character = .ok x →
        ∃ tail, s = 92 :: tail ∧ (x.MissingCharacter = true ↔ tail = [])
          ∧ (tail = [] → token.Len = 1 ∧ tokensOf U s = .ok [token])
          ∧ (tail ≠ [] → ∃ k, 2 ≤ k ∧ k ≤ s.length ∧ t1 = ⟨s.drop k, 0⟩
            ∧ token.Len = k % 4294967296 ∧ (k < 4294967296 → 2 ≤ token.Len)))
      ∧ tokensOf U (ascii "\\") = .ok [⟨KindLiteral, 1, ⟨LiteralKindCharacter, 0, 1⟩⟩]
      ∧ tokensOf U (ascii "a \\")
        = .ok [⟨KindSymbol, 1, ⟨0, 0, 0⟩⟩, ⟨KindWhitespace, 1, ⟨0, 0, 0⟩⟩,
          ⟨KindLiteral, 1, ⟨LiteralKindCharacter, 0, 1⟩⟩] := by
  refine ⟨?_, ?_, ?_⟩
  · intro s token t1 l x ha hl hx
    obtain ⟨hk, hlit⟩ := token_literal_ok token l hl
    obtain ⟨hxk, hxl⟩ := literal_character_ok l x hx
    have hne := advance_literal_ne_nil U s token t1 ha hk
    have htk : token.literal.kind = LiteralKindCharacter := by rw [hlit]; exact hxk
    obtain ⟨tail, hs⟩ := (advance_literal_lead U s token t1 hne ha hk).2.1 htk
    subst hs
    have hflags : x.MissingCharacter = (token.literal.flags &&& literalFlagMissingChar != 0) := by
      show (x.l.flags &&& literalFlagMissingChar != 0) = _
      rw [hxl, hlit]
    refine ⟨tail, rfl, ?_⟩
    by_cases ht : tail = []
    · subst ht
      have hadv := advance_backslash_eof U
      rw [hadv] at ha
      cases ha
      refine ⟨⟨fun _ => rfl, fun _ => ?_⟩, fun _ => ⟨rfl, ?_⟩, fun h => absurd rfl h⟩
      · rw [hflags]
        decide
      · exact tokensOf_single U [92] _ (List.cons_ne_nil _ _) hadv
    · obtain ⟨k, hk1, hk2, hadv⟩ := advance_backslash U tail ht
      rw [hadv] at ha
      cases ha
      refine ⟨⟨fun h => ?_, fun h => absurd h ht⟩, fun h => absurd h ht,
        fun _ => ⟨k, hk1, hk2, rfl, rfl, fun hlt => ?_⟩⟩
      · rw [hflags] at h
        have h0 : ((0 : Nat) &&& literalFlagMissingChar != 0) = true := h
        exact absurd h0 (by decide)
      · show 2 ≤ k % 4294967296
        rw [Nat.mod_eq_of_lt hlt]
        exact hk1
  · rw [tokensOf_ascii U _ (by decide)]
    decide
  · rw [tokensOf_ascii U _ (by decide)]
    decide

/-- C16, instance: the input `\a`. -/
theorem MissingCharacter_iff_backslash_last_witness :
    ∃ tail, ascii "\\a" = 92 :: tail
      ∧ ((⟨⟨LiteralKindCharacter, 0, 0⟩⟩ : Character).MissingCharacter = true ↔ tail = [])
      ∧ (tail = [] → (⟨KindLiteral, 2, ⟨LiteralKindCharacter, 0, 0⟩⟩ : Token).Len = 1
        ∧ tokensOf latin1Tables (ascii "\\a")
          = .ok [⟨KindLiteral, 2, ⟨LiteralKindCharacter, 0, 0⟩⟩])
      ∧ (tail ≠ [] → ∃ k, 2 ≤ k ∧ k ≤ (ascii "\\a").length
        ∧ (⟨[], 0⟩ : tokenizer) = ⟨(ascii "\\a").drop k, 0⟩
        ∧ (⟨KindLiteral, 2, ⟨LiteralKindCharacter, 0, 0⟩⟩ : Token).Len = k % 4294967296
        ∧ (k < 4294967296
          → 2 ≤ (⟨KindLiteral, 2, ⟨LiteralKindCharacter, 0, 0⟩⟩ : Token).Len)) :=
  (MissingCharacter_iff_backslash_last latin1Tables).1 (ascii "\\a")
    ⟨KindLiteral, 2, ⟨LiteralKindCharacter, 0, 0⟩⟩ ⟨[], 0⟩ ⟨LiteralKindCharacter, 0, 0⟩
    ⟨⟨LiteralKindCharacter, 0, 0⟩⟩ (by decide) (by decide) (by decide)

/-- C16, counterexample: the input `\` followed by `2^32 - 1` letters `a` is one
Character token whose `MissingCharacter` is false and whose length is 0, not at
least 2. -/
theorem character_length_below_two :
    ∃ token t1 l x,
      (∀ U, tokenizer.Advance U ⟨92 :: (97 :: (List.replicate 4294967294 97 ++ [])), 0⟩
          = .ok (token, t1))
        ∧ token.Literal = .ok l ∧ l.Character = .ok x ∧ x.MissingCharacter = false
        ∧ ¬2 ≤ token.Len :=
  ⟨⟨KindLiteral, 0, ⟨LiteralKindCharacter, 0, 0⟩⟩, ⟨[], 0⟩, ⟨LiteralKindCharacter, 0, 0⟩,
    ⟨⟨LiteralKindCharacter, 0, 0⟩⟩, fun U => advance_backslash_letters U 4294967294, rfl, rfl,
    by decide, by decide⟩

/-- C17 (as amended): for every input `\` `c` rest the first token is a Character
literal.  If `c` is a symbol-start character the token takes the backslash, `c`
and the longest run of symbol-continue codepoints after `c`: `1 + w + k` bytes,
where `w` is the width of `c` and `k` the length of that run, and its length is
that number modulo `2^32`; the Symbol token of `c` rest takes the same `w + k`
bytes (for tables in which no whitespace rune is a letter, as in Unicode).
Otherwise the token
is the backslash and `c` alone, of length `1 + w`, and the rest is tokenized as
the following tokens.  `\auml` is Character(5), `\u1234` Character(6),
`\:hello:` Character(8), `\@@` Character(2) then Deref(1), `\1` and `\(`
Character(2). -/
theorem character_extent (U : UnicodeTables) :
    (∀ s : GoString, s ≠ [] → specSymbolStart U (DecodeRuneInString s).1 = true →
        ∃ k token,
          tokenizer.Advance U ⟨92 :: s, 0⟩
              = .ok (token, ⟨s.drop ((DecodeRuneInString s).2 + k), 0⟩)
            ∧ token.Kind = KindLiteral ∧ token.literal = ⟨LiteralKindCharacter, 0, 0⟩
            ∧ token.Len = (1 + ((DecodeRuneInString s).2 + k)) % 4294967296
            ∧ (1 + ((DecodeRuneInString s).2 + k) < 4294967296
              → token.Len = 1 + ((DecodeRuneInString s).2 + k))
            ∧ Codepoints (specSymbolContinue U) (s.drop (DecodeRuneInString s).2) k
            ∧ (∀ j, Codepoints (specSymbolContinue U) (s.drop (DecodeRuneInString s).2) j
              → j ≤ k)
            ∧ (U.whitespaceNotLetter →
              tokenizer.Advance U ⟨s, 0⟩
                = .ok (⟨KindSymbol, ((DecodeRuneInString s).2 + k) % 4294967296, ⟨0, 0, 0⟩⟩,
                  ⟨s.drop ((DecodeRuneInString s).2 + k), 0⟩)))
      ∧ (∀ s : GoString, s ≠ [] → specSymbolStart U (DecodeRuneInString s).1 = false →
        ∃ token more,
          tokenizer.Advance U ⟨92 :: s, 0⟩ = .ok (token, ⟨s.drop (DecodeRuneInString s).2, 0⟩)
            ∧ token.Kind = KindLiteral ∧ token.literal = ⟨LiteralKindCharacter, 0, 0⟩
            ∧ token.Len = 1 + (DecodeRuneInString s).2
            ∧ tokensOf U (s.drop (DecodeRuneInString s).2) = .ok more
            ∧ tokensOf U (92 :: s) = .ok (token :: more))
      ∧ tokensOf U (ascii "\\auml") = .ok [⟨KindLiteral, 5, ⟨LiteralKindCharacter, 0, 0⟩⟩]
      ∧ tokensOf U (ascii "\\u1234") = .ok [⟨KindLiteral, 6, ⟨LiteralKindCharacter, 0, 0⟩⟩]
      ∧ tokensOf U (ascii "\\:hello:") = .ok [⟨KindLiteral, 8, ⟨LiteralKindCharacter, 0, 0⟩⟩]
      ∧ tokensOf U (ascii "\\@@")
        = .ok [⟨KindLiteral, 2, ⟨LiteralKindCharacter, 0, 0⟩⟩, ⟨KindDeref, 1, ⟨0, 0, 0⟩⟩]
      ∧ tokensOf U (ascii "\\1") = .ok [⟨KindLiteral, 2, ⟨LiteralKindCharacter, 0, 0⟩⟩]
      ∧ tokensOf U (ascii "\\(") = .ok [⟨KindLiteral, 2, ⟨LiteralKindCharacter, 0, 0⟩⟩] := by
  refine ⟨?_, ?_, ?_, ?_, ?_, ?_, ?_, ?_⟩
  · intro s hne h
    rw [← isSymbolStart_eq_spec U] at h
    rw [← isSymbolContinue_eq_spec U]
    obtain ⟨k, hadv, hcp, hstop⟩ := advance_backslash_symbol U s hne h
    rw [← List.drop_drop] at hstop
    refine ⟨k, _, hadv, rfl, rfl, rfl, fun hlt => Nat.mod_eq_of_lt hlt, hcp,
      hcp.le_of_stop hstop, fun hU => ?_⟩
    obtain ⟨k2, hadv2, hcp2, hstop2⟩ :=
      advance_symbol U s hne (isWhitespace_of_symbolStart U hU _ h) h
    rw [← List.drop_drop] at hstop2
    have h1 := hcp.le_of_stop hstop k2 hcp2
    have h2 := hcp2.le_of_stop hstop2 k hcp
    have hk : k2 = k := by omega
    rw [hk] at hadv2
    exact hadv2
  · intro s hne h
    rw [← isSymbolStart_eq_spec U] at h
    have hadv := advance_backslash_single U s hne h
    obtain ⟨more, hmore, hall⟩ := tokensOf_after U (92 :: s) _ _ (List.cons_ne_nil _ _) hadv
    exact ⟨_, more, hadv, rfl, rfl, rfl, hmore, hall⟩
  · rw [tokensOf_ascii U _ (by decide)]
    decide
  · rw [tokensOf_ascii U _ (by decide)]
    decide
  · rw [tokensOf_ascii U _ (by decide)]
    decide
  · rw [tokensOf_ascii U _ (by decide)]
    decide
  · rw [tokensOf_ascii U _ (by decide)]
    decide
  · rw [tokensOf_ascii U _ (by decide)]
    decide

/-- C17, witness: the inputs `\ab c` (`a` starts a symbol) and `\(x` (`(` does
not). -/
theorem character_extent_witness :
    (∃ k token,
        tokenizer.Advance latin1Tables ⟨92 :: ascii "ab c", 0⟩
            = .ok (token, ⟨(ascii "ab c").drop ((DecodeRuneInString (ascii "ab c")).2 + k), 0⟩)
          ∧ token.Kind = KindLiteral ∧ token.literal = ⟨LiteralKindCharacter, 0, 0⟩
          ∧ token.Len = (1 + ((DecodeRuneInString (ascii "ab c")).2 + k)) % 4294967296
          ∧ (1 + ((DecodeRuneInString (ascii "ab c")).2 + k) < 4294967296
            → token.Len = 1 + ((DecodeRuneInString (ascii "ab c")).2 + k))
          ∧ Codepoints (specSymbolContinue latin1Tables)
            ((ascii "ab c").drop (DecodeRuneInString (ascii "ab c")).2) k
          ∧ (∀ j, Codepoints (specSymbolContinue latin1Tables)
            ((ascii "ab c").drop (DecodeRuneInString (ascii "ab c")).2) j → j ≤ k)
          ∧ (latin1Tables.whitespaceNotLetter →
            tokenizer.Advance latin1Tables ⟨ascii "ab c", 0⟩
              = .ok (⟨KindSymbol, ((DecodeRuneInString (ascii "ab c")).2 + k) % 4294967296,
                  ⟨0, 0, 0⟩⟩,
                ⟨(ascii "ab c").drop ((DecodeRuneInString (ascii "ab c")).2 + k), 0⟩)))
      ∧ ∃ token more,
        tokenizer.Advance latin1Tables ⟨92 :: ascii "(x", 0⟩
            = .ok (token, ⟨(ascii "(x").drop (DecodeRuneInString (ascii "(x")).2, 0⟩)
          ∧ token.Kind = KindLiteral ∧ token.literal = ⟨LiteralKindCharacter, 0, 0⟩
          ∧ token.Len = 1 + (DecodeRuneInString (ascii "(x")).2
          ∧ tokensOf latin1Tables ((ascii "(x").drop (DecodeRuneInString (ascii "(x")).2)
            = .ok more
          ∧ tokensOf latin1Tables (92 :: ascii "(x") = .ok (token :: more) :=
  ⟨(character_extent latin1Tables).1 (ascii "ab c") (by decide) (by decide),
    (character_extent latin1Tables).2.1 (ascii "(x") (by decide) (by decide)⟩

/-- C17, counterexample: in the input `\` followed by `2^32 - 1` letters `a` the
symbol run that starts at the first `a` is the rest of the text, `2^32 - 1`
bytes, but the length of the Character token is 0, not `1 + (2^32 - 1)`. -/
theorem character_extent_wraps :
    (∀ U, specSymbolStart U (DecodeRuneInString (97 :: (List.replicate 4294967294 97 ++ []))).1
        = true)
      ∧ (∀ U, Codepoints (specSymbolContinue U) (97 :: (List.replicate 4294967294 97 ++ []))
        4294967295)
      ∧ ∃ token t1,
        (∀ U, tokenizer.Advance U ⟨92 :: (97 :: (List.replicate 4294967294 97 ++ [])), 0⟩
            = .ok (token, t1))
          ∧ token.Len ≠ 1 + 4294967295 := by
  refine ⟨fun U => ?_, fun U => ?_,
    ⟨KindLiteral, 0, ⟨LiteralKindCharacter, 0, 0⟩⟩, ⟨[], 0⟩,
    fun U => advance_backslash_letters U 4294967294, by decide⟩
  · rw [decode_ascii 97 _ (by decide), ← isSymbolStart_eq_spec U,
      isSymbolStart_latin1 U _ (by decide)]
    decide
  · rw [← isSymbolContinue_eq_spec U]
    exact Codepoints.of_letter_run U 4294967294

/-- C18 (as amended): for every input whose lead codepoint `c` is a symbol-start
character (a Unicode letter or one of `+ - * / ! _ ? < > = . :`), the first
token is a Symbol that takes `c` (`w` bytes) and the longest run after `c` of
codepoints that are a symbol-start character, a Unicode digit or the apostrophe
(`k` bytes): `w + k` is the byte length of the longest prefix in which every
codepoint after the first is one of these, and the token's length is `w + k`
modulo `2^32`, hence `w + k` when that is below `2^32`.  The codepoint that
follows the token, if any, is none of these, and no two Symbol tokens follow
each other.  (The first part is for tables in which no whitespace rune is a
letter, as in Unicode.)  `ab'1 +c` is Symbol(4), Whitespace(1), Symbol(2). -/
theorem symbols_are_maximal_runs (U : UnicodeTables) :
    (U.whitespaceNotLetter → ∀ s : GoString, s ≠ [] →
        specSymbolStart U (DecodeRuneInString s).1 = true →
        ∃ k token,
          tokenizer.Advance U ⟨s, 0⟩
              = .ok (token, ⟨s.drop ((DecodeRuneInString s).2 + k), 0⟩)
            ∧ token.Kind = KindSymbol
            ∧ token.Len = ((DecodeRuneInString s).2 + k) % 4294967296
            ∧ ((DecodeRuneInString s).2 + k < 4294967296
              → token.Len = (DecodeRuneInString s).2 + k)
            ∧ Codepoints (specSymbolContinue U) (s.drop (DecodeRuneInString s).2) k
            ∧ (∀ j, Codepoints (specSymbolContinue U) (s.drop (DecodeRuneInString s).2) j
              → j ≤ k)
            ∧ (s.drop ((DecodeRuneInString s).2 + k) = []
              ∨ specSymbolContinue U
                (DecodeRuneInString (s.drop ((DecodeRuneInString s).2 + k))).1 = false))
      ∧ (∀ s : GoString, ∃ tokens, tokensOf U s = .ok tokens
        ∧ List.Chain' (fun a b : Token => ¬(a.Kind = KindSymbol ∧ b.Kind = KindSymbol)) tokens)
      ∧ tokensOf U (ascii "ab'1 +c")
        = .ok [⟨KindSymbol, 4, ⟨0, 0, 0⟩⟩, ⟨KindWhitespace, 1, ⟨0, 0, 0⟩⟩,
          ⟨KindSymbol, 2, ⟨0, 0, 0⟩⟩] := by
  refine ⟨?_, ?_, ?_⟩
  · intro hU s hne h
    rw [← isSymbolStart_eq_spec U] at h
    rw [← isSymbolContinue_eq_spec U]
    obtain ⟨k, hadv, hcp, hstop⟩ :=
      advance_symbol U s hne (isWhitespace_of_symbolStart U hU _ h) h
    have hstop2 := hstop
    rw [← List.drop_drop] at hstop2
    exact ⟨k, _, hadv, rfl, rfl, fun hlt => Nat.mod_eq_of_lt hlt, hcp,
      hcp.le_of_stop hstop2, hstop⟩
  · exact tokensOf_not_adjacent U KindSymbol (isSymbolContinue U)
      (fun s token t1 hne h hk => symbol_lead_and_stop U s token t1 hne h hk)
  · rw [tokensOf_ascii U _ (by decide)]
    decide

/-- C18, witness: the input `x+1'(`. -/
theorem symbols_are_maximal_runs_witness :
    ∃ k token,
      tokenizer.Advance latin1Tables ⟨ascii "x+1'(", 0⟩
          = .ok (token, ⟨(ascii "x+1'(").drop ((DecodeRuneInString (ascii "x+1'(")).2 + k), 0⟩)
        ∧ token.Kind = KindSymbol
        ∧ token.Len = ((DecodeRuneInString (ascii "x+1'(")).2 + k) % 4294967296
        ∧ ((DecodeRuneInString (ascii "x+1'(")).2 + k < 4294967296
          → token.Len = (DecodeRuneInString (ascii "x+1'(")).2 + k)
        ∧ Codepoints (specSymbolContinue latin1Tables)
          ((ascii "x+1'(").drop (DecodeRuneInString (ascii "x+1'(")).2) k
        ∧ (∀ j, Codepoints (specSymbolContinue latin1Tables)
          ((ascii "x+1'(").drop (DecodeRuneInString (ascii "x+1'(")).2) j → j ≤ k)
        ∧ ((ascii "x+1'(").drop ((DecodeRuneInString (ascii "x+1'(")).2 + k) = []
          ∨ specSymbolContinue latin1Tables
            (DecodeRuneInString
              ((ascii "x+1'(").drop ((DecodeRuneInString (ascii "x+1'(")).2 + k))).1 = false) :=
  (symbols_are_maximal_runs latin1Tables).1 latin1_whitespaceNotLetter (ascii "x+1'(")
    (by decide) (by decide)

/-- C18, counterexample: the input of `2^32` letters `a` starts with a symbol-start
character and the `2^32 - 1` bytes after it are a run of symbol-continue
codepoints, so the longest such prefix is the whole input of `2^32` bytes; the
length of the Symbol token is 0. -/
theorem symbol_length_wraps :
    (∀ U, specSymbolStart U (DecodeRuneInString (97 :: (List.replicate 4294967295 97 ++ []))).1
        = true)
      ∧ (∀ U, Codepoints (specSymbolContinue U) (List.replicate 4294967295 97 ++ [])
        4294967295)
      ∧ ∃ token t1,
        (∀ U, tokenizer.Advance U ⟨97 :: (List.replicate 4294967295 97 ++ []), 0⟩
            = .ok (token, t1))
          ∧ token.Len ≠ 1 + 4294967295 := by
  refine ⟨fun U => ?_, fun U => ?_, ⟨KindSymbol, 0, ⟨0, 0, 0⟩⟩, ⟨[], 0⟩,
    fun U => advance_letters U 4294967295, by decide⟩
  · rw [decode_ascii 97 _ (by decide), ← isSymbolStart_eq_spec U,
      isSymbolStart_latin1 U _ (by decide)]
    decide
  · rw [← isSymbolContinue_eq_spec U]
    exact Codepoints.of_replicate U 4294967295

/-- C19 (as amended): for every input that starts with `;` the first token is a
LineComment that takes the bytes before the first U+000A of the input, or the
whole input when there is none: the token's text contains no line feed, a
carriage return or any other character before the line feed is part of it, and
what follows it is the line feed or the end of the input.  Its length is that
number of bytes modulo `2^32`, hence that number when it is below `2^32`.
`;a` CR `b` LF `c` is LineComment(4), Whitespace(1), Symbol(1). -/
theorem lineComment_stops_before_line_feed (U : UnicodeTables) :
    (∀ tail : GoString, ∃ token,
        tokenizer.Advance U ⟨59 :: tail, 0⟩
            = .ok (token, ⟨(59 :: tail).drop (specBeforeLineFeed (59 :: tail)), 0⟩)
          ∧ token.Kind = KindLineComment
          ∧ token.Len = specBeforeLineFeed (59 :: tail) % 4294967296
          ∧ (specBeforeLineFeed (59 :: tail) < 4294967296
            → token.Len = specBeforeLineFeed (59 :: tail))
          ∧ (10 : Byte) ∉ (59 :: tail).take (specBeforeLineFeed (59 :: tail))
          ∧ ((59 :: tail).drop (specBeforeLineFeed (59 :: tail)) = []
            ∨ ∃ tl, (59 :: tail).drop (specBeforeLineFeed (59 :: tail)) = 10 :: tl))
      ∧ tokensOf U (ascii ";a\rb\nc")
        = .ok [⟨KindLineComment, 4, ⟨0, 0, 0⟩⟩, ⟨KindWhitespace, 1, ⟨0, 0, 0⟩⟩,
          ⟨KindSymbol, 1, ⟨0, 0, 0⟩⟩]
      ∧ tokensOf U (ascii ";; a b") = .ok [⟨KindLineComment, 6, ⟨0, 0, 0⟩⟩] := by
  refine ⟨?_, ?_, ?_⟩
  · intro tail
    have hadv := advance_lineComment U tail
    have hspec := specBeforeLineFeed_take (59 :: tail)
    exact ⟨_, hadv, rfl, rfl, fun hlt => Nat.mod_eq_of_lt hlt, hspec.1, hspec.2⟩
  · rw [tokensOf_ascii U _ (by decide)]
    decide
  · rw [tokensOf_ascii U _ (by decide)]
    decide

/-- C19, instance: the input `;x` LF `y`. -/
theorem lineComment_stops_before_line_feed_witness :
    ∃ token,
      tokenizer.Advance latin1Tables ⟨59 :: ascii "x\ny", 0⟩
          = .ok (token, ⟨(59 :: ascii "x\ny").drop (specBeforeLineFeed (59 :: ascii "x\ny")), 0⟩)
        ∧ token.Kind = KindLineComment
        ∧ token.Len = specBeforeLineFeed (59 :: ascii "x\ny") % 4294967296
        ∧ (specBeforeLineFeed (59 :: ascii "x\ny") < 4294967296
          → token.Len = specBeforeLineFeed (59 :: ascii "x\ny"))
        ∧ (10 : Byte) ∉ (59 :: ascii "x\ny").take (specBeforeLineFeed (59 :: ascii "x\ny"))
        ∧ ((59 :: ascii "x\ny").drop (specBeforeLineFeed (59 :: ascii "x\ny")) = []
          ∨ ∃ tl, (59 :: ascii "x\ny").drop (specBeforeLineFeed (59 :: ascii "x\ny"))
            = 10 :: tl) :=
  (lineComment_stops_before_line_feed latin1Tables).1 (ascii "x\ny")

/-- C19, counterexample: the input `;` followed by `2^32 - 1` letters `a` has no
line feed, and the length of its LineComment token is 0, not the length `2^32`
of the whole input. -/
theorem lineComment_length_wraps :
    (∀ b ∈ (59 : Byte) :: (List.replicate 4294967295 97 ++ []), b ≠ 10)
      ∧ ∃ token t1,
        (∀ U, tokenizer.Advance U ⟨59 :: (List.replicate 4294967295 97 ++ []), 0⟩
            = .ok (token, t1))
          ∧ token.Kind = KindLineComment
          ∧ token.Len ≠ ((59 : Byte) :: (List.replicate 4294967295 97 ++ [])).length := by
  refine ⟨?_, ⟨KindLineComment, 0, ⟨0, 0, 0⟩⟩, ⟨[], 0⟩,
    fun U => advance_comment_letters U 4294967295, rfl, ?_⟩
  · intro b hb
    rcases List.mem_cons.mp hb with h | h
    · rw [h]
      decide
    · rw [List.append_nil] at h
      rw [List.eq_of_mem_replicate h]
      decide
  · rw [List.length_cons, List.length_append, List.length_replicate]
    decide

/-- C20 (as amended): for every input whose lead codepoint is one of U+0009,
U+000A, U+000B, U+000C, U+000D, U+0020, U+0085, U+200E, U+200F, U+2028, U+2029
the first token is Whitespace, and it takes the longest prefix that consists
only of codepoints of that set; its length is the byte length `k` of that
prefix modulo `2^32`, hence `k` when that is below `2^32`.  No other codepoint
starts or is absorbed into a Whitespace token: such a token starts at a
codepoint of the set and consists of codepoints of the set.  No two Whitespace
tokens follow each other.  The bytes E2 80 A8, C2 85, 20, 09 (U+2028, U+0085,
space, tab) followed by `a` are Whitespace(7), Symbol(1). -/
theorem whitespace_is_maximal_run (U : UnicodeTables) :
    (∀ s : GoString, s ≠ [] → (DecodeRuneInString s).1 ∈ specWhitespaceSet →
        ∃ k token, tokenizer.Advance U ⟨s, 0⟩ = .ok (token, ⟨s.drop k, 0⟩)
          ∧ token.Kind = KindWhitespace
          ∧ token.Len = k % 4294967296 ∧ (k < 4294967296 → token.Len = k)
          ∧ Codepoints inWhitespaceSet s k
          ∧ (∀ j, Codepoints inWhitespaceSet s j → j ≤ k))
      ∧ (∀ (s : GoString) (token : Token) (t1 : tokenizer),
        tokenizer.Advance U ⟨s, 0⟩ = .ok (token, t1) → token.Kind = KindWhitespace →
        s ≠ [] ∧ (DecodeRuneInString s).1 ∈ specWhitespaceSet
          ∧ ∃ k, t1 = ⟨s.drop k, 0⟩ ∧ Codepoints inWhitespaceSet s k)
      ∧ (∀ s : GoString, ∃ tokens, tokensOf U s = .ok tokens
        ∧ List.Chain' (fun a b : Token => ¬(a.Kind = KindWhitespace ∧ b.Kind = KindWhitespace))
          tokens)
      ∧ tokensOf latin1Tables [0xE2, 0x80, 0xA8, 0xC2, 0x85, 32, 9, 97]
        = .ok [⟨KindWhitespace, 7, ⟨0, 0, 0⟩⟩, ⟨KindSymbol, 1, ⟨0, 0, 0⟩⟩] := by
  refine ⟨?_, ?_, ?_, ?_⟩
  · intro s hne h
    have hw : isWhitespace (DecodeRuneInString s).1 = true := by
      rw [isWhitespace_eq_spec]
      exact decide_eq_true h
    obtain ⟨k, hadv, hcp, hstop⟩ := advance_whitespace U s hne hw
    have hall := Codepoints.cons s k hne hw hcp
    have hmax := hall.le_of_stop hstop
    rw [isWhitespace_eq_spec] at hall hmax
    exact ⟨_, _, hadv, rfl, rfl, fun hlt => Nat.mod_eq_of_lt hlt, hall, hmax⟩
  · intro s token t1 h hk
    have hne := advance_ne_nil U s token t1 h (by
      have hk1 : token.kind = KindWhitespace := hk
      rw [hk1]
      decide)
    obtain ⟨hw, _, k, ht1, _, hcp, _⟩ := whitespace_lead_and_stop U s token t1 hne h hk
    rw [isWhitespace_eq_spec] at hw hcp
    exact ⟨hne, of_decide_eq_true hw, k, ht1, hcp⟩
  · exact tokensOf_not_adjacent U KindWhitespace isWhitespace
      (fun s token t1 hne h hk =>
        ⟨(whitespace_lead_and_stop U s token t1 hne h hk).1,
          (whitespace_lead_and_stop U s token t1 hne h hk).2.1⟩)
  · decide

/-- C20, witness: the input U+0085, space, `x`, space. -/
theorem whitespace_is_maximal_run_witness :
    ∃ k token,
      tokenizer.Advance latin1Tables ⟨[0xC2, 0x85, 32, 120, 32], 0⟩
          = .ok (token, ⟨([0xC2, 0x85, 32, 120, 32] : GoString).drop k, 0⟩)
        ∧ token.Kind = KindWhitespace
        ∧ token.Len = k % 4294967296 ∧ (k < 4294967296 → token.Len = k)
        ∧ Codepoints inWhitespaceSet [0xC2, 0x85, 32, 120, 32] k
        ∧ (∀ j, Codepoints inWhitespaceSet [0xC2, 0x85, 32, 120, 32] j → j ≤ k) :=
  (whitespace_is_maximal_run latin1Tables).1 [0xC2, 0x85, 32, 120, 32] (by decide) (by decide)

/-- C20, counterexample: the input of `2^32` spaces consists of codepoints of the
set only, so its longest such prefix has `2^32` bytes; the length of its
Whitespace token is 0. -/
theorem whitespace_length_wraps :
    Codepoints inWhitespaceSet (List.replicate 4294967296 32) 4294967296
      ∧ ∃ token t1,
        (∀ U, tokenizer.Advance U ⟨List.replicate 4294967296 32, 0⟩ = .ok (token, t1))
          ∧ token.Kind = KindWhitespace ∧ token.Len ≠ 4294967296 :=
  ⟨Codepoints.of_spaces 4294967296, ⟨KindWhitespace, 0, ⟨0, 0, 0⟩⟩, ⟨[], 0⟩,
    fun U => advance_spaces U 4294967295, rfl, by decide⟩

/-- C21: for every input that starts with `~`, the first token is
UnquoteSplicing of length 2 when the next character is `@` (the token takes
both bytes), and Unquote of length 1 otherwise, whatever the next character is
and also when `~` is the last character (the token takes the `~` alone); the
tokens of the rest follow.  `~` is exactly one Unquote of length 1 and `~@`
exactly one UnquoteSplicing of length 2; `~a` and `~ @` start with an Unquote
of length 1 and `~@@` is UnquoteSplicing(2), Deref(1). -/
theorem unquote_disambiguation (U : UnicodeTables) :
    (∀ tl : GoString,
        tokenizer.Advance U ⟨126 :: 64 :: tl, 0⟩
            = .ok (⟨KindUnquoteSplicing, 2, ⟨0, 0, 0⟩⟩, ⟨tl, 0⟩)
          ∧ ∃ tokens, tokensOf U tl = .ok tokens
            ∧ tokensOf U (126 :: 64 :: tl)
              = .ok (⟨KindUnquoteSplicing, 2, ⟨0, 0, 0⟩⟩ :: tokens))
      ∧ (∀ rest : GoString, (∀ tl, rest ≠ 64 :: tl) →
        tokenizer.Advance U ⟨126 :: rest, 0⟩ = .ok (⟨KindUnquote, 1, ⟨0, 0, 0⟩⟩, ⟨rest, 0⟩)
          ∧ ∃ tokens, tokensOf U rest = .ok tokens
            ∧ tokensOf U (126 :: rest) = .ok (⟨KindUnquote, 1, ⟨0, 0, 0⟩⟩ :: tokens))
      ∧ tokensOf U (ascii "~") = .ok [⟨KindUnquote, 1, ⟨0, 0, 0⟩⟩]
      ∧ tokensOf U (ascii "~@") = .ok [⟨KindUnquoteSplicing, 2, ⟨0, 0, 0⟩⟩]
      ∧ tokensOf U (ascii "~a") = .ok [⟨KindUnquote, 1, ⟨0, 0, 0⟩⟩, ⟨KindSymbol, 1, ⟨0, 0, 0⟩⟩]
      ∧ tokensOf U (ascii "~ @")
        = .ok [⟨KindUnquote, 1, ⟨0, 0, 0⟩⟩, ⟨KindWhitespace, 1, ⟨0, 0, 0⟩⟩,
          ⟨KindDeref, 1, ⟨0, 0, 0⟩⟩]
      ∧ tokensOf U (ascii "~@@")
        = .ok [⟨KindUnquoteSplicing, 2, ⟨0, 0, 0⟩⟩, ⟨KindDeref, 1, ⟨0, 0, 0⟩⟩] := by
  refine ⟨fun tl => ?_, fun rest h => ?_, ?_, ?_, ?_, ?_, ?_⟩
  · have hadv := advance_of_nextToken U _ _ _ (nextToken_tilde_at U tl)
    exact ⟨hadv, tokensOf_after U _ _ _ (List.cons_ne_nil _ _) hadv⟩
  · have hadv := advance_of_nextToken U _ _ _ (nextToken_tilde_other U rest h)
    exact ⟨hadv, tokensOf_after U _ _ _ (List.cons_ne_nil _ _) hadv⟩
  · rw [tokensOf_ascii U _ (by decide)]
    decide
  · rw [tokensOf_ascii U _ (by decide)]
    decide
  · rw [tokensOf_ascii U _ (by decide)]
    decide
  · rw [tokensOf_ascii U _ (by decide)]
    decide
  · rw [tokensOf_ascii U _ (by decide)]
    decide

/-- C21, witness: the input `~x`, where the character after `~` is not `@`. -/
theorem unquote_disambiguation_witness :
    tokenizer.Advance latin1Tables ⟨126 :: [120], 0⟩
        = .ok (⟨KindUnquote, 1, ⟨0, 0, 0⟩⟩, ⟨[120], 0⟩)
      ∧ ∃ tokens, tokensOf latin1Tables [120] = .ok tokens
        ∧ tokensOf latin1Tables (126 :: [120]) = .ok (⟨KindUnquote, 1, ⟨0, 0, 0⟩⟩ :: tokens) :=
  (unquote_disambiguation latin1Tables).2.1 [120] (fun tl h => by cases h)

/-- C22: for every input that is not empty the first token exists and its kind
is the one the dispatch table gives to the lead codepoint `c`, read in its
priority order (`specLeadKind`): Whitespace for the whitespace set, else Symbol
for a symbol-start character, else Literal for an ASCII digit (an Integer or a
Float), else by the punctuation: `\` a Literal (a Character), `"` a Literal (a
String), `;` LineComment, `(` `)` `{` `}` `[` `]` the six group kinds, `'` Quote,
the backquote Backquote, `@` Deref, `^` Metadata, `#` Dispatch, `~` Unquote or
UnquoteSplicing, anything else Invalid.  So two inputs with the same lead
codepoint other than `~` start with tokens of the same kind.  Each of the eleven
single-character punctuation tokens has length 1 and takes its one byte,
whatever follows it. -/
theorem kind_follows_lead_codepoint (U : UnicodeTables) :
    (∀ s : GoString, s ≠ [] → ∃ token t1,
        tokenizer.Advance U ⟨s, 0⟩ = .ok (token, t1)
          ∧ (token.Kind = specLeadKind U (DecodeRuneInString s).1
            ∨ ((DecodeRuneInString s).1 = 126 ∧ token.Kind = KindUnquoteSplicing))
          ∧ (48 ≤ (DecodeRuneInString s).1 ∧ (DecodeRuneInString s).1 ≤ 57 →
            token.literal.kind = LiteralKindInteger ∨ token.literal.kind = LiteralKindFloat)
          ∧ ((DecodeRuneInString s).1 = 92 → token.literal.kind = LiteralKindCharacter)
          ∧ ((DecodeRuneInString s).1 = 34 → token.literal.kind = LiteralKindString))
      ∧ (∀ (s s2 : GoString) (token token2 : Token) (t1 t2 : tokenizer), s ≠ [] → s2 ≠ [] →
          tokenizer.Advance U ⟨s, 0⟩ = .ok (token, t1) →
          tokenizer.Advance U ⟨s2, 0⟩ = .ok (token2, t2) →
          (DecodeRuneInString s).1 = (DecodeRuneInString s2).1 →
          (DecodeRuneInString s).1 ≠ 126 → token.Kind = token2.Kind)
      ∧ (∀ p ∈ specSingleCharacter, ∀ rest : GoString,
          tokenizer.Advance U ⟨p.1 :: rest, 0⟩ = .ok (⟨p.2, 1, ⟨0, 0, 0⟩⟩, ⟨rest, 0⟩))
      ∧ tokensOf U (specSingleCharacter.map Prod.fst)
        = .ok (specSingleCharacter.map fun p => ⟨p.2, 1, ⟨0, 0, 0⟩⟩)
      ∧ tokensOf U (ascii "((") = .ok [⟨KindOpenParen, 1, ⟨0, 0, 0⟩⟩, ⟨KindOpenParen, 1, ⟨0, 0, 0⟩⟩]
      ∧ tokensOf U (ascii "'a") = .ok [⟨KindQuote, 1, ⟨0, 0, 0⟩⟩, ⟨KindSymbol, 1, ⟨0, 0, 0⟩⟩]
      ∧ tokensOf U (ascii "#1") = .ok [⟨KindDispatch, 1, ⟨0, 0, 0⟩⟩,
          ⟨KindLiteral, 1, ⟨LiteralKindInteger, BaseDecimal, 0⟩⟩]
      ∧ tokensOf U (ascii "$") = .ok [⟨KindInvalid, 1, ⟨0, 0, 0⟩⟩] := by
  refine ⟨fun s hne => ?_, ?_, fun p hp rest => advance_single U p hp rest, ?_, ?_, ?_, ?_, ?_⟩
  · obtain ⟨token, k, hadv, _⟩ := advance_spec U s hne
    obtain ⟨_, _, h3, h4⟩ := advance_lead U s token _ hne hadv
    refine ⟨token, _, hadv, advance_kind U s token _ hne hadv, fun hd => ?_, fun hc => ?_,
      fun hc => ?_⟩
    · obtain ⟨_, hw, hs, hdec⟩ := digit_dispatch U _ hd
      exact (h3 hw hs hdec).2
    · have hw : isWhitespace (DecodeRuneInString s).1 = false := by
        rw [hc]
        decide
      have hs : isSymbolStart U (DecodeRuneInString s).1 = false := by
        rw [hc, isSymbolStart_latin1 U _ (by decide)]
        decide
      have hdec : isDecimal (DecodeRuneInString s).1 = false := by
        rw [hc]
        decide
      exact ((h4 hw hs hdec).1 hc).2
    · have hw : isWhitespace (DecodeRuneInString s).1 = false := by
        rw [hc]
        decide
      have hs : isSymbolStart U (DecodeRuneInString s).1 = false := by
        rw [hc, isSymbolStart_latin1 U _ (by decide)]
        decide
      have hdec : isDecimal (DecodeRuneInString s).1 = false := by
        rw [hc]
        decide
      exact ((h4 hw hs hdec).2.1 hc).2
  · intro s s2 token token2 t1 t2 hne hne2 h h2 hc h126
    have hk := advance_kind U s token t1 hne h
    have hk2 := advance_kind U s2 token2 t2 hne2 h2
    rw [← hc] at hk2
    rcases hk with hk | hk
    · rcases hk2 with hk2 | hk2
      · exact hk.trans hk2.symm
      · exact absurd hk2.1 h126
    · exact absurd hk.1 h126
  · rw [tokensOf_ascii U _ (by decide)]
    decide
  · rw [tokensOf_ascii U _ (by decide)]
    decide
  · rw [tokensOf_ascii U _ (by decide)]
    decide
  · rw [tokensOf_ascii U _ (by decide)]
    decide
  · rw [tokensOf_ascii U _ (by decide)]
    decide

/-- C22, witness: the input `(a`, whose lead codepoint is `(`. -/
theorem kind_follows_lead_codepoint_witness :
    ∃ token t1,
      tokenizer.Advance latin1Tables ⟨ascii "(a", 0⟩ = .ok (token, t1)
        ∧ (token.Kind = specLeadKind latin1Tables (DecodeRuneInString (ascii "(a")).1
          ∨ ((DecodeRuneInString (ascii "(a")).1 = 126 ∧ token.Kind = KindUnquoteSplicing))
        ∧ (48 ≤ (DecodeRuneInString (ascii "(a")).1 ∧ (DecodeRuneInString (ascii "(a")).1 ≤ 57 →
          token.literal.kind = LiteralKindInteger ∨ token.literal.kind = LiteralKindFloat)
        ∧ ((DecodeRuneInString (ascii "(a")).1 = 92 → token.literal.kind = LiteralKindCharacter)
        ∧ ((DecodeRuneInString (ascii "(a")).1 = 34 → token.literal.kind = LiteralKindString) :=
  (kind_follows_lead_codepoint latin1Tables).1 (ascii "(a") (by decide)

/-- C23: for every input whose lead codepoint `c` is not in the whitespace set,
not a symbol-start character, not an ASCII decimal digit and not one of
`\` `"` `;` `(` `)` `{` `}` `[` `]` `'` backquote `@` `^` `#` `~`, the first token
is Invalid and takes exactly the bytes the decoder reads `c` from: its length is
the width `w` of `c`, between 1 and 4, which for a well-formed encoding is the
number of bytes UTF-8 gives to `c` (a byte that starts no well-formed encoding
is read as U+FFFD of width 1); the scan goes on with the codepoint after it: the
tokens of the input are that token and then the tokens of the input without its
first `w` bytes.  A single NUL byte gives exactly one Invalid token of length
1; the section sign (U+00A7, two bytes) and the euro sign (U+20AC, three bytes)
give Invalid tokens of length 2 and 3, the byte `0xFF` one of length 1. -/
theorem invalid_takes_one_codepoint (U : UnicodeTables) :
    (∀ s : GoString, s ≠ [] →
        inWhitespaceSet (DecodeRuneInString s).1 = false →
        specSymbolStart U (DecodeRuneInString s).1 = false →
        ¬(48 ≤ (DecodeRuneInString s).1 ∧ (DecodeRuneInString s).1 ≤ 57) →
        (DecodeRuneInString s).1 ∉ specPunctuationLeads →
        tokenizer.Advance U ⟨s, 0⟩
            = .ok (⟨KindInvalid, (DecodeRuneInString s).2, ⟨0, 0, 0⟩⟩,
              ⟨s.drop (DecodeRuneInString s).2, 0⟩)
          ∧ 1 ≤ (DecodeRuneInString s).2 ∧ (DecodeRuneInString s).2 ≤ 4
          ∧ (DecodeRuneInString s).2 ≤ s.length
          ∧ (DecodeRuneInString s ≠ (RuneError, 1) →
            (DecodeRuneInString s).2 = specUTF8Width (DecodeRuneInString s).1)
          ∧ ∃ tokens, tokensOf U (s.drop (DecodeRuneInString s).2) = .ok tokens
            ∧ tokensOf U s
              = .ok (⟨KindInvalid, (DecodeRuneInString s).2, ⟨0, 0, 0⟩⟩ :: tokens))
      ∧ tokensOf U [0] = .ok [⟨KindInvalid, 1, ⟨0, 0, 0⟩⟩]
      ∧ tokensOf U (ascii "$a$")
        = .ok [⟨KindInvalid, 1, ⟨0, 0, 0⟩⟩, ⟨KindSymbol, 1, ⟨0, 0, 0⟩⟩,
          ⟨KindInvalid, 1, ⟨0, 0, 0⟩⟩]
      ∧ tokensOf latin1Tables [0xC2, 0xA7, 0x31]
        = .ok [⟨KindInvalid, 2, ⟨0, 0, 0⟩⟩,
          ⟨KindLiteral, 1, ⟨LiteralKindInteger, BaseDecimal, 0⟩⟩]
      ∧ tokensOf latin1Tables [0xE2, 0x82, 0xAC]
        = .ok [⟨KindInvalid, 3, ⟨0, 0, 0⟩⟩]
      ∧ DecodeRuneInString [0xFF] = (RuneError, 1)
      ∧ tokensOf latin1Tables [0xFF, 0x31]
        = .ok [⟨KindInvalid, 1, ⟨0, 0, 0⟩⟩,
          ⟨KindLiteral, 1, ⟨LiteralKindInteger, BaseDecimal, 0⟩⟩] := by
  refine ⟨fun s hne hw hs hd hp => ?_, ?_, ?_, ?_, ?_, ?_, ?_⟩
  · rw [← isWhitespace_eq_spec] at hw
    rw [← isSymbolStart_eq_spec U] at hs
    have hdec : isDecimal (DecodeRuneInString s).1 = false := by
      cases hx : isDecimal (DecodeRuneInString s).1 with
      | false => rfl
      | true => exact absurd ((isDecimal_iff _).mp hx) hd
    have hadv := advance_invalid U s hne hw hs hdec hp
    have hb := decode_bounds s hne
    exact ⟨hadv, hb.2.1, decode_size_le s, hb.2.2, decode_width s hne,
      tokensOf_after U s _ _ hne hadv⟩
  · rw [tokensOf_ascii U _ (by decide)]
    decide
  · rw [tokensOf_ascii U _ (by decide)]
    decide
  · decide
  · decide
  · decide
  · decide

/-- C23, witness: the input `$x`, whose lead codepoint `$` is in none of the
classes. -/
theorem invalid_takes_one_codepoint_witness :
    tokenizer.Advance latin1Tables ⟨ascii "$x", 0⟩
        = .ok (⟨KindInvalid, (DecodeRuneInString (ascii "$x")).2, ⟨0, 0, 0⟩⟩,
          ⟨(ascii "$x").drop (DecodeRuneInString (ascii "$x")).2, 0⟩)
      ∧ 1 ≤ (DecodeRuneInString (ascii "$x")).2 ∧ (DecodeRuneInString (ascii "$x")).2 ≤ 4
      ∧ (DecodeRuneInString (ascii "$x")).2 ≤ (ascii "$x").length
      ∧ (DecodeRuneInString (ascii "$x") ≠ (RuneError, 1) →
        (DecodeRuneInString (ascii "$x")).2
          = specUTF8Width (DecodeRuneInString (ascii "$x")).1)
      ∧ ∃ tokens,
        tokensOf latin1Tables ((ascii "$x").drop (DecodeRuneInString (ascii "$x")).2)
            = .ok tokens
          ∧ tokensOf latin1Tables (ascii "$x")
            = .ok (⟨KindInvalid, (DecodeRuneInString (ascii "$x")).2, ⟨0, 0, 0⟩⟩ :: tokens) :=
  (invalid_takes_one_codepoint latin1Tables).1 (ascii "$x") (by decide) (by decide)
    (by decide) (by decide) (by decide)

/-- C24: `second()` reads the state and returns a rune, so it consumes nothing
(the remaining text and the byte counter are as before, and the counter has no
part in the result).  In every state in which the scanner calls it, which
`numeric` does once, after `first()` returned `.`, it returns the two-codepoint
lookahead of the specification: the codepoint that follows the next codepoint,
or `charEOF` when fewer than two codepoints remain.  It does so after every
ASCII character, whenever at most one byte remains, and whenever a codepoint
follows the next one; and for every remaining text the test `numeric` puts to
the result, `isDecimalContinue`, gives what it gives for the specified
lookahead.  After `.5` the lookahead is `5`, after a lone `.` it is `charEOF`,
and after `.` and the letter U+00E9 it is that letter. -/
theorem second_is_two_codepoint_lookahead :
    (∀ t : tokenizer, t.first = 46 → t.second = .ok (specPeek2 t.s))
      ∧ (∀ (b : Byte) (tl : GoString) (p : Nat), b.val < 128 →
        tokenizer.second ⟨b :: tl, p⟩ = .ok (specPeek2 (b :: tl))
          ∧ specPeek2 (b :: tl) = tokenizer.first ⟨tl, 0⟩)
      ∧ (∀ t : tokenizer, t.s.length ≤ 1 →
        t.second = .ok charEOF ∧ specPeek2 t.s = charEOF)
      ∧ (∀ t : tokenizer, t.s.drop (DecodeRuneInString t.s).2 ≠ [] →
        t.second = .ok (specPeek2 t.s))
      ∧ (∀ t : tokenizer, ∃ c, t.second = .ok c
        ∧ isDecimalContinue c = isDecimalContinue (specPeek2 t.s))
      ∧ (∀ (s : GoString) (p q : Nat), tokenizer.second ⟨s, p⟩ = tokenizer.second ⟨s, q⟩)
      ∧ tokenizer.second ⟨ascii ".5", 0⟩ = .ok 53
      ∧ tokenizer.second ⟨ascii ".", 0⟩ = .ok charEOF
      ∧ tokenizer.second ⟨[46, 0xC3, 0xA9], 0⟩ = .ok 0xE9 := by
  have hascii : ∀ (b : Byte) (tl : GoString) (p : Nat), b.val < 128 →
      tokenizer.second ⟨b :: tl, p⟩ = .ok (specPeek2 (b :: tl))
        ∧ specPeek2 (b :: tl) = tokenizer.first ⟨tl, 0⟩ := by
    intro b tl p hb
    have hs : specPeek2 (b :: tl) = tokenizer.first ⟨tl, 0⟩ := by
      unfold specPeek2
      rw [decode_ascii b tl hb]
      show (if b :: tl = [] ∨ tl = [] then charEOF else (DecodeRuneInString tl).1) = _
      by_cases htl : tl = []
      · rw [if_pos (Or.inr htl), first_of_nil _ htl]
      · rw [if_neg (fun hor => hor.elim (List.cons_ne_nil _ _) htl), first_of_ne_nil _ htl]
    rw [hs]
    exact ⟨second_ascii b tl p hb, rfl⟩
  have hfollows : ∀ t : tokenizer, t.s.drop (DecodeRuneInString t.s).2 ≠ [] →
      t.second = .ok (specPeek2 t.s) := by
    intro t hd
    have hne : t.s ≠ [] := by
      intro h0
      rw [h0] at hd
      exact hd rfl
    have hb := (decode_bounds t.s hne).2.1
    have hl : 1 < t.s.length := by
      by_contra hle
      exact hd (List.drop_eq_nil_of_le (by omega))
    rw [second_of_long t hl]
    unfold specPeek2
    rw [if_neg (fun hor => hor.elim hne hd)]
  refine ⟨fun t hf => ?_, hascii, fun t hl => ⟨second_of_short t hl, specPeek2_of_short t.s hl⟩,
    hfollows, fun t => ?_, fun s p q => rfl, by decide, by decide, by decide⟩
  · obtain ⟨s, p⟩ := t
    obtain ⟨b, tl, hs, _, hb⟩ := first_low s p 46 hf (by decide) (by decide)
    subst hs
    exact (hascii b tl p hb).1
  · by_cases hd : t.s.drop (DecodeRuneInString t.s).2 = []
    · by_cases hl : 1 < t.s.length
      · refine ⟨_, second_of_long t hl, ?_⟩
        rw [hd]
        unfold specPeek2
        rw [if_pos (Or.inr hd)]
        exact isDecimalContinue_RuneError
      · refine ⟨_, second_of_short t (by omega), ?_⟩
        rw [specPeek2_of_short t.s (by omega)]
    · exact ⟨_, hfollows t hd, rfl⟩

/-- C24, witness: the state of `numeric` at the dot of `1.5`, after the digit. -/
theorem second_is_two_codepoint_lookahead_witness :
    tokenizer.second ⟨ascii ".5", 1⟩ = .ok (specPeek2 (ascii ".5")) :=
  second_is_two_codepoint_lookahead.1 ⟨ascii ".5", 1⟩ (by decide)

/-- C25: `Kind.string()` returns the fixed name of each of the 17 named kinds,
none of them Literal (`invalid`, `open-paren`, `close-paren`, `open-brace`,
`close-brace`, `open-bracket`, `close-bracket`, `quote`, `backquote`, `deref`,
`metadata`, `dispatch`, `unquote`, `unquote-splicing`, `symbol`, `whitespace`,
`line-comment`); the names are pairwise distinct; for every other number it
panics.  `Token.Format`, under every verb and flag, panics exactly for the tokens
whose kind is neither Literal nor one of the 17, for example `kindNone` and
`Kind(255)`, and returns for every other token; it returns for every token that
`Tokenize` delivers.  A formatted Literal renders through `Literal.Format`,
which returns for every literal. -/
theorem Format_panics_only_for_unnamed_kind :
    (∀ p ∈ specKindNames, Kind.string p.1 = .ok p.2)
      ∧ specKindNames.length = 17
      ∧ (specKindNames.map Prod.fst).Nodup
      ∧ (specKindNames.map Prod.snd).Nodup
      ∧ KindLiteral ∉ specKindNames.map Prod.fst
      ∧ (∀ k : Nat, k ∉ specKindNames.map Prod.fst → Kind.string k = .error .panic)
      ∧ (∀ (t : Token) (plus : Bool) (c : Int),
          (t.Format plus c = .error .panic
            ↔ t.Kind ≠ KindLiteral ∧ t.Kind ∉ specKindNames.map Prod.fst)
          ∧ ((∃ text, t.Format plus c = .ok text)
            ↔ t.Kind = KindLiteral ∨ t.Kind ∈ specKindNames.map Prod.fst))
      ∧ (∀ (l : Literal) (plus : Bool) (c : Int), ∃ text, l.Format plus c = .ok text)
      ∧ Token.Format ⟨kindNone, 0, ⟨0, 0, 0⟩⟩ false 118 = .error .panic
      ∧ Token.Format ⟨255, 1, ⟨0, 0, 0⟩⟩ false 118 = .error .panic
      ∧ (∀ (U : UnicodeTables) (s : GoString), ∃ tokens, tokensOf U s = .ok tokens
        ∧ ∀ token ∈ tokens, ∀ (plus : Bool) (c : Int), ∃ text, token.Format plus c = .ok text)
      ∧ Token.Format ⟨KindUnquoteSplicing, 2, ⟨0, 0, 0⟩⟩ true 118
        = .ok "token.Token\x7bKind:unquote-splicing Len:2\x7d"
      ∧ Token.Format ⟨KindLineComment, 4, ⟨0, 0, 0⟩⟩ false 115 = .ok "\x7bline-comment 4\x7d"
      ∧ Token.Format ⟨KindLiteral, 12, ⟨LiteralKindInteger, BaseHexadecimal, 1⟩⟩ true 118
        = .ok "token.Token\x7bKind:token.Literal\x7btoken.Integer\x7bBase:16 EmptyInt:true\x7d\x7d Len:12\x7d"
      ∧ Token.Format ⟨KindLiteral, 11, ⟨LiteralKindFloat, 0, 0⟩⟩ false 118
        = .ok "\x7b\x7btoken.Float\x7bfalse\x7d\x7d 11\x7d"
      ∧ Token.Format ⟨KindLiteral, 2, ⟨LiteralKindCharacter, 0, 0⟩⟩ false 115
        = .ok "\x7btoken.Literal 2\x7d" := by
  refine ⟨Kind_string_named, rfl, by decide, by decide, by decide, Kind_string_unnamed, ?_,
    Literal_Format_returns, by decide, by decide, ?_, by decide, by decide, by decide,
    by decide, by decide⟩
  · intro t plus c
    by_cases hl : t.Kind = KindLiteral
    · obtain ⟨text, ht⟩ := Token_Format_literal t plus c hl
      refine ⟨⟨fun h => ?_, fun h => absurd hl h.1⟩, ⟨fun _ => Or.inl hl, fun _ => ⟨text, ht⟩⟩⟩
      rw [ht] at h
      cases h
    · obtain ⟨hok, herr⟩ := Token_Format_other t plus c hl
      obtain ⟨hret, hpanic⟩ := Kind_string_returns_iff t.Kind
      by_cases hk : t.Kind ∈ specKindNames.map Prod.fst
      · obtain ⟨name, hn⟩ := hret.mpr hk
        obtain ⟨text, ht⟩ := hok name hn
        refine ⟨⟨fun h => ?_, fun h => absurd hk h.2⟩, ⟨fun _ => Or.inr hk, fun _ => ⟨text, ht⟩⟩⟩
        rw [ht] at h
        cases h
      · have hp := herr _ (hpanic.mpr hk)
        refine ⟨⟨fun _ => ⟨hl, hk⟩, fun _ => hp⟩, ⟨fun h => ?_, fun h => ?_⟩⟩
        · obtain ⟨text, ht⟩ := h
          rw [hp] at ht
          cases ht
        · rcases h with h | h
          · exact absurd h hl
          · exact absurd h hk
  · intro U s
    obtain ⟨tokens, htok, hsc⟩ := tokensOf_scanned U s
    refine ⟨tokens, htok, fun token hmem plus c => ?_⟩
    rcases publicKinds_named _ (scanned_public _ (hsc token hmem)) with hl | hk
    · exact Token_Format_literal token plus c hl
    · have hne : token.Kind ≠ KindLiteral := by
        intro hl
        have hk2 : KindLiteral ∈ specKindNames.map Prod.fst := hl ▸ hk
        exact absurd hk2 (by decide)
      obtain ⟨name, hn⟩ := (Kind_string_returns_iff token.Kind).1.mpr hk
      exact (Token_Format_other token plus c hne).1 name hn

/-- C26 (as amended): for every input that is `+` or `-` followed by one or more
ASCII decimal digits, and for every such input followed by `.` and one or more
further digits, `Tokenize` delivers exactly one token, a Symbol, and so no
Literal: the sign starts a symbol and digits and `.` continue it.  The token
takes the whole input; its length is the input's byte length modulo `2^32`,
hence the input's byte length whenever that is below `2^32`.  `-5`, `+1.5`, `.5`
and `_1` are single Symbol tokens, while `5` and `1.5` without a sign are
Literals. -/
theorem sign_never_starts_number (U : UnicodeTables) :
    (∀ (sign : Byte) (ds : GoString), sign = 43 ∨ sign = 45 → ds ≠ [] →
        (∀ b ∈ ds, 48 ≤ b.val ∧ b.val ≤ 57) →
        tokensOf U (sign :: ds)
            = .ok [⟨KindSymbol, (sign :: ds).length % 4294967296, ⟨0, 0, 0⟩⟩]
          ∧ ((sign :: ds).length < 4294967296 →
            tokensOf U (sign :: ds) = .ok [⟨KindSymbol, (sign :: ds).length, ⟨0, 0, 0⟩⟩])
          ∧ ∀ fs : GoString, fs ≠ [] → (∀ b ∈ fs, 48 ≤ b.val ∧ b.val ≤ 57) →
            tokensOf U (sign :: (ds ++ 46 :: fs))
                = .ok [⟨KindSymbol, (sign :: (ds ++ 46 :: fs)).length % 4294967296, ⟨0, 0, 0⟩⟩]
              ∧ ((sign :: (ds ++ 46 :: fs)).length < 4294967296 →
                tokensOf U (sign :: (ds ++ 46 :: fs))
                  = .ok [⟨KindSymbol, (sign :: (ds ++ 46 :: fs)).length, ⟨0, 0, 0⟩⟩]))
      ∧ tokensOf U (ascii "-5") = .ok [⟨KindSymbol, 2, ⟨0, 0, 0⟩⟩]
      ∧ tokensOf U (ascii "+1.5") = .ok [⟨KindSymbol, 4, ⟨0, 0, 0⟩⟩]
      ∧ tokensOf U (ascii ".5") = .ok [⟨KindSymbol, 2, ⟨0, 0, 0⟩⟩]
      ∧ tokensOf U (ascii "_1") = .ok [⟨KindSymbol, 2, ⟨0, 0, 0⟩⟩]
      ∧ tokensOf U (ascii "5") = .ok [⟨KindLiteral, 1, ⟨LiteralKindInteger, BaseDecimal, 0⟩⟩]
      ∧ tokensOf U (ascii "1.5") = .ok [⟨KindLiteral, 3, ⟨LiteralKindFloat, 0, 0⟩⟩] := by
  refine ⟨fun sign ds hsign hne hds => ?_, ?_, ?_, ?_, ?_, ?_, ?_⟩
  · have hb : sign.val < 128 := by
      rcases hsign with h | h <;> subst h <;> decide
    have hw : isWhitespace (sign.val : Int) = false := by
      rcases hsign with h | h <;> subst h <;> decide
    have hstart : isSymbolStart latin1Tables (sign.val : Int) = true := by
      rcases hsign with h | h <;> subst h <;> decide
    have h1 := tokensOf_ascii_symbol U sign ds hb hw hstart
      (fun x hx => digit_or_dot_continues x (Or.inl (hds x hx)))
    refine ⟨h1, fun hlt => ?_, fun fs _ hfs => ?_⟩
    · rw [h1, Nat.mod_eq_of_lt hlt]
    · have h2 := tokensOf_ascii_symbol U sign (ds ++ 46 :: fs) hb hw hstart
        (by
          intro x hx
          rcases List.mem_append.mp hx with h | h
          · exact digit_or_dot_continues x (Or.inl (hds x h))
          · rcases List.mem_cons.mp h with h | h
            · exact digit_or_dot_continues x (Or.inr h)
            · exact digit_or_dot_continues x (Or.inl (hfs x h)))
      refine ⟨h2, fun hlt => ?_⟩
      rw [h2, Nat.mod_eq_of_lt hlt]
  · rw [tokensOf_ascii U _ (by decide)]
    decide
  · rw [tokensOf_ascii U _ (by decide)]
    decide
  · rw [tokensOf_ascii U _ (by decide)]
    decide
  · rw [tokensOf_ascii U _ (by decide)]
    decide
  · rw [tokensOf_ascii U _ (by decide)]
    decide
  · rw [tokensOf_ascii U _ (by decide)]
    decide

/-- C26, witness: the input `-12`, and `-12.5` after it. -/
theorem sign_never_starts_number_witness :
    tokensOf latin1Tables (45 :: [49, 50])
        = .ok [⟨KindSymbol, (45 :: ([49, 50] : GoString)).length % 4294967296, ⟨0, 0, 0⟩⟩]
      ∧ ((45 :: ([49, 50] : GoString)).length < 4294967296 →
        tokensOf latin1Tables (45 :: [49, 50])
          = .ok [⟨KindSymbol, (45 :: ([49, 50] : GoString)).length, ⟨0, 0, 0⟩⟩])
      ∧ ∀ fs : GoString, fs ≠ [] → (∀ b ∈ fs, 48 ≤ b.val ∧ b.val ≤ 57) →
        tokensOf latin1Tables (45 :: ([49, 50] ++ 46 :: fs))
            = .ok [⟨KindSymbol, (45 :: (([49, 50] : GoString) ++ 46 :: fs)).length % 4294967296,
              ⟨0, 0, 0⟩⟩]
          ∧ ((45 :: (([49, 50] : GoString) ++ 46 :: fs)).length < 4294967296 →
            tokensOf latin1Tables (45 :: ([49, 50] ++ 46 :: fs))
              = .ok [⟨KindSymbol, (45 :: (([49, 50] : GoString) ++ 46 :: fs)).length,
                ⟨0, 0, 0⟩⟩]) :=
  (sign_never_starts_number latin1Tables).1 45 [49, 50] (Or.inr rfl) (by decide) (by decide)

/-- C26, counterexample: the input of `-` and `2^32 - 1` digits `5` is a sign
followed by one or more ASCII decimal digits and has `2^32` bytes; `Tokenize`
delivers one Symbol for it, whose length is 0, not the `2^32` bytes of the whole
input. -/
theorem sign_symbol_length_wraps :
    List.replicate 4294967295 (53 : Byte) ≠ []
      ∧ (∀ b ∈ List.replicate 4294967295 (53 : Byte), 48 ≤ b.val ∧ b.val ≤ 57)
      ∧ (45 :: List.replicate 4294967295 (53 : Byte)).length = 4294967296
      ∧ ∃ token : Token,
        (∀ U, tokensOf U (45 :: List.replicate 4294967295 53) = .ok [token])
          ∧ token.Kind = KindSymbol
          ∧ token.Len ≠ (45 :: List.replicate 4294967295 (53 : Byte)).length := by
  have hlen : (45 :: List.replicate 4294967295 (53 : Byte)).length = 4294967296 := by
    rw [List.length_cons, List.length_replicate]
  refine ⟨fun h => ?_, fun b hb => ?_, hlen,
    ⟨KindSymbol, 0, ⟨0, 0, 0⟩⟩, fun U => tokensOf_minus_fives U 4294967295, rfl, ?_⟩
  · have := congrArg List.length h
    rw [List.length_replicate] at this
    exact absurd this (by decide)
  · rw [List.eq_of_mem_replicate hb]
    decide
  · rw [hlen]
    decide

/-- C27 (as amended): for every input that is valid UTF-8, the encoding of the
codepoints `cs`, the first token takes the encoding of whole codepoints: the `k`
bytes it consumes are the encoding of a prefix `cs1` of `cs`, `k` is the sum of
the UTF-8 widths of `cs1`, and what is left is the encoding of the other
codepoints, so the same holds of every token in turn.  The token's length is `k`
modulo `2^32`, hence `k` when the token is shorter than `2^32` bytes.  So the
slices of the input cut at the running sums of the bytes the tokens consumed,
which are the running sums of the token lengths when the input is shorter than
`2^32` bytes, make up the input, never split a codepoint, and each is itself
valid UTF-8 and not empty.  The letter U+00E9, a space and the euro sign are
tokens of 2, 1 and 3 bytes. -/
theorem tokens_end_on_codepoint_boundaries (U : UnicodeTables) :
    (∀ (s : GoString) (cs : List Int), s ≠ [] → Encodes cs s →
        ∃ token k rest cs1 cs2,
          tokenizer.Advance U ⟨s, 0⟩ = .ok (token, ⟨s.drop k, 0⟩)
            ∧ 1 ≤ k ∧ k ≤ s.length
            ∧ cs = cs1 ++ cs2 ∧ Encodes cs1 (s.take k) ∧ Encodes cs2 (s.drop k)
            ∧ k = (cs1.map specUTF8Width).sum
            ∧ token.Len = k % 4294967296 ∧ (k < 4294967296 → token.Len = k)
            ∧ tokensOf U s = .ok (token :: rest) ∧ tokensOf U (s.drop k) = .ok rest)
      ∧ (∀ s : GoString, ValidUTF8 s →
        ∃ tokens ks, tokensOf U s = .ok tokens
          ∧ List.Forall₂ (fun (token : Token) (k : Nat) => token.Len = k % 4294967296) tokens ks
          ∧ (sliceAt s ks).flatten = s
          ∧ (∀ piece ∈ sliceAt s ks, piece ≠ [] ∧ ValidUTF8 piece)
          ∧ (s.length < 4294967296 → tokens.map Token.Len = ks))
      ∧ tokensOf latin1Tables [0xC3, 0xA9, 0x20, 0xE2, 0x82, 0xAC]
        = .ok [⟨KindSymbol, 2, ⟨0, 0, 0⟩⟩, ⟨KindWhitespace, 1, ⟨0, 0, 0⟩⟩,
          ⟨KindInvalid, 3, ⟨0, 0, 0⟩⟩] := by
  refine ⟨fun s cs hne henc => ?_, fun s hv => ?_, by decide⟩
  · obtain ⟨token, k, hadv, hk1, hk2, hlen, hsc⟩ := advance_spec U s hne
    obtain ⟨rest, hrest, hall⟩ := tokensOf_after U s token _ hne hadv
    obtain ⟨cs1, cs2, hcs, h1, h2⟩ := Encodes.split (advance_boundary U s token k hadv hk2) cs henc
    have hl := h1.byte_length
    rw [List.length_take, Nat.min_eq_left hk2] at hl
    exact ⟨token, k, rest, cs1, cs2, hadv, hk1, hk2, hcs, h1, h2, hl, hlen,
      fun hlt => by show token.len = k; rw [hlen, Nat.mod_eq_of_lt hlt], hall, hrest⟩
  · obtain ⟨cs, henc⟩ := hv
    obtain ⟨tokens, htok, hP⟩ := tokensOf_induction U
      (fun s tokens => ∀ cs, Encodes cs s →
        ∃ ks, List.Forall₂ (fun (token : Token) (k : Nat) => token.Len = k % 4294967296)
            tokens ks
          ∧ ks.sum = s.length
          ∧ (∀ piece ∈ sliceAt s ks, piece ≠ [] ∧ ValidUTF8 piece)
          ∧ (s.length < 4294967296 → tokens.map Token.Len = ks))
      (fun _ _ => ⟨[], List.Forall₂.nil, rfl, fun _ h => absurd h (List.not_mem_nil _),
        fun _ => rfl⟩)
      (by
        intro s token k rest hne hadv hk1 hk2 hlen _ _ _ ih cs henc
        obtain ⟨cs1, cs2, _, h1, h2⟩ :=
          Encodes.split (advance_boundary U s token k hadv hk2) cs henc
        obtain ⟨ks, hf, hsum, hpieces, hshort⟩ := ih cs2 h2
        have hl : (s.drop k).length = s.length - k := List.length_drop _ _
        refine ⟨k :: ks, List.Forall₂.cons hlen hf, ?_, ?_, ?_⟩
        · rw [List.sum_cons, hsum, hl]
          omega
        · intro piece hp
          rcases List.mem_cons.mp hp with h | h
          · rw [h]
            refine ⟨fun h0 => ?_, ⟨cs1, h1⟩⟩
            have := congrArg List.length h0
            rw [List.length_take] at this
            have hpos : 0 < s.length := List.length_pos.mpr hne
            simp only [List.length_nil] at this
            omega
          · exact hpieces piece h
        · intro hs
          rw [List.map_cons, hshort (by omega)]
          have : token.Len = k := by
            show token.len = k
            rw [hlen, Nat.mod_eq_of_lt (by omega)]
          rw [this]) s
    obtain ⟨ks, hf, hsum, hpieces, hshort⟩ := hP cs henc
    exact ⟨tokens, ks, htok, hf, sliceAt_sum ks s hsum, hpieces, hshort⟩

/-- C27, witness: the input of the letter U+00E9 and a space, three bytes. -/
theorem tokens_end_on_codepoint_boundaries_witness :
    ∃ tokens ks, tokensOf latin1Tables [0xC3, 0xA9, 0x20] = .ok tokens
      ∧ List.Forall₂ (fun (token : Token) (k : Nat) => token.Len = k % 4294967296) tokens ks
      ∧ (sliceAt [0xC3, 0xA9, 0x20] ks).flatten = [0xC3, 0xA9, 0x20]
      ∧ (∀ piece ∈ sliceAt [0xC3, 0xA9, 0x20] ks, piece ≠ [] ∧ ValidUTF8 piece)
      ∧ (([0xC3, 0xA9, 0x20] : GoString).length < 4294967296 → tokens.map Token.Len = ks) :=
  (tokens_end_on_codepoint_boundaries latin1Tables).2.1 [0xC3, 0xA9, 0x20]
    ⟨[0xE9, 0x20],
      Encodes.cons _ _ _ (by decide) (by decide) (by decide)
        (Encodes.cons _ _ _ (by decide) (by decide) (by decide) Encodes.nil)⟩

/-- C27, counterexample: the input of `2^31` letters U+00E9 (two bytes each) and
a space is valid UTF-8; `Tokenize` delivers a Symbol of length 0 and a
Whitespace of length 1 for it.  The running sums of the token lengths are 0 and
1, and the slice from 0 to 1 is the byte `C3`, the first half of the first
letter, which is not valid UTF-8; and the length of the Symbol is not the sum of
the widths of the `2^31` codepoints it consumed. -/
theorem token_lengths_split_codepoint :
    ValidUTF8 (0xC3 :: 0xA9 :: accentRun 2147483647 [32])
      ∧ DecodeRuneInString (0xC3 :: 0xA9 :: accentRun 2147483647 [32]) = (0xE9, 2)
      ∧ ∃ tokens,
        (∀ U, tokensOf U (0xC3 :: 0xA9 :: accentRun 2147483647 [32]) = .ok tokens)
          ∧ tokens.map Token.Len = [0, 1]
          ∧ sliceAt (0xC3 :: 0xA9 :: accentRun 2147483647 [32]) (tokens.map Token.Len)
            = [[], [0xC3]]
          ∧ ¬ValidUTF8 [0xC3] := by
  refine ⟨⟨_, Encodes.of_accent_run (2147483647 + 1) [32] [32]
      (Encodes.cons _ _ _ (by decide) (by decide) (by decide) Encodes.nil)⟩,
    decode_accent _,
    [⟨KindSymbol, 0, ⟨0, 0, 0⟩⟩, ⟨KindWhitespace, 1, ⟨0, 0, 0⟩⟩],
    fun U => tokensOf_accents U 2147483647, rfl, rfl, ?_⟩
  rintro ⟨cs, h⟩
  cases h with
  | cons c cs s hne hwf hc h => exact hwf (by decide)

end token
